import Mathlib

/-!
# The Sv39 page-table engine of the xv6 teaching kernel

A shallow embedding of `kernel/vm.c` together with the page-table macros of
`kernel/riscv.h`.

* Physical memory is a function from byte addresses to bytes.  A page-table
  entry (`pte_t`, a `uint64`) is read and written as eight little-endian bytes.
* `uint64` values are natural numbers; wrap-around is written `% U64` where the
  C arithmetic can overflow.
* A pointer is its address; the null pointer is the address `0`, exactly as the
  C code tests it (`pte == 0`, `mem == 0`).
* `panic` never returns: a function that can panic yields `Res.panic` carrying
  the message and the machine state at the moment of the panic.
* Loops that C writes as `for`/`while` are recursive functions with a fuel
  argument; the top-level functions supply a fuel that is never exhausted
  (every loop iteration advances a page-aligned address that `walk` rejects at
  `MAXVA`).  Running out of fuel is reported as `Res.panic "fuel"`, which no
  source panic uses.
-/

namespace Vm

set_option linter.unusedVariables false

/-! ## kernel/riscv.h -/

/-- Number of values of a `uint64`. -/
def U64 : Nat := 2 ^ 64

/-- Macro `#define PGSIZE 4096` -/
def PGSIZE : Nat := 4096

/-- Macro `#define PTESIZE 8` -/
def PTESIZE : Nat := 8

/-- Macro `#define PTENUMPERPAGE (PGSIZE/PTESIZE)` -/
def PTENUMPERPAGE : Nat := PGSIZE / PTESIZE

/-- Macro `#define PGSHIFT 12` -/
def PGSHIFT : Nat := 12

/-- The `uint64` value of `~(PGSIZE-1)`. -/
def PGMASK : Nat := U64 - 1 - (PGSIZE - 1)

/-- Macro `#define PGROUNDUP(sz)  (((sz)+PGSIZE-1) & ~(PGSIZE-1))` on `uint64`. -/
def PGROUNDUP (sz : Nat) : Nat := ((sz + PGSIZE - 1) % U64) &&& PGMASK

/-- Macro `#define PGROUNDDOWN(a) (((a)) & ~(PGSIZE-1))` -/
def PGROUNDDOWN (a : Nat) : Nat := a &&& PGMASK

/-- Macro `#define PTE_V (1L << 0)` -/
def PTE_V : Nat := 1 <<< 0

/-- Macro `#define PTE_R (1L << 1)` -/
def PTE_R : Nat := 1 <<< 1

/-- Macro `#define PTE_W (1L << 2)` -/
def PTE_W : Nat := 1 <<< 2

/-- Macro `#define PTE_X (1L << 3)` -/
def PTE_X : Nat := 1 <<< 3

/-- Macro `#define PTE_U (1L << 4)` -/
def PTE_U : Nat := 1 <<< 4

/-- Macro `#define PA2PTE(pa) ((((uint64)pa) >> 12) << 10)` -/
def PA2PTE (pa : Nat) : Nat := ((pa >>> 12) <<< 10) % U64

/-- Macro `#define PTE2PA(pte) (((pte) >> 10) << 12)` -/
def PTE2PA (pte : Nat) : Nat := ((pte >>> 10) <<< 12) % U64

/-- Macro `#define PTE_FLAGS(pte) ((pte) & 0x3FF)` -/
def PTE_FLAGS (pte : Nat) : Nat := pte &&& 0x3FF

/-- Macro `#define PXMASK 0x1FF` -/
def PXMASK : Nat := 0x1FF

/-- Macro `#define PXSHIFT(level) (PGSHIFT+(9*(level)))` -/
def PXSHIFT (level : Nat) : Nat := PGSHIFT + 9 * level

/-- Macro `#define PX(level, va) ((((uint64) (va)) >> PXSHIFT(level)) & PXMASK)` -/
def PX (level va : Nat) : Nat := (va >>> PXSHIFT level) &&& PXMASK

/-- Macro `#define MAXVA (1L << (9 + 9 + 9 + 12 - 1))` -/
def MAXVA : Nat := 1 <<< (9 + 9 + 9 + 12 - 1)

/-- Conversion of a C `int` to `uint64` (sign extension). -/
def ofInt (i : Int) : Nat := (i % (2 : Int) ^ 64).toNat

/-- Conversion of a `uint64` to a C `int` (the low 32 bits, two's complement). -/
def toInt32 (x : Nat) : Int :=
  if x % 2 ^ 32 < 2 ^ 31 then ((x % 2 ^ 32 : Nat) : Int) else ((x % 2 ^ 32 : Nat) : Int) - 2 ^ 32

/-! ## Physical memory and the machine state -/

/-- Physical memory: the byte stored at each address. -/
abbrev Mem := Nat → Nat

/-- Load of a `uint64` (little endian, as on RISC-V). -/
def read64 (m : Mem) (a : Nat) : Nat :=
  m a % 256 + 256 * (m (a + 1) % 256 + 256 * (m (a + 2) % 256 + 256 * (m (a + 3) % 256
    + 256 * (m (a + 4) % 256 + 256 * (m (a + 5) % 256 + 256 * (m (a + 6) % 256
    + 256 * (m (a + 7) % 256)))))))

/-- Store of a `uint64` (little endian). -/
def write64 (m : Mem) (a v : Nat) : Mem :=
  fun x => if a ≤ x ∧ x < a + 8 then v / 256 ^ (x - a) % 256 else m x

/-- Modelled from the spec: the raw memory fill primitive (`memset` of
`string.c`, which is not among the sources): `n` bytes from `p` become `c`. -/
def memset (m : Mem) (p c n : Nat) : Mem :=
  fun x => if p ≤ x ∧ x < p + n then c % 256 else m x

/-- The machine state the page-table code works on: physical memory and the
free list of the frame allocator. -/
structure State where
  /-- Physical memory. -/
  mem : Mem
  /-- Frames held by the allocator, next one to hand out first. -/
  free : List Nat

/-- Outcome of a kernel function: a value and the state after it, or a panic
and the state in which it was raised. -/
inductive Res (α : Type) where
  | ok (val : α) (s : State)
  | panic (msg : String) (s : State)

/-- Value of a result, when it is not a panic. -/
def Res.val {α : Type} : Res α → Option α
  | .ok v _ => some v
  | .panic _ _ => none

/-- The panic message of a result, when it is a panic. -/
def Res.msg {α : Type} : Res α → Option String
  | .ok _ _ => none
  | .panic m _ => some m

/-- The state in which a function returned or panicked. -/
def Res.state {α : Type} : Res α → State
  | .ok _ s => s
  | .panic _ s => s

/-- Modelled from the spec: the frame allocator's `allocateFrame() -> frame |
none` (`kalloc` of `kalloc.c`, which is not among the sources).  Hands out the
first frame of the free list; returns the null address when the list is empty. -/
def kalloc (s : State) : Nat × State :=
  match s.free with
  | [] => (0, s)
  | f :: rest => (f, { s with free := rest })

/-- Modelled from the spec: the frame allocator's `releaseFrame(frame)`
(`kfree` of `kalloc.c`, which is not among the sources).  The frame goes back
to the front of the free list. -/
def kfree (pa : Nat) (s : State) : State :=
  { s with free := pa :: s.free }

/-! ## kernel/vm.c -/

/-- The loop of `walk`, from `level` down to 1, then the address of the
level-0 entry.  Returns the null address when a level is missing and either
`alloc` is 0 or `kalloc` fails. -/
def walkLoop (va : Nat) (alloc : Int) : Nat → Nat → State → Nat × State
  | 0, pagetable, s => (pagetable + 8 * PX 0 va, s)
  | level + 1, pagetable, s =>
    let pte := pagetable + 8 * PX (level + 1) va
    if read64 s.mem pte &&& PTE_V ≠ 0 then
      walkLoop va alloc level (PTE2PA (read64 s.mem pte)) s
    else if alloc = 0 then (0, s)
    else
      let r := kalloc s
      if r.1 = 0 then (0, r.2)
      else
        let s2 : State := { r.2 with mem := memset r.2.mem r.1 0 PGSIZE }
        let s3 : State := { s2 with mem := write64 s2.mem pte (PA2PTE r.1 ||| PTE_V) }
        walkLoop va alloc level r.1 s3

/-- Function `pte_t * walk(pagetable_t pagetable, uint64 va, int alloc)` -/
def walk (pagetable va : Nat) (alloc : Int) (s : State) : Res Nat :=
  if va ≥ MAXVA then .panic "walk" s
  else .ok (walkLoop va alloc 2 pagetable s).1 (walkLoop va alloc 2 pagetable s).2

/-- Function `uint64 walkaddr(pagetable_t pagetable, uint64 va)` -/
def walkaddr (pagetable va : Nat) (s : State) : Res Nat :=
  if va ≥ MAXVA then .ok 0 s
  else
    match walk pagetable va 0 s with
    | .panic msg s1 => .panic msg s1
    | .ok pte s1 =>
      if pte = 0 then .ok 0 s1
      else if read64 s1.mem pte &&& PTE_V = 0 then .ok 0 s1
      else if read64 s1.mem pte &&& PTE_U = 0 then .ok 0 s1
      else .ok (PTE2PA (read64 s1.mem pte)) s1

/-- The `for(;;)` loop of `mappages`. -/
def mappagesLoop (pagetable last : Nat) (perm : Int) : Nat → Nat → Nat → State → Res Int
  | 0, _, _, s => .panic "fuel" s
  | fuel + 1, a, pa, s =>
    match walk pagetable a 1 s with
    | .panic msg s1 => .panic msg s1
    | .ok pte s1 =>
      if pte = 0 then .ok (-1) s1
      else if read64 s1.mem pte &&& PTE_V ≠ 0 then .panic "remap" s1
      else
        let s2 : State := { s1 with mem := write64 s1.mem pte (PA2PTE pa ||| ofInt perm ||| PTE_V) }
        if a = last then .ok 0 s2
        else mappagesLoop pagetable last perm fuel ((a + PGSIZE) % U64) ((pa + PGSIZE) % U64) s2

/-- Function `int mappages(pagetable_t pagetable, uint64 va, uint64 size, uint64 pa, int perm)` -/
def mappages (pagetable va size pa : Nat) (perm : Int) (s : State) : Res Int :=
  mappagesLoop pagetable (PGROUNDDOWN ((va + size + (U64 - 1)) % U64)) perm
    (MAXVA / PGSIZE + 1) (PGROUNDDOWN va) pa s

/-- The `for` loop of `uvmunmap`; `bound` is `va + npages*PGSIZE`. -/
def uvmunmapLoop (pagetable bound : Nat) (do_free : Int) : Nat → Nat → State → Res Unit
  | 0, _, s => .panic "fuel" s
  | fuel + 1, a, s =>
    if a < bound then
      match walk pagetable a 0 s with
      | .panic msg s1 => .panic msg s1
      | .ok pte s1 =>
        if pte = 0 then .panic "uvmunmap: walk" s1
        else if read64 s1.mem pte &&& PTE_V = 0 then .panic "uvmunmap: not mapped" s1
        else if PTE_FLAGS (read64 s1.mem pte) = PTE_V then .panic "uvmunmap: not a leaf" s1
        else
          let s2 : State := if do_free ≠ 0 then kfree (PTE2PA (read64 s1.mem pte)) s1 else s1
          let s3 : State := { s2 with mem := write64 s2.mem pte 0 }
          uvmunmapLoop pagetable bound do_free fuel ((a + PGSIZE) % U64) s3
    else .ok () s

/-- Function `void uvmunmap(pagetable_t pagetable, uint64 va, uint64 npages, int do_free)` -/
def uvmunmap (pagetable va npages : Nat) (do_free : Int) (s : State) : Res Unit :=
  if va % PGSIZE ≠ 0 then .panic "uvmunmap: not aligned" s
  else uvmunmapLoop pagetable ((va + npages * PGSIZE) % U64) do_free (MAXVA / PGSIZE + 2) va s

/-- Function `uint64 uvmdealloc(pagetable_t pagetable, uint64 oldsz, uint64 newsz)`;
`npages` is a C `int`, converted back to `uint64` at the call of `uvmunmap`. -/
def uvmdealloc (pagetable oldsz newsz : Nat) (s : State) : Res Nat :=
  if newsz ≥ oldsz then .ok oldsz s
  else if PGROUNDUP newsz < PGROUNDUP oldsz then
    let npages : Int := toInt32 ((PGROUNDUP oldsz - PGROUNDUP newsz) / PGSIZE)
    match uvmunmap pagetable (PGROUNDUP newsz) (ofInt npages) 1 s with
    | .panic msg s1 => .panic msg s1
    | .ok _ s1 => .ok newsz s1
  else .ok newsz s

/-- The `for` loop of `uvmalloc`; `oldsz` is already rounded up. -/
def uvmallocLoop (pagetable oldsz newsz : Nat) : Nat → Nat → State → Res Nat
  | 0, _, s => .panic "fuel" s
  | fuel + 1, a, s =>
    if a < newsz then
      let r := kalloc s
      if r.1 = 0 then
        match uvmdealloc pagetable a oldsz r.2 with
        | .panic msg s1 => .panic msg s1
        | .ok _ s1 => .ok 0 s1
      else
        let s2 : State := { r.2 with mem := memset r.2.mem r.1 0 PGSIZE }
        match mappages pagetable a PGSIZE r.1 ((PTE_W ||| PTE_X ||| PTE_R ||| PTE_U : Nat) : Int) s2 with
        | .panic msg s3 => .panic msg s3
        | .ok e s3 =>
          if e ≠ 0 then
            match uvmdealloc pagetable a oldsz (kfree r.1 s3) with
            | .panic msg s4 => .panic msg s4
            | .ok _ s4 => .ok 0 s4
          else uvmallocLoop pagetable oldsz newsz fuel ((a + PGSIZE) % U64) s3
    else .ok newsz s

/-- Function `uint64 uvmalloc(pagetable_t pagetable, uint64 oldsz, uint64 newsz)` -/
def uvmalloc (pagetable oldsz newsz : Nat) (s : State) : Res Nat :=
  if newsz < oldsz then .ok oldsz s
  else uvmallocLoop pagetable (PGROUNDUP oldsz) newsz (MAXVA / PGSIZE + 2) (PGROUNDUP oldsz) s

/-! ## Views of a page table -/

/-- Entry `i` of the page-table page at address `t` (`t[i]` in C). -/
def ent (m : Mem) (t i : Nat) : Nat := read64 m (t + 8 * i)

/-- The level-1 table `walk` reaches for `va`: the frame named by the level-2
entry. -/
def l1table (m : Mem) (root va : Nat) : Nat := PTE2PA (ent m root (PX 2 va))

/-- The level-0 table `walk` reaches for `va`: the frame named by the level-1
entry. -/
def l0table (m : Mem) (root va : Nat) : Nat := PTE2PA (ent m (l1table m root va) (PX 1 va))

/-- The address of the level-0 entry for `va`, `&pagetable[PX(0, va)]`. -/
def l0slot (m : Mem) (root va : Nat) : Nat := l0table m root va + 8 * PX 0 va

/-- The page reached from the table at `t` by following the valid entries at
the given indices, highest level first; `none` when an entry is not valid. -/
def pathTo (m : Mem) : Nat → List Nat → Option Nat
  | t, [] => some t
  | t, i :: q => if ent m t i &&& PTE_V ≠ 0 then pathTo m (PTE2PA (ent m t i)) q else none

/-- The indices `walk` follows from a table of the given level down to the
level-0 table: `PX(level, va)`, ..., `PX(1, va)`. -/
def idxs (va : Nat) : Nat → List Nat
  | 0 => []
  | level + 1 => PX (level + 1) va :: idxs va level

/-- The address of the level-0 entry for `va`, or the null address when the
level-0 table is missing. -/
def slotOf (m : Mem) (root va : Nat) : Nat :=
  match pathTo m root [PX 2 va, PX 1 va] with
  | some t0 => t0 + 8 * PX 0 va
  | none => 0

/-- The level-0 entry for `va`, or 0 when the level-0 table is missing. -/
def pteOf (m : Mem) (root va : Nat) : Nat :=
  match pathTo m root [PX 2 va, PX 1 va] with
  | some t0 => ent m t0 (PX 0 va)
  | none => 0

/-- Number of page-table pages missing on the way to the level-0 entry of
`va`, starting at the table `t` of the given level. -/
def missing (m : Mem) (va : Nat) : Nat → Nat → Nat
  | 0, _ => 0
  | level + 1, t =>
    if ent m t (PX (level + 1) va) &&& PTE_V ≠ 0 then
      missing m va level (PTE2PA (ent m t (PX (level + 1) va)))
    else level + 1

/-- The entry `mappages` stores for physical address `pa` and permissions
`perm`: `PA2PTE(pa) | perm | PTE_V`. -/
def leafPte (pa : Nat) (perm : Int) : Nat := PA2PTE pa ||| ofInt perm ||| PTE_V

/-- The permissions `uvmalloc` passes to `mappages`:
`PTE_W|PTE_X|PTE_R|PTE_U`, as a C `int`. -/
def uperm : Int := ((PTE_W ||| PTE_X ||| PTE_R ||| PTE_U : Nat) : Int)

/-- The frames named by the level-0 entries of `n` consecutive pages from `a`,
lowest page first. -/
def leafFrames (m : Mem) (root : Nat) : Nat → Nat → List Nat
  | _, 0 => []
  | a, n + 1 => PTE2PA (pteOf m root a) :: leafFrames m root (a + 4096) n

/-- The frames `uvmunmap` hands to `kfree` for `n` pages from `a`, most
recently freed first; none when `do_free` is 0. -/
def freed (do_free : Int) (m : Mem) (root a n : Nat) : List Nat :=
  if do_free ≠ 0 then (leafFrames m root a n).reverse else []

/-! ## Well-formed page tables and allocators -/

/-- Index lists that lead to a page-table page of a three-level tree: at most
two indices (to a level-1 or a level-0 table), each below 512. -/
def ValidPath (q : List Nat) : Prop := q.length ≤ 2 ∧ ∀ i ∈ q, i < 512

/-- The page at `t` is a page-table page of the tree rooted at `root`. -/
def TablePage (m : Mem) (root t : Nat) : Prop :=
  ∃ q, ValidPath q ∧ pathTo m root q = some t

/-- A well-formed page table: the root is a page-aligned frame, the page-table
pages form a tree (every one is reached by exactly one index path), and none
sits at the null address. -/
structure WF (m : Mem) (root : Nat) : Prop where
  aligned : root % 4096 = 0
  inj : ∀ q q' t, ValidPath q → ValidPath q' →
    pathTo m root q = some t → pathTo m root q' = some t → q = q'
  nonnull : ∀ t, TablePage m root t → t ≠ 0

/-- A well-behaved allocator: the frames of the free list are pairwise distinct
page-aligned non-null `uint64` addresses, and none is in use as a page-table
page of the tree rooted at `root`. -/
structure Fresh (m : Mem) (root : Nat) (fl : List Nat) : Prop where
  nodup : fl.Nodup
  frame : ∀ f ∈ fl, f % 4096 = 0 ∧ f ≠ 0 ∧ f < 2 ^ 64
  sep : ∀ f ∈ fl, ¬ TablePage m root f

/-! ## Relations between states -/

/-- Memory `m'` is `m` after a zero-filled frame `f` was linked as a new table
at entry `i` of table `cur`: seen entry by entry and byte by byte. -/
structure Linked (m m' : Mem) (cur i f : Nat) : Prop where
  link : ent m' cur i = PA2PTE f ||| PTE_V
  zero : ∀ j, j < 512 → ent m' f j = 0
  keep : ∀ t j, t % 4096 = 0 → j < 512 → t ≠ f → (t ≠ cur ∨ j ≠ i) → ent m' t j = ent m t j
  bytes : ∀ x, (x < f ∨ f + 4096 ≤ x) → (x < cur + 8 * i ∨ cur + 8 * i + 8 ≤ x) → m' x = m x
  fzero : ∀ x, f ≤ x → x < f + 4096 → m' x = 0

/-- Memory `m'` is `m` after entry `k` of table `t` was overwritten by `v`. -/
structure Stored (m m' : Mem) (t k v : Nat) : Prop where
  val : ent m' t k = v
  keep : ∀ t' j, t' % 4096 = 0 → j < 512 → (t' ≠ t ∨ j ≠ k) → ent m' t' j = ent m t' j
  bytes : ∀ x, (x < t ∨ t + 4096 ≤ x) → m' x = m x

/-- What a stretch of page-table code may have done between states `s` and
`s'`: it took the frames `used` from the front of the free list, kept every
existing page-table page in place, made new page-table pages only out of
`used`, and wrote only into page-table pages and into `used`. -/
structure Step (root : Nat) (s s' : State) (used : List Nat) : Prop where
  free : s.free = used ++ s'.free
  old : ∀ q t, ValidPath q → pathTo s.mem root q = some t → pathTo s'.mem root q = some t
  fresh : ∀ q t, ValidPath q → pathTo s'.mem root q = some t →
    pathTo s.mem root q = some t ∨ t ∈ used
  bytes : ∀ x, (∀ t, TablePage s.mem root t → x < t ∨ t + 4096 ≤ x) →
    (∀ f, f ∈ used → x < f ∨ f + 4096 ≤ x) → s'.mem x = s.mem x

/-- The level-0 entries after `j` consecutive pages from `a` were mapped to
the physical addresses from `pa` on: those `j` entries are the stored ones,
every other one is as in `s`. -/
def Installed (root : Nat) (perm : Int) (a pa j : Nat) (s s' : State) : Prop :=
  ∀ b, b % 4096 = 0 → b < 2 ^ 39 →
    pteOf s'.mem root b =
      if a ≤ b ∧ b < a + j * 4096 then leafPte ((pa + (b - a)) % U64) perm
      else pteOf s.mem root b

/-- Page `a` passes the checks of `uvmunmap`: `walk` does not panic
(`a < MAXVA`), the level-0 entry exists (`walk` does not return 0), it is
valid, and its flag bits are not exactly `PTE_V`. -/
def Unmappable (m : Mem) (root a : Nat) : Prop :=
  a < MAXVA ∧ slotOf m root a ≠ 0 ∧ pteOf m root a &&& PTE_V ≠ 0 ∧
    PTE_FLAGS (pteOf m root a) ≠ PTE_V

instance (m : Mem) (root a : Nat) : Decidable (Unmappable m root a) := by
  unfold Unmappable
  infer_instance

/-- State `s'` is `s` after the level-0 entries of the pages in `[a, bound)`
were cleared: the tree is unchanged and still well formed, those entries are
0, every other level-0 entry is as before, and only page-table pages were
written. -/
structure Unmapped (root a bound : Nat) (s s' : State) : Prop where
  wf : WF s'.mem root
  path : ∀ q, ValidPath q → pathTo s'.mem root q = pathTo s.mem root q
  pte : ∀ b, b % 4096 = 0 → b < 2 ^ 39 →
    pteOf s'.mem root b = if a ≤ b ∧ b < bound then 0 else pteOf s.mem root b
  bytes : ∀ x, (∀ t, TablePage s.mem root t → x < t ∨ t + 4096 ≤ x) → s'.mem x = s.mem x

/-- Mapping `k` consecutive pages one call at a time, lowest address first:
`mappages(pt, a, PGSIZE, pa, perm)`, then the same for `a + PGSIZE` and
`pa + PGSIZE`, and so on, stopping at the first call that does not return 0. -/
def mapEach (root : Nat) (perm : Int) : Nat → Nat → Nat → State → Res Int
  | 0, _, _, s => .ok 0 s
  | k + 1, a, pa, s =>
    match mappages root a PGSIZE pa perm s with
    | .ok e s1 =>
      if e = 0 then mapEach root perm k ((a + PGSIZE) % U64) ((pa + PGSIZE) % U64) s1
      else .ok e s1
    | .panic msg s1 => .panic msg s1

/-! ## The words of the claims that fail -/

/-- What claim C2 says `walkaddr` returns: the physical address of the level-0
entry when `va < MAXVA`, the level-2 and level-1 entries are valid and the
level-0 entry is valid, a leaf (one of `PTE_R`, `PTE_W`, `PTE_X` set) and has
`PTE_U`; 0 in every other case. -/
def walkaddrClaimed (root va : Nat) (s : State) : Nat :=
  if va < MAXVA ∧ ent s.mem root (PX 2 va) &&& PTE_V ≠ 0 ∧
      ent s.mem (l1table s.mem root va) (PX 1 va) &&& PTE_V ≠ 0 ∧
      read64 s.mem (l0slot s.mem root va) &&& PTE_V ≠ 0 ∧
      read64 s.mem (l0slot s.mem root va) &&& (PTE_R ||| PTE_W ||| PTE_X) ≠ 0 ∧
      read64 s.mem (l0slot s.mem root va) &&& PTE_U ≠ 0
  then PTE2PA (read64 s.mem (l0slot s.mem root va)) else 0

/-- What claim C6 requires of a page for `uvmunmap` not to panic: the level-0
entry exists, is valid, and is a leaf in the glossary's sense, with at least one
of `PTE_R`, `PTE_W`, `PTE_X` set. -/
def UnmappableClaimed (m : Mem) (root a : Nat) : Prop :=
  a < MAXVA ∧ slotOf m root a ≠ 0 ∧ pteOf m root a &&& PTE_V ≠ 0 ∧
    pteOf m root a &&& (PTE_R ||| PTE_W ||| PTE_X) ≠ 0

instance (m : Mem) (root a : Nat) : Decidable (UnmappableClaimed m root a) := by
  unfold UnmappableClaimed
  infer_instance

/-! ## Concrete machine states -/

/-- Memory that holds zero everywhere. -/
def zeroMem : Mem := fun _ => 0

/-- An empty root table at `0x1000` and an allocator holding five frames. -/
def st0 : State := ⟨zeroMem, [0x2000, 0x3000, 0x4000, 0x5000, 0x6000]⟩

/-- Load of a byte (`char`). -/
def read8 (m : Mem) (a : Nat) : Nat := m a % 256

/-- Store of a byte. -/
def write8 (m : Mem) (a v : Nat) : Mem :=
  fun x => if x = a then v % 256 else m x

/-- Modelled from the spec: the raw memory copy primitive ("bulk byte copy
between two memory regions"; `memmove` of `string.c`, which is not among the
sources): the `n` bytes from `dst` on become the `n` bytes that were stored
from `src` on; the two regions may overlap. -/
def memmove (m : Mem) (dst src n : Nat) : Mem :=
  fun x => if dst ≤ x ∧ x < dst + n then m (src + (x - dst)) % 256 else m x

/-- Function `void uvmclear(pagetable_t pagetable, uint64 va)`; `~PTE_U` is the
`uint64` with every bit but bit 4 set. -/
def uvmclear (pagetable va : Nat) (s : State) : Res Unit :=
  match walk pagetable va 0 s with
  | .panic msg s1 => .panic msg s1
  | .ok pte s1 =>
    if pte = 0 then .panic "uvmclear" s1
    else .ok () { s1 with mem := write64 s1.mem pte (read64 s1.mem pte &&& (U64 - 1 - PTE_U)) }

/-- The `for` loop of `freewalk` over the entries `i, i+1, ...` of `pagetable`,
`n` of them; `self` is the recursive call `freewalk`. -/
def freewalkLoop (self : Nat → State → Res Unit) (pagetable : Nat) :
    Nat → Nat → State → Res Unit
  | 0, _, s => .ok () s
  | n + 1, i, s =>
    if read64 s.mem (pagetable + 8 * i) &&& PTE_V ≠ 0 ∧
        read64 s.mem (pagetable + 8 * i) &&& (PTE_R ||| PTE_W ||| PTE_X) = 0 then
      match self (PTE2PA (read64 s.mem (pagetable + 8 * i))) s with
      | .panic msg s1 => .panic msg s1
      | .ok _ s1 =>
        freewalkLoop self pagetable n (i + 1)
          { s1 with mem := write64 s1.mem (pagetable + 8 * i) 0 }
    else if read64 s.mem (pagetable + 8 * i) &&& PTE_V ≠ 0 then .panic "freewalk: leaf" s
    else freewalkLoop self pagetable n (i + 1) s

/-- Function `void freewalk(pagetable_t pagetable)`.  The C function calls
itself without a bound; `depth` is the number of nested calls available, and
running out of them is reported as `Res.panic "fuel"`. -/
def freewalk : Nat → Nat → State → Res Unit
  | 0, _, s => .panic "fuel" s
  | depth + 1, pagetable, s =>
    match freewalkLoop (freewalk depth) pagetable 512 0 s with
    | .panic msg s1 => .panic msg s1
    | .ok _ s1 => .ok () (kfree pagetable s1)

/-- Function `void uvmfree(pagetable_t pagetable, uint64 sz)`; `depth` is the
nesting available to `freewalk`. -/
def uvmfree (depth pagetable sz : Nat) (s : State) : Res Unit :=
  if sz > 0 then
    match uvmunmap pagetable 0 (PGROUNDUP sz / PGSIZE) 1 s with
    | .panic msg s1 => .panic msg s1
    | .ok _ s1 => freewalk depth pagetable s1
  else freewalk depth pagetable s

/-- The `while(len > 0)` loop of `copyout`. -/
def copyoutLoop (pagetable : Nat) : Nat → Nat → Nat → Nat → State → Res Int
  | 0, _, _, _, s => .panic "fuel" s
  | fuel + 1, dstva, src, len, s =>
    if len > 0 then
      let va0 := PGROUNDDOWN dstva
      match walkaddr pagetable va0 s with
      | .panic msg s1 => .panic msg s1
      | .ok pa0 s1 =>
        if pa0 = 0 then .ok (-1) s1
        else
          let n := if PGSIZE - (dstva - va0) > len then len else PGSIZE - (dstva - va0)
          let s2 : State :=
            { s1 with mem := memmove s1.mem ((pa0 + (dstva - va0)) % U64) src n }
          copyoutLoop pagetable fuel ((va0 + PGSIZE) % U64) (src + n) (len - n) s2
    else .ok 0 s

/-- Function `int copyout(pagetable_t pagetable, uint64 dstva, char *src, uint64 len)` -/
def copyout (pagetable dstva src len : Nat) (s : State) : Res Int :=
  copyoutLoop pagetable (MAXVA / PGSIZE + 2) dstva src len s

/-- The `while(len > 0)` loop of `copyin`. -/
def copyinLoop (pagetable : Nat) : Nat → Nat → Nat → Nat → State → Res Int
  | 0, _, _, _, s => .panic "fuel" s
  | fuel + 1, dst, srcva, len, s =>
    if len > 0 then
      let va0 := PGROUNDDOWN srcva
      match walkaddr pagetable va0 s with
      | .panic msg s1 => .panic msg s1
      | .ok pa0 s1 =>
        if pa0 = 0 then .ok (-1) s1
        else
          let n := if PGSIZE - (srcva - va0) > len then len else PGSIZE - (srcva - va0)
          let s2 : State :=
            { s1 with mem := memmove s1.mem dst ((pa0 + (srcva - va0)) % U64) n }
          copyinLoop pagetable fuel (dst + n) ((va0 + PGSIZE) % U64) (len - n) s2
    else .ok 0 s

/-- Function `int copyin(pagetable_t pagetable, char *dst, uint64 srcva, uint64 len)` -/
def copyin (pagetable dst srcva len : Nat) (s : State) : Res Int :=
  copyinLoop pagetable (MAXVA / PGSIZE + 2) dst srcva len s

/-- The inner `while(n > 0)` loop of `copyinstr`, from the source pointer `p`:
returns `got_null`, `max`, `dst` and the state when the loop is left. -/
def copyinstrBytes : Nat → Nat → Nat → Nat → State → Int × Nat × Nat × State
  | 0, _, dst, max, s => (0, max, dst, s)
  | n + 1, p, dst, max, s =>
    if read8 s.mem p = 0 then (1, max, dst, { s with mem := write8 s.mem dst 0 })
    else
      copyinstrBytes n (p + 1) (dst + 1) (max - 1)
        { s with mem := write8 s.mem dst (read8 s.mem p) }

/-- The outer `while(got_null == 0 && max > 0)` loop of `copyinstr`, with the
`return` that follows it. -/
def copyinstrLoop (pagetable : Nat) : Nat → Int → Nat → Nat → Nat → State → Res Int
  | 0, _, _, _, _, s => .panic "fuel" s
  | fuel + 1, got_null, dst, srcva, max, s =>
    if got_null = 0 ∧ max > 0 then
      let va0 := PGROUNDDOWN srcva
      match walkaddr pagetable va0 s with
      | .panic msg s1 => .panic msg s1
      | .ok pa0 s1 =>
        if pa0 = 0 then .ok (-1) s1
        else
          let n := if PGSIZE - (srcva - va0) > max then max else PGSIZE - (srcva - va0)
          let r := copyinstrBytes n ((pa0 + (srcva - va0)) % U64) dst max s1
          copyinstrLoop pagetable fuel r.1 r.2.2.1 ((va0 + PGSIZE) % U64) r.2.1 r.2.2.2
    else if got_null ≠ 0 then .ok 0 s
    else .ok (-1) s

/-- Function `int copyinstr(pagetable_t pagetable, char *dst, uint64 srcva, uint64 max)` -/
def copyinstr (pagetable dst srcva max : Nat) (s : State) : Res Int :=
  copyinstrLoop pagetable (MAXVA / PGSIZE + 2) 0 dst srcva max s

/-- The value `walkaddr` returns: the physical address of the page of `va`, or
0. -/
def walkaddrVal (pagetable va : Nat) (s : State) : Nat :=
  match walkaddr pagetable va s with
  | .ok pa _ => pa
  | .panic _ _ => 0

/-- The physical address of the user byte at virtual address `va`:
`walkaddr(pt, PGROUNDDOWN(va)) + va mod 4096`. -/
def userByte (pagetable va : Nat) (s : State) : Nat :=
  walkaddrVal pagetable (PGROUNDDOWN va) s + va % PGSIZE

/-- The lists `f c` of the tables `c` named by the valid entries `i, i+1, ...`
(`n` of them) of the table `t`, in index order. -/
def subFrames (m : Mem) (f : Nat → List Nat) (t : Nat) : Nat → Nat → List Nat
  | 0, _ => []
  | n + 1, i =>
    (if ent m t i &&& PTE_V ≠ 0 then f (PTE2PA (ent m t i)) else []) ++
      subFrames m f t n (i + 1)

/-- The page-table pages of the subtree below the table `t` of the given
level, each subtree before the table it hangs from: the order in which
`freewalk` hands them to `kfree`. -/
def tableFrames (m : Mem) : Nat → Nat → List Nat
  | 0, t => [t]
  | level + 1, t => subFrames m (tableFrames m level) t 512 0 ++ [t]

/-- In the list `l`, `c` comes before `t`. -/
def Before (c t : Nat) (l : List Nat) : Prop :=
  ∃ l1 l2 l3, l = l1 ++ c :: (l2 ++ t :: l3)

/-- The valid entries of the level-2 and level-1 tables are internal entries:
none of `PTE_R`, `PTE_W`, `PTE_X` is set. -/
def Internal (m : Mem) (root : Nat) : Prop :=
  ∀ q t j, q.length ≤ 1 → ValidPath q → pathTo m root q = some t → j < 512 →
    ent m t j &&& PTE_V ≠ 0 → ent m t j &&& (PTE_R ||| PTE_W ||| PTE_X) = 0

/-- What `freewalk` relies on, entry by entry, in a tree without leaves: the
valid entries of the root and of the level-1 tables are internal, the level-0
tables have no valid entry, and the tables are pairwise distinct pages. -/
structure Teardown (m : Mem) (root : Nat) : Prop where
  aligned : root % 4096 = 0
  l2 : ∀ j, j < 512 → ent m root j &&& PTE_V ≠ 0 →
    ent m root j &&& (PTE_R ||| PTE_W ||| PTE_X) = 0 ∧ PTE2PA (ent m root j) ≠ root
  l1 : ∀ j k, j < 512 → k < 512 → ent m root j &&& PTE_V ≠ 0 →
    ent m (PTE2PA (ent m root j)) k &&& PTE_V ≠ 0 →
    ent m (PTE2PA (ent m root j)) k &&& (PTE_R ||| PTE_W ||| PTE_X) = 0 ∧
      PTE2PA (ent m (PTE2PA (ent m root j)) k) ≠ PTE2PA (ent m root j) ∧
      PTE2PA (ent m (PTE2PA (ent m root j)) k) ≠ root ∧
      ∀ l, l < 512 → ent m (PTE2PA (ent m (PTE2PA (ent m root j)) k)) l &&& PTE_V = 0
  sep : ∀ j j', j < 512 → j' < 512 → j ≠ j' → ent m root j &&& PTE_V ≠ 0 →
    ent m root j' &&& PTE_V ≠ 0 →
    PTE2PA (ent m root j) ≠ PTE2PA (ent m root j') ∧
      ∀ k, k < 512 → ent m (PTE2PA (ent m root j')) k &&& PTE_V ≠ 0 →
        PTE2PA (ent m (PTE2PA (ent m root j')) k) ≠ PTE2PA (ent m root j)

/-- The entries of the level-2 and level-1 tables are the same in `m'` as in
`m`. -/
def UpperSame (root : Nat) (m m' : Mem) : Prop :=
  ∀ q t j, q.length ≤ 1 → ValidPath q → pathTo m root q = some t → j < 512 →
    ent m' t j = ent m t j

/-- Memory `m'` holds the same bytes as `m` in every page-table page of the
tree rooted at `root`. -/
def SameTables (m m' : Mem) (root : Nat) : Prop :=
  ∀ t, TablePage m root t → ∀ x, t ≤ x → x < t + 4096 → m' x = m x

/-- A user address space of two pages, grown from the empty table of `st0`: page
0 is backed by the frame `0x2000`, page 1 by `0x5000`; the level-1 table is at
`0x3000`, the level-0 table at `0x4000`, and the frame `0x6000` is still free. -/
def st2 : State := (uvmalloc 0x1000 0 (2 * PGSIZE) st0).state

/-- The address space `st2` with a kernel buffer at `0x7000` that holds the ten
bytes "abcdefghij". -/
def st3 : State :=
  { st2 with mem := fun x => if 0x7000 ≤ x ∧ x < 0x700a then 0x61 + (x - 0x7000) else st2.mem x }

/-- The address space `st2` whose user page 0 (the frame `0x2000`) starts with
the nine bytes "hi", 0, "xxxxxx". -/
def st4 : State :=
  { st2 with mem := fun x =>
      if x = 0x2000 then 0x68 else if x = 0x2001 then 0x69
      else if 0x2003 ≤ x ∧ x < 0x2009 then 0x78 else st2.mem x }

/-- What page-table code that only allocates page-table pages keeps true
between the states `s` and `s'`: valid level-2 and level-1 entries stay
internal, and every frame it took from the allocator is a page-table page of
the tree. -/
structure Grown (root : Nat) (s s' : State) : Prop where
  internal : Internal s.mem root → Internal s'.mem root
  linked : ∀ u, u ∈ s.free → u ∈ s'.free ∨ TablePage s'.mem root u

/-- A user address space of two pages whose frames are `0x8000` and `0x9000`,
mapped into the empty table of `st0`; the level-1 table is at `0x2000` and the
level-0 table at `0x3000`. -/
def st5 : State := (mappages 0x1000 0 (2 * PGSIZE) 0x8000 uperm st0).state

/-- The `for` loop of `uvmcopy`; the label `err` is inlined at its two
`goto`s.  `flags` is a C `uint`, passed on as the `int perm` of `mappages`. -/
def uvmcopyLoop (old new sz : Nat) : Nat → Nat → State → Res Int
  | 0, _, s => .panic "fuel" s
  | fuel + 1, i, s =>
    if i < sz then
      match walk old i 0 s with
      | .panic msg s1 => .panic msg s1
      | .ok pte s1 =>
        if pte = 0 then .panic "uvmcopy: pte should exist" s1
        else if read64 s1.mem pte &&& PTE_V = 0 then .panic "uvmcopy: page not present" s1
        else
          let pa := PTE2PA (read64 s1.mem pte)
          let flags := PTE_FLAGS (read64 s1.mem pte) % 2 ^ 32
          let r := kalloc s1
          if r.1 = 0 then
            match uvmunmap new 0 (i / PGSIZE) 1 r.2 with
            | .panic msg s2 => .panic msg s2
            | .ok _ s2 => .ok (-1) s2
          else
            let s2 : State := { r.2 with mem := memmove r.2.mem r.1 pa PGSIZE }
            match mappages new i PGSIZE r.1 ((flags : Nat) : Int) s2 with
            | .panic msg s3 => .panic msg s3
            | .ok e s3 =>
              if e ≠ 0 then
                match uvmunmap new 0 (i / PGSIZE) 1 (kfree r.1 s3) with
                | .panic msg s4 => .panic msg s4
                | .ok _ s4 => .ok (-1) s4
              else uvmcopyLoop old new sz fuel ((i + PGSIZE) % U64) s3
    else .ok 0 s

/-- Function `int uvmcopy(pagetable_t old, pagetable_t new, uint64 sz)` -/
def uvmcopy (old new sz : Nat) (s : State) : Res Int :=
  uvmcopyLoop old new sz (MAXVA / PGSIZE + 2) 0 s

/-- The frame that the level-0 entry of page `b` names. -/
def frameOf (m : Mem) (root b : Nat) : Nat := PTE2PA (pteOf m root b)

/-- The bytes of a source address space of `sz` bytes: those of its page-table
pages and those of the frames of its pages. -/
def SrcByte (m : Mem) (old sz x : Nat) : Prop :=
  (∃ t, TablePage m old t ∧ t ≤ x ∧ x < t + 4096) ∨
    (∃ b, b % 4096 = 0 ∧ b < sz ∧ frameOf m old b ≤ x ∧ x < frameOf m old b + 4096)

/-- The frame `f` is neither a page-table page of the source address space nor
the frame of one of its pages. -/
def NotSrc (m : Mem) (old sz f : Nat) : Prop :=
  ¬ TablePage m old f ∧ ∀ b, b % 4096 = 0 → b < sz → f ≠ frameOf m old b

/-- What the loop of `uvmcopy` has done between the state `s`, at page `i`, and
the state `sM`: the pages from `i` on are mapped in the destination, lowest
first, to the distinct frames `ds` with the flags of the source entries, each
frame holding a copy of its source page; the source is as in `m0`; the frames
taken from the allocator are `used`, each of them a data frame of `ds`, the
frame `pending` that `mappages` could not install, or a page-table page of the
destination. -/
structure Copied (old new sz : Nat) (m0 : Mem) (i : Nat) (s sM : State)
    (ds used pending : List Nat) : Prop where
  wf : WF sM.mem new
  fr : Fresh sM.mem new sM.free
  step : Step new s sM used
  src : ∀ x, SrcByte m0 old sz x → sM.mem x = m0 x
  inside : ∀ j, j < ds.length → i + j * 4096 < sz
  pte : ∀ j, j < ds.length → pteOf sM.mem new (i + j * 4096) =
    leafPte (ds.getD j 0) ((PTE_FLAGS (pteOf m0 old (i + j * 4096)) : Nat) : Int)
  out : ∀ b, b % 4096 = 0 → b < 2 ^ 39 → (b < i ∨ i + ds.length * 4096 ≤ b) →
    pteOf sM.mem new b = pteOf s.mem new b
  nodup : ds.Nodup
  frames : ∀ d, d ∈ ds → d ∈ used ∧ d % 4096 = 0 ∧ d < 2 ^ 64 ∧ ¬ TablePage sM.mem new d
  data : ∀ j, j < ds.length → ∀ k, k < 4096 →
    sM.mem (ds.getD j 0 + k) = read8 m0 (frameOf m0 old (i + j * 4096) + k)
  pend : pending = [] ∨ ∃ d, pending = [d] ∧ d ∈ used ∧ d ∉ ds ∧ ¬ TablePage sM.mem new d
  owned : ∀ u, u ∈ used → u ∈ ds ∨ u ∈ pending ∨ TablePage sM.mem new u

/-- The address space of `st5` built with an allocator of six frames, so that
four frames are still free: `0x4000`, `0x5000`, `0x6000` and `0x7000`. -/
def st6 : State :=
  (mappages 0x1000 0 (2 * PGSIZE) 0x8000 uperm
    ⟨zeroMem, [0x2000, 0x3000, 0x4000, 0x5000, 0x6000, 0x7000]⟩).state

/-! ## The kernel address spaces -/

/-- The constants of `memlayout.h` and the linker symbols `etext` and
`trampoline` that `kvminit` and `kvmcreate` refer to.  Neither the header nor
the linker script is among the sources, so the functions take them as a
parameter. -/
structure Layout where
  /-- Physical address of the UART registers. -/
  UART0 : Nat
  /-- Physical address of the virtio disk interface. -/
  VIRTIO0 : Nat
  /-- Physical address of the core-local interruptor. -/
  CLINT : Nat
  /-- Physical address of the platform-level interrupt controller. -/
  PLIC : Nat
  /-- First address of the kernel text. -/
  KERNBASE : Nat
  /-- End of the physical memory the kernel uses. -/
  PHYSTOP : Nat
  /-- Virtual address of the trampoline page. -/
  TRAMPOLINE : Nat
  /-- End of the kernel text (linker symbol). -/
  etext : Nat
  /-- Physical address of the trampoline code (linker symbol). -/
  trampoline : Nat

/-- Sequencing of two kernel functions: a panic of the first ends the run. -/
def Res.bind {α β : Type} (r : Res α) (f : α → State → Res β) : Res β :=
  match r with
  | .ok v s => f v s
  | .panic msg s => .panic msg s

/-- Function `void kvmmap(uint64 va, uint64 pa, uint64 sz, int perm)`; the
global variable `kernel_pagetable` it reads is the first argument. -/
def kvmmap (kernel_pagetable va pa sz : Nat) (perm : Int) (s : State) : Res Unit :=
  match mappages kernel_pagetable va sz pa perm s with
  | .panic msg s1 => .panic msg s1
  | .ok e s1 => if e ≠ 0 then .panic "kvmmap" s1 else .ok () s1

/-- Function `void kvminit()`; the value it assigns to the global variable
`kernel_pagetable` is the result. -/
def kvminit (L : Layout) (s : State) : Res Nat :=
  let r := kalloc s
  let s1 : State := { r.2 with mem := memset r.2.mem r.1 0 PGSIZE }
  (kvmmap r.1 L.UART0 L.UART0 PGSIZE ((PTE_R ||| PTE_W : Nat) : Int) s1).bind fun _ s2 =>
  (kvmmap r.1 L.VIRTIO0 L.VIRTIO0 PGSIZE ((PTE_R ||| PTE_W : Nat) : Int) s2).bind fun _ s3 =>
  (kvmmap r.1 L.CLINT L.CLINT 0x10000 ((PTE_R ||| PTE_W : Nat) : Int) s3).bind fun _ s4 =>
  (kvmmap r.1 L.PLIC L.PLIC 0x400000 ((PTE_R ||| PTE_W : Nat) : Int) s4).bind fun _ s5 =>
  (kvmmap r.1 L.KERNBASE L.KERNBASE ((L.etext + U64 - L.KERNBASE) % U64)
    ((PTE_R ||| PTE_X : Nat) : Int) s5).bind fun _ s6 =>
  (kvmmap r.1 L.etext L.etext ((L.PHYSTOP + U64 - L.etext) % U64)
    ((PTE_R ||| PTE_W : Nat) : Int) s6).bind fun _ s7 =>
  (kvmmap r.1 L.TRAMPOLINE L.trampoline PGSIZE ((PTE_R ||| PTE_X : Nat) : Int) s7).bind
    fun _ s8 => .ok r.1 s8

/-- Function `pagetable_t uvmcreate()` -/
def uvmcreate (s : State) : Nat × State :=
  let r := kalloc s
  if r.1 = 0 then (0, r.2)
  else (r.1, { r.2 with mem := memset r.2.mem r.1 0 PGSIZE })

/-- Function `void kvmmapProcKernelPagetable(pagetable_t pagetable, uint64 va,
uint64 pa, uint64 sz, int perm)` -/
def kvmmapProcKernelPagetable (pagetable va pa sz : Nat) (perm : Int) (s : State) : Res Unit :=
  match mappages pagetable va sz pa perm s with
  | .panic msg s1 => .panic msg s1
  | .ok e s1 => if e ≠ 0 then .panic "kvmmapProcKernelPagetable" s1 else .ok () s1

/-- The loop `for(i = 1; i < PTENUMPERPAGE; i++) pagetable[i] = kernel_pagetable[i];`
of `kvmcreate`, with `n` iterations left at index `i`. -/
def kvmcreateLoop (pagetable kernel_pagetable : Nat) : Nat → Nat → Mem → Mem
  | 0, _, m => m
  | n + 1, i, m =>
    kvmcreateLoop pagetable kernel_pagetable n (i + 1)
      (write64 m (pagetable + 8 * i) (read64 m (kernel_pagetable + 8 * i)))

/-- Function `pagetable_t kvmcreate()`; the global variable `kernel_pagetable`
it reads is the second argument. -/
def kvmcreate (L : Layout) (kernel_pagetable : Nat) (s : State) : Res Nat :=
  let r := uvmcreate s
  let s1 : State :=
    { r.2 with mem := kvmcreateLoop r.1 kernel_pagetable (PTENUMPERPAGE - 1) 1 r.2.mem }
  (kvmmapProcKernelPagetable r.1 L.UART0 L.UART0 PGSIZE
    ((PTE_R ||| PTE_W : Nat) : Int) s1).bind fun _ s2 =>
  (kvmmapProcKernelPagetable r.1 L.VIRTIO0 L.VIRTIO0 PGSIZE
    ((PTE_R ||| PTE_W : Nat) : Int) s2).bind fun _ s3 =>
  (kvmmapProcKernelPagetable r.1 L.CLINT L.CLINT 0x10000
    ((PTE_R ||| PTE_W : Nat) : Int) s3).bind fun _ s4 =>
  (kvmmapProcKernelPagetable r.1 L.PLIC L.PLIC 0x400000
    ((PTE_R ||| PTE_W : Nat) : Int) s4).bind fun _ s5 =>
  .ok r.1 s5

/-- An upper bound on the page-table pages `mappages` allocates for the range
`[va, va + size)`: a level-0 table, and at worst a level-1 table with it, for
each 2 MB region the range touches. -/
def tablesFor (va size : Nat) : Nat := 2 * ((va + size - 1) / 2 ^ 21 - va / 2 ^ 21 + 1)

/-- What `kvmcreate` relies on in the layout: the four device regions are
page-aligned, lie below 2^30, so that their root-table index is 0, and do not
overlap. -/
def DevicesLow (L : Layout) : Prop :=
  L.UART0 % 4096 = 0 ∧ L.VIRTIO0 % 4096 = 0 ∧ L.CLINT % 4096 = 0 ∧ L.PLIC % 4096 = 0 ∧
    L.CLINT + 0x10000 ≤ L.PLIC ∧ L.PLIC + 0x400000 ≤ L.UART0 ∧
    L.UART0 + 4096 ≤ L.VIRTIO0 ∧ L.VIRTIO0 + 4096 ≤ 2 ^ 30

instance (L : Layout) : Decidable (DevicesLow L) := by
  unfold DevicesLow
  infer_instance

/-- What `kvminit` relies on in the layout, beyond the devices: the kernel text
`[KERNBASE, etext)`, the kernel data and RAM `[etext, PHYSTOP)` and the
trampoline page follow the devices, page-aligned and in this order, the
trampoline page being the last page below `MAXVA`. -/
def KernelHigh (L : Layout) : Prop :=
  L.KERNBASE % 4096 = 0 ∧ L.etext % 4096 = 0 ∧ L.PHYSTOP % 4096 = 0 ∧
    L.trampoline % 4096 = 0 ∧ L.trampoline < 2 ^ 56 ∧
    2 ^ 30 ≤ L.KERNBASE ∧ L.KERNBASE < L.etext ∧ L.etext < L.PHYSTOP ∧
    L.PHYSTOP ≤ L.TRAMPOLINE ∧ L.TRAMPOLINE = MAXVA - PGSIZE

instance (L : Layout) : Decidable (KernelHigh L) := by
  unfold KernelHigh
  infer_instance

/-- The addresses of the four device regions that `kvminit` and `kvmcreate`
map. -/
def DeviceAddr (L : Layout) (b : Nat) : Prop :=
  (L.UART0 ≤ b ∧ b < L.UART0 + 4096) ∨ (L.VIRTIO0 ≤ b ∧ b < L.VIRTIO0 + 4096) ∨
    (L.CLINT ≤ b ∧ b < L.CLINT + 0x10000) ∨ (L.PLIC ≤ b ∧ b < L.PLIC + 0x400000)

instance (L : Layout) (b : Nat) : Decidable (DeviceAddr L b) := by
  unfold DeviceAddr
  infer_instance

/-- The frames a run of `kvminit` may take from the allocator: the root and the
page-table pages of the seven regions. -/
def kvminitFrames (L : Layout) : Nat :=
  1 + tablesFor L.UART0 4096 + tablesFor L.VIRTIO0 4096 + tablesFor L.CLINT 0x10000 +
    tablesFor L.PLIC 0x400000 + tablesFor L.KERNBASE (L.etext - L.KERNBASE) +
    tablesFor L.etext (L.PHYSTOP - L.etext) + tablesFor L.TRAMPOLINE 4096

/-- The frames a run of `kvmcreate` may take from the allocator: the root and
the page-table pages of the four device regions. -/
def kvmcreateFrames (L : Layout) : Nat :=
  1 + tablesFor L.UART0 4096 + tablesFor L.VIRTIO0 4096 + tablesFor L.CLINT 0x10000 +
    tablesFor L.PLIC 0x400000

/-- The table rooted at `root` in state `s'` as `kvmcreate` builds it from the
global kernel table rooted at `kpt` in state `s`: a well-formed tree of its
own; the global table is byte for byte as it was; the root entries 1 to 511 are
those of the global root; and the root and the page-table pages under root
entry 0 were taken from the allocator. -/
structure Shares (kpt root : Nat) (s s' : State) : Prop where
  wf : WF s'.mem root
  fr : Fresh s'.mem root s'.free
  sub : ∃ used, s.free = used ++ s'.free ∧ root ∈ used
  same : ∀ t, TablePage s.mem kpt t → ∀ x, t ≤ x → x < t + 4096 → s'.mem x = s.mem x
  high : ∀ i, 1 ≤ i → i < 512 → ent s'.mem root i = ent s.mem kpt i
  low : ∀ q t, ValidPath (0 :: q) → pathTo s'.mem root (0 :: q) = some t →
    t ∈ s.free ∧ t ∉ s'.free

/-- A non-creating walk of the table `root` for `va` finds the level-0 entry
`e`: `walk(root, va, 0)` returns, in the unchanged state, a non-null pointer to
an entry that holds `e`. -/
def WalkFinds (root va e : Nat) (s : State) : Prop :=
  ∃ slot, walk root va 0 s = .ok slot s ∧ slot ≠ 0 ∧ read64 s.mem slot = e

/-- The memory layout of the qemu `virt` machine that xv6 is written for:
devices below `0x40000000`, RAM from `0x80000000` with 128 MB in use, the
trampoline page at the top of the address space; the kernel text is taken to
be eight pages, the last of them holding the trampoline code. -/
def qemu : Layout :=
  { UART0 := 0x10000000, VIRTIO0 := 0x10001000, CLINT := 0x2000000, PLIC := 0x0c000000,
    KERNBASE := 0x80000000, PHYSTOP := 0x80000000 + 128 * 1024 * 1024,
    TRAMPOLINE := MAXVA - PGSIZE, etext := 0x80008000, trampoline := 0x80007000 }

/-- The frames `base`, `base + 4096`, ...: `n` of them. -/
def frames : Nat → Nat → List Nat
  | _, 0 => []
  | base, n + 1 => base :: frames (base + 4096) n

/-- The machine before `kvminit`: zero-filled memory, and an allocator holding
160 frames of RAM from `0x80100000` on. -/
def kst0 : State := ⟨zeroMem, frames 0x80100000 160⟩

/-- The machine after `kvminit`, run on `kst0` with the layout `qemu`. -/
@[irreducible]
def kst1 : State := (kvminit qemu kst0).state

/-! ## Loading the first process and tearing tables down -/

/-- Function `void uvminit(pagetable_t pagetable, uchar *src, uint sz)`; neither
the result of `kalloc` nor that of `mappages` is tested. -/
def uvminit (pagetable src sz : Nat) (s : State) : Res Unit :=
  if sz ≥ PGSIZE then .panic "inituvm: more than a page" s
  else
    let r := kalloc s
    let s1 : State := { r.2 with mem := memset r.2.mem r.1 0 PGSIZE }
    match mappages pagetable 0 PGSIZE r.1 ((PTE_W ||| PTE_R ||| PTE_X ||| PTE_U : Nat) : Int) s1 with
    | .panic msg s2 => .panic msg s2
    | .ok _ s2 => .ok () { s2 with mem := memmove s2.mem r.1 src sz }

/-- The inner loop of `freewalkWithoutPhysicalMemory` over the entries
`i, i+1, ...` of the level-1 table, `n` of them: every valid entry is taken for
a level-0 table and handed to `kfree`. -/
def freewalkL1Loop (pagetable_L1 : Nat) : Nat → Nat → State → State
  | 0, _, s => s
  | n + 1, i, s =>
    freewalkL1Loop pagetable_L1 n (i + 1)
      (if read64 s.mem (pagetable_L1 + 8 * i) &&& PTE_V ≠ 0 then
        kfree (PTE2PA (read64 s.mem (pagetable_L1 + 8 * i))) s
      else s)

/-- The outer loop of `freewalkWithoutPhysicalMemory` over the entries
`i, i+1, ...` of the root, `n` of them. -/
def freewalkL2Loop (pagetable_L2 : Nat) : Nat → Nat → State → State
  | 0, _, s => s
  | n + 1, i, s =>
    freewalkL2Loop pagetable_L2 n (i + 1)
      (if read64 s.mem (pagetable_L2 + 8 * i) &&& PTE_V ≠ 0 then
        kfree (PTE2PA (read64 s.mem (pagetable_L2 + 8 * i)))
          (freewalkL1Loop (PTE2PA (read64 s.mem (pagetable_L2 + 8 * i))) PTENUMPERPAGE 0 s)
      else s)

/-- Function `void freewalkWithoutPhysicalMemory(pagetable_t pagetable_L2)` -/
def freewalkWithoutPhysicalMemory (pagetable_L2 : Nat) (s : State) : State :=
  kfree pagetable_L2 (freewalkL2Loop pagetable_L2 PTENUMPERPAGE 0 s)

/-- The entry is a leaf: valid, with one of `PTE_R`, `PTE_W`, `PTE_X` set. -/
def IsLeaf (e : Nat) : Prop := e &&& PTE_V ≠ 0 ∧ e &&& (PTE_R ||| PTE_W ||| PTE_X) ≠ 0

instance (e : Nat) : Decidable (IsLeaf e) := by
  unfold IsLeaf
  infer_instance

/-- The entry is internal: valid, with none of `PTE_R`, `PTE_W`, `PTE_X` set;
this is the test by which `freewalk` takes an entry for a pointer to a table. -/
def IsInternal (e : Nat) : Prop := e &&& PTE_V ≠ 0 ∧ e &&& (PTE_R ||| PTE_W ||| PTE_X) = 0

instance (e : Nat) : Decidable (IsInternal e) := by
  unfold IsInternal
  infer_instance

/-- The table reached from the table at `t` by following the internal entries
at the given indices; `none` when an entry on the way is not internal. These
are the tables `freewalk` descends to. -/
def ipathTo (m : Mem) : Nat → List Nat → Option Nat
  | t, [] => some t
  | t, i :: q => if IsInternal (ent m t i) then ipathTo m (PTE2PA (ent m t i)) q else none

/-- Some table that `freewalk` descends to from `root`, at any of the three
levels, holds a leaf. -/
def HasLeaf (m : Mem) (root : Nat) : Prop :=
  ∃ q t j, ValidPath q ∧ ipathTo m root q = some t ∧ j < 512 ∧ IsLeaf (ent m t j)

/-- The subtree of the table `t`, with `level` levels of tables below it, is free
of leaves: every valid entry above its lowest tables is internal, and its
lowest tables have no valid entry. -/
def NoLeaf (m : Mem) : Nat → Nat → Prop
  | 0, t => ∀ j, j < 512 → ent m t j &&& PTE_V = 0
  | level + 1, t => ∀ j, j < 512 → ent m t j &&& PTE_V ≠ 0 →
      ent m t j &&& (PTE_R ||| PTE_W ||| PTE_X) = 0 ∧ NoLeaf m level (PTE2PA (ent m t j))

/-- The subtree of the table `t` ends `level` levels below it: the valid entries
of the tables `freewalk` reaches there are leaves. For the root and `level` 2
this says that the tree has three levels. -/
def Bottom (m : Mem) : Nat → Nat → Prop
  | 0, t => ∀ j, j < 512 → ent m t j &&& PTE_V ≠ 0 → ent m t j &&& (PTE_R ||| PTE_W ||| PTE_X) ≠ 0
  | level + 1, t => ∀ j, j < 512 → IsInternal (ent m t j) → Bottom m level (PTE2PA (ent m t j))

/-- The byte at `x` lies in a page-table page of the subtree below the table
reached by the path `q` from `root`. -/
def InSub (m : Mem) (root : Nat) (q : List Nat) (x : Nat) : Prop :=
  ∃ q' a, ValidPath (q ++ q') ∧ pathTo m root (q ++ q') = some a ∧ a ≤ x ∧ x < a + 4096

/-- The part of the tree that the loop of `freewalk` over the table `t`, reached
by the path `q`, has still to visit from the entry `i` on: the slots `i`, ...,
511 of `t` and the page-table pages below them. -/
def Rest (m : Mem) (root : Nat) (q : List Nat) (t i x : Nat) : Prop :=
  ∃ j, i ≤ j ∧ j < 512 ∧ (t + 8 * j ≤ x ∧ x < t + 8 * j + 8 ∨ InSub m root (q ++ [j]) x)

/-- The released frame `f` of the list `l` of released frames (last released
first) was a table that `freewalk` had finished: in the memory `now` none of
its 512 entries is valid, and every entry valid in the memory `m` at the start
was internal and named a frame released before `f`. -/
def Cleared (m now : Mem) (l : List Nat) (f : Nat) : Prop :=
  (∀ j, j < 512 → ent now f j &&& PTE_V = 0) ∧
    ∃ l1 l2, l = l1 ++ f :: l2 ∧
      ∀ j, j < 512 → ent m f j &&& PTE_V ≠ 0 →
        IsInternal (ent m f j) ∧ PTE2PA (ent m f j) ∈ l2

/-- What a run of `freewalk` on the table reached by the path `q`, complete or
cut short by a panic, has done between the states `s` and `s1`: `m` is the
memory at the start of the teardown, `l` the frames released (last released
first). Only bytes of the subtree changed, and only to zero; every released
frame is a table of the subtree that had been finished. -/
structure Walked (m : Mem) (root : Nat) (q : List Nat) (s s1 : State) (l : List Nat) :
    Prop where
  free : s1.free = l ++ s.free
  frame : ∀ x, ¬ InSub m root q x → s1.mem x = s.mem x
  zeroed : ∀ x, s1.mem x = s.mem x ∨ s1.mem x = 0
  freed : ∀ f, f ∈ l →
    (∃ q1, ValidPath (q ++ q1) ∧ pathTo m root (q ++ q1) = some f) ∧ Cleared m s1.mem l f

/-- The state after `walk` with `alloc` set has built the two tables for the
address 0 under the empty root of `st0`: a tree of three tables without any
leaf. -/
def st8 : State := (walk 0x1000 0 1 st0).state

/-- An empty root table at `0x1000`, an allocator holding three frames, and a
four-byte image `13 05 00 73` (hexadecimal) in kernel memory at `0x7000`. -/
def st7 : State :=
  ⟨fun x => if 0x7000 ≤ x ∧ x < 0x7004 then [0x13, 0x05, 0x00, 0x73].getD (x - 0x7000) 0 else 0,
    [0x2000, 0x3000, 0x4000]⟩

/-! ## kernel/sysproc.c -/

/-- The loop `for (; mask != 1; trace_syscall_max++) mask = mask >> 1;` of
`sys_trace` on C `int`s: the shift of a negative `mask` is the arithmetic one,
the increment wraps around at 32 bits. It yields the final value of
`trace_syscall_max`, or `none` when the loop is still running after `fuel`
iterations. -/
def sys_traceLoop : Nat → Int → Int → Option Int
  | 0, _, _ => none
  | fuel + 1, mask, trace_syscall_max =>
    if mask ≠ 1 then
      sys_traceLoop fuel (mask >>> (1 : Nat)) (toInt32 (ofInt (trace_syscall_max + 1)))
    else some trace_syscall_max

/-- Function `uint64 sys_trace(void)`. The system-call argument fetch
`argint(0, &mask)` is not among the sources: its return value and the value it
stores in `mask` are the arguments `r` and `mask`. The result is the value
returned together with the value assigned to `myproc()->trace_syscall_max`, if
any; `none` when the loop is still running after `fuel` iterations. -/
def sys_trace (fuel : Nat) (r mask : Int) : Option (Nat × Option Int) :=
  if r < 0 then some (ofInt (-1), none)
  else
    match sys_traceLoop fuel mask 1 with
    | none => none
    | some trace_syscall_max => some (0, some trace_syscall_max)

/-! ## The frames a run takes from the allocator -/

/-- The number of page-table pages missing on the way to each page once page `a`
has been mapped, from the numbers `M` before: none for the pages that share the
level-0 table of `a` (same `PX(2)` and `PX(1)`), at most one, the level-0 table,
for the pages that share its level-1 table (same `PX(2)`), and as before for
every other page. -/
def nextMissing (M : Nat → Nat) (a : Nat) : Nat → Nat :=
  fun b => if PX 2 b = PX 2 a then (if PX 1 b = PX 1 a then 0 else min 1 (M b)) else M b

/-- The number of frames that mapping `k` consecutive pages from `a`, lowest
first, takes from the allocator: for each page `c` data frames and the
page-table pages missing on the way to it when its turn comes, `M` giving the
missing page-table pages of every page at the start. -/
def framesNeeded (c : Nat) : Nat → (Nat → Nat) → Nat → Nat
  | 0, _, _ => 0
  | k + 1, M, a => c + M a + framesNeeded c k (nextMissing M a) (a + 4096)

/-- The number of page-table pages `mappages` takes from the allocator to map
`k` consecutive pages from `a` in the table rooted at `root`. -/
def tablesFrom (m : Mem) (root a k : Nat) : Nat :=
  framesNeeded 0 k (fun b => missing m b 2 root) a

/-- The number of frames `uvmalloc` and `uvmcopy` take from the allocator to
install `k` consecutive pages from `a` in the table rooted at `root`: a data
frame for each page and the page-table pages missing on the way. -/
def framesFor (m : Mem) (root a k : Nat) : Nat :=
  framesNeeded 1 k (fun b => missing m b 2 root) a

/-! ## Theorems -/

/-! ## Arithmetic of the entry format -/

theorem PGMASK_eq : PGMASK = 2 ^ 64 - 4096 := by decide

theorem and_PGMASK (a : Nat) (h : a < 2 ^ 64) : a &&& PGMASK = a / 4096 * 4096 := by
  apply Nat.eq_of_testBit_eq
  intro i
  have h1 : PGMASK = (2 ^ 52 - 1) <<< 12 := by decide
  have h2 : a / 4096 * 4096 = (a >>> 12) <<< 12 := by
    rw [Nat.shiftRight_eq_div_pow, Nat.shiftLeft_eq]
  rw [h2, h1, Nat.testBit_and, Nat.testBit_shiftLeft, Nat.testBit_shiftLeft,
    Nat.testBit_two_pow_sub_one, Nat.testBit_shiftRight]
  by_cases hi : i ≥ 12
  · have e : 12 + (i - 12) = i := by omega
    simp only [hi, decide_True, Bool.true_and, e]
    by_cases h52 : i - 12 < 52
    · simp [h52]
    · have : a.testBit i = false := by
        apply Nat.testBit_lt_two_pow
        calc a < 2 ^ 64 := h
          _ ≤ 2 ^ i := Nat.pow_le_pow_right (by decide) (by omega)
      simp [h52, this]
  · simp [hi]

theorem PGROUNDDOWN_eq (a : Nat) (h : a < 2 ^ 64) : PGROUNDDOWN a = a / 4096 * 4096 :=
  and_PGMASK a h

theorem PGROUNDUP_eq (a : Nat) : PGROUNDUP a = (a + 4095) % 2 ^ 64 / 4096 * 4096 := by
  unfold PGROUNDUP
  rw [and_PGMASK _ (by unfold U64; exact Nat.mod_lt _ (by decide))]
  rfl

theorem PX_eq (l va : Nat) : PX l va = va / 2 ^ (12 + 9 * l) % 512 := by
  unfold PX PXSHIFT PGSHIFT PXMASK
  rw [Nat.shiftRight_eq_div_pow]
  exact Nat.and_pow_two_sub_one_eq_mod _ 9

theorem PX_lt (l va : Nat) : PX l va < 512 := by
  rw [PX_eq]; exact Nat.mod_lt _ (by decide)

theorem PTE2PA_eq (x : Nat) : PTE2PA x = x / 1024 * 4096 % 2 ^ 64 := by
  unfold PTE2PA U64
  rw [Nat.shiftRight_eq_div_pow, Nat.shiftLeft_eq]

theorem PA2PTE_eq (x : Nat) : PA2PTE x = x / 4096 * 1024 % 2 ^ 64 := by
  unfold PA2PTE U64
  rw [Nat.shiftRight_eq_div_pow, Nat.shiftLeft_eq]

theorem PTE2PA_aligned (x : Nat) : PTE2PA x % 4096 = 0 := by
  rw [PTE2PA_eq]; omega

theorem PTE2PA_lt (x : Nat) : PTE2PA x < 2 ^ 64 := by
  rw [PTE2PA_eq]; omega

theorem and_PTE_V (x : Nat) : x &&& PTE_V = x % 2 := Nat.and_one_is_mod x

theorem PTE_FLAGS_eq (x : Nat) : PTE_FLAGS x = x % 1024 :=
  Nat.and_pow_two_sub_one_eq_mod x 10

theorem and_PTE_U (x : Nat) : x &&& PTE_U = x / 16 % 2 * 16 := by
  have h := Nat.and_two_pow x 4
  have e : PTE_U = 2 ^ 4 := by decide
  rw [e, h, Nat.testBit_to_div_mod]
  have h16 : (2 : Nat) ^ 4 = 16 := by decide
  rw [h16]
  rcases Nat.mod_two_eq_zero_or_one (x / 16) with h0 | h0 <;> simp [h0]

/-- An entry made of a frame number and flag bits. -/
theorem or_flags (pa fl : Nat) (hfl : fl < 1024) :
    PA2PTE pa ||| fl = PA2PTE pa + fl := by
  rw [PA2PTE_eq]
  have h : pa / 4096 * 1024 % 2 ^ 64 = 2 ^ 10 * (pa / 4096 * 1024 % 2 ^ 64 / 1024) := by omega
  rw [h]
  exact (Nat.mul_add_lt_is_or (by simpa using hfl) _).symm

theorem or_lt_1024 (a b : Nat) (ha : a < 1024) (hb : b < 1024) : a ||| b < 1024 :=
  Nat.or_lt_two_pow (n := 10) ha hb

/-! ## Loads and stores -/

theorem read64_lt (m : Mem) (a : Nat) : read64 m a < 2 ^ 64 := by
  unfold read64; omega

theorem read64_congr (m m' : Mem) (a : Nat) (h : ∀ k, k < 8 → m' (a + k) = m (a + k)) :
    read64 m' a = read64 m a := by
  have h0 := h 0 (by decide)
  simp only [Nat.add_zero] at h0
  unfold read64
  rw [h0, h 1 (by decide), h 2 (by decide), h 3 (by decide), h 4 (by decide),
    h 5 (by decide), h 6 (by decide), h 7 (by decide)]

theorem write64_out (m : Mem) (a v x : Nat) (h : x < a ∨ a + 8 ≤ x) :
    write64 m a v x = m x := by
  unfold write64; rw [if_neg]; omega

theorem memset_out (m : Mem) (p c n x : Nat) (h : x < p ∨ p + n ≤ x) :
    memset m p c n x = m x := by
  unfold memset; rw [if_neg]; omega

theorem memset_in (m : Mem) (p c n x : Nat) (h1 : p ≤ x) (h2 : x < p + n) :
    memset m p c n x = c % 256 := by
  unfold memset; rw [if_pos]; exact ⟨h1, h2⟩

theorem read64_write64_same (m : Mem) (a v : Nat) (hv : v < 2 ^ 64) :
    read64 (write64 m a v) a = v := by
  have hb : ∀ k, k < 8 → write64 m a v (a + k) = v / 256 ^ k % 256 := by
    intro k hk
    unfold write64
    rw [if_pos ⟨by omega, by omega⟩, Nat.add_sub_cancel_left]
  have h0 := hb 0 (by decide)
  simp only [Nat.add_zero] at h0
  unfold read64
  rw [h0, hb 1 (by decide), hb 2 (by decide), hb 3 (by decide), hb 4 (by decide),
    hb 5 (by decide), hb 6 (by decide), hb 7 (by decide)]
  norm_num
  omega

theorem read64_write64_ne (m : Mem) (a v b : Nat) (h : b + 8 ≤ a ∨ a + 8 ≤ b) :
    read64 (write64 m a v) b = read64 m b :=
  read64_congr _ _ _ (fun k hk => write64_out m a v (b + k) (by omega))

theorem read64_memset_out (m : Mem) (p c n b : Nat) (h : b + 8 ≤ p ∨ p + n ≤ b) :
    read64 (memset m p c n) b = read64 m b :=
  read64_congr _ _ _ (fun k hk => memset_out m p c n (b + k) (by omega))

theorem read64_memset_zero (m : Mem) (p n b : Nat) (h1 : p ≤ b) (h2 : b + 8 ≤ p + n) :
    read64 (memset m p 0 n) b = 0 := by
  have hb : ∀ k, k < 8 → memset m p 0 n (b + k) = 0 := by
    intro k hk
    rw [memset_in m p 0 n (b + k) (by omega) (by omega)]
  have h0 := hb 0 (by decide)
  simp only [Nat.add_zero] at h0
  unfold read64
  rw [h0, hb 1 (by decide), hb 2 (by decide), hb 3 (by decide), hb 4 (by decide),
    hb 5 (by decide), hb 6 (by decide), hb 7 (by decide)]

theorem PX_inj (b c : Nat) (hb : b % 4096 = 0) (hc : c % 4096 = 0)
    (hb2 : b < 2 ^ 39) (hc2 : c < 2 ^ 39)
    (h2 : PX 2 b = PX 2 c) (h1 : PX 1 b = PX 1 c) (h0 : PX 0 b = PX 0 c) : b = c := by
  rw [PX_eq, PX_eq] at h2 h1 h0
  norm_num at h2 h1 h0
  omega

theorem link_lt (f : Nat) : PA2PTE f ||| PTE_V < 2 ^ 64 := by
  have h : PTE_V < 1024 := by decide
  rw [or_flags f PTE_V h, PA2PTE_eq]
  have : PTE_V = 1 := by decide
  omega

theorem link_valid (f : Nat) : (PA2PTE f ||| PTE_V) &&& PTE_V ≠ 0 := by
  have h : PTE_V < 1024 := by decide
  rw [or_flags f PTE_V h, and_PTE_V, PA2PTE_eq]
  have : PTE_V = 1 := by decide
  omega

theorem link_flags (f : Nat) : PTE_FLAGS (PA2PTE f ||| PTE_V) = PTE_V := by
  have h : PTE_V < 1024 := by decide
  rw [or_flags f PTE_V h, PTE_FLAGS_eq, PA2PTE_eq]
  have : PTE_V = 1 := by decide
  omega

theorem PTE2PA_or (f fl : Nat) (hf : f % 4096 = 0) (hf2 : f < 2 ^ 64) (hfl : fl < 1024) :
    PTE2PA (PA2PTE f ||| fl) = f := by
  rw [or_flags f fl hfl, PTE2PA_eq, PA2PTE_eq]
  omega

theorem zero_invalid : (0 : Nat) &&& PTE_V = 0 := by decide

theorem validPath_nil : ValidPath [] := ⟨by simp, by simp⟩

theorem validPath_one (a : Nat) (h : a < 512) : ValidPath [a] := ⟨by simp, by simpa using h⟩

theorem validPath_two (a b : Nat) (ha : a < 512) (hb : b < 512) : ValidPath [a, b] :=
  ⟨by simp, by
    intro i hi
    simp at hi
    rcases hi with rfl | rfl <;> assumption⟩

theorem validPath_PX (va : Nat) : ValidPath [PX 2 va, PX 1 va] :=
  validPath_two _ _ (PX_lt _ _) (PX_lt _ _)

theorem tablePage_root (m : Mem) (root : Nat) : TablePage m root root :=
  ⟨[], validPath_nil, rfl⟩

theorem pathTo_aligned (m : Mem) (t0 t : Nat) (q : List Nat) (h0 : t0 % 4096 = 0)
    (h : pathTo m t0 q = some t) : t % 4096 = 0 := by
  induction q generalizing t0 with
  | nil => simp [pathTo] at h; omega
  | cons i q ih =>
    simp only [pathTo] at h
    split at h
    · exact ih _ (PTE2PA_aligned _) h
    · cases h

theorem tablePage_aligned {m : Mem} {root t : Nat} (h0 : root % 4096 = 0)
    (h : TablePage m root t) : t % 4096 = 0 := by
  obtain ⟨q, _, hq⟩ := h
  exact pathTo_aligned m root t q h0 hq

theorem pathTo_one (m : Mem) (t a : Nat) :
    pathTo m t [a] = if ent m t a &&& PTE_V ≠ 0 then some (PTE2PA (ent m t a)) else none := by
  simp [pathTo]

theorem pathTo_two (m : Mem) (t a b : Nat) :
    pathTo m t [a, b] = if ent m t a &&& PTE_V ≠ 0 then
      (if ent m (PTE2PA (ent m t a)) b &&& PTE_V ≠ 0 then
        some (PTE2PA (ent m (PTE2PA (ent m t a)) b)) else none) else none := by
  simp [pathTo]

/-- Two entries of page-aligned tables are the same eight bytes or disjoint. -/
theorem ent_addr_ne (t t' j j' : Nat) (ht : t % 4096 = 0) (ht' : t' % 4096 = 0)
    (hj : j < 512) (hj' : j' < 512) (h : t ≠ t' ∨ j ≠ j') :
    t + 8 * j + 8 ≤ t' + 8 * j' ∨ t' + 8 * j' + 8 ≤ t + 8 * j := by
  omega

/-! ## Linking a new table and storing an entry -/

theorem linked_intro (m : Mem) (cur i f : Nat) (hcur : cur % 4096 = 0) (hf : f % 4096 = 0)
    (hi : i < 512) (hne : cur ≠ f) :
    Linked m (write64 (memset m f 0 PGSIZE) (cur + 8 * i) (PA2PTE f ||| PTE_V)) cur i f := by
  have hP : PGSIZE = 4096 := rfl
  refine ⟨?_, ?_, ?_, ?_, ?_⟩
  · exact read64_write64_same _ _ _ (link_lt f)
  · intro j hj
    unfold ent
    rw [read64_write64_ne _ _ _ _ (by omega), read64_memset_zero _ _ _ _ (by omega) (by omega)]
  · intro t j ht hj htf hne2
    unfold ent
    rw [read64_write64_ne _ _ _ _ (by omega), read64_memset_out _ _ _ _ _ (by omega)]
  · intro x hx1 hx2
    rw [write64_out _ _ _ _ (by omega), memset_out _ _ _ _ _ (by omega)]
  · intro x hx1 hx2
    rw [write64_out _ _ _ _ (by omega), memset_in _ _ _ _ _ (by omega) (by omega)]

theorem stored_intro (m : Mem) (t k v : Nat) (ht : t % 4096 = 0) (hk : k < 512)
    (hv : v < 2 ^ 64) : Stored m (write64 m (t + 8 * k) v) t k v := by
  refine ⟨?_, ?_, ?_⟩
  · exact read64_write64_same _ _ _ hv
  · intro t' j ht' hj hne
    unfold ent
    rw [read64_write64_ne _ _ _ _ (by omega)]
  · intro x hx
    rw [write64_out _ _ _ _ (by omega)]

section link
variable {m m' : Mem} {root cur i f : Nat} {pre : List Nat}

/-- A valid entry of an existing table is not the entry being linked. -/
theorem Linked.keep_valid (L : Linked m m' cur i f) (wf : WF m root)
    (hinv : ent m cur i &&& PTE_V = 0) (hf : ¬ TablePage m root f)
    {t j : Nat} (ht : TablePage m root t) (hj : j < 512) (hv : ent m t j &&& PTE_V ≠ 0) :
    ent m' t j = ent m t j := by
  apply L.keep t j (tablePage_aligned wf.aligned ht) hj
  · rintro rfl; exact hf ht
  · by_contra hc
    push_neg at hc
    obtain ⟨rfl, rfl⟩ := hc
    exact hv hinv

theorem Linked.old (L : Linked m m' cur i f) (wf : WF m root)
    (hinv : ent m cur i &&& PTE_V = 0) (hf : ¬ TablePage m root f) :
    ∀ q t, ValidPath q → pathTo m root q = some t → pathTo m' root q = some t := by
  intro q t hq h
  obtain ⟨hlen, hidx⟩ := hq
  rcases q with _ | ⟨a, _ | ⟨b, _ | ⟨c, q⟩⟩⟩
  · exact h
  · have ha : a < 512 := hidx a (by simp)
    rw [pathTo_one] at h ⊢
    split at h
    · rename_i hv
      rw [L.keep_valid wf hinv hf (tablePage_root m root) ha hv, if_pos hv]
      exact h
    · cases h
  · have ha : a < 512 := hidx a (by simp)
    have hb : b < 512 := hidx b (by simp)
    rw [pathTo_two] at h ⊢
    split at h
    · rename_i hv
      split at h
      · rename_i hv2
        have e1 := L.keep_valid wf hinv hf (tablePage_root m root) ha hv
        have tp : TablePage m root (PTE2PA (ent m root a)) :=
          ⟨[a], validPath_one a ha, by rw [pathTo_one, if_pos hv]⟩
        have e2 := L.keep_valid wf hinv hf tp hb hv2
        rw [e1, if_pos hv, e2, if_pos hv2]
        exact h
      · cases h
    · cases h
  · simp at hlen

/-- Every entry of an existing table is unchanged, except the linked one. -/
theorem Linked.keep_or (L : Linked m m' cur i f) (wf : WF m root)
    (hcur : pathTo m root pre = some cur) (hpre : ValidPath pre)
    (hf : ¬ TablePage m root f)
    {t j : Nat} {p : List Nat} (hp : ValidPath p) (ht : pathTo m root p = some t) (hj : j < 512) :
    ent m' t j = ent m t j ∨ (p = pre ∧ t = cur ∧ j = i) := by
  by_cases hc : t = cur ∧ j = i
  · right
    obtain ⟨rfl, rfl⟩ := hc
    exact ⟨wf.inj p pre t hp hpre ht hcur, rfl, rfl⟩
  · left
    apply L.keep t j (tablePage_aligned wf.aligned ⟨p, hp, ht⟩) hj
    · rintro rfl; exact hf ⟨p, hp, ht⟩
    · by_contra h2
      push_neg at h2
      exact hc h2

theorem Linked.cur_ne (_L : Linked m m' cur i f) (hcur : pathTo m root pre = some cur)
    (hpre : ValidPath pre) (hf : ¬ TablePage m root f) : cur ≠ f := by
  rintro rfl
  exact hf ⟨pre, hpre, hcur⟩

theorem Linked.fresh (L : Linked m m' cur i f) (wf : WF m root)
    (hcur : pathTo m root pre = some cur) (hpre : ValidPath pre)
    (hf : ¬ TablePage m root f) (hf1 : f % 4096 = 0) (hf2 : f < 2 ^ 64) :
    ∀ q t, ValidPath q → pathTo m' root q = some t →
      pathTo m root q = some t ∨ (q = pre ++ [i] ∧ t = f) := by
  intro q t hq h
  obtain ⟨hlen, hidx⟩ := hq
  have hlinkv : ent m' cur i &&& PTE_V ≠ 0 := by rw [L.link]; exact link_valid f
  have hlinkpa : PTE2PA (ent m' cur i) = f := by
    rw [L.link]; exact PTE2PA_or f PTE_V hf1 hf2 (by decide)
  rcases q with _ | ⟨a, _ | ⟨b, _ | ⟨c, q⟩⟩⟩
  · left; exact h
  · have ha : a < 512 := hidx a (by simp)
    rcases L.keep_or wf hcur hpre hf validPath_nil (rfl : pathTo m root [] = some root) ha
      with e | ⟨e1, e2, e3⟩
    · left
      rw [pathTo_one] at h ⊢
      rw [e] at h
      exact h
    · right
      subst e3
      rw [pathTo_one, e2, if_pos hlinkv, hlinkpa] at h
      refine ⟨by rw [← e1]; rfl, ?_⟩
      cases h; rfl
  · have ha : a < 512 := hidx a (by simp)
    have hb : b < 512 := hidx b (by simp)
    rcases L.keep_or wf hcur hpre hf validPath_nil (rfl : pathTo m root [] = some root) ha
      with e | ⟨e1, e2, e3⟩
    · rw [pathTo_two] at h
      rw [e] at h
      split at h
      · rename_i hv
        have hp1 : pathTo m root [a] = some (PTE2PA (ent m root a)) := by
          rw [pathTo_one, if_pos hv]
        rcases L.keep_or wf hcur hpre hf (validPath_one a ha) hp1 hb with e' | ⟨e1', e2', e3'⟩
        · left
          rw [e'] at h
          rw [pathTo_two, if_pos hv]
          exact h
        · right
          subst e3'
          rw [e2', if_pos hlinkv, hlinkpa] at h
          refine ⟨by rw [← e1']; rfl, ?_⟩
          cases h; rfl
      · cases h
    · exfalso
      subst e3
      rw [pathTo_two, e2, if_pos hlinkv, hlinkpa, L.zero b hb] at h
      simp [zero_invalid] at h
  · simp at hlen

theorem Linked.path_link (L : Linked m m' cur i f) (wf : WF m root)
    (hcur : pathTo m root pre = some cur) (hpre : ValidPath (pre ++ [i]))
    (hinv : ent m cur i &&& PTE_V = 0) (hf : ¬ TablePage m root f)
    (hf1 : f % 4096 = 0) (hf2 : f < 2 ^ 64) :
    pathTo m' root (pre ++ [i]) = some f := by
  have hlinkv : ent m' cur i &&& PTE_V ≠ 0 := by rw [L.link]; exact link_valid f
  have hlinkpa : PTE2PA (ent m' cur i) = f := by
    rw [L.link]; exact PTE2PA_or f PTE_V hf1 hf2 (by decide)
  obtain ⟨hlen, hidx⟩ := hpre
  rcases pre with _ | ⟨a, _ | ⟨b, q⟩⟩
  · simp only [pathTo] at hcur
    cases hcur
    simp only [List.nil_append]
    rw [pathTo_one, if_pos hlinkv, hlinkpa]
  · have ha : a < 512 := hidx a (by simp)
    rw [pathTo_one] at hcur
    split at hcur
    · rename_i hv
      cases hcur
      have e := L.keep_valid wf hinv hf (tablePage_root m root) ha hv
      show pathTo m' root [a, i] = some f
      rw [pathTo_two, e, if_pos hv, if_pos hlinkv, hlinkpa]
    · cases hcur
  · simp at hlen

end link

section linkinv
variable {m m' : Mem} {root cur i f : Nat} {pre : List Nat}

theorem Linked.wf_link (L : Linked m m' cur i f) (wf : WF m root)
    (hcur : pathTo m root pre = some cur) (hpre : ValidPath pre)
    (hf : ¬ TablePage m root f) (hf0 : f ≠ 0) (hf1 : f % 4096 = 0) (hf2 : f < 2 ^ 64) :
    WF m' root := by
  have hfr := L.fresh wf hcur hpre hf hf1 hf2
  refine ⟨wf.aligned, ?_, ?_⟩
  · intro q q' t hq hq' h h'
    rcases hfr q t hq h with h1 | ⟨h1, h2⟩
    · rcases hfr q' t hq' h' with h1' | ⟨h1', h2'⟩
      · exact wf.inj q q' t hq hq' h1 h1'
      · exact absurd ⟨q, hq, h2' ▸ h1⟩ hf
    · rcases hfr q' t hq' h' with h1' | ⟨h1', _⟩
      · exact absurd ⟨q', hq', h2 ▸ h1'⟩ hf
      · rw [h1, h1']
  · rintro t ⟨q, hq, h⟩
    rcases hfr q t hq h with h1 | ⟨_, h2⟩
    · exact wf.nonnull t ⟨q, hq, h1⟩
    · rw [h2]; exact hf0

theorem Linked.fresh_link (L : Linked m m' cur i f) (wf : WF m root)
    (hcur : pathTo m root pre = some cur) (hpre : ValidPath pre)
    {rest : List Nat} (fr : Fresh m root (f :: rest)) : Fresh m' root rest := by
  have hfm := fr.frame f (by simp)
  have hf : ¬ TablePage m root f := fr.sep f (by simp)
  have hfr := L.fresh wf hcur hpre hf hfm.1 hfm.2.2
  have hnd := List.nodup_cons.mp fr.nodup
  refine ⟨hnd.2, fun g hg => fr.frame g (by simp [hg]), ?_⟩
  rintro g hg ⟨q, hq, h⟩
  rcases hfr q g hq h with h1 | ⟨_, h2⟩
  · exact fr.sep g (by simp [hg]) ⟨q, hq, h1⟩
  · exact hnd.1 (h2 ▸ hg)

theorem Linked.pte_link (L : Linked m m' cur i f) (wf : WF m root)
    (hcur : pathTo m root pre = some cur) (hpre : ValidPath (pre ++ [i]))
    (hinv : ent m cur i &&& PTE_V = 0)
    (hf : ¬ TablePage m root f) (hf1 : f % 4096 = 0) (hf2 : f < 2 ^ 64) (b : Nat) :
    pteOf m' root b = pteOf m root b := by
  have hpre' : ValidPath pre := by
    obtain ⟨h1, h2⟩ := hpre
    exact ⟨by simp at h1; omega, fun j hj => h2 j (by simp [hj])⟩
  have hlen : pre.length ≤ 1 := by
    have := hpre.1
    simp at this; omega
  have hfr := L.fresh wf hcur hpre' hf hf1 hf2
  have hold := L.old wf hinv hf
  unfold pteOf
  cases h : pathTo m root [PX 2 b, PX 1 b] with
  | some t0 =>
    rw [hold _ _ (validPath_PX b) h]
    show ent m' t0 (PX 0 b) = ent m t0 (PX 0 b)
    have tp : TablePage m root t0 := ⟨_, validPath_PX b, h⟩
    apply L.keep t0 _ (tablePage_aligned wf.aligned tp) (PX_lt _ _)
    · rintro rfl; exact hf tp
    · left
      rintro rfl
      have := wf.inj _ _ _ (validPath_PX b) hpre' h hcur
      rw [← this] at hlen
      simp at hlen
  | none =>
    cases h' : pathTo m' root [PX 2 b, PX 1 b] with
    | none => rfl
    | some t0 =>
      rcases hfr _ _ (validPath_PX b) h' with h1 | ⟨_, h2⟩
      · rw [h] at h1; cases h1
      · show ent m' t0 (PX 0 b) = 0
        rw [h2]; exact L.zero _ (PX_lt _ _)

end linkinv

section store
variable {m m' : Mem} {root t0 k v : Nat} {p0 : List Nat}

/-- Storing into a level-0 table leaves every index path in place. -/
theorem Stored.path_store (S : Stored m m' t0 k v) (wf : WF m root)
    (hp0 : pathTo m root p0 = some t0) (hlen : p0.length = 2) (hv0 : ValidPath p0) :
    ∀ q, ValidPath q → pathTo m' root q = pathTo m root q := by
  have key : ∀ p t j, ValidPath p → p.length ≤ 1 → pathTo m root p = some t → j < 512 →
      ent m' t j = ent m t j := by
    intro p t j hp hpl ht hj
    apply S.keep t j (tablePage_aligned wf.aligned ⟨p, hp, ht⟩) hj
    left
    rintro rfl
    have := wf.inj _ _ _ hp hv0 ht hp0
    rw [this] at hpl
    omega
  intro q hq
  obtain ⟨hl, hidx⟩ := hq
  rcases q with _ | ⟨a, _ | ⟨b, _ | ⟨c, q⟩⟩⟩
  · rfl
  · have ha : a < 512 := hidx a (by simp)
    rw [pathTo_one, pathTo_one, key [] root a validPath_nil (by simp) rfl ha]
  · have ha : a < 512 := hidx a (by simp)
    have hb : b < 512 := hidx b (by simp)
    have e1 := key [] root a validPath_nil (by simp) rfl ha
    rw [pathTo_two, pathTo_two, e1]
    by_cases hv : ent m root a &&& PTE_V ≠ 0
    · have e2 := key [a] (PTE2PA (ent m root a)) b (validPath_one a ha) (by simp)
        (by rw [pathTo_one, if_pos hv]) hb
      rw [e2]
    · rw [if_neg hv, if_neg hv]
  · simp at hl

theorem Stored.tablePage_store (S : Stored m m' t0 k v) (wf : WF m root)
    (hp0 : pathTo m root p0 = some t0) (hlen : p0.length = 2) (hv0 : ValidPath p0) (t : Nat) :
    TablePage m' root t ↔ TablePage m root t := by
  have h := S.path_store wf hp0 hlen hv0
  constructor
  · rintro ⟨q, hq, hq'⟩
    exact ⟨q, hq, by rw [← h q hq]; exact hq'⟩
  · rintro ⟨q, hq, hq'⟩
    exact ⟨q, hq, by rw [h q hq]; exact hq'⟩

theorem Stored.wf_store (S : Stored m m' t0 k v) (wf : WF m root)
    (hp0 : pathTo m root p0 = some t0) (hlen : p0.length = 2) (hv0 : ValidPath p0) :
    WF m' root := by
  have h := S.path_store wf hp0 hlen hv0
  refine ⟨wf.aligned, ?_, ?_⟩
  · intro q q' t hq hq' h1 h2
    rw [h q hq] at h1
    rw [h q' hq'] at h2
    exact wf.inj q q' t hq hq' h1 h2
  · intro t ht
    exact wf.nonnull t ((S.tablePage_store wf hp0 hlen hv0 t).mp ht)

theorem Stored.fresh_store (S : Stored m m' t0 k v) (wf : WF m root)
    (hp0 : pathTo m root p0 = some t0) (hlen : p0.length = 2) (hv0 : ValidPath p0)
    {fl : List Nat} (fr : Fresh m root fl) : Fresh m' root fl :=
  ⟨fr.nodup, fr.frame, fun f hf ht => fr.sep f hf ((S.tablePage_store wf hp0 hlen hv0 f).mp ht)⟩

/-- Storing the level-0 entry of page `a` changes that entry only. -/
theorem Stored.pte_store (S : Stored m m' t0 (PX 0 a) v) (wf : WF m root)
    (hp0 : pathTo m root [PX 2 a, PX 1 a] = some t0) (b : Nat) :
    pteOf m' root b =
      if PX 2 b = PX 2 a ∧ PX 1 b = PX 1 a ∧ PX 0 b = PX 0 a then v else pteOf m root b := by
  have h := S.path_store wf hp0 rfl (validPath_PX a)
  unfold pteOf
  rw [h _ (validPath_PX b)]
  by_cases hc : PX 2 b = PX 2 a ∧ PX 1 b = PX 1 a ∧ PX 0 b = PX 0 a
  · rw [if_pos hc]
    obtain ⟨h2, h1, h0⟩ := hc
    rw [h2, h1, hp0, h0]
    exact S.val
  · rw [if_neg hc]
    cases hb : pathTo m root [PX 2 b, PX 1 b] with
    | none => rfl
    | some t =>
      show ent m' t (PX 0 b) = ent m t (PX 0 b)
      apply S.keep t _ (tablePage_aligned wf.aligned ⟨_, validPath_PX b, hb⟩) (PX_lt _ _)
      by_contra hcon
      push_neg at hcon
      obtain ⟨e1, e2⟩ := hcon
      subst e1
      have := wf.inj _ _ _ (validPath_PX b) (validPath_PX a) hb hp0
      simp at this
      exact hc ⟨this.1, this.2, e2⟩

end store

/-! ## The walk -/

theorem Step.refl (root : Nat) (s : State) : Step root s s [] :=
  ⟨by simp, fun _ _ _ h => h, fun _ _ _ h => Or.inl h, fun _ _ _ => rfl⟩

theorem Step.tablePage_step {root : Nat} {s s' : State} {used : List Nat} (h : Step root s s' used)
    {t : Nat} (ht : TablePage s'.mem root t) : TablePage s.mem root t ∨ t ∈ used := by
  obtain ⟨q, hq, hp⟩ := ht
  rcases h.fresh q t hq hp with h1 | h1
  · exact Or.inl ⟨q, hq, h1⟩
  · exact Or.inr h1

theorem Step.trans {root : Nat} {s s' s'' : State} {u1 u2 : List Nat}
    (h1 : Step root s s' u1) (h2 : Step root s' s'' u2) : Step root s s'' (u1 ++ u2) := by
  refine ⟨?_, ?_, ?_, ?_⟩
  · rw [h1.free, h2.free, List.append_assoc]
  · intro q t hq h
    exact h2.old q t hq (h1.old q t hq h)
  · intro q t hq h
    rcases h2.fresh q t hq h with h' | h'
    · rcases h1.fresh q t hq h' with h'' | h''
      · exact Or.inl h''
      · exact Or.inr (by simp [h''])
    · exact Or.inr (by simp [h'])
  · intro x hx1 hx2
    rw [h2.bytes x ?_ (fun f hf => hx2 f (by simp [hf])),
      h1.bytes x hx1 (fun f hf => hx2 f (by simp [hf]))]
    intro t ht
    rcases h1.tablePage_step ht with h' | h'
    · exact hx1 t h'
    · exact hx2 t (by simp [h'])

theorem pathTo_append (m : Mem) (t t' : Nat) (p q : List Nat) (h : pathTo m t p = some t') :
    pathTo m t (p ++ q) = pathTo m t' q := by
  induction p generalizing t with
  | nil => simp only [pathTo] at h; cases h; rfl
  | cons a p ih =>
    simp only [pathTo, List.cons_append] at h ⊢
    split at h
    · rename_i hv
      rw [if_pos hv]
      exact ih _ h
    · cases h

theorem idxs_two (va : Nat) : idxs va 2 = [PX 2 va, PX 1 va] := rfl

theorem walkLoop_noalloc (va : Nat) (s : State) : ∀ level t,
    walkLoop va 0 level t s =
      (match pathTo s.mem t (idxs va level) with
        | some t0 => t0 + 8 * PX 0 va
        | none => 0, s) := by
  intro level
  induction level with
  | zero => intro t; rfl
  | succ l ih =>
    intro t
    simp only [walkLoop, idxs, pathTo]
    by_cases hv : read64 s.mem (t + 8 * PX (l + 1) va) &&& PTE_V ≠ 0
    · have hv' : ent s.mem t (PX (l + 1) va) &&& PTE_V ≠ 0 := hv
      rw [if_pos hv, if_pos hv', ih]
      rfl
    · have hv' : ¬ ent s.mem t (PX (l + 1) va) &&& PTE_V ≠ 0 := hv
      rw [if_neg hv, if_neg hv']
      simp

theorem walk_noalloc (root va : Nat) (s : State) (h : va < MAXVA) :
    walk root va 0 s = .ok (slotOf s.mem root va) s := by
  unfold walk
  rw [if_neg (by omega), walkLoop_noalloc]
  rfl

theorem missing_le (m : Mem) (va : Nat) : ∀ level t, missing m va level t ≤ level := by
  intro level
  induction level with
  | zero => intro t; simp [missing]
  | succ l ih =>
    intro t
    simp only [missing]
    split
    · exact Nat.le_succ_of_le (ih _)
    · exact Nat.le_refl _

theorem missing_zero_table (m : Mem) (va f : Nat) (hz : ∀ j, j < 512 → ent m f j = 0) :
    ∀ level, missing m va level f = level := by
  intro level
  cases level with
  | zero => rfl
  | succ l =>
    simp only [missing]
    rw [hz _ (PX_lt _ _)]
    simp [zero_invalid]

theorem validPath_idxs (va : Nat) : ∀ level j, j ∈ idxs va level → j < 512 := by
  intro level
  induction level with
  | zero => intro j hj; simp [idxs] at hj
  | succ l ih =>
    intro j hj
    simp only [idxs, List.mem_cons] at hj
    rcases hj with rfl | hj
    · exact PX_lt _ _
    · exact ih j hj

theorem idxs_length (va : Nat) : ∀ level, (idxs va level).length = level := by
  intro level
  induction level with
  | zero => rfl
  | succ l ih => simp [idxs, ih]

theorem walkLoop_succ (va : Nat) (alloc : Int) (l t : Nat) (s : State) :
    walkLoop va alloc (l + 1) t s =
      if ent s.mem t (PX (l + 1) va) &&& PTE_V ≠ 0 then
        walkLoop va alloc l (PTE2PA (ent s.mem t (PX (l + 1) va))) s
      else if alloc = 0 then (0, s)
      else if (kalloc s).1 = 0 then (0, (kalloc s).2)
      else walkLoop va alloc l (kalloc s).1
        { mem := write64 (memset (kalloc s).2.mem (kalloc s).1 0 PGSIZE)
            (t + 8 * PX (l + 1) va) (PA2PTE (kalloc s).1 ||| PTE_V),
          free := (kalloc s).2.free } := rfl

/-- The allocating walk, from any level: it keeps the tree well formed and the
allocator well behaved, leaves every level-0 entry as it was, and either
reaches the level-0 entry or has emptied the free list. -/
theorem walkLoop_alloc (root va : Nat) (alloc : Int) (halloc : alloc ≠ 0) :
    ∀ level pre t s, WF s.mem root → Fresh s.mem root s.free →
      pathTo s.mem root pre = some t → (∀ j ∈ pre, j < 512) → pre.length + level = 2 →
      ∃ used, WF (walkLoop va alloc level t s).2.mem root ∧
        Fresh (walkLoop va alloc level t s).2.mem root (walkLoop va alloc level t s).2.free ∧
        Step root s (walkLoop va alloc level t s).2 used ∧
        (∀ b, pteOf (walkLoop va alloc level t s).2.mem root b = pteOf s.mem root b) ∧
        (((walkLoop va alloc level t s).1 ≠ 0 ∧
            used.length = missing s.mem va level t ∧
            ∃ t0, pathTo (walkLoop va alloc level t s).2.mem root (pre ++ idxs va level) = some t0 ∧
              (walkLoop va alloc level t s).1 = t0 + 8 * PX 0 va) ∨
          ((walkLoop va alloc level t s).1 = 0 ∧ (walkLoop va alloc level t s).2.free = [] ∧
            s.free.length < missing s.mem va level t)) := by
  intro level
  induction level with
  | zero =>
    intro pre t s wf fr hp hidx hlen
    refine ⟨[], wf, fr, Step.refl root s, fun _ => rfl, Or.inl ⟨?_, rfl, t, ?_, rfl⟩⟩
    · have := wf.nonnull t ⟨pre, ⟨by omega, hidx⟩, hp⟩
      show t + 8 * PX 0 va ≠ 0
      omega
    · simpa [idxs] using hp
  | succ l ih =>
    intro pre t s wf fr hp hidx hlen
    have hpre : ValidPath pre := ⟨by omega, hidx⟩
    have hidx' : ∀ j ∈ pre ++ [PX (l + 1) va], j < 512 := by
      intro j hj
      simp only [List.mem_append, List.mem_singleton] at hj
      rcases hj with hj | rfl
      · exact hidx j hj
      · exact PX_lt _ _
    have hlen' : (pre ++ [PX (l + 1) va]).length + l = 2 := by simp; omega
    have happ : pre ++ idxs va (l + 1) = (pre ++ [PX (l + 1) va]) ++ idxs va l := by
      simp [idxs]
    by_cases hv : ent s.mem t (PX (l + 1) va) &&& PTE_V ≠ 0
    · have hw : walkLoop va alloc (l + 1) t s =
          walkLoop va alloc l (PTE2PA (ent s.mem t (PX (l + 1) va))) s := by
        rw [walkLoop_succ, if_pos hv]
      have hm : missing s.mem va (l + 1) t =
          missing s.mem va l (PTE2PA (ent s.mem t (PX (l + 1) va))) := by
        simp only [missing]
        rw [if_pos hv]
      have hp' : pathTo s.mem root (pre ++ [PX (l + 1) va]) =
          some (PTE2PA (ent s.mem t (PX (l + 1) va))) := by
        rw [pathTo_append _ _ _ _ _ hp, pathTo_one, if_pos hv]
      rw [hw, hm, happ]
      exact ih _ _ s wf fr hp' hidx' hlen'
    · have hinv : ent s.mem t (PX (l + 1) va) &&& PTE_V = 0 := by
        by_contra h; exact hv h
      have hm : missing s.mem va (l + 1) t = l + 1 := by
        simp only [missing]
        rw [if_neg hv]
      cases hfree : s.free with
      | nil =>
        have hw : walkLoop va alloc (l + 1) t s = (0, s) := by
          rw [walkLoop_succ, if_neg hv, if_neg halloc]
          simp [kalloc, hfree]
        rw [hw, hm]
        refine ⟨[], wf, fr, Step.refl root s, fun _ => rfl, Or.inr ⟨rfl, hfree, by simp⟩⟩
      | cons f rest =>
        have fr' : Fresh s.mem root (f :: rest) := hfree ▸ fr
        obtain ⟨hf1, hf0, hf2⟩ := fr'.frame f (by simp)
        have hfs : ¬ TablePage s.mem root f := fr'.sep f (by simp)
        have htal : t % 4096 = 0 := tablePage_aligned wf.aligned ⟨pre, hpre, hp⟩
        have htf : t ≠ f := by rintro rfl; exact hfs ⟨pre, hpre, hp⟩
        have L := linked_intro s.mem t (PX (l + 1) va) f htal hf1 (PX_lt _ _) htf
        let s3 : State :=
          { mem := write64 (memset s.mem f 0 PGSIZE) (t + 8 * PX (l + 1) va) (PA2PTE f ||| PTE_V),
            free := rest }
        have hw : walkLoop va alloc (l + 1) t s = walkLoop va alloc l f s3 := by
          rw [walkLoop_succ, if_neg hv, if_neg halloc]
          simp [kalloc, hfree, hf0, s3]
        have hvp : ValidPath (pre ++ [PX (l + 1) va]) := ⟨by simp; omega, hidx'⟩
        have wf3 : WF s3.mem root := L.wf_link wf hp hpre hfs hf0 hf1 hf2
        have fr3 : Fresh s3.mem root s3.free := L.fresh_link wf hp hpre fr'
        have hp3 : pathTo s3.mem root (pre ++ [PX (l + 1) va]) = some f :=
          L.path_link wf hp hvp hinv hfs hf1 hf2
        have st3 : Step root s s3 [f] := by
          refine ⟨by simp [hfree, s3], L.old wf hinv hfs, ?_, ?_⟩
          · intro q t' hq h
            rcases L.fresh wf hp hpre hfs hf1 hf2 q t' hq h with h1 | ⟨_, h2⟩
            · exact Or.inl h1
            · exact Or.inr (by simp [h2])
          · intro x hx1 hx2
            have h1 := hx1 t ⟨pre, hpre, hp⟩
            have h2 := PX_lt (l + 1) va
            exact L.bytes x (hx2 f (by simp)) (by omega)
        have pte3 : ∀ b, pteOf s3.mem root b = pteOf s.mem root b :=
          L.pte_link wf hp hvp hinv hfs hf1 hf2
        have hm3 : missing s3.mem va l f = l := missing_zero_table s3.mem va f L.zero l
        obtain ⟨used, wf', fr'', st', pte', hres⟩ := ih _ _ s3 wf3 fr3 hp3 hidx' hlen'
        rw [hw, hm, happ]
        refine ⟨[f] ++ used, wf', fr'', st3.trans st', fun b => (pte' b).trans (pte3 b), ?_⟩
        rcases hres with ⟨h1, h2, h3⟩ | ⟨h1, h2, h3⟩
        · left
          refine ⟨h1, ?_, h3⟩
          rw [hm3] at h2
          simp [h2]
        · right
          refine ⟨h1, h2, ?_⟩
          rw [hm3] at h3
          have : s3.free = rest := rfl
          rw [this] at h3
          simp
          omega

theorem walk_alloc (root va : Nat) (alloc : Int) (halloc : alloc ≠ 0) (s : State)
    (wf : WF s.mem root) (fr : Fresh s.mem root s.free) (hva : va < MAXVA) :
    ∃ r s' used, walk root va alloc s = .ok r s' ∧ WF s'.mem root ∧
      Fresh s'.mem root s'.free ∧ Step root s s' used ∧
      (∀ b, pteOf s'.mem root b = pteOf s.mem root b) ∧
      ((r ≠ 0 ∧ used.length = missing s.mem va 2 root ∧
          ∃ t0, pathTo s'.mem root [PX 2 va, PX 1 va] = some t0 ∧ r = t0 + 8 * PX 0 va) ∨
        (r = 0 ∧ s'.free = [] ∧ s.free.length < missing s.mem va 2 root)) := by
  obtain ⟨used, h1, h2, h3, h4, h5⟩ :=
    walkLoop_alloc root va alloc halloc 2 [] root s wf fr rfl (by simp) rfl
  refine ⟨(walkLoop va alloc 2 root s).1, (walkLoop va alloc 2 root s).2, used, ?_,
    h1, h2, h3, h4, ?_⟩
  · unfold walk
    rw [if_neg (by omega)]
  · simpa [idxs] using h5

theorem leafPte_lt (pa : Nat) (perm : Int) : leafPte pa perm < 2 ^ 64 := by
  unfold leafPte
  apply Nat.or_lt_two_pow
  · apply Nat.or_lt_two_pow
    · rw [PA2PTE_eq]; omega
    · unfold ofInt
      omega
  · decide

theorem or_PTE_V_valid (x : Nat) : (x ||| PTE_V) &&& PTE_V ≠ 0 := by
  rw [and_PTE_V]
  have h : (x ||| PTE_V).testBit 0 = true := by
    rw [Nat.testBit_or]
    have : PTE_V.testBit 0 = true := by decide
    simp [this]
  rw [Nat.testBit_zero] at h
  have h' := of_decide_eq_true h
  omega

theorem leafPte_valid (pa : Nat) (perm : Int) : leafPte pa perm &&& PTE_V ≠ 0 :=
  or_PTE_V_valid _

section storestep
variable {root a v t0 : Nat} {s : State}

theorem store_stored (wf : WF s.mem root)
    (hp : pathTo s.mem root [PX 2 a, PX 1 a] = some t0) (hv : v < 2 ^ 64) :
    Stored s.mem (write64 s.mem (t0 + 8 * PX 0 a) v) t0 (PX 0 a) v :=
  stored_intro s.mem t0 (PX 0 a) v
    (tablePage_aligned wf.aligned ⟨_, validPath_PX a, hp⟩) (PX_lt _ _) hv

theorem store_wf (wf : WF s.mem root)
    (hp : pathTo s.mem root [PX 2 a, PX 1 a] = some t0) (hv : v < 2 ^ 64) :
    WF (write64 s.mem (t0 + 8 * PX 0 a) v) root :=
  (store_stored wf hp hv).wf_store wf hp rfl (validPath_PX a)

theorem store_path (wf : WF s.mem root)
    (hp : pathTo s.mem root [PX 2 a, PX 1 a] = some t0) (hv : v < 2 ^ 64) :
    ∀ q, ValidPath q → pathTo (write64 s.mem (t0 + 8 * PX 0 a) v) root q = pathTo s.mem root q :=
  (store_stored wf hp hv).path_store wf hp rfl (validPath_PX a)

theorem store_fresh (wf : WF s.mem root)
    (hp : pathTo s.mem root [PX 2 a, PX 1 a] = some t0) (hv : v < 2 ^ 64)
    {fl : List Nat} (fr : Fresh s.mem root fl) :
    Fresh (write64 s.mem (t0 + 8 * PX 0 a) v) root fl :=
  (store_stored wf hp hv).fresh_store wf hp rfl (validPath_PX a) fr

theorem store_step (wf : WF s.mem root)
    (hp : pathTo s.mem root [PX 2 a, PX 1 a] = some t0) (hv : v < 2 ^ 64) (fl : List Nat)
    (hfl : fl = s.free) :
    Step root s { mem := write64 s.mem (t0 + 8 * PX 0 a) v, free := fl } [] := by
  have hpath := store_path wf hp hv
  refine ⟨by simp [hfl], ?_, ?_, ?_⟩
  · intro q t hq h
    show pathTo (write64 s.mem (t0 + 8 * PX 0 a) v) root q = some t
    rw [hpath q hq]; exact h
  · intro q t hq h
    left
    rw [← hpath q hq]; exact h
  · intro x hx _
    exact (store_stored wf hp hv).bytes x (hx t0 ⟨_, validPath_PX a, hp⟩)

theorem store_pte (wf : WF s.mem root)
    (hp : pathTo s.mem root [PX 2 a, PX 1 a] = some t0) (hv : v < 2 ^ 64)
    (ha : a % 4096 = 0) (ha2 : a < 2 ^ 39) (b : Nat) (hb : b % 4096 = 0) (hb2 : b < 2 ^ 39) :
    pteOf (write64 s.mem (t0 + 8 * PX 0 a) v) root b =
      if b = a then v else pteOf s.mem root b := by
  rw [(store_stored wf hp hv).pte_store wf hp b]
  by_cases h : b = a
  · subst h; simp
  · rw [if_neg h, if_neg]
    rintro ⟨h2, h1, h0⟩
    exact h (PX_inj b a hb ha hb2 ha2 h2 h1 h0)

theorem pteOf_of_path {m : Mem} (hp : pathTo m root [PX 2 a, PX 1 a] = some t0) :
    pteOf m root a = read64 m (t0 + 8 * PX 0 a) := by
  unfold pteOf
  rw [hp]
  rfl

end storestep

theorem MAXVA_eq : MAXVA = 2 ^ 38 := by decide

theorem pteOf_of_missing (m : Mem) (root va : Nat) (h : 0 < missing m va 2 root) :
    pteOf m root va = 0 := by
  unfold pteOf
  rw [pathTo_two]
  simp only [missing] at h
  by_cases h2 : ent m root (PX 2 va) &&& PTE_V ≠ 0
  · rw [if_pos h2] at h ⊢
    by_cases h1 : ent m (PTE2PA (ent m root (PX 2 va))) (PX 1 va) &&& PTE_V ≠ 0
    · rw [if_pos h1] at h
      omega
    · rw [if_neg h1]
  · rw [if_neg h2]

theorem mappagesLoop_succ (root last : Nat) (perm : Int) (fuel a pa : Nat) (s : State) :
    mappagesLoop root last perm (fuel + 1) a pa s =
      match walk root a 1 s with
      | .panic msg s1 => .panic msg s1
      | .ok pte s1 =>
        if pte = 0 then .ok (-1) s1
        else if read64 s1.mem pte &&& PTE_V ≠ 0 then .panic "remap" s1
        else if a = last then
          .ok 0 { mem := write64 s1.mem pte (leafPte pa perm), free := s1.free }
        else mappagesLoop root last perm fuel ((a + PGSIZE) % U64) ((pa + PGSIZE) % U64)
          { mem := write64 s1.mem pte (leafPte pa perm), free := s1.free } := rfl

/-- One iteration of the loop of `mappages`, at page `a`. -/
theorem mappagesLoop_iter (root last : Nat) (perm : Int) (fuel a pa : Nat) (s : State)
    (wf : WF s.mem root) (fr : Fresh s.mem root s.free) (ha : a % 4096 = 0) (hmax : a < MAXVA) :
    ∃ s1 used, WF s1.mem root ∧ Fresh s1.mem root s1.free ∧ Step root s s1 used ∧
      ((pteOf s.mem root a &&& PTE_V ≠ 0 ∧ (∀ b, pteOf s1.mem root b = pteOf s.mem root b) ∧
          mappagesLoop root last perm (fuel + 1) a pa s = .panic "remap" s1) ∨
        (pteOf s.mem root a &&& PTE_V = 0 ∧ (∀ b, pteOf s1.mem root b = pteOf s.mem root b) ∧
          s1.free = [] ∧ s.free.length < missing s.mem a 2 root ∧
          mappagesLoop root last perm (fuel + 1) a pa s = .ok (-1) s1) ∨
        (pteOf s.mem root a &&& PTE_V = 0 ∧ missing s.mem a 2 root ≤ s.free.length ∧
          (∀ b, b % 4096 = 0 → b < 2 ^ 39 →
            pteOf s1.mem root b = if b = a then leafPte pa perm else pteOf s.mem root b) ∧
          mappagesLoop root last perm (fuel + 1) a pa s =
            if a = last then .ok 0 s1
            else mappagesLoop root last perm fuel (a + 4096) ((pa + 4096) % 2 ^ 64) s1)) := by
  have hM := MAXVA_eq
  obtain ⟨r, s1, used, hw, wf1, fr1, st1, pte1, hres⟩ :=
    walk_alloc root a 1 (by decide) s wf fr hmax
  rw [mappagesLoop_succ, hw]
  rcases hres with ⟨hr, hmiss, t0, hp, hrt⟩ | ⟨hr, hfree, hmiss⟩
  · have he : read64 s1.mem r = pteOf s.mem root a := by
      rw [← pte1 a, pteOf_of_path hp, hrt]
    by_cases hv : pteOf s.mem root a &&& PTE_V ≠ 0
    · refine ⟨s1, used, wf1, fr1, st1, Or.inl ⟨hv, pte1, ?_⟩⟩
      simp only [if_neg hr, he, if_pos hv]
    · have hlt := leafPte_lt pa perm
      have hfl : s.free.length = used.length + s1.free.length := by
        rw [st1.free]; simp
      refine ⟨{ mem := write64 s1.mem r (leafPte pa perm), free := s1.free }, used ++ [],
        ?_, ?_, ?_, Or.inr (Or.inr ⟨by simpa using hv, by omega, ?_, ?_⟩)⟩
      · rw [hrt]; exact store_wf wf1 hp hlt
      · rw [hrt]; exact store_fresh wf1 hp hlt fr1
      · rw [hrt]; exact st1.trans (store_step wf1 hp hlt _ rfl)
      · intro b hb hb2
        show pteOf (write64 s1.mem r (leafPte pa perm)) root b = _
        rw [hrt, store_pte wf1 hp hlt ha (by omega) b hb hb2, pte1 b]
      · simp only [if_neg hr, he, if_neg hv]
        have e1 : (a + PGSIZE) % U64 = a + 4096 := by
          unfold PGSIZE U64
          exact Nat.mod_eq_of_lt (by omega)
        rw [e1]
        rfl
  · refine ⟨s1, used, wf1, fr1, st1, Or.inr (Or.inl ⟨?_, pte1, hfree, hmiss, ?_⟩)⟩
    · rw [pteOf_of_missing _ _ _ (by omega)]
      exact zero_invalid
    · simp only [if_pos hr]

/-- The loop of `mappages` over the pages `a`, `a + 4096`, ..., `a + n * 4096`:
it maps the first `j` of them and then either is done (`j = n + 1`), or panics
because page `j` is already mapped, or reports that the allocator is empty. -/
theorem mappagesLoop_spec (root last : Nat) (perm : Int) :
    ∀ n fuel a pa s, WF s.mem root → Fresh s.mem root s.free → a % 4096 = 0 →
      a + n * 4096 = last → last < MAXVA → n < fuel → pa < 2 ^ 64 →
      ∃ j s' used, WF s'.mem root ∧ Fresh s'.mem root s'.free ∧ Step root s s' used ∧
        Installed root perm a pa j s s' ∧
        (∀ k, k < j → pteOf s.mem root (a + k * 4096) &&& PTE_V = 0) ∧
        ((j = n + 1 ∧ mappagesLoop root last perm fuel a pa s = .ok 0 s') ∨
          (j ≤ n ∧ pteOf s.mem root (a + j * 4096) &&& PTE_V ≠ 0 ∧
            mappagesLoop root last perm fuel a pa s = .panic "remap" s') ∨
          (j ≤ n ∧ pteOf s.mem root (a + j * 4096) &&& PTE_V = 0 ∧ s'.free = [] ∧
            mappagesLoop root last perm fuel a pa s = .ok (-1) s')) := by
  intro n
  induction n with
  | zero =>
    intro fuel a pa s wf fr ha hlast hmax hfuel hpa
    obtain ⟨fuel, rfl⟩ : ∃ f, fuel = f + 1 := ⟨fuel - 1, by omega⟩
    have hM := MAXVA_eq
    obtain ⟨s1, used, wf1, fr1, st1, hres⟩ :=
      mappagesLoop_iter root last perm fuel a pa s wf fr ha (by omega)
    rcases hres with ⟨hv, pte1, hR⟩ | ⟨hv, pte1, hfree, _, hR⟩ | ⟨hv, _, pte1, hR⟩
    · refine ⟨0, s1, used, wf1, fr1, st1, ?_, by simp, Or.inr (Or.inl ⟨by omega, by simpa using hv, hR⟩)⟩
      intro b _ _
      rw [pte1 b, if_neg (by omega)]
    · refine ⟨0, s1, used, wf1, fr1, st1, ?_, by simp,
        Or.inr (Or.inr ⟨by omega, by simpa using hv, hfree, hR⟩)⟩
      intro b _ _
      rw [pte1 b, if_neg (by omega)]
    · refine ⟨1, s1, used, wf1, fr1, st1, ?_, ?_, Or.inl ⟨rfl, ?_⟩⟩
      · intro b hb hb2
        rw [pte1 b hb hb2]
        by_cases hba : b = a
        · subst hba
          rw [if_pos rfl, if_pos (by omega)]
          simp only [Nat.sub_self, Nat.add_zero]
          rw [Nat.mod_eq_of_lt (by unfold U64; exact hpa)]
        · rw [if_neg hba, if_neg (by omega)]
      · intro k hk
        have : k = 0 := by omega
        subst this
        simpa using hv
      · rw [hR, if_pos (by omega)]
  | succ n ih =>
    intro fuel a pa s wf fr ha hlast hmax hfuel hpa
    obtain ⟨fuel, rfl⟩ : ∃ f, fuel = f + 1 := ⟨fuel - 1, by omega⟩
    have hM := MAXVA_eq
    obtain ⟨s1, used, wf1, fr1, st1, hres⟩ :=
      mappagesLoop_iter root last perm fuel a pa s wf fr ha (by omega)
    rcases hres with ⟨hv, pte1, hR⟩ | ⟨hv, pte1, hfree, _, hR⟩ | ⟨hv, _, pte1, hR⟩
    · refine ⟨0, s1, used, wf1, fr1, st1, ?_, by simp, Or.inr (Or.inl ⟨by omega, by simpa using hv, hR⟩)⟩
      intro b _ _
      rw [pte1 b, if_neg (by omega)]
    · refine ⟨0, s1, used, wf1, fr1, st1, ?_, by simp,
        Or.inr (Or.inr ⟨by omega, by simpa using hv, hfree, hR⟩)⟩
      intro b _ _
      rw [pte1 b, if_neg (by omega)]
    · rw [if_neg (by omega)] at hR
      obtain ⟨j, s', used', wf', fr', st', inst', hun', hout⟩ :=
        ih fuel (a + 4096) ((pa + 4096) % 2 ^ 64) s1 wf1 fr1 (by omega) (by omega) hmax
          (by omega) (Nat.mod_lt _ (by decide))
      have hj : j ≤ n + 1 := by
        rcases hout with ⟨h, _⟩ | ⟨h, _⟩ | ⟨h, _⟩ <;> omega
      have hpte : ∀ k, k ≤ n → pteOf s1.mem root (a + 4096 + k * 4096) =
          pteOf s.mem root (a + (k + 1) * 4096) := by
        intro k hk
        rw [pte1 _ (by omega) (by omega), if_neg (by omega)]
        congr 1
        omega
      refine ⟨j + 1, s', used ++ used', wf', fr', st1.trans st', ?_, ?_, ?_⟩
      · intro b hb hb2
        rw [inst' b hb hb2]
        by_cases h1 : a + 4096 ≤ b ∧ b < a + 4096 + j * 4096
        · rw [if_pos h1, if_pos (by omega)]
          have e : ((pa + 4096) % 2 ^ 64 + (b - (a + 4096))) % U64 = (pa + (b - a)) % U64 := by
            unfold U64
            omega
          rw [e]
        · rw [if_neg h1, pte1 b hb hb2]
          by_cases hba : b = a
          · subst hba
            rw [if_pos rfl, if_pos (by omega)]
            simp only [Nat.sub_self, Nat.add_zero]
            rw [Nat.mod_eq_of_lt (by unfold U64; exact hpa)]
          · rw [if_neg hba, if_neg (by omega)]
      · intro k hk
        rcases k with _ | k
        · simpa using hv
        · rw [← hpte k (by omega)]
          exact hun' k (by omega)
      · rw [hR]
        rcases hout with ⟨h1, h2⟩ | ⟨h1, h2, h3⟩ | ⟨h1, h2, h3, h4⟩
        · exact Or.inl ⟨by omega, h2⟩
        · refine Or.inr (Or.inl ⟨by omega, ?_, h3⟩)
          rw [← hpte j h1]; exact h2
        · refine Or.inr (Or.inr ⟨by omega, ?_, h3, h4⟩)
          rw [← hpte j h1]; exact h2

/-! ## `mappages` and `walkaddr` -/

theorem PGROUNDDOWN_aligned (a : Nat) (h : a % 4096 = 0) (h2 : a < 2 ^ 64) :
    PGROUNDDOWN a = a := by
  rw [PGROUNDDOWN_eq a h2]; omega

theorem mappages_last (va size : Nat) (hsize : 1 ≤ size) (h : va + size - 1 < 2 ^ 64) :
    (va + size + (U64 - 1)) % U64 = va + size - 1 := by
  unfold U64
  omega

/-- What `mappages` does on a range that lies below `MAXVA`. -/
theorem mappages_spec (root va size pa : Nat) (perm : Int) (s : State)
    (wf : WF s.mem root) (fr : Fresh s.mem root s.free)
    (hsize : 1 ≤ size) (hva : va + size - 1 < MAXVA) (hpa : pa < 2 ^ 64) :
    ∃ j s' used, WF s'.mem root ∧ Fresh s'.mem root s'.free ∧ Step root s s' used ∧
      Installed root perm (PGROUNDDOWN va) pa j s s' ∧
      (∀ k, k < j → pteOf s.mem root (PGROUNDDOWN va + k * 4096) &&& PTE_V = 0) ∧
      ((j = (PGROUNDDOWN (va + size - 1) - PGROUNDDOWN va) / PGSIZE + 1 ∧
          mappages root va size pa perm s = .ok 0 s') ∨
        (j ≤ (PGROUNDDOWN (va + size - 1) - PGROUNDDOWN va) / PGSIZE ∧
          pteOf s.mem root (PGROUNDDOWN va + j * 4096) &&& PTE_V ≠ 0 ∧
          mappages root va size pa perm s = .panic "remap" s') ∨
        (j ≤ (PGROUNDDOWN (va + size - 1) - PGROUNDDOWN va) / PGSIZE ∧
          pteOf s.mem root (PGROUNDDOWN va + j * 4096) &&& PTE_V = 0 ∧ s'.free = [] ∧
          mappages root va size pa perm s = .ok (-1) s')) := by
  have hM := MAXVA_eq
  have h1 := PGROUNDDOWN_eq va (by omega)
  have h2 := PGROUNDDOWN_eq (va + size - 1) (by omega)
  have hP : PGSIZE = 4096 := rfl
  have hF : MAXVA / PGSIZE + 1 = 67108865 := by decide
  have hn : (PGROUNDDOWN (va + size - 1) - PGROUNDDOWN va) / PGSIZE =
      ((va + size - 1) / 4096 * 4096 - va / 4096 * 4096) / 4096 := by rw [h1, h2, hP]
  unfold mappages
  rw [mappages_last va size hsize (by omega)]
  exact mappagesLoop_spec root (PGROUNDDOWN (va + size - 1)) perm
    ((PGROUNDDOWN (va + size - 1) - PGROUNDDOWN va) / PGSIZE) (MAXVA / PGSIZE + 1)
    (PGROUNDDOWN va) pa s wf fr (by omega) (by omega) (by omega) (by omega) hpa

theorem slotOf_eq (m : Mem) (root va : Nat) :
    slotOf m root va =
      if ent m root (PX 2 va) &&& PTE_V ≠ 0 ∧
          ent m (l1table m root va) (PX 1 va) &&& PTE_V ≠ 0 then l0slot m root va else 0 := by
  unfold slotOf l0slot l0table l1table
  rw [pathTo_two]
  by_cases h2 : ent m root (PX 2 va) &&& PTE_V ≠ 0
  · by_cases h1 : ent m (PTE2PA (ent m root (PX 2 va))) (PX 1 va) &&& PTE_V ≠ 0
    · rw [if_pos h2, if_pos h1, if_pos ⟨h2, h1⟩]
    · rw [if_pos h2, if_neg h1, if_neg (fun h => h1 h.2)]
  · rw [if_neg h2, if_neg (fun h => h2 h.1)]

theorem walkaddr_eq (root va : Nat) (s : State) :
    walkaddr root va s = .ok
      (if va < MAXVA ∧ slotOf s.mem root va ≠ 0 ∧
          read64 s.mem (slotOf s.mem root va) &&& PTE_V ≠ 0 ∧
          read64 s.mem (slotOf s.mem root va) &&& PTE_U ≠ 0
        then PTE2PA (read64 s.mem (slotOf s.mem root va)) else 0) s := by
  unfold walkaddr
  by_cases hva : va ≥ MAXVA
  · rw [if_pos hva, if_neg (fun h => absurd h.1 (by omega))]
  · rw [if_neg hva, walk_noalloc root va s (by omega)]
    simp only
    by_cases h0 : slotOf s.mem root va = 0
    · rw [if_pos h0, if_neg (fun h => h.2.1 h0)]
    · rw [if_neg h0]
      by_cases hv : read64 s.mem (slotOf s.mem root va) &&& PTE_V = 0
      · rw [if_pos hv, if_neg (fun h => h.2.2.1 hv)]
      · rw [if_neg hv]
        by_cases hu : read64 s.mem (slotOf s.mem root va) &&& PTE_U = 0
        · rw [if_pos hu, if_neg (fun h => h.2.2.2 hu)]
        · rw [if_neg hu, if_pos ⟨by omega, h0, hv, hu⟩]

/-- Under a well-formed table `walkaddr` is a function of the level-0 entry. -/
theorem walkaddr_of_pteOf (root va : Nat) (s : State) (wf : WF s.mem root) (hva : va < MAXVA) :
    walkaddr root va s = .ok
      (if pteOf s.mem root va &&& PTE_V ≠ 0 ∧ pteOf s.mem root va &&& PTE_U ≠ 0
        then PTE2PA (pteOf s.mem root va) else 0) s := by
  rw [walkaddr_eq]
  congr 1
  unfold slotOf pteOf
  cases h : pathTo s.mem root [PX 2 va, PX 1 va] with
  | none =>
    simp only
    rw [if_neg (fun h => h.2.1 rfl), if_neg]
    rw [zero_invalid]
    simp
  | some t0 =>
    simp only
    have h0 : t0 ≠ 0 := wf.nonnull t0 ⟨_, validPath_PX va, h⟩
    have e : ent s.mem t0 (PX 0 va) = read64 s.mem (t0 + 8 * PX 0 va) := rfl
    rw [e]
    by_cases hc : read64 s.mem (t0 + 8 * PX 0 va) &&& PTE_V ≠ 0 ∧
        read64 s.mem (t0 + 8 * PX 0 va) &&& PTE_U ≠ 0
    · rw [if_pos hc, if_pos ⟨hva, by omega, hc.1, hc.2⟩]
    · rw [if_neg hc, if_neg (fun h => hc ⟨h.2.2.1, h.2.2.2⟩)]

theorem ofInt_natCast (n : Nat) (h : n < 2 ^ 64) : ofInt (n : Int) = n := by
  unfold ofInt
  have h1 : ((n : Int) % (2 : Int) ^ 64) = (n : Int) := by
    apply Int.emod_eq_of_lt
    · exact Int.ofNat_nonneg n
    · exact_mod_cast h
  rw [h1]
  exact Int.toNat_ofNat n

theorem leafPte_nat (pa perm : Nat) (hperm : perm < 1024) :
    leafPte pa (perm : Int) = PA2PTE pa ||| (perm ||| PTE_V) ∧ perm ||| PTE_V < 1024 := by
  unfold leafPte
  rw [ofInt_natCast perm (by omega), Nat.or_assoc]
  exact ⟨rfl, or_lt_1024 _ _ hperm (by decide)⟩

theorem PTE2PA_leafPte (pa perm : Nat) (hpa : pa % 4096 = 0) (hpa2 : pa < 2 ^ 64)
    (hperm : perm < 1024) : PTE2PA (leafPte pa (perm : Int)) = pa := by
  obtain ⟨h1, h2⟩ := leafPte_nat pa perm hperm
  rw [h1]
  exact PTE2PA_or pa _ hpa hpa2 h2

theorem and_PTE_U_ne (x : Nat) : x &&& PTE_U ≠ 0 ↔ x.testBit 4 = true := by
  have e : PTE_U = 2 ^ 4 := by decide
  rw [e, Nat.and_two_pow]
  cases x.testBit 4 <;> simp

theorem leafPte_user (pa perm : Nat) (hperm : perm < 1024) (hU : perm &&& PTE_U ≠ 0) :
    leafPte pa (perm : Int) &&& PTE_U ≠ 0 := by
  rw [(leafPte_nat pa perm hperm).1, and_PTE_U_ne, Nat.testBit_or, Nat.testBit_or,
    (and_PTE_U_ne perm).mp hU]
  simp

theorem PTE_FLAGS_leafPte (pa perm : Nat) (hperm : perm < 1024) :
    PTE_FLAGS (leafPte pa (perm : Int)) = perm ||| PTE_V := by
  obtain ⟨h1, h2⟩ := leafPte_nat pa perm hperm
  rw [h1, or_flags pa _ h2, PTE_FLAGS_eq, PA2PTE_eq]
  omega

theorem ent_zeroMem (t i : Nat) : ent zeroMem t i = 0 := by
  unfold ent read64 zeroMem
  rfl

theorem pathTo_zeroMem (root : Nat) (q : List Nat) (t : Nat)
    (h : pathTo zeroMem root q = some t) : q = [] ∧ t = root := by
  cases q with
  | nil => simp [pathTo] at h; exact ⟨rfl, h.symm⟩
  | cons a q => simp [pathTo, ent_zeroMem, zero_invalid] at h

theorem pteOf_zeroMem (root b : Nat) : pteOf zeroMem root b = 0 := by
  unfold pteOf
  rw [pathTo_two, ent_zeroMem, if_neg (by simp [zero_invalid])]

theorem wf_zeroMem (root : Nat) (h : root % 4096 = 0) (h0 : root ≠ 0) : WF zeroMem root := by
  refine ⟨h, ?_, ?_⟩
  · intro q q' t _ _ h1 h2
    rw [(pathTo_zeroMem root q t h1).1, (pathTo_zeroMem root q' t h2).1]
  · rintro t ⟨q, _, hq⟩
    rw [(pathTo_zeroMem root q t hq).2]; exact h0

theorem fresh_zeroMem (root : Nat) (fl : List Nat) (hn : fl.Nodup)
    (hf : ∀ f ∈ fl, f % 4096 = 0 ∧ f ≠ 0 ∧ f < 2 ^ 64 ∧ f ≠ root) : Fresh zeroMem root fl := by
  refine ⟨hn, fun f h => ⟨(hf f h).1, (hf f h).2.1, (hf f h).2.2.1⟩, ?_⟩
  rintro f h ⟨q, _, hq⟩
  exact (hf f h).2.2.2 (pathTo_zeroMem root q f hq).2

theorem wf_st0 : WF st0.mem 0x1000 := wf_zeroMem 0x1000 (by decide) (by decide)

theorem fresh_st0 : Fresh st0.mem 0x1000 st0.free :=
  fresh_zeroMem 0x1000 _ (by decide) (by decide)

/-! ## The branches of `walk` -/

theorem walk_of_loop (root va : Nat) (alloc : Int) (s s' : State) (r : Nat) (hva : va < MAXVA)
    (h : walkLoop va alloc 2 root s = (r, s')) : walk root va alloc s = .ok r s' := by
  unfold walk
  rw [if_neg (by omega), h]

theorem walkLoop_valid (va : Nat) (alloc : Int) (l t : Nat) (s : State)
    (hv : ent s.mem t (PX (l + 1) va) &&& PTE_V ≠ 0) :
    walkLoop va alloc (l + 1) t s = walkLoop va alloc l (PTE2PA (ent s.mem t (PX (l + 1) va))) s := by
  rw [walkLoop_succ, if_pos hv]

theorem walkLoop_fail (va : Nat) (alloc : Int) (l t : Nat) (s : State)
    (hv : ent s.mem t (PX (l + 1) va) &&& PTE_V = 0) (halloc : alloc ≠ 0) (hfree : s.free = []) :
    walkLoop va alloc (l + 1) t s = (0, s) := by
  rw [walkLoop_succ, if_neg (by simp [hv]), if_neg halloc]
  simp [kalloc, hfree]

theorem walkLoop_link (va : Nat) (alloc : Int) (l t : Nat) (s : State) (f : Nat) (rest : List Nat)
    (hv : ent s.mem t (PX (l + 1) va) &&& PTE_V = 0) (halloc : alloc ≠ 0)
    (hfree : s.free = f :: rest) (hf : f ≠ 0) :
    walkLoop va alloc (l + 1) t s = walkLoop va alloc l f
      { mem := write64 (memset s.mem f 0 PGSIZE) (t + 8 * PX (l + 1) va) (PA2PTE f ||| PTE_V),
        free := rest } := by
  rw [walkLoop_succ, if_neg (by simp [hv]), if_neg halloc]
  simp [kalloc, hfree, hf]

theorem walkLoop2_valid (root va : Nat) (alloc : Int) (s : State)
    (hv : ent s.mem root (PX 2 va) &&& PTE_V ≠ 0) :
    walkLoop va alloc 2 root s = walkLoop va alloc 1 (l1table s.mem root va) s :=
  walkLoop_valid va alloc 1 root s hv

theorem walkLoop1_valid (va : Nat) (alloc : Int) (t : Nat) (s : State)
    (hv : ent s.mem t (PX 1 va) &&& PTE_V ≠ 0) :
    walkLoop va alloc 1 t s = (PTE2PA (ent s.mem t (PX 1 va)) + 8 * PX 0 va, s) :=
  walkLoop_valid va alloc 0 t s hv

theorem walkLoop1_link (va : Nat) (alloc : Int) (t : Nat) (s : State) (f : Nat) (rest : List Nat)
    (hv : ent s.mem t (PX 1 va) &&& PTE_V = 0) (halloc : alloc ≠ 0)
    (hfree : s.free = f :: rest) (hf : f ≠ 0) :
    walkLoop va alloc 1 t s = (f + 8 * PX 0 va,
      { mem := write64 (memset s.mem f 0 PGSIZE) (t + 8 * PX 1 va) (PA2PTE f ||| PTE_V),
        free := rest }) :=
  walkLoop_link va alloc 0 t s f rest hv halloc hfree hf

theorem walkLoop2_link (root va : Nat) (alloc : Int) (s : State) (f : Nat) (rest : List Nat)
    (hv : ent s.mem root (PX 2 va) &&& PTE_V = 0) (halloc : alloc ≠ 0)
    (hfree : s.free = f :: rest) (hf : f ≠ 0) :
    walkLoop va alloc 2 root s = walkLoop va alloc 1 f
      { mem := write64 (memset s.mem f 0 PGSIZE) (root + 8 * PX 2 va) (PA2PTE f ||| PTE_V),
        free := rest } :=
  walkLoop_link va alloc 1 root s f rest hv halloc hfree hf

theorem walk_noalloc_slot (root va : Nat) (s : State) (hva : va < MAXVA)
    (h2 : ent s.mem root (PX 2 va) &&& PTE_V ≠ 0)
    (h1 : ent s.mem (l1table s.mem root va) (PX 1 va) &&& PTE_V ≠ 0) :
    walk root va 0 s = .ok (l0slot s.mem root va) s := by
  rw [walk_noalloc root va s hva, slotOf_eq, if_pos ⟨h2, h1⟩]

theorem missing_two (m : Mem) (root va : Nat) :
    missing m va 2 root =
      if ent m root (PX 2 va) &&& PTE_V ≠ 0 then
        (if ent m (l1table m root va) (PX 1 va) &&& PTE_V ≠ 0 then 0 else 1)
      else 2 := by
  simp only [missing, l1table]

/-! ## `mappages` page by page -/

theorem mappages_single (root a pa : Nat) (perm : Int) (s : State)
    (ha : a % 4096 = 0) (ha2 : a < MAXVA) :
    mappages root a PGSIZE pa perm s =
      mappagesLoop root a perm (MAXVA / PGSIZE + 1) a pa s := by
  have hM := MAXVA_eq
  have hP : PGSIZE = 4096 := rfl
  have e1 : PGROUNDDOWN a = a := PGROUNDDOWN_aligned a ha (by omega)
  have e2 : PGROUNDDOWN ((a + PGSIZE + (U64 - 1)) % U64) = a := by
    rw [mappages_last a PGSIZE (by decide) (by omega), PGROUNDDOWN_eq _ (by omega)]
    omega
  unfold mappages
  rw [e1, e2]

theorem mappagesLoop_split (root last : Nat) (perm : Int) (fuel fuel' a pa : Nat) (s : State)
    (hne : a ≠ last) :
    mappagesLoop root last perm (fuel + 1) a pa s =
      match mappagesLoop root a perm (fuel' + 1) a pa s with
      | .ok e s1 =>
        if e = 0 then
          mappagesLoop root last perm fuel ((a + PGSIZE) % U64) ((pa + PGSIZE) % U64) s1
        else .ok e s1
      | .panic msg s1 => .panic msg s1 := by
  rw [mappagesLoop_succ, mappagesLoop_succ]
  cases walk root a 1 s with
  | panic msg s1 => rfl
  | ok pte s1 =>
    by_cases h0 : pte = 0
    · simp [h0]
    · by_cases hv : read64 s1.mem pte &&& PTE_V = 0
      · simp [h0, hv, hne]
      · simp [h0, hv]

theorem mappagesLoop_last (root : Nat) (perm : Int) (fuel fuel' a pa : Nat) (s : State) :
    mappagesLoop root a perm (fuel + 1) a pa s =
      match mappagesLoop root a perm (fuel' + 1) a pa s with
      | .ok e s1 => if e = 0 then .ok 0 s1 else .ok e s1
      | .panic msg s1 => .panic msg s1 := by
  rw [mappagesLoop_succ, mappagesLoop_succ]
  cases walk root a 1 s with
  | panic msg s1 => rfl
  | ok pte s1 =>
    by_cases h0 : pte = 0
    · simp [h0]
    · by_cases hv : read64 s1.mem pte &&& PTE_V = 0
      · simp [h0, hv]
      · simp [h0, hv]

/-- The loop of `mappages` is the page-by-page sequence of single-page calls in
ascending address order. -/
theorem mappagesLoop_mapEach (root last : Nat) (perm : Int) :
    ∀ n fuel a pa s, a % 4096 = 0 → a + n * 4096 = last → last < MAXVA → n < fuel →
      mappagesLoop root last perm fuel a pa s = mapEach root perm (n + 1) a pa s := by
  have hM := MAXVA_eq
  have hP : PGSIZE = 4096 := rfl
  intro n
  induction n with
  | zero =>
    intro fuel a pa s ha hlast hmax hfuel
    obtain ⟨fuel, rfl⟩ : ∃ f, fuel = f + 1 := ⟨fuel - 1, by omega⟩
    have hl : last = a := by omega
    subst hl
    simp only [mapEach]
    rw [mappages_single root last pa perm s ha hmax,
      mappagesLoop_last root perm fuel (MAXVA / PGSIZE) last pa s]
  | succ n ih =>
    intro fuel a pa s ha hlast hmax hfuel
    obtain ⟨fuel, rfl⟩ : ∃ f, fuel = f + 1 := ⟨fuel - 1, by omega⟩
    have e : (a + PGSIZE) % U64 = a + 4096 := by
      unfold PGSIZE U64
      exact Nat.mod_eq_of_lt (by omega)
    rw [mapEach, mappages_single root a pa perm s ha (by omega),
      mappagesLoop_split root last perm fuel (MAXVA / PGSIZE) a pa s (by omega)]
    cases mappagesLoop root a perm (MAXVA / PGSIZE + 1) a pa s with
    | panic msg s1 => rfl
    | ok e1 s1 =>
      simp only
      by_cases h0 : e1 = 0
      · rw [if_pos h0, if_pos h0, e]
        exact ih fuel (a + 4096) _ s1 (by omega) (by omega) hmax (by omega)
      · rw [if_neg h0, if_neg h0]

theorem mappages_mapEach (root va size pa : Nat) (perm : Int) (s : State)
    (hsize : 1 ≤ size) (hva : va + size - 1 < MAXVA) :
    mappages root va size pa perm s =
      mapEach root perm ((PGROUNDDOWN (va + size - 1) - PGROUNDDOWN va) / PGSIZE + 1)
        (PGROUNDDOWN va) pa s := by
  have hM := MAXVA_eq
  have h1 := PGROUNDDOWN_eq va (by omega)
  have h2 := PGROUNDDOWN_eq (va + size - 1) (by omega)
  have hP : PGSIZE = 4096 := rfl
  have hF : MAXVA / PGSIZE + 1 = 67108865 := by decide
  have hn : (PGROUNDDOWN (va + size - 1) - PGROUNDDOWN va) / PGSIZE =
      ((va + size - 1) / 4096 * 4096 - va / 4096 * 4096) / 4096 := by rw [h1, h2, hP]
  unfold mappages
  rw [mappages_last va size hsize (by omega)]
  exact mappagesLoop_mapEach root (PGROUNDDOWN (va + size - 1)) perm
    ((PGROUNDDOWN (va + size - 1) - PGROUNDDOWN va) / PGSIZE) (MAXVA / PGSIZE + 1)
    (PGROUNDDOWN va) pa s (by omega) (by omega) (by omega) (by omega)

theorem Res.eq_ok_of_val {α : Type} (r : Res α) (v : α) (h : r.val = some v) :
    r = .ok v r.state := by
  cases r with
  | ok v' s => simp [Res.val] at h; subst h; rfl
  | panic m s => simp [Res.val] at h

theorem Res.eq_panic_of_msg {α : Type} (r : Res α) (m : String) (h : r.msg = some m) :
    r = .panic m r.state := by
  cases r with
  | ok v' s => simp [Res.msg] at h
  | panic m' s => simp [Res.msg] at h; subst h; rfl

/-- A successful `mappages` keeps the table well formed and the allocator well
behaved, and leaves every page of its range mapped. -/
theorem mappages_ok_post (root va size pa : Nat) (perm : Int) (s s1 : State)
    (wf : WF s.mem root) (fr : Fresh s.mem root s.free)
    (hsize : 1 ≤ size) (hva : va + size - 1 < MAXVA) (hpa : pa < 2 ^ 64)
    (h : mappages root va size pa perm s = .ok 0 s1) :
    WF s1.mem root ∧ Fresh s1.mem root s1.free ∧
      Installed root perm (PGROUNDDOWN va) pa
        ((PGROUNDDOWN (va + size - 1) - PGROUNDDOWN va) / PGSIZE + 1) s s1 := by
  obtain ⟨j, s', used, wf', fr', _, inst, _, hout⟩ :=
    mappages_spec root va size pa perm s wf fr hsize hva hpa
  rcases hout with ⟨hj, hR⟩ | ⟨_, _, hR⟩ | ⟨_, _, _, hR⟩
  · rw [h] at hR
    injection hR with _ hs
    subst hs
    subst hj
    exact ⟨wf', fr', inst⟩
  · rw [h] at hR; cases hR
  · rw [h] at hR
    injection hR with hv _
    cases hv

/-! ## `uvmunmap` -/

theorem uvmunmapLoop_succ (root bound : Nat) (do_free : Int) (fuel a : Nat) (s : State) :
    uvmunmapLoop root bound do_free (fuel + 1) a s =
      if a < bound then
        match walk root a 0 s with
        | .panic msg s1 => .panic msg s1
        | .ok pte s1 =>
          if pte = 0 then .panic "uvmunmap: walk" s1
          else if read64 s1.mem pte &&& PTE_V = 0 then .panic "uvmunmap: not mapped" s1
          else if PTE_FLAGS (read64 s1.mem pte) = PTE_V then .panic "uvmunmap: not a leaf" s1
          else
            uvmunmapLoop root bound do_free fuel ((a + PGSIZE) % U64)
              { mem := write64 (if do_free ≠ 0 then kfree (PTE2PA (read64 s1.mem pte)) s1
                  else s1).mem pte 0,
                free := (if do_free ≠ 0 then kfree (PTE2PA (read64 s1.mem pte)) s1
                  else s1).free }
      else .ok () s := rfl

theorem slotOf_pteOf (m : Mem) (root a : Nat) (h : slotOf m root a ≠ 0) :
    ∃ t0, pathTo m root [PX 2 a, PX 1 a] = some t0 ∧ slotOf m root a = t0 + 8 * PX 0 a ∧
      read64 m (slotOf m root a) = pteOf m root a := by
  unfold slotOf pteOf at *
  cases hp : pathTo m root [PX 2 a, PX 1 a] with
  | none => rw [hp] at h; exact absurd rfl h
  | some t0 => exact ⟨t0, rfl, rfl, rfl⟩

theorem slotOf_congr (m m' : Mem) (root a : Nat)
    (h : ∀ q, ValidPath q → pathTo m' root q = pathTo m root q) :
    slotOf m' root a = slotOf m root a := by
  unfold slotOf
  rw [h _ (validPath_PX a)]

/-- An iteration of `uvmunmap` at a page that fails one of its checks. -/
theorem uvmunmapLoop_bad (root bound : Nat) (do_free : Int) (fuel a : Nat) (s : State)
    (hlt : a < bound) (hbad : ¬ Unmappable s.mem root a) :
    ∃ msg, uvmunmapLoop root bound do_free (fuel + 1) a s = .panic msg s := by
  rw [uvmunmapLoop_succ, if_pos hlt]
  by_cases hva : a < MAXVA
  · rw [walk_noalloc root a s hva]
    simp only
    by_cases h0 : slotOf s.mem root a = 0
    · exact ⟨_, by rw [if_pos h0]⟩
    · rw [if_neg h0]
      obtain ⟨t0, _, _, he⟩ := slotOf_pteOf s.mem root a h0
      rw [he]
      by_cases hv : pteOf s.mem root a &&& PTE_V = 0
      · exact ⟨_, by rw [if_pos hv]⟩
      · rw [if_neg hv]
        by_cases hf : PTE_FLAGS (pteOf s.mem root a) = PTE_V
        · exact ⟨_, by rw [if_pos hf]⟩
        · exact absurd ⟨hva, h0, hv, hf⟩ hbad
  · refine ⟨"walk", ?_⟩
    unfold walk
    rw [if_pos (by omega)]

/-- An iteration of `uvmunmap` at a page that passes its checks: the entry is
cleared, the frame is freed if asked for, and the loop goes on. -/
theorem uvmunmapLoop_good (root bound : Nat) (do_free : Int) (fuel a : Nat) (s : State)
    (wf : WF s.mem root) (ha : a % 4096 = 0) (hlt : a < bound)
    (hgood : Unmappable s.mem root a) :
    ∃ s3, uvmunmapLoop root bound do_free (fuel + 1) a s =
        uvmunmapLoop root bound do_free fuel (a + 4096) s3 ∧
      Unmapped root a (a + 4096) s s3 ∧
      s3.free = freed do_free s.mem root a 1 ++ s.free := by
  obtain ⟨hva, h0, hv, hf⟩ := hgood
  have hM := MAXVA_eq
  obtain ⟨t0, hp, hs, he⟩ := slotOf_pteOf s.mem root a h0
  have e1 : (a + PGSIZE) % U64 = a + 4096 := by
    unfold PGSIZE U64
    exact Nat.mod_eq_of_lt (by omega)
  have hmem : (if do_free ≠ 0 then kfree (PTE2PA (read64 s.mem (slotOf s.mem root a))) s
      else s).mem = s.mem := by
    split <;> rfl
  have hfree : (if do_free ≠ 0 then kfree (PTE2PA (read64 s.mem (slotOf s.mem root a))) s
      else s).free = freed do_free s.mem root a 1 ++ s.free := by
    unfold freed leafFrames leafFrames
    split
    · rw [he]; rfl
    · rfl
  refine ⟨{ mem := write64 s.mem (slotOf s.mem root a) 0,
            free := freed do_free s.mem root a 1 ++ s.free }, ?_, ?_, rfl⟩
  · rw [uvmunmapLoop_succ, if_pos hlt, walk_noalloc root a s hva]
    simp only
    rw [if_neg h0, he, if_neg (by simpa using hv), if_neg hf, e1, ← he, hmem, hfree]
  · rw [hs]
    refine ⟨store_wf wf hp (by decide), store_path wf hp (by decide), ?_, ?_⟩
    · intro b hb hb2
      show pteOf (write64 s.mem (t0 + 8 * PX 0 a) 0) root b = _
      rw [store_pte wf hp (by decide) ha (by omega) b hb hb2]
      by_cases hba : b = a
      · rw [if_pos hba, if_pos (by omega)]
      · rw [if_neg hba, if_neg (by omega)]
    · intro x hx
      exact (store_stored wf hp (by decide : (0 : Nat) < 2 ^ 64)).bytes x
        (hx t0 ⟨_, validPath_PX a, hp⟩)

theorem Unmapped.unmappable_iff {root a bound : Nat} {s s' : State} (h : Unmapped root a bound s s')
    (b : Nat) (hb : b % 4096 = 0) (hout : b < a ∨ bound ≤ b) :
    Unmappable s'.mem root b ↔ Unmappable s.mem root b := by
  have hM := MAXVA_eq
  unfold Unmappable
  rw [slotOf_congr s.mem s'.mem root b h.path]
  by_cases hb2 : b < 2 ^ 39
  · rw [h.pte b hb hb2, if_neg (by omega)]
  · constructor <;> (intro hh; exact absurd hh.1 (by omega))

theorem leafFrames_congr (m m' : Mem) (root : Nat) :
    ∀ n a, (∀ i, i < n → pteOf m' root (a + i * 4096) = pteOf m root (a + i * 4096)) →
      leafFrames m' root a n = leafFrames m root a n := by
  intro n
  induction n with
  | zero => intro a _; rfl
  | succ n ih =>
    intro a h
    have h0 := h 0 (by omega)
    simp only [Nat.zero_mul, Nat.add_zero] at h0
    simp only [leafFrames]
    rw [h0, ih (a + 4096)]
    intro i hi
    have := h (i + 1) (by omega)
    rw [show a + (i + 1) * 4096 = a + 4096 + i * 4096 by omega] at this
    exact this

theorem Unmapped.refl_unmap (root a bound : Nat) (s : State) (wf : WF s.mem root) (h : bound ≤ a) :
    Unmapped root a bound s s :=
  ⟨wf, fun _ _ => rfl, fun b _ _ => by rw [if_neg (by omega)], fun _ _ => rfl⟩

theorem Unmapped.trans_unmap {root a mid bound : Nat} {s s1 s2 : State}
    (h1 : Unmapped root a mid s s1) (h2 : Unmapped root mid bound s1 s2)
    (ha : a ≤ mid) (hb : mid ≤ bound) : Unmapped root a bound s s2 := by
  refine ⟨h2.wf, fun q hq => (h2.path q hq).trans (h1.path q hq), ?_, ?_⟩
  · intro b hb1 hb2
    rw [h2.pte b hb1 hb2, h1.pte b hb1 hb2]
    by_cases c1 : mid ≤ b ∧ b < bound
    · rw [if_pos c1, if_pos (by omega)]
    · rw [if_neg c1]
      by_cases c2 : a ≤ b ∧ b < mid
      · rw [if_pos c2, if_pos (by omega)]
      · rw [if_neg c2, if_neg (by omega)]
  · intro x hx
    rw [h2.bytes x ?_, h1.bytes x hx]
    rintro t ⟨q, hq, hp⟩
    exact hx t ⟨q, hq, by rw [← h1.path q hq]; exact hp⟩

theorem freed_succ (do_free : Int) (m : Mem) (root a n : Nat) :
    freed do_free m root a (n + 1) = freed do_free m root (a + 4096) n ++ freed do_free m root a 1 := by
  unfold freed
  split
  · simp [leafFrames]
  · rfl

/-- The loop of `uvmunmap` from page `a`: it returns, with every entry of
`[a, bound)` cleared, when all these pages pass the checks, and it panics when
one of them does not.  The fuel is enough as soon as it covers the pages up to
`MAXVA`. -/
theorem uvmunmapLoop_spec (root bound : Nat) (do_free : Int) (hbound : bound % 4096 = 0) :
    ∀ fuel a s, WF s.mem root → a % 4096 = 0 → MAXVA ≤ a + fuel * 4096 →
      ((∀ b, b % 4096 = 0 → a ≤ b → b < bound → Unmappable s.mem root b) →
        ∃ s', uvmunmapLoop root bound do_free (fuel + 1) a s = .ok () s' ∧
          Unmapped root a bound s s' ∧
          s'.free = freed do_free s.mem root a ((bound - a) / 4096) ++ s.free) ∧
      ((∃ b, b % 4096 = 0 ∧ a ≤ b ∧ b < bound ∧ ¬ Unmappable s.mem root b) →
        ∃ msg s', uvmunmapLoop root bound do_free (fuel + 1) a s = .panic msg s') := by
  have hM := MAXVA_eq
  intro fuel
  induction fuel with
  | zero =>
    intro a s wf ha hfuel
    by_cases hlt : a < bound
    · have hbad : ¬ Unmappable s.mem root a := fun h => absurd h.1 (by omega)
      obtain ⟨msg, hmsg⟩ := uvmunmapLoop_bad root bound do_free 0 a s hlt hbad
      exact ⟨fun hall => absurd (hall a ha (Nat.le_refl a) hlt) hbad, fun _ => ⟨msg, s, hmsg⟩⟩
    · refine ⟨fun _ => ⟨s, ?_, Unmapped.refl_unmap root a bound s wf (by omega), ?_⟩, ?_⟩
      · rw [uvmunmapLoop_succ, if_neg hlt]
      · have : (bound - a) / 4096 = 0 := by omega
        rw [this]
        unfold freed leafFrames
        simp
      · rintro ⟨b, _, h1, h2, _⟩
        omega
  | succ fuel ih =>
    intro a s wf ha hfuel
    by_cases hlt : a < bound
    · by_cases hgood : Unmappable s.mem root a
      · obtain ⟨s3, hstep, hun3, hfree3⟩ :=
          uvmunmapLoop_good root bound do_free (fuel + 1) a s wf ha hlt hgood
        obtain ⟨ih1, ih2⟩ := ih (a + 4096) s3 hun3.wf (by omega) (by omega)
        rw [hstep]
        constructor
        · intro hall
          have hall3 : ∀ b, b % 4096 = 0 → a + 4096 ≤ b → b < bound → Unmappable s3.mem root b := by
            intro b hb h1 h2
            rw [hun3.unmappable_iff b hb (by omega)]
            exact hall b hb (by omega) h2
          obtain ⟨s', hR, hun', hfree'⟩ := ih1 hall3
          refine ⟨s', hR, hun3.trans_unmap hun' (by omega) (by omega), ?_⟩
          have hn : (bound - a) / 4096 = (bound - (a + 4096)) / 4096 + 1 := by omega
          rw [hfree', hfree3, hn, freed_succ do_free s.mem root a ((bound - (a + 4096)) / 4096),
            List.append_assoc]
          congr 1
          unfold freed
          split
          · congr 1
            apply leafFrames_congr
            intro i hi
            have hlt2 : a + 4096 + i * 4096 < bound := by omega
            have := (hall (a + 4096 + i * 4096) (by omega) (by omega) hlt2).1
            rw [hun3.pte _ (by omega) (by omega), if_neg (by omega)]
          · rfl
        · rintro ⟨b, hb, h1, h2, hbad⟩
          apply ih2
          have hne : b ≠ a := by rintro rfl; exact hbad hgood
          refine ⟨b, hb, by omega, h2, ?_⟩
          rw [hun3.unmappable_iff b hb (by omega)]
          exact hbad
      · obtain ⟨msg, hmsg⟩ := uvmunmapLoop_bad root bound do_free (fuel + 1) a s hlt hgood
        exact ⟨fun hall => absurd (hall a ha (Nat.le_refl a) hlt) hgood, fun _ => ⟨msg, s, hmsg⟩⟩
    · refine ⟨fun _ => ⟨s, ?_, Unmapped.refl_unmap root a bound s wf (by omega), ?_⟩, ?_⟩
      · rw [uvmunmapLoop_succ, if_neg hlt]
      · have : (bound - a) / 4096 = 0 := by omega
        rw [this]
        unfold freed leafFrames
        simp
      · rintro ⟨b, _, h1, h2, _⟩
        omega

/-- What `uvmunmap` does on a well-formed table, for a page-aligned `va`. -/
theorem uvmunmap_spec (root va npages : Nat) (do_free : Int) (s : State)
    (wf : WF s.mem root) (hva : va % 4096 = 0) :
    ((∀ b, b % 4096 = 0 → va ≤ b → b < (va + npages * PGSIZE) % U64 → Unmappable s.mem root b) →
      ∃ s', uvmunmap root va npages do_free s = .ok () s' ∧
        Unmapped root va ((va + npages * PGSIZE) % U64) s s' ∧
        s'.free = freed do_free s.mem root va (((va + npages * PGSIZE) % U64 - va) / 4096)
          ++ s.free) ∧
    ((∃ b, b % 4096 = 0 ∧ va ≤ b ∧ b < (va + npages * PGSIZE) % U64 ∧
        ¬ Unmappable s.mem root b) →
      ∃ msg s', uvmunmap root va npages do_free s = .panic msg s') := by
  have hP : PGSIZE = 4096 := rfl
  have hU : U64 = 2 ^ 64 := rfl
  have hb : (va + npages * PGSIZE) % U64 % 4096 = 0 := by
    rw [hP, hU]; omega
  have hF : MAXVA / PGSIZE + 2 = (MAXVA / PGSIZE + 1) + 1 := rfl
  have hF2 : MAXVA / PGSIZE + 1 = 67108865 := by decide
  have hM := MAXVA_eq
  unfold uvmunmap
  rw [if_neg (by rw [hP]; omega), hF]
  exact uvmunmapLoop_spec root _ do_free hb (MAXVA / PGSIZE + 1) va s wf hva (by omega)

/-! ## `uvmalloc` and `uvmdealloc` -/

theorem uvmallocLoop_succ (root oldsz newsz fuel a : Nat) (s : State) :
    uvmallocLoop root oldsz newsz (fuel + 1) a s =
      if a < newsz then
        if (kalloc s).1 = 0 then
          match uvmdealloc root a oldsz (kalloc s).2 with
          | .panic msg s1 => .panic msg s1
          | .ok _ s1 => .ok 0 s1
        else
          match mappages root a PGSIZE (kalloc s).1
              ((PTE_W ||| PTE_X ||| PTE_R ||| PTE_U : Nat) : Int)
              { mem := memset (kalloc s).2.mem (kalloc s).1 0 PGSIZE, free := (kalloc s).2.free } with
          | .panic msg s3 => .panic msg s3
          | .ok e s3 =>
            if e ≠ 0 then
              match uvmdealloc root a oldsz (kfree (kalloc s).1 s3) with
              | .panic msg s4 => .panic msg s4
              | .ok _ s4 => .ok 0 s4
            else uvmallocLoop root oldsz newsz fuel ((a + PGSIZE) % U64) s3
      else .ok newsz s := rfl

theorem pathTo_congr_tables (m m' : Mem) (root : Nat)
    (h : ∀ t, TablePage m root t → ∀ j, j < 512 → ent m' t j = ent m t j) :
    ∀ q, ValidPath q → pathTo m' root q = pathTo m root q := by
  intro q hq
  obtain ⟨hl, hidx⟩ := hq
  rcases q with _ | ⟨a, _ | ⟨b, _ | ⟨c, q⟩⟩⟩
  · rfl
  · have ha : a < 512 := hidx a (by simp)
    rw [pathTo_one, pathTo_one, h root (tablePage_root m root) a ha]
  · have ha : a < 512 := hidx a (by simp)
    have hb : b < 512 := hidx b (by simp)
    rw [pathTo_two, pathTo_two, h root (tablePage_root m root) a ha]
    by_cases hv : ent m root a &&& PTE_V ≠ 0
    · rw [h (PTE2PA (ent m root a))
        ⟨[a], validPath_one a ha, by rw [pathTo_one, if_pos hv]⟩ b hb]
    · rw [if_neg hv, if_neg hv]
  · simp at hl

theorem pteOf_congr_tables (m m' : Mem) (root : Nat)
    (h : ∀ t, TablePage m root t → ∀ j, j < 512 → ent m' t j = ent m t j) (b : Nat) :
    pteOf m' root b = pteOf m root b := by
  unfold pteOf
  rw [pathTo_congr_tables m m' root h _ (validPath_PX b)]
  cases hp : pathTo m root [PX 2 b, PX 1 b] with
  | none => rfl
  | some t0 => exact h t0 ⟨_, validPath_PX b, hp⟩ _ (PX_lt _ _)

/-- Taking a data frame from the allocator and zero-filling it, as `uvmalloc`
does before it calls `mappages`. -/
theorem alloc_data (root d : Nat) (rest : List Nat) (s : State)
    (wf : WF s.mem root) (fr : Fresh s.mem root s.free) (hfree : s.free = d :: rest) :
    WF (memset s.mem d 0 PGSIZE) root ∧ Fresh (memset s.mem d 0 PGSIZE) root rest ∧
      Step root s { mem := memset s.mem d 0 PGSIZE, free := rest } [d] ∧
      (∀ b, pteOf (memset s.mem d 0 PGSIZE) root b = pteOf s.mem root b) ∧
      (∀ x, d ≤ x → x < d + 4096 → memset s.mem d 0 PGSIZE x = 0) ∧
      ¬ TablePage (memset s.mem d 0 PGSIZE) root d := by
  have hP : PGSIZE = 4096 := rfl
  have fr' : Fresh s.mem root (d :: rest) := hfree ▸ fr
  obtain ⟨hd1, hd0, hd2⟩ := fr'.frame d (by simp)
  have hds : ¬ TablePage s.mem root d := fr'.sep d (by simp)
  have hent : ∀ t, TablePage s.mem root t → ∀ j, j < 512 →
      ent (memset s.mem d 0 PGSIZE) t j = ent s.mem t j := by
    intro t ht j hj
    have hal := tablePage_aligned wf.aligned ht
    have hne : t ≠ d := by rintro rfl; exact hds ht
    unfold ent
    exact read64_memset_out _ _ _ _ _ (by omega)
  have hpath := pathTo_congr_tables s.mem _ root hent
  have htp : ∀ t, TablePage (memset s.mem d 0 PGSIZE) root t ↔ TablePage s.mem root t := by
    intro t
    constructor
    · rintro ⟨q, hq, hp⟩
      exact ⟨q, hq, by rw [← hpath q hq]; exact hp⟩
    · rintro ⟨q, hq, hp⟩
      exact ⟨q, hq, by rw [hpath q hq]; exact hp⟩
  have hnd := List.nodup_cons.mp fr'.nodup
  refine ⟨⟨wf.aligned, ?_, ?_⟩, ⟨hnd.2, fun g hg => fr'.frame g (by simp [hg]), ?_⟩,
    ⟨by simp [hfree], ?_, ?_, ?_⟩, pteOf_congr_tables s.mem _ root hent, ?_, ?_⟩
  · intro q q' t hq hq' h1 h2
    rw [hpath q hq] at h1
    rw [hpath q' hq'] at h2
    exact wf.inj q q' t hq hq' h1 h2
  · intro t ht
    exact wf.nonnull t ((htp t).mp ht)
  · intro g hg ht
    exact fr'.sep g (by simp [hg]) ((htp g).mp ht)
  · intro q t hq h
    show pathTo (memset s.mem d 0 PGSIZE) root q = some t
    rw [hpath q hq]; exact h
  · intro q t hq h
    left
    rw [← hpath q hq]; exact h
  · intro x _ hx
    have := hx d (by simp)
    exact memset_out _ _ _ _ _ (by omega)
  · intro x h1 h2
    exact memset_in _ _ _ _ _ h1 (by omega)
  · intro h
    exact hds ((htp d).mp h)

theorem unmappable_of_wf (m : Mem) (root b : Nat) (wf : WF m root) (hb : b < MAXVA)
    (hv : pteOf m root b &&& PTE_V ≠ 0) (hf : PTE_FLAGS (pteOf m root b) ≠ PTE_V) :
    Unmappable m root b := by
  refine ⟨hb, ?_, hv, hf⟩
  unfold slotOf
  unfold pteOf at hv
  cases hp : pathTo m root [PX 2 b, PX 1 b] with
  | none =>
    rw [hp] at hv
    exact absurd zero_invalid hv
  | some t0 =>
    have := wf.nonnull t0 ⟨_, validPath_PX b, hp⟩
    show t0 + 8 * PX 0 b ≠ 0
    omega

theorem toInt32_small (k : Nat) (h : k < 2 ^ 31) : ofInt (toInt32 k) = k := by
  unfold toInt32
  have h1 : k % 2 ^ 32 = k := Nat.mod_eq_of_lt (by omega)
  rw [h1, if_pos h]
  exact ofInt_natCast k (by omega)

theorem PGROUNDUP_aligned (a : Nat) (h : a % 4096 = 0) (h2 : a < 2 ^ 63) : PGROUNDUP a = a := by
  rw [PGROUNDUP_eq]; omega

/-- The roll-back call of `uvmalloc`: `uvmdealloc(pt, a, oldsz)` for page-aligned
`oldsz <= a <= MAXVA` when every page of `[oldsz, a)` passes the checks of
`uvmunmap`. -/
theorem uvmdealloc_rollback (root a oldsz : Nat) (s : State) (wf : WF s.mem root)
    (ha : a % 4096 = 0) (ho : oldsz % 4096 = 0) (hle : oldsz ≤ a) (hmax : a ≤ MAXVA)
    (hall : ∀ b, b % 4096 = 0 → oldsz ≤ b → b < a → Unmappable s.mem root b) :
    ∃ r s', uvmdealloc root a oldsz s = .ok r s' ∧ Unmapped root oldsz a s s' ∧
      s'.free = (leafFrames s.mem root oldsz ((a - oldsz) / 4096)).reverse ++ s.free := by
  have hM := MAXVA_eq
  have hP : PGSIZE = 4096 := rfl
  have hU : U64 = 2 ^ 64 := rfl
  unfold uvmdealloc
  by_cases h : oldsz ≥ a
  · rw [if_pos h]
    have e : (a - oldsz) / 4096 = 0 := by omega
    refine ⟨a, s, rfl, Unmapped.refl_unmap root oldsz a s wf (by omega), ?_⟩
    rw [e]
    simp [leafFrames]
  · rw [if_neg h, PGROUNDUP_aligned a ha (by omega), PGROUNDUP_aligned oldsz ho (by omega),
      if_pos (by omega)]
    simp only
    rw [toInt32_small _ (by rw [hP]; omega)]
    have hb : (oldsz + (a - oldsz) / PGSIZE * PGSIZE) % U64 = a := by
      rw [hP, hU]; omega
    obtain ⟨h1, _⟩ := uvmunmap_spec root oldsz ((a - oldsz) / PGSIZE) 1 s wf ho
    rw [hb] at h1
    obtain ⟨s', hR, hun, hfree⟩ := h1 hall
    rw [hR]
    refine ⟨oldsz, s', rfl, hun, ?_⟩
    rw [hfree]
    unfold freed
    rw [if_pos (by decide)]

theorem uperm_facts (d : Nat) (hd1 : d % 4096 = 0) (hd2 : d < 2 ^ 64) :
    PTE2PA (leafPte d uperm) = d ∧
      PTE_FLAGS (leafPte d uperm) = PTE_V ||| PTE_R ||| PTE_W ||| PTE_X ||| PTE_U ∧
      PTE_FLAGS (leafPte d uperm) ≠ PTE_V := by
  have h30 : (PTE_W ||| PTE_X ||| PTE_R ||| PTE_U : Nat) < 1024 := by decide
  have hf := PTE_FLAGS_leafPte d _ h30
  refine ⟨PTE2PA_leafPte d _ hd1 hd2 h30, ?_, ?_⟩
  · show PTE_FLAGS (leafPte d ((PTE_W ||| PTE_X ||| PTE_R ||| PTE_U : Nat) : Int)) = _
    rw [hf]
    decide
  · show PTE_FLAGS (leafPte d ((PTE_W ||| PTE_X ||| PTE_R ||| PTE_U : Nat) : Int)) ≠ _
    rw [hf]
    decide

/-- One iteration of the loop of `uvmalloc`, at a page `a` that is not yet
mapped: `kalloc` fails (roll back), or `mappages` fails (free the frame, roll
back), or the page is installed and the loop goes on. -/
theorem uvmallocLoop_iter (root oldsz newsz fuel a : Nat) (s : State)
    (wf : WF s.mem root) (fr : Fresh s.mem root s.free) (ha : a % 4096 = 0)
    (hlt : a < newsz) (hnew : newsz ≤ MAXVA) (hun : pteOf s.mem root a &&& PTE_V = 0) :
    (s.free = [] ∧
      uvmallocLoop root oldsz newsz (fuel + 1) a s =
        match uvmdealloc root a oldsz s with
        | .panic msg s1 => .panic msg s1
        | .ok _ s1 => .ok 0 s1) ∨
    (∃ d sM used, WF sM.mem root ∧ Fresh sM.mem root sM.free ∧ Step root s sM (d :: used) ∧
      (∀ b, pteOf sM.mem root b = pteOf s.mem root b) ∧ sM.free = [] ∧
      ¬ TablePage sM.mem root d ∧
      uvmallocLoop root oldsz newsz (fuel + 1) a s =
        match uvmdealloc root a oldsz { mem := sM.mem, free := [d] } with
        | .panic msg s1 => .panic msg s1
        | .ok _ s1 => .ok 0 s1) ∨
    (∃ d s3 used, WF s3.mem root ∧ Fresh s3.mem root s3.free ∧ Step root s s3 (d :: used) ∧
      (∀ b, b % 4096 = 0 → b < 2 ^ 39 →
        pteOf s3.mem root b = if b = a then leafPte d uperm else pteOf s.mem root b) ∧
      d % 4096 = 0 ∧ d < 2 ^ 64 ∧ d ∉ s3.free ∧ ¬ TablePage s3.mem root d ∧
      (∀ x, d ≤ x → x < d + 4096 → s3.mem x = 0) ∧
      uvmallocLoop root oldsz newsz (fuel + 1) a s =
        uvmallocLoop root oldsz newsz fuel (a + 4096) s3) := by
  have hM := MAXVA_eq
  have hP : PGSIZE = 4096 := rfl
  rw [uvmallocLoop_succ, if_pos hlt]
  cases hfree : s.free with
  | nil =>
    left
    have hk : kalloc s = (0, s) := by simp [kalloc, hfree]
    rw [hk]
    exact ⟨rfl, by simp⟩
  | cons d rest =>
    right
    have fr' : Fresh s.mem root (d :: rest) := hfree ▸ fr
    obtain ⟨hd1, hd0, hd2⟩ := fr'.frame d (by simp)
    have hnd := List.nodup_cons.mp fr'.nodup
    have hk : kalloc s = (d, { mem := s.mem, free := rest }) := by simp [kalloc, hfree]
    rw [hk]
    simp only
    rw [if_neg hd0]
    obtain ⟨wf2, fr2, st2, pte2, zero2, ntp2⟩ := alloc_data root d rest s wf fr hfree
    have hun2 : pteOf (memset s.mem d 0 PGSIZE) root a &&& PTE_V = 0 := by
      rw [pte2 a]; exact hun
    have hmp : mappages root a PGSIZE d ((PTE_W ||| PTE_X ||| PTE_R ||| PTE_U : Nat) : Int)
        { mem := memset s.mem d 0 PGSIZE, free := rest } =
        mappagesLoop root a uperm (MAXVA / PGSIZE + 1) a d
          { mem := memset s.mem d 0 PGSIZE, free := rest } :=
      mappages_single root a d _ _ ha (by omega)
    rw [hmp]
    obtain ⟨s3, used, wf3, fr3, st3, hres⟩ :=
      mappagesLoop_iter root a uperm (MAXVA / PGSIZE) a d
        { mem := memset s.mem d 0 PGSIZE, free := rest } wf2 fr2 ha (by omega)
    have hrest : rest = used ++ s3.free := st3.free
    have hdu : d ∉ used := fun h => hnd.1 (by rw [hrest]; simp [h])
    have hd3 : d ∉ s3.free := fun h => hnd.1 (by rw [hrest]; simp [h])
    have hntp3 : ¬ TablePage s3.mem root d := by
      intro h
      rcases st3.tablePage_step h with h' | h'
      · exact ntp2 h'
      · exact hdu h'
    rcases hres with ⟨hv, _⟩ | ⟨_, pte3, hfree3, _, hR⟩ | ⟨_, _, pte3, hR⟩
    · exact absurd hun2 hv
    · left
      refine ⟨d, s3, used, wf3, fr3, st2.trans st3, fun b => (pte3 b).trans (pte2 b), hfree3,
        hntp3, ?_⟩
      rw [hR]
      simp only
      rw [if_pos (by decide)]
      have hkf : kfree d s3 = { mem := s3.mem, free := [d] } := by
        simp [kfree, hfree3]
      rw [hkf]
    · right
      refine ⟨d, s3, used, wf3, fr3, st2.trans st3, ?_, hd1, hd2, hd3, hntp3, ?_, ?_⟩
      · intro b hb hb2
        rw [pte3 b hb hb2]
        by_cases hba : b = a
        · rw [if_pos hba, if_pos hba]
        · rw [if_neg hba, if_neg hba]
          exact pte2 b
      · intro x hx1 hx2
        have e : s3.mem x = memset s.mem d 0 PGSIZE x := by
          apply st3.bytes x
          · intro t ht
            have hal := tablePage_aligned wf2.aligned ht
            have hne : t ≠ d := by rintro rfl; exact ntp2 ht
            omega
          · intro f hf
            have hfm := fr2.frame f (by rw [hrest]; simp [hf])
            have hne : f ≠ d := by rintro rfl; exact hdu hf
            omega
        rw [e]
        exact zero2 x hx1 hx2
      · rw [hR, if_pos rfl]
        simp only
        rw [if_neg (by simp)]
        have e1 : (a + PGSIZE) % U64 = a + 4096 := by
          unfold PGSIZE U64
          exact Nat.mod_eq_of_lt (by omega)
        rw [e1]

/-- The loop of `uvmalloc` from page `a`, when the pages of `[a, newsz)` are not
mapped: it installs fresh zero-filled frames `ds` at consecutive pages, reaching
the state `sM`, and then either is done or calls `uvmdealloc` to roll back
because the allocator is empty (`pending` holds the data frame that `mappages`
could not install, already given back with `kfree`). -/
theorem uvmallocLoop_spec (root oldsz newsz : Nat) (hnew : newsz ≤ MAXVA) :
    ∀ n fuel a s, WF s.mem root → Fresh s.mem root s.free → a % 4096 = 0 →
      newsz ≤ a + n * 4096 → n < fuel →
      (∀ b, b % 4096 = 0 → a ≤ b → b < newsz → pteOf s.mem root b &&& PTE_V = 0) →
      ∃ (ds : List Nat) (sM : State) (used : List Nat),
        WF sM.mem root ∧ Fresh sM.mem root sM.free ∧ Step root s sM used ∧
        (∀ i, i < ds.length → a + i * 4096 < newsz) ∧
        (∀ i, i < ds.length →
          pteOf sM.mem root (a + i * 4096) = leafPte (ds.getD i 0) uperm) ∧
        (∀ b, b % 4096 = 0 → b < 2 ^ 39 → (b < a ∨ a + ds.length * 4096 ≤ b) →
          pteOf sM.mem root b = pteOf s.mem root b) ∧
        ds.Nodup ∧
        (∀ d, d ∈ ds → d ∈ used ∧ d % 4096 = 0 ∧ d < 2 ^ 64 ∧ ¬ TablePage sM.mem root d ∧
          ∀ x, d ≤ x → x < d + 4096 → sM.mem x = 0) ∧
        ((newsz ≤ a + ds.length * 4096 ∧
            uvmallocLoop root oldsz newsz fuel a s = .ok newsz sM) ∨
          (a + ds.length * 4096 < newsz ∧ sM.free = [] ∧
            ∃ pending, (pending = [] ∨ ∃ d, pending = [d] ∧ d ∈ used ∧ d ∉ ds ∧
                ¬ TablePage sM.mem root d) ∧
              uvmallocLoop root oldsz newsz fuel a s =
                match uvmdealloc root (a + ds.length * 4096) oldsz
                  { mem := sM.mem, free := pending } with
                | .panic msg s1 => .panic msg s1
                | .ok _ s1 => .ok 0 s1)) := by
  have hM := MAXVA_eq
  have hdone : ∀ fuel a s, WF s.mem root → Fresh s.mem root s.free → ¬ a < newsz → 0 < fuel →
      ∃ (ds : List Nat) (sM : State) (used : List Nat),
        WF sM.mem root ∧ Fresh sM.mem root sM.free ∧ Step root s sM used ∧
        (∀ i, i < ds.length → a + i * 4096 < newsz) ∧
        (∀ i, i < ds.length →
          pteOf sM.mem root (a + i * 4096) = leafPte (ds.getD i 0) uperm) ∧
        (∀ b, b % 4096 = 0 → b < 2 ^ 39 → (b < a ∨ a + ds.length * 4096 ≤ b) →
          pteOf sM.mem root b = pteOf s.mem root b) ∧
        ds.Nodup ∧
        (∀ d, d ∈ ds → d ∈ used ∧ d % 4096 = 0 ∧ d < 2 ^ 64 ∧ ¬ TablePage sM.mem root d ∧
          ∀ x, d ≤ x → x < d + 4096 → sM.mem x = 0) ∧
        ((newsz ≤ a + ds.length * 4096 ∧
            uvmallocLoop root oldsz newsz fuel a s = .ok newsz sM) ∨
          (a + ds.length * 4096 < newsz ∧ sM.free = [] ∧
            ∃ pending, (pending = [] ∨ ∃ d, pending = [d] ∧ d ∈ used ∧ d ∉ ds ∧
                ¬ TablePage sM.mem root d) ∧
              uvmallocLoop root oldsz newsz fuel a s =
                match uvmdealloc root (a + ds.length * 4096) oldsz
                  { mem := sM.mem, free := pending } with
                | .panic msg s1 => .panic msg s1
                | .ok _ s1 => .ok 0 s1)) := by
    intro fuel a s wf fr hlt hfuel
    obtain ⟨fuel, rfl⟩ : ∃ f, fuel = f + 1 := ⟨fuel - 1, by omega⟩
    refine ⟨[], s, [], wf, fr, Step.refl root s, by simp, by simp, fun _ _ _ _ => rfl,
      List.nodup_nil, by simp, Or.inl ⟨by simp; omega, ?_⟩⟩
    rw [uvmallocLoop_succ, if_neg hlt]
  intro n
  induction n with
  | zero =>
    intro fuel a s wf fr ha hn hfuel hun
    exact hdone fuel a s wf fr (by omega) hfuel
  | succ n ih =>
    intro fuel a s wf fr ha hn hfuel hun
    by_cases hlt : a < newsz
    · obtain ⟨fuel, rfl⟩ : ∃ f, fuel = f + 1 := ⟨fuel - 1, by omega⟩
      rcases uvmallocLoop_iter root oldsz newsz fuel a s wf fr ha hlt hnew
          (hun a ha (Nat.le_refl a) hlt) with
        ⟨hfree, hR⟩ | ⟨d, sM, used, wfM, frM, stM, pteM, hfreeM, hntp, hR⟩ |
        ⟨d, s3, used1, wf3, fr3, st3, pte3, hd1, hd2, hd3, hntp3, hz3, hR⟩
      · refine ⟨[], s, [], wf, fr, Step.refl root s, by simp, by simp, fun _ _ _ _ => rfl,
          List.nodup_nil, by simp, Or.inr ⟨by simpa using hlt, hfree, [], Or.inl rfl, ?_⟩⟩
        rw [hR]
        have hs : s = { mem := s.mem, free := [] } := by
          cases s
          simp only at hfree
          rw [hfree]
        simp only [List.length_nil, Nat.zero_mul, Nat.add_zero]
        rw [← hs]
      · refine ⟨[], sM, d :: used, wfM, frM, stM, by simp, by simp, fun b _ _ _ => pteM b,
          List.nodup_nil, by simp,
          Or.inr ⟨by simpa using hlt, hfreeM, [d], Or.inr ⟨d, rfl, by simp, by simp, hntp⟩, ?_⟩⟩
        rw [hR]
        simp only [List.length_nil, Nat.zero_mul, Nat.add_zero]
      · have hun3 : ∀ b, b % 4096 = 0 → a + 4096 ≤ b → b < newsz →
            pteOf s3.mem root b &&& PTE_V = 0 := by
          intro b hb h1 h2
          rw [pte3 b hb (by omega), if_neg (by omega)]
          exact hun b hb (by omega) h2
        obtain ⟨ds, sM, used, wfM, frM, stM, hin, hpte, hout, hnd, hds, hres⟩ :=
          ih fuel (a + 4096) s3 wf3 fr3 (by omega) (by omega) (by omega) hun3
        have hsub : ∀ x, x ∈ used → x ∈ s3.free := by
          intro x hx
          rw [stM.free]; simp [hx]
        have hdu : d ∉ used := fun h => hd3 (hsub d h)
        have hdds : d ∉ ds := fun h => hdu (hds d h).1
        have hlen : (d :: ds).length = ds.length + 1 := rfl
        have hntpM : ¬ TablePage sM.mem root d := by
          intro h
          rcases stM.tablePage_step h with h' | h'
          · exact hntp3 h'
          · exact hdu h'
        refine ⟨d :: ds, sM, (d :: used1) ++ used, wfM, frM, st3.trans stM, ?_, ?_, ?_,
          List.nodup_cons.mpr ⟨hdds, hnd⟩, ?_, ?_⟩
        · intro i hi
          rcases i with _ | i
          · simpa using hlt
          · have := hin i (by rw [hlen] at hi; omega)
            omega
        · intro i hi
          rcases i with _ | i
          · simp only [Nat.zero_mul, Nat.add_zero, List.getD_cons_zero]
            rw [hout a ha (by omega) (by omega), pte3 a ha (by omega), if_pos rfl]
          · have := hpte i (by rw [hlen] at hi; omega)
            rw [show a + (i + 1) * 4096 = a + 4096 + i * 4096 by omega, this]
            simp
        · intro b hb hb2 hb3
          rw [hlen] at hb3
          rw [hout b hb hb2 (by omega), pte3 b hb hb2, if_neg (by omega)]
        · intro d' hd'
          rcases List.mem_cons.mp hd' with rfl | hd'
          · refine ⟨by simp, hd1, hd2, hntpM, ?_⟩
            intro x hx1 hx2
            rw [stM.bytes x ?_ ?_]
            · exact hz3 x hx1 hx2
            · intro t ht
              have hal := tablePage_aligned wf3.aligned ht
              have hne : t ≠ d' := by rintro rfl; exact hntp3 ht
              omega
            · intro f hf
              have hfm := fr3.frame f (hsub f hf)
              have hne : f ≠ d' := by rintro rfl; exact hdu hf
              omega
          · obtain ⟨h1, h2, h3, h4, h5⟩ := hds d' hd'
            exact ⟨by simp [h1], h2, h3, h4, h5⟩
        · rw [hR, hlen]
          have e : a + (ds.length + 1) * 4096 = a + 4096 + ds.length * 4096 := by omega
          rw [e]
          rcases hres with ⟨h1, h2⟩ | ⟨h1, h2, pending, h3, h4⟩
          · exact Or.inl ⟨h1, h2⟩
          · refine Or.inr ⟨h1, h2, pending, ?_, h4⟩
            rcases h3 with h3 | ⟨p, hp1, hp2, hp3, hp4⟩
            · exact Or.inl h3
            · refine Or.inr ⟨p, hp1, by simp [hp2], ?_, hp4⟩
              intro hp
              rcases List.mem_cons.mp hp with rfl | hp
              · exact hdu hp2
              · exact hp3 hp
    · exact hdone fuel a s wf fr hlt (by omega)

theorem getD_mem (l : List Nat) (i : Nat) (h : i < l.length) : l.getD i 0 ∈ l := by
  rw [List.getD_eq_getElem l 0 h]
  exact List.getElem_mem h

theorem getD_inj_of_nodup (l : List Nat) (hn : l.Nodup) (i j : Nat) (hi : i < l.length)
    (hj : j < l.length) (h : l.getD i 0 = l.getD j 0) : i = j := by
  rw [List.getD_eq_getElem l 0 hi, List.getD_eq_getElem l 0 hj] at h
  exact (List.Nodup.getElem_inj_iff hn).mp h

theorem leafFrames_of_frames (m : Mem) (root : Nat) :
    ∀ (ds : List Nat) (a : Nat),
      (∀ i, i < ds.length → PTE2PA (pteOf m root (a + i * 4096)) = ds.getD i 0) →
      leafFrames m root a ds.length = ds := by
  intro ds
  induction ds with
  | nil => intro a _; rfl
  | cons d ds ih =>
    intro a h
    have h0 := h 0 (by simp)
    simp only [Nat.zero_mul, Nat.add_zero, List.getD_cons_zero] at h0
    show PTE2PA (pteOf m root a) :: leafFrames m root (a + 4096) ds.length = d :: ds
    rw [h0, ih (a + 4096)]
    intro i hi
    have := h (i + 1) (by simp; omega)
    rw [show a + (i + 1) * 4096 = a + 4096 + i * 4096 by omega] at this
    simpa using this

/-- The roll-back of `uvmalloc` from the state in which the allocator ran out,
with the frames `ds` installed at the consecutive pages from `a0`. -/
theorem uvmalloc_rollback (root a0 : Nat) (ds pending : List Nat) (sM : State)
    (wf : WF sM.mem root) (ha0 : a0 % 4096 = 0) (hmax : a0 + ds.length * 4096 ≤ MAXVA)
    (hfr : ∀ d, d ∈ ds → d % 4096 = 0 ∧ d < 2 ^ 64)
    (hpte : ∀ i, i < ds.length →
      pteOf sM.mem root (a0 + i * 4096) = leafPte (ds.getD i 0) uperm) :
    ∃ r s', uvmdealloc root (a0 + ds.length * 4096) a0 { mem := sM.mem, free := pending }
        = .ok r s' ∧
      Unmapped root a0 (a0 + ds.length * 4096) { mem := sM.mem, free := pending } s' ∧
      s'.free = ds.reverse ++ pending := by
  have hM := MAXVA_eq
  have hall : ∀ b, b % 4096 = 0 → a0 ≤ b → b < a0 + ds.length * 4096 →
      Unmappable sM.mem root b := by
    intro b hb h1 h2
    have hi : (b - a0) / 4096 < ds.length := by omega
    have hbe : b = a0 + (b - a0) / 4096 * 4096 := by omega
    have hp := hpte _ hi
    rw [← hbe] at hp
    obtain ⟨hd1, hd2⟩ := hfr _ (getD_mem ds _ hi)
    apply unmappable_of_wf sM.mem root b wf (by omega)
    · rw [hp]; exact leafPte_valid _ _
    · rw [hp]; exact (uperm_facts _ hd1 hd2).2.2
  obtain ⟨r, s', hR, hun, hfree⟩ :=
    uvmdealloc_rollback root (a0 + ds.length * 4096) a0 { mem := sM.mem, free := pending }
      wf (by omega) ha0 (by omega) hmax hall
  refine ⟨r, s', hR, hun, ?_⟩
  rw [hfree]
  have e : (a0 + ds.length * 4096 - a0) / 4096 = ds.length := by omega
  rw [e, leafFrames_of_frames sM.mem root ds a0]
  intro i hi
  rw [hpte i hi]
  obtain ⟨hd1, hd2⟩ := hfr _ (getD_mem ds _ hi)
  exact (uperm_facts _ hd1 hd2).1

theorem uvmalloc_unfold (root oldsz newsz : Nat) (s : State) (h : oldsz ≤ newsz)
    (hnew : newsz ≤ MAXVA) :
    uvmalloc root oldsz newsz s =
      uvmallocLoop root (PGROUNDUP oldsz) newsz (MAXVA / PGSIZE + 2) (PGROUNDUP oldsz) s ∧
    PGROUNDUP oldsz % 4096 = 0 ∧ oldsz ≤ PGROUNDUP oldsz ∧ PGROUNDUP oldsz < oldsz + 4096 := by
  have hM := MAXVA_eq
  refine ⟨?_, ?_, ?_, ?_⟩
  · unfold uvmalloc
    rw [if_neg (by omega)]
  · rw [PGROUNDUP_eq]; omega
  · rw [PGROUNDUP_eq]; omega
  · rw [PGROUNDUP_eq]; omega

/-! ## The fuel is never exhausted -/

theorem walk_cases (root a : Nat) (alloc : Int) (s : State) :
    (MAXVA ≤ a ∧ walk root a alloc s = .panic "walk" s) ∨
      (a < MAXVA ∧ ∃ r s1, walk root a alloc s = .ok r s1) := by
  unfold walk
  by_cases h : a ≥ MAXVA
  · exact Or.inl ⟨h, by rw [if_pos h]⟩
  · exact Or.inr ⟨by omega, _, _, by rw [if_neg h]⟩

theorem step_addr (a : Nat) (h : a < MAXVA) : (a + PGSIZE) % U64 = a + 4096 := by
  have hM := MAXVA_eq
  unfold PGSIZE U64
  exact Nat.mod_eq_of_lt (by omega)

/-- The loop of `mappages` never runs out of fuel when the fuel covers the
pages up to `MAXVA`. -/
theorem mappagesLoop_fuel (root last : Nat) (perm : Int) :
    ∀ fuel a pa s s', MAXVA ≤ a + fuel * 4096 →
      mappagesLoop root last perm (fuel + 1) a pa s ≠ .panic "fuel" s' := by
  intro fuel
  induction fuel with
  | zero =>
    intro a pa s s' hf
    rw [mappagesLoop_succ]
    rcases walk_cases root a 1 s with ⟨_, hw⟩ | ⟨h, _⟩
    · rw [hw]
      intro h
      injection h with h1 _
      exact absurd h1 (by decide)
    · omega
  | succ fuel ih =>
    intro a pa s s' hf
    rw [mappagesLoop_succ]
    rcases walk_cases root a 1 s with ⟨_, hw⟩ | ⟨hlt, r, s1, hw⟩
    · rw [hw]
      intro h
      injection h with h1 _
      exact absurd h1 (by decide)
    · rw [hw]
      simp only
      split
      · intro h; cases h
      · split
        · intro h
          injection h with h1 _
          exact absurd h1 (by decide)
        · split
          · intro h; cases h
          · rw [step_addr a hlt]
            exact ih _ _ _ _ (by omega)

theorem mappages_fuel (root va size pa : Nat) (perm : Int) (s s' : State) :
    mappages root va size pa perm s ≠ .panic "fuel" s' := by
  have hM := MAXVA_eq
  have hF : MAXVA / PGSIZE = 67108864 := by decide
  unfold mappages
  exact mappagesLoop_fuel root _ perm (MAXVA / PGSIZE) _ pa s s' (by omega)

/-- The loop of `uvmunmap` never runs out of fuel when the fuel covers the
pages up to `MAXVA`. -/
theorem uvmunmapLoop_fuel (root bound : Nat) (do_free : Int) :
    ∀ fuel a s s', MAXVA ≤ a + fuel * 4096 →
      uvmunmapLoop root bound do_free (fuel + 1) a s ≠ .panic "fuel" s' := by
  intro fuel
  induction fuel with
  | zero =>
    intro a s s' hf
    rw [uvmunmapLoop_succ]
    split
    · rcases walk_cases root a 0 s with ⟨_, hw⟩ | ⟨h, _⟩
      · rw [hw]
        intro h
        injection h with h1 _
        exact absurd h1 (by decide)
      · omega
    · intro h; cases h
  | succ fuel ih =>
    intro a s s' hf
    rw [uvmunmapLoop_succ]
    split
    · rcases walk_cases root a 0 s with ⟨_, hw⟩ | ⟨hlt, r, s1, hw⟩
      · rw [hw]
        intro h
        injection h with h1 _
        exact absurd h1 (by decide)
      · rw [hw]
        simp only
        split
        · intro h
          injection h with h1 _
          exact absurd h1 (by decide)
        · split
          · intro h
            injection h with h1 _
            exact absurd h1 (by decide)
          · split
            · intro h
              injection h with h1 _
              exact absurd h1 (by decide)
            · rw [step_addr a hlt]
              exact ih _ _ _ (by omega)
    · intro h; cases h

theorem uvmunmap_fuel (root va npages : Nat) (do_free : Int) (s s' : State) :
    uvmunmap root va npages do_free s ≠ .panic "fuel" s' := by
  have hM := MAXVA_eq
  have hF : MAXVA / PGSIZE + 1 = 67108865 := by decide
  unfold uvmunmap
  split
  · intro h
    injection h with h1 _
    exact absurd h1 (by decide)
  · exact uvmunmapLoop_fuel root _ do_free (MAXVA / PGSIZE + 1) va s s' (by omega)

theorem uvmdealloc_fuel (root oldsz newsz : Nat) (s s' : State) :
    uvmdealloc root oldsz newsz s ≠ .panic "fuel" s' := by
  unfold uvmdealloc
  split
  · intro h; cases h
  · split
    · simp only
      intro h
      cases hu : uvmunmap root (PGROUNDUP newsz)
          (ofInt (toInt32 ((PGROUNDUP oldsz - PGROUNDUP newsz) / PGSIZE))) 1 s with
      | ok v s1 => rw [hu] at h; cases h
      | panic m s1 =>
        rw [hu] at h
        injection h with h1 h2
        subst h1
        subst h2
        exact uvmunmap_fuel _ _ _ _ _ _ hu
    · intro h; cases h

theorem mappages_ok_lt (root a size pa : Nat) (perm : Int) (s s3 : State) (e : Int)
    (ha : a % 4096 = 0) (ha2 : a < 2 ^ 64)
    (h : mappages root a size pa perm s = .ok e s3) : a < MAXVA := by
  have hF : MAXVA / PGSIZE + 1 = MAXVA / PGSIZE + 1 := rfl
  unfold mappages at h
  rw [PGROUNDDOWN_aligned a ha ha2, mappagesLoop_succ] at h
  rcases walk_cases root a 1 s with ⟨_, hw⟩ | ⟨hlt, _⟩
  · rw [hw] at h
    cases h
  · exact hlt

theorem dealloc_match_fuel (root a oldsz : Nat) (s s' : State) :
    (match uvmdealloc root a oldsz s with
      | .panic msg s1 => (.panic msg s1 : Res Nat)
      | .ok _ s1 => .ok 0 s1) ≠ .panic "fuel" s' := by
  cases hu : uvmdealloc root a oldsz s with
  | ok v s1 => intro h; cases h
  | panic m s1 =>
    intro h
    injection h with h1 h2
    subst h1
    subst h2
    exact uvmdealloc_fuel _ _ _ _ _ hu

/-- The loop of `uvmalloc` never runs out of fuel when the fuel covers the
pages up to `MAXVA`. -/
theorem uvmallocLoop_fuel (root oldsz newsz : Nat) :
    ∀ fuel a s s', a % 4096 = 0 → a < 2 ^ 64 → MAXVA ≤ a + fuel * 4096 →
      uvmallocLoop root oldsz newsz (fuel + 1) a s ≠ .panic "fuel" s' := by
  have hM := MAXVA_eq
  intro fuel
  induction fuel with
  | zero =>
    intro a s s' ha ha2 hf
    rw [uvmallocLoop_succ]
    split
    · split
      · exact dealloc_match_fuel _ _ _ _ _
      · cases hm : mappages root a PGSIZE (kalloc s).1
            ((PTE_W ||| PTE_X ||| PTE_R ||| PTE_U : Nat) : Int)
            { mem := memset (kalloc s).2.mem (kalloc s).1 0 PGSIZE, free := (kalloc s).2.free } with
        | panic m s3 =>
          intro h
          injection h with h1 h2
          subst h1
          subst h2
          exact mappages_fuel _ _ _ _ _ _ _ hm
        | ok e s3 =>
          have := mappages_ok_lt _ _ _ _ _ _ _ _ ha ha2 hm
          omega
    · intro h; cases h
  | succ fuel ih =>
    intro a s s' ha ha2 hf
    rw [uvmallocLoop_succ]
    split
    · split
      · exact dealloc_match_fuel _ _ _ _ _
      · cases hm : mappages root a PGSIZE (kalloc s).1
            ((PTE_W ||| PTE_X ||| PTE_R ||| PTE_U : Nat) : Int)
            { mem := memset (kalloc s).2.mem (kalloc s).1 0 PGSIZE, free := (kalloc s).2.free } with
        | panic m s3 =>
          intro h
          injection h with h1 h2
          subst h1
          subst h2
          exact mappages_fuel _ _ _ _ _ _ _ hm
        | ok e s3 =>
          have hlt := mappages_ok_lt _ _ _ _ _ _ _ _ ha ha2 hm
          simp only
          split
          · exact dealloc_match_fuel _ _ _ _ _
          · rw [step_addr a hlt]
            exact ih _ _ _ (by omega) (by omega) (by omega)
    · intro h; cases h

theorem uvmalloc_fuel (root oldsz newsz : Nat) (s s' : State) :
    uvmalloc root oldsz newsz s ≠ .panic "fuel" s' := by
  have hM := MAXVA_eq
  have hF : MAXVA / PGSIZE + 1 = 67108865 := by decide
  unfold uvmalloc
  split
  · intro h; cases h
  · have hu := PGROUNDUP_eq oldsz
    exact uvmallocLoop_fuel root _ newsz (MAXVA / PGSIZE + 1) _ s s' (by omega) (by omega)
      (by omega)

/-! ## Claims -/

/-- C1: round trip of `mappages` and `walkaddr`.  In a well-formed table in
which the page-aligned `v < MAXVA` is not yet mapped, for a page-aligned frame
address `f` and permissions within the ten flag bits that contain `PTE_U`, if
the allocator holds the missing page-table pages then `mappages(pt, v, PGSIZE,
f, perm)` returns 0 and `walkaddr(pt, v)` then returns exactly `f`. -/
theorem mappages_walkaddr_round_trip (root v f perm : Nat) (s : State)
    (wf : WF s.mem root) (fr : Fresh s.mem root s.free)
    (hv : v % PGSIZE = 0) (hv2 : v < MAXVA)
    (hun : pteOf s.mem root v &&& PTE_V = 0)
    (hf : f % PGSIZE = 0) (hf2 : f < U64)
    (hperm : perm < 1024) (hU : perm &&& PTE_U ≠ 0)
    (halloc : missing s.mem v 2 root ≤ s.free.length) :
    ∃ s', mappages root v PGSIZE f (perm : Int) s = Res.ok 0 s' ∧
      walkaddr root v s' = Res.ok f s' := by
  have hM := MAXVA_eq
  have hP : PGSIZE = 4096 := rfl
  have hU64 : U64 = 2 ^ 64 := rfl
  rw [hP] at hv hf
  rw [hU64] at hf2
  have e1 : PGROUNDDOWN v = v := PGROUNDDOWN_aligned v hv (by omega)
  have e2 : PGROUNDDOWN ((v + PGSIZE + (U64 - 1)) % U64) = v := by
    rw [mappages_last v PGSIZE (by decide) (by omega), PGROUNDDOWN_eq _ (by omega)]
    omega
  unfold mappages
  rw [e1, e2]
  obtain ⟨s1, used, wf1, _, _, hres⟩ :=
    mappagesLoop_iter root v (perm : Int) (MAXVA / PGSIZE) v f s wf fr hv hv2
  rcases hres with ⟨hval, _⟩ | ⟨_, _, _, hlt, _⟩ | ⟨_, _, hpte, hR⟩
  · exact absurd hun hval
  · omega
  · refine ⟨s1, ?_, ?_⟩
    · rw [hR, if_pos rfl]
    · rw [walkaddr_of_pteOf root v s1 wf1 hv2, hpte v hv (by omega), if_pos rfl,
        if_pos ⟨leafPte_valid _ _, leafPte_user f perm hperm hU⟩,
        PTE2PA_leafPte f perm hf hf2 hperm]

/-- C1 at a concrete input: mapping page `0x7000` to frame `0x9000` with
`PTE_R | PTE_U` in an empty table. -/
theorem mappages_walkaddr_round_trip_witness :
    ∃ s', mappages 0x1000 0x7000 PGSIZE 0x9000 ((18 : Nat) : Int) st0 = Res.ok 0 s' ∧
      walkaddr 0x1000 0x7000 s' = Res.ok 0x9000 s' :=
  mappages_walkaddr_round_trip 0x1000 0x7000 0x9000 18 st0 wf_st0 fresh_st0
    (by decide) (by decide) (by decide) (by decide) (by decide) (by decide) (by decide)
    (by decide)

/-- C2 (as amended): `walkaddr` never panics and leaves the state untouched;
it returns the physical address of the level-0 entry for `va` exactly when
`va < MAXVA`, the level-2 and level-1 entries on the path are valid, the
level-0 entry does not sit at the null address, and it has `PTE_V` and `PTE_U`
set (whether or not it is a leaf); in every other case it returns 0. -/
theorem walkaddr_total_read_only (root va : Nat) (s : State) :
    walkaddr root va s = Res.ok
      (if va < MAXVA ∧ ent s.mem root (PX 2 va) &&& PTE_V ≠ 0 ∧
          ent s.mem (l1table s.mem root va) (PX 1 va) &&& PTE_V ≠ 0 ∧
          l0slot s.mem root va ≠ 0 ∧
          read64 s.mem (l0slot s.mem root va) &&& PTE_V ≠ 0 ∧
          read64 s.mem (l0slot s.mem root va) &&& PTE_U ≠ 0
        then PTE2PA (read64 s.mem (l0slot s.mem root va)) else 0) s := by
  rw [walkaddr_eq, slotOf_eq]
  congr 1
  by_cases hp : ent s.mem root (PX 2 va) &&& PTE_V ≠ 0 ∧
      ent s.mem (l1table s.mem root va) (PX 1 va) &&& PTE_V ≠ 0
  · rw [if_pos hp]
    by_cases hc : va < MAXVA ∧ l0slot s.mem root va ≠ 0 ∧
        read64 s.mem (l0slot s.mem root va) &&& PTE_V ≠ 0 ∧
        read64 s.mem (l0slot s.mem root va) &&& PTE_U ≠ 0
    · rw [if_pos hc, if_pos ⟨hc.1, hp.1, hp.2, hc.2⟩]
    · rw [if_neg hc, if_neg (fun h => hc ⟨h.1, h.2.2.2⟩)]
  · rw [if_neg hp, if_neg (fun h => h.2.1 rfl), if_neg (fun h => hp ⟨h.2.1, h.2.2.1⟩)]

/-- C2 fails as stated: after `mappages(pt, 0, PGSIZE, 0x5000, PTE_U)` on an
empty table the level-0 entry of page 0 is valid and user-accessible but has
none of `PTE_R`, `PTE_W`, `PTE_X`; the claim makes `walkaddr` return 0 there,
the code returns `0x5000`. -/
theorem walkaddr_nonleaf_counterexample :
    (walkaddr 0x1000 0 (mappages 0x1000 0 PGSIZE 0x5000 (PTE_U : Nat) st0).state).val
        = some 0x5000 ∧
      walkaddrClaimed 0x1000 0 (mappages 0x1000 0 PGSIZE 0x5000 (PTE_U : Nat) st0).state = 0 := by
  decide

/-- C3: `walk` with `alloc != 0` on a well-formed table, for `va < MAXVA`.  If
the allocator holds a frame for each missing level, `walk` returns the non-null
address of entry `PX(0,va)` of the level-0 table reached through the (now
valid) entries `PX(2,va)` and `PX(1,va)`; the tables it created are the frames
it took from the allocator, each linked by an entry whose flag bits are exactly
`PTE_V` and zero-filled (the new level-1 table apart from its one link), so
the entry returned in a new level-0 table is invalid; no byte outside the new
tables and the two path entries is changed; and `walk(pt, va, 0)` then returns
the same address.  If the allocator runs out, `walk` returns 0. -/
theorem walk_alloc_creates (root va : Nat) (alloc : Int) (s : State)
    (halloc : alloc ≠ 0) (wf : WF s.mem root) (fr : Fresh s.mem root s.free)
    (hva : va < MAXVA) :
    (missing s.mem va 2 root ≤ s.free.length →
      ∃ slot s', walk root va alloc s = Res.ok slot s' ∧ slot ≠ 0 ∧
        ent s'.mem root (PX 2 va) &&& PTE_V ≠ 0 ∧
        ent s'.mem (l1table s'.mem root va) (PX 1 va) &&& PTE_V ≠ 0 ∧
        slot = l0slot s'.mem root va ∧
        s'.free = s.free.drop (missing s.mem va 2 root) ∧
        (missing s.mem va 2 root = 2 →
          s.free.head? = some (l1table s'.mem root va) ∧
          PTE_FLAGS (ent s'.mem root (PX 2 va)) = PTE_V ∧
          ∀ x, l1table s'.mem root va ≤ x → x < l1table s'.mem root va + PGSIZE →
            (x < l1table s'.mem root va + 8 * PX 1 va ∨
              l1table s'.mem root va + 8 * PX 1 va + 8 ≤ x) → s'.mem x = 0) ∧
        (1 ≤ missing s.mem va 2 root →
          l0table s'.mem root va ∈ s.free.take (missing s.mem va 2 root) ∧
          PTE_FLAGS (ent s'.mem (l1table s'.mem root va) (PX 1 va)) = PTE_V ∧
          (∀ x, l0table s'.mem root va ≤ x → x < l0table s'.mem root va + PGSIZE →
            s'.mem x = 0) ∧
          read64 s'.mem slot &&& PTE_V = 0) ∧
        (∀ x, (∀ f ∈ s.free.take (missing s.mem va 2 root), x < f ∨ f + PGSIZE ≤ x) →
          (x < root + 8 * PX 2 va ∨ root + 8 * PX 2 va + 8 ≤ x) →
          (x < l1table s'.mem root va + 8 * PX 1 va ∨
            l1table s'.mem root va + 8 * PX 1 va + 8 ≤ x) → s'.mem x = s.mem x) ∧
        walk root va 0 s' = Res.ok slot s') ∧
    (s.free.length < missing s.mem va 2 root →
      ∃ s', walk root va alloc s = Res.ok 0 s') := by
  have hP : PGSIZE = 4096 := rfl
  have hi2 := PX_lt 2 va
  have hi1 := PX_lt 1 va
  have hi0 := PX_lt 0 va
  rw [missing_two]
  by_cases h2 : ent s.mem root (PX 2 va) &&& PTE_V ≠ 0
  · -- the level-1 table exists
    rw [if_pos h2]
    have tp1 : TablePage s.mem root (l1table s.mem root va) :=
      ⟨[PX 2 va], validPath_one _ hi2, by rw [pathTo_one, if_pos h2]; rfl⟩
    have al1 := tablePage_aligned wf.aligned tp1
    by_cases h1 : ent s.mem (l1table s.mem root va) (PX 1 va) &&& PTE_V ≠ 0
    · -- nothing is missing
      rw [if_pos h1]
      have tp0 : TablePage s.mem root (l0table s.mem root va) :=
        ⟨[PX 2 va, PX 1 va], validPath_PX va, by
          rw [pathTo_two, if_pos h2, if_pos (show ent s.mem (PTE2PA (ent s.mem root (PX 2 va)))
            (PX 1 va) &&& PTE_V ≠ 0 from h1)]; rfl⟩
      have hw : walkLoop va alloc 2 root s = (l0slot s.mem root va, s) := by
        rw [walkLoop2_valid root va alloc s h2, walkLoop1_valid va alloc _ s h1]
        rfl
      refine ⟨fun _ => ⟨l0slot s.mem root va, s, walk_of_loop _ _ _ _ _ _ hva hw, ?_, h2, h1, rfl,
        rfl, fun h => absurd h (by decide), fun h => absurd h (by decide), fun _ _ _ _ => rfl,
        walk_noalloc_slot root va s hva h2 h1⟩, fun h => absurd h (by omega)⟩
      have := wf.nonnull _ tp0
      unfold l0slot
      omega
    · -- the level-0 table is missing
      rw [if_neg h1]
      have h1' : ent s.mem (l1table s.mem root va) (PX 1 va) &&& PTE_V = 0 := by
        by_contra h; exact h1 h
      cases hfree : s.free with
      | nil =>
        refine ⟨fun h => absurd h (by simp), fun _ => ⟨s, ?_⟩⟩
        apply walk_of_loop _ _ _ _ _ _ hva
        rw [walkLoop2_valid root va alloc s h2]
        exact walkLoop_fail va alloc 0 _ s h1' halloc hfree
      | cons f rest =>
        refine ⟨fun _ => ?_, fun h => absurd h (by simp)⟩
        have fr' : Fresh s.mem root (f :: rest) := hfree ▸ fr
        obtain ⟨hf1, hf0, hf2⟩ := fr'.frame f (by simp)
        have hfs : ¬ TablePage s.mem root f := fr'.sep f (by simp)
        have htf : l1table s.mem root va ≠ f := by rintro h; exact hfs (h ▸ tp1)
        have L := linked_intro s.mem (l1table s.mem root va) (PX 1 va) f al1 hf1 hi1 htf
        generalize hm' : write64 (memset s.mem f 0 PGSIZE)
          (l1table s.mem root va + 8 * PX 1 va) (PA2PTE f ||| PTE_V) = m' at L
        have hw : walkLoop va alloc 2 root s = (f + 8 * PX 0 va, { mem := m', free := rest }) := by
          rw [walkLoop2_valid root va alloc s h2,
            walkLoop1_link va alloc _ s f rest h1' halloc hfree hf0, ← hm']
        have e2 : ent m' root (PX 2 va) = ent s.mem root (PX 2 va) :=
          L.keep_valid wf h1' hfs (tablePage_root _ _) hi2 h2
        have el1 : l1table m' root va = l1table s.mem root va := by
          unfold l1table; rw [e2]
        have e1 : ent m' (l1table m' root va) (PX 1 va) = PA2PTE f ||| PTE_V := by
          rw [el1]; exact L.link
        have el0 : l0table m' root va = f := by
          unfold l0table
          rw [e1]; exact PTE2PA_or f PTE_V hf1 hf2 (by decide)
        have hslot : l0slot m' root va = f + 8 * PX 0 va := by
          unfold l0slot; rw [el0]
        have hv2 : ent m' root (PX 2 va) &&& PTE_V ≠ 0 := by rw [e2]; exact h2
        have hv1 : ent m' (l1table m' root va) (PX 1 va) &&& PTE_V ≠ 0 := by
          rw [e1]; exact link_valid f
        refine ⟨f + 8 * PX 0 va, { mem := m', free := rest },
          walk_of_loop _ _ _ _ _ _ hva hw, by omega, hv2, hv1, hslot.symm, by simp,
          fun h => absurd h (by decide), fun _ => ⟨?_, ?_, ?_, ?_⟩, ?_, ?_⟩
        · show l0table m' root va ∈ _
          rw [el0]; simp
        · show PTE_FLAGS (ent m' (l1table m' root va) (PX 1 va)) = PTE_V
          rw [e1]; exact link_flags f
        · intro x hx1 hx2
          show m' x = 0
          rw [el0] at hx1 hx2
          exact L.fzero x hx1 (by omega)
        · show read64 m' (f + 8 * PX 0 va) &&& PTE_V = 0
          have : read64 m' (f + 8 * PX 0 va) = 0 := L.zero _ hi0
          rw [this]; exact zero_invalid
        · intro x hx1 _ hx3
          show m' x = s.mem x
          rw [el1] at hx3
          exact L.bytes x (by have := hx1 f (by simp); omega) hx3
        · have := walk_noalloc_slot root va { mem := m', free := rest } hva hv2 hv1
          rw [this]
          show Res.ok (l0slot m' root va) _ = _
          rw [hslot]
  · -- the level-1 table is missing
    rw [if_neg h2]
    have h2' : ent s.mem root (PX 2 va) &&& PTE_V = 0 := by
      by_contra h; exact h2 h
    cases hfree : s.free with
    | nil =>
      refine ⟨fun h => absurd h (by simp), fun _ => ⟨s, ?_⟩⟩
      apply walk_of_loop _ _ _ _ _ _ hva
      exact walkLoop_fail va alloc 1 _ s h2' halloc hfree
    | cons f1 rest1 =>
      have fr' : Fresh s.mem root (f1 :: rest1) := hfree ▸ fr
      obtain ⟨hf1, hf0, hf2⟩ := fr'.frame f1 (by simp)
      have hfs : ¬ TablePage s.mem root f1 := fr'.sep f1 (by simp)
      have hrf : root ≠ f1 := by rintro h; exact hfs (h ▸ tablePage_root _ _)
      have L1 := linked_intro s.mem root (PX 2 va) f1 wf.aligned hf1 hi2 hrf
      generalize hm1 : write64 (memset s.mem f1 0 PGSIZE)
        (root + 8 * PX 2 va) (PA2PTE f1 ||| PTE_V) = m1 at L1
      have hw1 : walkLoop va alloc 2 root s = walkLoop va alloc 1 f1 { mem := m1, free := rest1 } := by
        rw [walkLoop2_link root va alloc s f1 rest1 h2' halloc hfree hf0, ← hm1]
      have z1 : ent m1 f1 (PX 1 va) &&& PTE_V = 0 := by
        rw [L1.zero _ hi1]; exact zero_invalid
      cases rest1 with
      | nil =>
        refine ⟨fun h => absurd h (by simp), fun _ => ⟨{ mem := m1, free := [] }, ?_⟩⟩
        apply walk_of_loop _ _ _ _ _ _ hva
        rw [hw1]
        exact walkLoop_fail va alloc 0 f1 { mem := m1, free := [] } z1 halloc rfl
      | cons f2 rest =>
        refine ⟨fun _ => ?_, fun h => absurd h (by simp)⟩
        obtain ⟨hg1, hg0, hg2⟩ := fr'.frame f2 (by simp)
        have hgs : ¬ TablePage s.mem root f2 := fr'.sep f2 (by simp)
        have hrg : root ≠ f2 := by rintro h; exact hgs (h ▸ tablePage_root _ _)
        have hfg : f1 ≠ f2 := by
          have := fr'.nodup
          simp at this
          exact this.1.1
        have L2 := linked_intro m1 f1 (PX 1 va) f2 hf1 hg1 hi1 hfg
        generalize hm2 : write64 (memset m1 f2 0 PGSIZE)
          (f1 + 8 * PX 1 va) (PA2PTE f2 ||| PTE_V) = m2 at L2
        have hw : walkLoop va alloc 2 root s = (f2 + 8 * PX 0 va, { mem := m2, free := rest }) := by
          rw [hw1, walkLoop1_link va alloc f1 { mem := m1, free := f2 :: rest } f2 rest z1
            halloc rfl hg0, ← hm2]
        have e2 : ent m2 root (PX 2 va) = PA2PTE f1 ||| PTE_V := by
          rw [L2.keep root _ wf.aligned hi2 hrg (Or.inl hrf)]; exact L1.link
        have el1 : l1table m2 root va = f1 := by
          unfold l1table
          rw [e2]; exact PTE2PA_or f1 PTE_V hf1 hf2 (by decide)
        have e1 : ent m2 (l1table m2 root va) (PX 1 va) = PA2PTE f2 ||| PTE_V := by
          rw [el1]; exact L2.link
        have el0 : l0table m2 root va = f2 := by
          unfold l0table
          rw [e1]; exact PTE2PA_or f2 PTE_V hg1 hg2 (by decide)
        have hslot : l0slot m2 root va = f2 + 8 * PX 0 va := by
          unfold l0slot; rw [el0]
        have hv2 : ent m2 root (PX 2 va) &&& PTE_V ≠ 0 := by rw [e2]; exact link_valid f1
        have hv1 : ent m2 (l1table m2 root va) (PX 1 va) &&& PTE_V ≠ 0 := by
          rw [e1]; exact link_valid f2
        refine ⟨f2 + 8 * PX 0 va, { mem := m2, free := rest },
          walk_of_loop _ _ _ _ _ _ hva hw, by omega, hv2, hv1, hslot.symm, by simp,
          fun _ => ⟨?_, ?_, ?_⟩, fun _ => ⟨?_, ?_, ?_, ?_⟩, ?_, ?_⟩
        · show _ = some (l1table m2 root va)
          rw [el1]; rfl
        · show PTE_FLAGS (ent m2 root (PX 2 va)) = PTE_V
          rw [e2]; exact link_flags f1
        · intro x hx1 hx2 hx3
          show m2 x = 0
          rw [el1] at hx1 hx2 hx3
          rw [L2.bytes x (by omega) hx3]
          exact L1.fzero x hx1 (by omega)
        · show l0table m2 root va ∈ _
          rw [el0]; simp
        · show PTE_FLAGS (ent m2 (l1table m2 root va) (PX 1 va)) = PTE_V
          rw [e1]; exact link_flags f2
        · intro x hx1 hx2
          show m2 x = 0
          rw [el0] at hx1 hx2
          exact L2.fzero x hx1 (by omega)
        · show read64 m2 (f2 + 8 * PX 0 va) &&& PTE_V = 0
          have : read64 m2 (f2 + 8 * PX 0 va) = 0 := L2.zero _ hi0
          rw [this]; exact zero_invalid
        · intro x hx1 hx2 hx3
          show m2 x = s.mem x
          rw [el1] at hx3
          have a1 := hx1 f1 (by simp)
          have a2 := hx1 f2 (by simp)
          rw [L2.bytes x (by omega) hx3, L1.bytes x (by omega) hx2]
        · have := walk_noalloc_slot root va { mem := m2, free := rest } hva hv2 hv1
          rw [this]
          show Res.ok (l0slot m2 root va) _ = _
          rw [hslot]

/-- C3 at a concrete input: a walk for `0x7000` in an empty table with five
free frames creates both missing tables and returns a non-null entry address
that the non-allocating walk then finds again. -/
theorem walk_alloc_creates_witness :
    ∃ slot s', walk 0x1000 0x7000 1 st0 = Res.ok slot s' ∧ slot ≠ 0 ∧
      walk 0x1000 0x7000 0 s' = Res.ok slot s' := by
  obtain ⟨slot, s', h1, h2, _, _, _, _, _, _, _, h3⟩ :=
    (walk_alloc_creates 0x1000 0x7000 1 st0 (by decide) wf_st0 fresh_st0 (by decide)).1
      (by decide)
  exact ⟨slot, s', h1, h2, h3⟩

/-- C4: `mappages` covers exactly the pages of the range.  For `size >= 1` with
`va + size - 1 < MAXVA`, a `uint64` `pa` and `perm` within the flag bits, on a
well-formed table in which none of the covered pages is mapped and when the
allocator does not fail (the call does not return -1), `mappages` returns 0;
with `n = (PGROUNDDOWN(va+size-1) - PGROUNDDOWN(va)) / PGSIZE`, for every
`k <= n` the level-0 entry of page `PGROUNDDOWN(va) + k*PGSIZE` is
`PA2PTE(pa + k*PGSIZE) | perm | PTE_V`; the level-0 entry of every page outside
the range is unchanged; and the call is the sequence of the `n + 1`
single-page installs in ascending address order. -/
theorem mappages_covers_range (root va size pa perm : Nat) (s : State)
    (wf : WF s.mem root) (fr : Fresh s.mem root s.free)
    (hsize : 1 ≤ size) (hva : va + size - 1 < MAXVA) (hpa : pa < U64) (hperm : perm < 1024)
    (hun : ∀ k, k ≤ (PGROUNDDOWN (va + size - 1) - PGROUNDDOWN va) / PGSIZE →
      pteOf s.mem root (PGROUNDDOWN va + k * PGSIZE) &&& PTE_V = 0)
    (halloc : ∀ s', mappages root va size pa (perm : Int) s ≠ Res.ok (-1) s') :
    ∃ s', mappages root va size pa (perm : Int) s = Res.ok 0 s' ∧
      (∀ k, k ≤ (PGROUNDDOWN (va + size - 1) - PGROUNDDOWN va) / PGSIZE →
        pteOf s'.mem root (PGROUNDDOWN va + k * PGSIZE) =
          PA2PTE ((pa + k * PGSIZE) % U64) ||| perm ||| PTE_V) ∧
      (∀ b, b % PGSIZE = 0 → b < 2 ^ 39 →
        (b < PGROUNDDOWN va ∨ PGROUNDDOWN (va + size - 1) < b) →
        pteOf s'.mem root b = pteOf s.mem root b) ∧
      mappages root va size pa (perm : Int) s =
        mapEach root (perm : Int) ((PGROUNDDOWN (va + size - 1) - PGROUNDDOWN va) / PGSIZE + 1)
          (PGROUNDDOWN va) pa s := by
  have hM := MAXVA_eq
  have hP : PGSIZE = 4096 := rfl
  have h1 := PGROUNDDOWN_eq va (by omega)
  have h2 := PGROUNDDOWN_eq (va + size - 1) (by omega)
  have hn : (PGROUNDDOWN (va + size - 1) - PGROUNDDOWN va) / PGSIZE =
      ((va + size - 1) / 4096 * 4096 - va / 4096 * 4096) / 4096 := by rw [h1, h2, hP]
  obtain ⟨j, s', used, _, _, _, inst, _, hout⟩ :=
    mappages_spec root va size pa (perm : Int) s wf fr hsize hva hpa
  rcases hout with ⟨hj, hR⟩ | ⟨hj, hv, _⟩ | ⟨_, _, _, hR⟩
  · refine ⟨s', hR, ?_, ?_, mappages_mapEach root va size pa _ s hsize hva⟩
    · intro k hk
      rw [inst _ (by rw [hP]; omega) (by rw [hP]; omega), if_pos (by rw [hP]; omega)]
      unfold leafPte
      rw [ofInt_natCast perm (by omega), Nat.add_sub_cancel_left]
    · intro b hb hb2 hout
      rw [hP] at hb
      rw [inst b hb hb2, if_neg (by omega)]
  · exact absurd (by rw [← hP]; exact hun j hj) hv
  · exact absurd hR (halloc s')

/-- C4 at a concrete input: three pages from `0x7123` on, in an empty table. -/
theorem mappages_covers_range_witness :
    ∃ s', mappages 0x1000 0x7123 0x2000 0x9000 ((6 : Nat) : Int) st0 = Res.ok 0 s' ∧
      (∀ k, k ≤ (PGROUNDDOWN (0x7123 + 0x2000 - 1) - PGROUNDDOWN 0x7123) / PGSIZE →
        pteOf s'.mem 0x1000 (PGROUNDDOWN 0x7123 + k * PGSIZE) =
          PA2PTE ((0x9000 + k * PGSIZE) % U64) ||| 6 ||| PTE_V) ∧
      (∀ b, b % PGSIZE = 0 → b < 2 ^ 39 →
        (b < PGROUNDDOWN 0x7123 ∨ PGROUNDDOWN (0x7123 + 0x2000 - 1) < b) →
        pteOf s'.mem 0x1000 b = pteOf st0.mem 0x1000 b) ∧
      mappages 0x1000 0x7123 0x2000 0x9000 ((6 : Nat) : Int) st0 =
        mapEach 0x1000 ((6 : Nat) : Int)
          ((PGROUNDDOWN (0x7123 + 0x2000 - 1) - PGROUNDDOWN 0x7123) / PGSIZE + 1)
          (PGROUNDDOWN 0x7123) 0x9000 st0 :=
  mappages_covers_range 0x1000 0x7123 0x2000 0x9000 6 st0 wf_st0 fresh_st0
    (by decide) (by decide) (by decide) (by decide)
    (by
      intro k hk
      have hk' : k ≤ 2 := hk
      interval_cases k <;> decide)
    (by
      intro s' h
      have h' : (mappages 0x1000 0x7123 0x2000 0x9000 ((6 : Nat) : Int) st0).val = some (-1) := by
        rw [h]; rfl
      exact absurd h' (by decide))

/-- C6 (as amended): on a well-formed table `uvmunmap` panics if and only if
`va` is not page-aligned or some page `a` of `[va, va + npages*PGSIZE)` (the
bound as the code computes it, in `uint64`) fails one of the checks of the
loop: `a >= MAXVA` or `walk` finds no level-0 entry, the entry is not valid, or
its flag bits are exactly `PTE_V` (the code's test for "not a leaf"). -/
theorem uvmunmap_panics_iff (root va npages : Nat) (do_free : Int) (s : State)
    (wf : WF s.mem root) :
    (∃ msg s', uvmunmap root va npages do_free s = Res.panic msg s') ↔
      (va % PGSIZE ≠ 0 ∨
        ∃ a, a % PGSIZE = 0 ∧ va ≤ a ∧ a < (va + npages * PGSIZE) % U64 ∧
          ¬ (a < MAXVA ∧ slotOf s.mem root a ≠ 0 ∧ pteOf s.mem root a &&& PTE_V ≠ 0 ∧
            PTE_FLAGS (pteOf s.mem root a) ≠ PTE_V)) := by
  have hP : PGSIZE = 4096 := rfl
  by_cases hva : va % PGSIZE = 0
  · obtain ⟨h1, h2⟩ := uvmunmap_spec root va npages do_free s wf (by rw [← hP]; exact hva)
    constructor
    · rintro ⟨msg, s', hR⟩
      right
      by_contra hno
      have hall : ∀ b, b % 4096 = 0 → va ≤ b → b < (va + npages * PGSIZE) % U64 →
          Unmappable s.mem root b := by
        intro b hb hb1 hb2
        by_contra hbad
        exact hno ⟨b, hb, hb1, hb2, hbad⟩
      obtain ⟨s'', hok, _⟩ := h1 hall
      rw [hR] at hok
      cases hok
    · rintro (h | ⟨a, ha, ha1, ha2, hbad⟩)
      · exact absurd hva h
      · exact h2 ⟨a, ha, ha1, ha2, hbad⟩
  · constructor
    · intro _
      exact Or.inl hva
    · intro _
      refine ⟨"uvmunmap: not aligned", s, ?_⟩
      unfold uvmunmap
      rw [if_pos hva]

/-- C6 at a concrete input: unmapping page 0 of an empty table. -/
theorem uvmunmap_panics_iff_witness :
    (∃ msg s', uvmunmap 0x1000 0 1 0 st0 = Res.panic msg s') ↔
      ((0 : Nat) % PGSIZE ≠ 0 ∨
        ∃ a, a % PGSIZE = 0 ∧ 0 ≤ a ∧ a < (0 + 1 * PGSIZE) % U64 ∧
          ¬ (a < MAXVA ∧ slotOf st0.mem 0x1000 a ≠ 0 ∧ pteOf st0.mem 0x1000 a &&& PTE_V ≠ 0 ∧
            PTE_FLAGS (pteOf st0.mem 0x1000 a) ≠ PTE_V)) :=
  uvmunmap_panics_iff 0x1000 0 1 0 st0 wf_st0

/-- C6 fails as stated: after `mappages(pt, 0, PGSIZE, 0x5000, PTE_U)` the
level-0 entry of page 0 is valid with none of `PTE_R`, `PTE_W`, `PTE_X` set,
so it is not a leaf in the claim's sense, yet `uvmunmap(pt, 0, 1, 0)` returns
without a panic. -/
theorem uvmunmap_nonleaf_counterexample :
    ¬ UnmappableClaimed (mappages 0x1000 0 PGSIZE 0x5000 (PTE_U : Nat) st0).state.mem 0x1000 0 ∧
      (uvmunmap 0x1000 0 1 0 (mappages 0x1000 0 PGSIZE 0x5000 (PTE_U : Nat) st0).state).val
        = some () := by
  decide

/-- C7 (as amended): `uvmalloc` is a no-op when it is not asked to grow and
`PGROUNDUP(oldsz)` does not wrap around: for `newsz < oldsz`, or `newsz = oldsz
<= 2^64 - PGSIZE`, it returns `oldsz` in the unchanged state (no frame is taken
from the allocator, no byte of memory is written). -/
theorem uvmalloc_noop (root oldsz newsz : Nat) (s : State)
    (h : newsz < oldsz ∨ (newsz = oldsz ∧ oldsz ≤ U64 - PGSIZE)) :
    uvmalloc root oldsz newsz s = Res.ok oldsz s := by
  unfold uvmalloc
  rcases h with h | ⟨h1, h2⟩
  · rw [if_pos h]
  · subst h1
    rw [if_neg (Nat.lt_irrefl _)]
    have hF : MAXVA / PGSIZE + 2 = (MAXVA / PGSIZE + 1) + 1 := rfl
    have hle : ¬ PGROUNDUP newsz < newsz := by
      rw [PGROUNDUP_eq]
      have : U64 - PGSIZE = 2 ^ 64 - 4096 := by decide
      rw [this] at h2
      omega
    rw [hF, uvmallocLoop_succ, if_neg hle]

/-- C7 at a concrete input: shrinking request on a table with free frames. -/
theorem uvmalloc_noop_witness : uvmalloc 0x1000 8192 4097 st0 = Res.ok 8192 st0 :=
  uvmalloc_noop 0x1000 8192 4097 st0 (Or.inl (by decide))

/-- C7 fails as stated for sizes within a page of `2^64`: with `oldsz = newsz =
2^64 - 1`, `PGROUNDUP(oldsz)` wraps to 0, the loop runs, takes all five frames
of the allocator, links page-table pages into the root and, after the
allocator is exhausted, rolls back and returns 0 instead of `oldsz`. -/
theorem uvmalloc_wrap_counterexample :
    (uvmalloc 0x1000 (U64 - 1) (U64 - 1) st0).val = some 0 ∧
      (uvmalloc 0x1000 (U64 - 1) (U64 - 1) st0).state.free = [0x6000, 0x5000, 0x2000] ∧
      ent (uvmalloc 0x1000 (U64 - 1) (U64 - 1) st0).state.mem 0x1000 0 ≠ ent st0.mem 0x1000 0 := by
  decide

/-- C10 fails on the code: `uvmdealloc(pt, PGSIZE, 0)` on an empty table, where
page 0 of `[PGROUNDUP(newsz), PGROUNDUP(oldsz))` is not mapped, does not
return: `uvmunmap` panics with "uvmunmap: walk". -/
theorem uvmdealloc_unmapped_panics :
    (uvmdealloc 0x1000 PGSIZE 0 st0).msg = some "uvmunmap: walk" := by
  decide

/-! ### Growing and then shrinking -/

theorem PX_PGROUNDDOWN (l a : Nat) (h : a < 2 ^ 64) : PX l (PGROUNDDOWN a) = PX l a := by
  rw [PX_eq, PX_eq, PGROUNDDOWN_eq a h]
  have e : (2 : Nat) ^ (12 + 9 * l) = 4096 * 2 ^ (9 * l) := by
    rw [pow_add]; rfl
  rw [e, ← Nat.div_div_eq_div_mul, ← Nat.div_div_eq_div_mul, Nat.mul_div_cancel _ (by decide)]

theorem pteOf_PGROUNDDOWN (m : Mem) (root a : Nat) (h : a < 2 ^ 64) :
    pteOf m root (PGROUNDDOWN a) = pteOf m root a := by
  unfold pteOf
  rw [PX_PGROUNDDOWN 2 a h, PX_PGROUNDDOWN 1 a h, PX_PGROUNDDOWN 0 a h]

theorem uvmdealloc_val (root oldsz newsz r : Nat) (s s' : State) (hlt : newsz < oldsz)
    (h : uvmdealloc root oldsz newsz s = .ok r s') : r = newsz := by
  unfold uvmdealloc at h
  rw [if_neg (by omega)] at h
  by_cases hc : PGROUNDUP newsz < PGROUNDUP oldsz
  · rw [if_pos hc] at h
    simp only at h
    split at h
    · exact absurd h (by simp)
    · injection h with h1 _
      exact h1.symm
  · rw [if_neg hc] at h
    injection h with h1 _
    exact h1.symm

theorem uvmdealloc_roundup (root oldsz newsz : Nat) (s : State) (hlt : newsz < oldsz)
    (hmax : oldsz ≤ MAXVA) :
    uvmdealloc root oldsz newsz s = uvmdealloc root (PGROUNDUP oldsz) newsz s := by
  have hM := MAXVA_eq
  have hup := PGROUNDUP_eq oldsz
  have hal : PGROUNDUP (PGROUNDUP oldsz) = PGROUNDUP oldsz :=
    PGROUNDUP_aligned _ (by omega) (by omega)
  have h1 : ¬ newsz ≥ oldsz := by omega
  have h2 : ¬ newsz ≥ PGROUNDUP oldsz := by omega
  unfold uvmdealloc
  rw [if_neg h1, if_neg h2, hal]

/-- What a successful `uvmalloc` leaves behind: the pages from
`PGROUNDUP(oldsz)` up to `newsz` are mapped, lowest first, to the distinct
zero-filled frames `ds` taken from the allocator, none of which is a page-table
page; every other level-0 entry is as before. -/
theorem uvmalloc_ok_inv (root oldsz newsz : Nat) (s s1 : State)
    (wf : WF s.mem root) (fr : Fresh s.mem root s.free)
    (hle : oldsz ≤ newsz) (hpos : 0 < newsz) (hnew : newsz ≤ MAXVA)
    (hun : ∀ b, b % 4096 = 0 → PGROUNDUP oldsz ≤ b → b < newsz →
      pteOf s.mem root b &&& PTE_V = 0)
    (h : uvmalloc root oldsz newsz s = .ok newsz s1) :
    ∃ (ds used : List Nat), WF s1.mem root ∧ Fresh s1.mem root s1.free ∧ Step root s s1 used ∧
      PGROUNDUP oldsz + ds.length * 4096 = max (PGROUNDUP oldsz) (PGROUNDUP newsz) ∧
      (∀ i, i < ds.length →
        pteOf s1.mem root (PGROUNDUP oldsz + i * 4096) = leafPte (ds.getD i 0) uperm) ∧
      (∀ b, b % 4096 = 0 → b < 2 ^ 39 →
        (b < PGROUNDUP oldsz ∨ PGROUNDUP oldsz + ds.length * 4096 ≤ b) →
        pteOf s1.mem root b = pteOf s.mem root b) ∧
      ds.Nodup ∧
      (∀ d, d ∈ ds → d ∈ used ∧ d % 4096 = 0 ∧ d < 2 ^ 64 ∧ ¬ TablePage s1.mem root d ∧
        ∀ x, d ≤ x → x < d + 4096 → s1.mem x = 0) := by
  have hM := MAXVA_eq
  obtain ⟨hunf, ha0, ha1, ha2⟩ := uvmalloc_unfold root oldsz newsz s hle hnew
  have hup := PGROUNDUP_eq newsz
  have hF : MAXVA / PGSIZE + 2 = 67108866 := by decide
  obtain ⟨ds, sM, used, wfM, frM, stM, hin, hpte, hout, hnd, hds, hres⟩ :=
    uvmallocLoop_spec root (PGROUNDUP oldsz) newsz hnew 67108864 (MAXVA / PGSIZE + 2)
      (PGROUNDUP oldsz) s wf fr ha0 (by omega) (by omega) hun
  rw [← hunf, h] at hres
  have hfrm : ∀ d, d ∈ ds → d % 4096 = 0 ∧ d < 2 ^ 64 := fun d hd =>
    ⟨(hds d hd).2.1, (hds d hd).2.2.1⟩
  rcases hres with ⟨hcov, hR⟩ | ⟨hlt2, _, pending, _, hR⟩
  · injection hR with _ hs
    subst hs
    refine ⟨ds, used, wfM, frM, stM, ?_, hpte, hout, hnd, hds⟩
    rcases Nat.eq_zero_or_pos ds.length with h0 | h0
    · rw [h0] at hcov ⊢
      omega
    · have := hin (ds.length - 1) (by omega)
      omega
  · exfalso
    obtain ⟨r, s', hD, _, _⟩ :=
      uvmalloc_rollback root (PGROUNDUP oldsz) ds pending sM wfM ha0 (by omega) hfrm hpte
    rw [hD] at hR
    injection hR with h1 _
    omega

/-- On a well-formed table whose pages from `PGROUNDUP(oldsz)` to `newsz` are
not mapped, `uvmalloc` returns: `newsz`, or 0 after rolling back. -/
theorem uvmalloc_total (root oldsz newsz : Nat) (s : State)
    (wf : WF s.mem root) (fr : Fresh s.mem root s.free)
    (hle : oldsz ≤ newsz) (hnew : newsz ≤ MAXVA)
    (hun : ∀ b, b % 4096 = 0 → PGROUNDUP oldsz ≤ b → b < newsz →
      pteOf s.mem root b &&& PTE_V = 0) :
    ∃ s1, uvmalloc root oldsz newsz s = .ok newsz s1 ∨ uvmalloc root oldsz newsz s = .ok 0 s1 := by
  have hM := MAXVA_eq
  obtain ⟨hunf, ha0, ha1, ha2⟩ := uvmalloc_unfold root oldsz newsz s hle hnew
  have hF : MAXVA / PGSIZE + 2 = 67108866 := by decide
  obtain ⟨ds, sM, used, wfM, frM, stM, hin, hpte, hout, hnd, hds, hres⟩ :=
    uvmallocLoop_spec root (PGROUNDUP oldsz) newsz hnew 67108864 (MAXVA / PGSIZE + 2)
      (PGROUNDUP oldsz) s wf fr ha0 (by omega) (by omega) hun
  rw [← hunf] at hres
  have hfrm : ∀ d, d ∈ ds → d % 4096 = 0 ∧ d < 2 ^ 64 := fun d hd =>
    ⟨(hds d hd).2.1, (hds d hd).2.2.1⟩
  rcases hres with ⟨_, hR⟩ | ⟨hlt2, _, pending, _, hR⟩
  · exact ⟨sM, Or.inl hR⟩
  · obtain ⟨r, s', hD, _, _⟩ :=
      uvmalloc_rollback root (PGROUNDUP oldsz) ds pending sM wfM ha0 (by omega) hfrm hpte
    rw [hD] at hR
    exact ⟨s', Or.inr hR⟩

theorem PGROUNDUP_zero : PGROUNDUP 0 = 0 := by
  rw [PGROUNDUP_eq]
  decide

theorem leafFrames_length (m : Mem) (root : Nat) : ∀ n a, (leafFrames m root a n).length = n := by
  intro n
  induction n with
  | zero => intro a; rfl
  | succ n ih =>
    intro a
    show (PTE2PA (pteOf m root a) :: leafFrames m root (a + 4096) n).length = n + 1
    rw [List.length_cons, ih]

/-! ### Clearing the user bit -/

theorem and_not_PTE_U (x : Nat) (hx : x < 2 ^ 64) :
    (∀ k, (x &&& (U64 - 1 - PTE_U)).testBit k = (x.testBit k && decide (k ≠ 4))) := by
  intro k
  have e : U64 - 1 - PTE_U = 2 ^ 64 - (2 ^ 4 + 1) := by decide
  rw [Nat.testBit_and, e, Nat.testBit_two_pow_sub_succ (by decide), Nat.testBit_two_pow]
  by_cases hk : k < 64
  · by_cases h4 : k = 4
    · subst h4; simp
    · have h4' : ¬ 4 = k := fun h => h4 h.symm
      simp [hk, h4, h4']
  · have : x.testBit k = false := Nat.testBit_lt_two_pow (lt_of_lt_of_le hx
      (Nat.pow_le_pow_right (by decide) (by omega)))
    simp [this]

theorem clearU_lt (x : Nat) (hx : x < 2 ^ 64) : x &&& (U64 - 1 - PTE_U) < 2 ^ 64 :=
  lt_of_le_of_lt Nat.and_le_left hx

theorem clearU_valid (x : Nat) : (x &&& (U64 - 1 - PTE_U)) &&& PTE_V = x &&& PTE_V := by
  have e : (U64 - 1 - PTE_U) &&& PTE_V = PTE_V := by decide
  rw [Nat.and_assoc, e]

theorem clearU_PTE2PA (x : Nat) (hx : x < 2 ^ 64) :
    PTE2PA (x &&& (U64 - 1 - PTE_U)) = PTE2PA x := by
  unfold PTE2PA
  have e : (x &&& (U64 - 1 - PTE_U)) >>> 10 = x >>> 10 := by
    apply Nat.eq_of_testBit_eq
    intro j
    rw [Nat.testBit_shiftRight, Nat.testBit_shiftRight, and_not_PTE_U x hx]
    have : 10 + j ≠ 4 := by omega
    simp [this]
  rw [e]

theorem clearU_user (x : Nat) : (x &&& (U64 - 1 - PTE_U)) &&& PTE_U = 0 := by
  have e : (U64 - 1 - PTE_U) &&& PTE_U = 0 := by decide
  rw [Nat.and_assoc, e, Nat.and_zero]

/-- The effect of `uvmclear` on a well-formed table. -/
theorem uvmclear_spec (root va : Nat) (s : State) (hva : va < MAXVA) :
    (slotOf s.mem root va = 0 → uvmclear root va s = .panic "uvmclear" s) ∧
    (slotOf s.mem root va ≠ 0 →
      ∃ t0, pathTo s.mem root [PX 2 va, PX 1 va] = some t0 ∧
        slotOf s.mem root va = t0 + 8 * PX 0 va ∧
        uvmclear root va s = .ok ()
          { mem := write64 s.mem (t0 + 8 * PX 0 va) (pteOf s.mem root va &&& (U64 - 1 - PTE_U)),
            free := s.free }) := by
  unfold uvmclear
  rw [walk_noalloc root va s hva]
  constructor
  · intro h
    simp only [h, if_true]
  · intro h
    obtain ⟨t0, hp, hs, hr⟩ := slotOf_pteOf s.mem root va h
    refine ⟨t0, hp, hs, ?_⟩
    simp only [if_neg h]
    rw [hr, hs]

theorem uvmalloc_st2 : uvmalloc 0x1000 0 (2 * PGSIZE) st0 = .ok (2 * PGSIZE) st2 :=
  Res.eq_ok_of_val _ _ (by decide)

/-- The two-page address space `st2` is well formed, its allocator is well
behaved, and its page-table pages are the root and frames taken from the
allocator of `st0`. -/
theorem st2_inv : WF st2.mem 0x1000 ∧ Fresh st2.mem 0x1000 st2.free ∧
    ∀ t, TablePage st2.mem 0x1000 t → t = 0x1000 ∨ t = 0x3000 ∨ t = 0x4000 := by
  obtain ⟨ds, used, wf, fr, st, hlen, hpte, _, _, hds⟩ :=
    uvmalloc_ok_inv 0x1000 0 (2 * PGSIZE) st0 st2 wf_st0 fresh_st0 (by decide) (by decide)
      (by decide)
      (by
        intro b _ _ _
        show pteOf zeroMem 0x1000 b &&& PTE_V = 0
        rw [pteOf_zeroMem]
        exact zero_invalid)
      uvmalloc_st2
  refine ⟨wf, fr, ?_⟩
  have hl : ds.length = 2 := by
    have e1 : PGROUNDUP 0 = 0 := PGROUNDUP_zero
    have e2 : PGROUNDUP (2 * PGSIZE) = 8192 := by rw [PGROUNDUP_eq]; decide
    rw [e1, e2] at hlen
    omega
  have hd : ∀ i, i < 2 → ¬ TablePage st2.mem 0x1000 (PTE2PA (pteOf st2.mem 0x1000 (i * 4096))) := by
    intro i hi
    have h1 := hpte i (by omega)
    rw [PGROUNDUP_zero, Nat.zero_add] at h1
    obtain ⟨_, hd1, hd2, hnt, _⟩ := hds _ (getD_mem ds i (by omega))
    rw [h1, (uperm_facts _ hd1 hd2).1]
    exact hnt
  have h0 : ¬ TablePage st2.mem 0x1000 0x2000 := by
    have := hd 0 (by decide)
    have e : PTE2PA (pteOf st2.mem 0x1000 (0 * 4096)) = 0x2000 := by decide
    rwa [e] at this
  have h1 : ¬ TablePage st2.mem 0x1000 0x5000 := by
    have := hd 1 (by decide)
    have e : PTE2PA (pteOf st2.mem 0x1000 (1 * 4096)) = 0x5000 := by decide
    rwa [e] at this
  intro t ht
  rcases st.tablePage_step ht with h | h
  · obtain ⟨q, _, hq⟩ := h
    exact Or.inl (pathTo_zeroMem _ _ _ hq).2
  · have hmem : t ∈ st0.free := by
      rw [st.free]
      exact List.mem_append_left _ h
    have hc : t = 0x2000 ∨ t = 0x3000 ∨ t = 0x4000 ∨ t = 0x5000 ∨ t = 0x6000 := by
      simpa [st0] using hmem
    rcases hc with rfl | rfl | rfl | rfl | rfl
    · exact absurd ht h0
    · exact Or.inr (Or.inl rfl)
    · exact Or.inr (Or.inr rfl)
    · exact absurd ht h1
    · exact absurd ht (fr.sep _ (by decide))

/-! ### Copying between kernel and user memory -/

theorem walkaddr_val (root va : Nat) (s : State) :
    walkaddr root va s = .ok (walkaddrVal root va s) s := by
  unfold walkaddrVal
  rw [walkaddr_eq]

theorem walkaddrVal_eq (root va : Nat) (s : State) :
    walkaddrVal root va s =
      if va < MAXVA ∧ slotOf s.mem root va ≠ 0 ∧
          read64 s.mem (slotOf s.mem root va) &&& PTE_V ≠ 0 ∧
          read64 s.mem (slotOf s.mem root va) &&& PTE_U ≠ 0
        then PTE2PA (read64 s.mem (slotOf s.mem root va)) else 0 := by
  unfold walkaddrVal
  rw [walkaddr_eq]

theorem walkaddrVal_facts (root va : Nat) (s : State) :
    walkaddrVal root va s % 4096 = 0 ∧ walkaddrVal root va s < 2 ^ 64 ∧
      (walkaddrVal root va s ≠ 0 → va < MAXVA) := by
  rw [walkaddrVal_eq]
  split
  · rename_i h
    exact ⟨PTE2PA_aligned _, PTE2PA_lt _, fun _ => h.1⟩
  · exact ⟨rfl, by decide, fun h => absurd rfl h⟩

theorem SameTables.ent_eq {m m' : Mem} {root : Nat} (h : SameTables m m' root) :
    ∀ t, TablePage m root t → ∀ j, j < 512 → ent m' t j = ent m t j := by
  intro t ht j hj
  unfold ent
  apply read64_congr
  intro k hk
  exact h t ht _ (by omega) (by omega)

theorem SameTables.path_eq {m m' : Mem} {root : Nat} (h : SameTables m m' root) :
    ∀ q, ValidPath q → pathTo m' root q = pathTo m root q :=
  pathTo_congr_tables m m' root h.ent_eq

theorem SameTables.tablePage_iff {m m' : Mem} {root : Nat} (h : SameTables m m' root) (t : Nat) :
    TablePage m' root t ↔ TablePage m root t := by
  constructor
  · rintro ⟨q, hq, hp⟩
    exact ⟨q, hq, by rw [← h.path_eq q hq]; exact hp⟩
  · rintro ⟨q, hq, hp⟩
    exact ⟨q, hq, by rw [h.path_eq q hq]; exact hp⟩

theorem SameTables.walkaddrVal_same {s s' : State} {root : Nat}
    (h : SameTables s.mem s'.mem root) (va : Nat) :
    walkaddrVal root va s' = walkaddrVal root va s := by
  rw [Vm.walkaddrVal_eq, Vm.walkaddrVal_eq, slotOf_congr s.mem s'.mem root va h.path_eq]
  by_cases h0 : slotOf s.mem root va = 0
  · rw [if_neg (fun c => c.2.1 h0), if_neg (fun c => c.2.1 h0)]
  · obtain ⟨t0, hp, hs, _⟩ := slotOf_pteOf s.mem root va h0
    have e : read64 s'.mem (slotOf s.mem root va) = read64 s.mem (slotOf s.mem root va) := by
      rw [hs]
      exact h.ent_eq t0 ⟨_, validPath_PX va, hp⟩ _ (PX_lt 0 va)
    rw [e]

theorem memmove_in (m : Mem) (dst src n x : Nat) (h1 : dst ≤ x) (h2 : x < dst + n) :
    memmove m dst src n x = read8 m (src + (x - dst)) := by
  unfold memmove read8
  rw [if_pos ⟨h1, h2⟩]

theorem memmove_out (m : Mem) (dst src n x : Nat) (h : x < dst ∨ dst + n ≤ x) :
    memmove m dst src n x = m x := by
  unfold memmove
  rw [if_neg (by omega)]

theorem same_page (a i : Nat) (h : a < 2 ^ 64) (hi : i < 4096 - a % 4096) :
    PGROUNDDOWN (a + i) = PGROUNDDOWN a ∧ (a + i) % 4096 = a % 4096 + i ∧
      a - PGROUNDDOWN a = a % 4096 ∧ PGROUNDDOWN a + 4096 = a + (4096 - a % 4096) := by
  rw [PGROUNDDOWN_eq a h, PGROUNDDOWN_eq (a + i) (by omega)]
  omega

theorem copyoutLoop_succ (root fuel dstva src len : Nat) (s : State) :
    copyoutLoop root (fuel + 1) dstva src len s =
      if len > 0 then
        if walkaddrVal root (PGROUNDDOWN dstva) s = 0 then .ok (-1) s
        else
          copyoutLoop root fuel ((PGROUNDDOWN dstva + PGSIZE) % U64)
            (src + (if PGSIZE - (dstva - PGROUNDDOWN dstva) > len then len
              else PGSIZE - (dstva - PGROUNDDOWN dstva)))
            (len - (if PGSIZE - (dstva - PGROUNDDOWN dstva) > len then len
              else PGSIZE - (dstva - PGROUNDDOWN dstva)))
            { mem := memmove s.mem
                ((walkaddrVal root (PGROUNDDOWN dstva) s + (dstva - PGROUNDDOWN dstva)) % U64) src
                (if PGSIZE - (dstva - PGROUNDDOWN dstva) > len then len
                  else PGSIZE - (dstva - PGROUNDDOWN dstva)),
              free := s.free }
      else .ok 0 s := by
  rw [copyoutLoop]
  simp only [walkaddr_val]

theorem userByte_congr {s s' : State} {root : Nat} (h : SameTables s.mem s'.mem root) (va : Nat) :
    userByte root va s' = userByte root va s := by
  unfold userByte
  rw [h.walkaddrVal_same]

/-- The loop of `copyout`, when the first `k` bytes of the destination range lie
on pages that translate and, if `k < len`, byte `k` lies on a page that does
not: the first `k` bytes of the source buffer are stored at their physical
addresses, nothing else is written, and the result is 0 when `k = len` and -1
otherwise.  The destination bytes are required to lie outside the page-table
pages, outside the source buffer, and at pairwise distinct physical
addresses. -/
theorem copyoutLoop_spec (root : Nat) :
    ∀ fuel dstva src len k s, dstva < 2 ^ 64 → MAXVA ≤ PGROUNDDOWN dstva + fuel * 4096 →
      k ≤ len →
      (∀ i, i < k → walkaddrVal root (PGROUNDDOWN (dstva + i)) s ≠ 0) →
      (k < len → walkaddrVal root (PGROUNDDOWN (dstva + k)) s = 0) →
      (∀ i, i < k → ∀ t, TablePage s.mem root t →
        userByte root (dstva + i) s < t ∨ t + 4096 ≤ userByte root (dstva + i) s) →
      (∀ i j, i < k → j < k → src + j ≠ userByte root (dstva + i) s) →
      (∀ i j, i < k → j < k →
        userByte root (dstva + i) s = userByte root (dstva + j) s → i = j) →
      ∃ s', copyoutLoop root (fuel + 1) dstva src len s = .ok (if k = len then 0 else -1) s' ∧
        s'.free = s.free ∧
        (∀ i, i < k → s'.mem (userByte root (dstva + i) s) = read8 s.mem (src + i)) ∧
        (∀ x, (∀ i, i < k → x ≠ userByte root (dstva + i) s) → s'.mem x = s.mem x) := by
  have hM := MAXVA_eq
  have hP : PGSIZE = 4096 := rfl
  have hU : U64 = 2 ^ 64 := rfl
  intro fuel
  induction fuel with
  | zero =>
    intro dstva src len k s hd hfuel hk hT hstop hsep hsrc hinj
    rw [copyoutLoop_succ]
    by_cases hlen : len > 0
    · rw [if_pos hlen]
      have hk0 : k = 0 := by
        by_contra hne
        have := (walkaddrVal_facts root (PGROUNDDOWN (dstva + 0)) s).2.2 (hT 0 (by omega))
        rw [Nat.add_zero] at this
        omega
      subst hk0
      have h0 := hstop (by omega)
      rw [Nat.add_zero] at h0
      rw [if_pos h0, if_neg (by omega)]
      exact ⟨s, rfl, rfl, fun i hi => absurd hi (by omega), fun _ _ => rfl⟩
    · rw [if_neg hlen, if_pos (by omega)]
      exact ⟨s, rfl, rfl, fun i hi => absurd hi (by omega), fun _ _ => rfl⟩
  | succ fuel ih =>
    intro dstva src len k s hd hfuel hk hT hstop hsep hsrc hinj
    rw [copyoutLoop_succ]
    by_cases hlen : len > 0
    swap
    · rw [if_neg hlen, if_pos (by omega)]
      exact ⟨s, rfl, rfl, fun i hi => absurd hi (by omega), fun _ _ => rfl⟩
    rw [if_pos hlen]
    by_cases hk0 : k = 0
    · subst hk0
      have h0 := hstop (by omega)
      rw [Nat.add_zero] at h0
      rw [if_pos h0, if_neg (by omega)]
      exact ⟨s, rfl, rfl, fun i hi => absurd hi (by omega), fun _ _ => rfl⟩
    have hT0 := hT 0 (by omega)
    rw [Nat.add_zero] at hT0
    obtain ⟨hal, hlt64, hmx⟩ := walkaddrVal_facts root (PGROUNDDOWN dstva) s
    have hva0 := hmx hT0
    obtain ⟨_, _, hoff, hnext⟩ := same_page dstva 0 hd (by omega)
    have hpg := PGROUNDDOWN_eq dstva hd
    rw [if_neg hT0, step_addr _ hva0, hoff, hP]
    have hwrap : (walkaddrVal root (PGROUNDDOWN dstva) s + dstva % 4096) % U64 =
        walkaddrVal root (PGROUNDDOWN dstva) s + dstva % 4096 :=
      Nat.mod_eq_of_lt (by rw [hU]; omega)
    rw [hwrap]
    have hub : ∀ i, i < 4096 - dstva % 4096 → userByte root (dstva + i) s =
        walkaddrVal root (PGROUNDDOWN dstva) s + dstva % 4096 + i := by
      intro i hi
      obtain ⟨e1, e2, _, _⟩ := same_page dstva i hd hi
      unfold userByte
      rw [e1, hP, e2, Nat.add_assoc]
    obtain ⟨n, hn, hn1, hn2, hn3⟩ : ∃ n, n = (if 4096 - dstva % 4096 > len then len
        else 4096 - dstva % 4096) ∧ 0 < n ∧ n ≤ len ∧ n ≤ 4096 - dstva % 4096 ∧
        (n = len ∨ n = 4096 - dstva % 4096) := by
      refine ⟨_, rfl, ?_⟩
      split <;> omega
    rw [← hn]
    have hnk : n ≤ k := by
      by_contra hc
      have h1 := hstop (by omega)
      rw [(same_page dstva k hd (by omega)).1] at h1
      exact hT0 h1
    -- the first chunk leaves the page tables alone
    have hsame : SameTables s.mem (memmove s.mem
        (walkaddrVal root (PGROUNDDOWN dstva) s + dstva % 4096) src n) root := by
      intro t ht x hx1 hx2
      apply memmove_out
      by_contra hc
      have hi : x - (walkaddrVal root (PGROUNDDOWN dstva) s + dstva % 4096) < n := by omega
      have := hsep _ (lt_of_lt_of_le hi hnk) t ht
      rw [hub _ (by omega)] at this
      omega
    have hw : ∀ va, walkaddrVal root va ⟨memmove s.mem
        (walkaddrVal root (PGROUNDDOWN dstva) s + dstva % 4096) src n, s.free⟩ =
        walkaddrVal root va s := fun va => SameTables.walkaddrVal_same (s := s) hsame va
    have hu : ∀ va, userByte root va ⟨memmove s.mem
        (walkaddrVal root (PGROUNDDOWN dstva) s + dstva % 4096) src n, s.free⟩ =
        userByte root va s := fun va => userByte_congr (s := s) hsame va
    have hnext' : ∀ i, i < k - n → PGROUNDDOWN dstva + 4096 + i = dstva + (n + i) := by
      intro i hi
      omega
    obtain ⟨s', hr, hfree, hbytes, hothers⟩ := ih (PGROUNDDOWN dstva + 4096) (src + n) (len - n)
      (k - n) ⟨memmove s.mem (walkaddrVal root (PGROUNDDOWN dstva) s + dstva % 4096) src n,
        s.free⟩ (by omega)
      (by rw [PGROUNDDOWN_eq _ (by omega)]; omega) (by omega)
      (by
        intro i hi
        rw [hnext' i hi, hw]
        exact hT _ (by omega))
      (by
        intro hlt
        have e : PGROUNDDOWN dstva + 4096 + (k - n) = dstva + k := by omega
        rw [e, hw]
        exact hstop (by omega))
      (by
        intro i hi t ht
        rw [hnext' i hi, hu]
        exact hsep _ (by omega) t ((hsame.tablePage_iff t).mp ht))
      (by
        intro i j hi hj
        rw [hnext' i hi, hu]
        have := hsrc (n + i) (n + j) (by omega) (by omega)
        omega)
      (by
        intro i j hi hj
        rw [hnext' i hi, hnext' j hj, hu, hu]
        intro h
        have := hinj (n + i) (n + j) (by omega) (by omega) h
        omega)
    refine ⟨s', ?_, hfree, ?_, ?_⟩
    · rw [hr]
      have e : (k - n = len - n) = (k = len) := by
        apply propext
        constructor <;> intro h <;> omega
      simp only [e]
    · intro i hi
      by_cases hin : i < n
      · rw [hothers]
        · rw [hub i (by omega)]
          show memmove s.mem _ src n _ = _
          rw [memmove_in _ _ _ _ _ (by omega) (by omega)]
          congr 1
          omega
        · intro j hj
          rw [hnext' j hj, hu]
          intro h
          have := hinj i (n + j) hi (by omega) h
          omega
      · have e : dstva + i = PGROUNDDOWN dstva + 4096 + (i - n) := by
          rw [hnext' (i - n) (by omega)]
          congr 1
          omega
        have hb := hbytes (i - n) (by omega)
        rw [← e, hu] at hb
        rw [hb]
        show read8 (memmove s.mem _ src n) _ = _
        unfold read8
        rw [memmove_out]
        · congr 2
          omega
        · have := hsrc
          by_contra hc
          have hj : src + n + (i - n) - (walkaddrVal root (PGROUNDDOWN dstva) s + dstva % 4096)
              < n := by omega
          have := hsrc _ i (lt_of_lt_of_le hj hnk) hi
          rw [hub _ (by omega)] at this
          omega
    · intro x hx
      rw [hothers]
      · show memmove s.mem _ src n x = _
        apply memmove_out
        by_contra hc
        have hj : x - (walkaddrVal root (PGROUNDDOWN dstva) s + dstva % 4096) < n := by omega
        have := hx _ (lt_of_lt_of_le hj hnk)
        rw [hub _ (by omega)] at this
        omega
      · intro j hj
        rw [hnext' j hj, hu]
        exact hx _ (by omega)

theorem copyinLoop_succ (root fuel dst srcva len : Nat) (s : State) :
    copyinLoop root (fuel + 1) dst srcva len s =
      if len > 0 then
        if walkaddrVal root (PGROUNDDOWN srcva) s = 0 then .ok (-1) s
        else
          copyinLoop root fuel
            (dst + (if PGSIZE - (srcva - PGROUNDDOWN srcva) > len then len
              else PGSIZE - (srcva - PGROUNDDOWN srcva)))
            ((PGROUNDDOWN srcva + PGSIZE) % U64)
            (len - (if PGSIZE - (srcva - PGROUNDDOWN srcva) > len then len
              else PGSIZE - (srcva - PGROUNDDOWN srcva)))
            { mem := memmove s.mem dst
                ((walkaddrVal root (PGROUNDDOWN srcva) s + (srcva - PGROUNDDOWN srcva)) % U64)
                (if PGSIZE - (srcva - PGROUNDDOWN srcva) > len then len
                  else PGSIZE - (srcva - PGROUNDDOWN srcva)),
              free := s.free }
      else .ok 0 s := by
  rw [copyinLoop]
  simp only [walkaddr_val]

/-- The loop of `copyin`, when every byte of the source range lies on a page
that translates and the destination buffer lies outside the page-table pages
and outside the source bytes: the destination buffer receives the bytes found
at the physical addresses of the source range, nothing else is written, and
the result is 0. -/
theorem copyinLoop_spec (root : Nat) :
    ∀ fuel dst srcva len s, srcva < 2 ^ 64 → MAXVA ≤ PGROUNDDOWN srcva + fuel * 4096 →
      (∀ i, i < len → walkaddrVal root (PGROUNDDOWN (srcva + i)) s ≠ 0) →
      (∀ i, i < len → ∀ t, TablePage s.mem root t → dst + i < t ∨ t + 4096 ≤ dst + i) →
      (∀ i j, i < len → j < len → dst + j ≠ userByte root (srcva + i) s) →
      ∃ s', copyinLoop root (fuel + 1) dst srcva len s = .ok 0 s' ∧ s'.free = s.free ∧
        (∀ i, i < len → s'.mem (dst + i) = read8 s.mem (userByte root (srcva + i) s)) ∧
        (∀ x, (x < dst ∨ dst + len ≤ x) → s'.mem x = s.mem x) := by
  have hM := MAXVA_eq
  have hP : PGSIZE = 4096 := rfl
  have hU : U64 = 2 ^ 64 := rfl
  intro fuel
  induction fuel with
  | zero =>
    intro dst srcva len s hd hfuel hT hsep hsrc
    rw [copyinLoop_succ]
    by_cases hlen : len > 0
    · exfalso
      have := (walkaddrVal_facts root (PGROUNDDOWN (srcva + 0)) s).2.2 (hT 0 (by omega))
      rw [Nat.add_zero] at this
      omega
    · rw [if_neg hlen]
      exact ⟨s, rfl, rfl, fun i hi => absurd hi (by omega), fun _ _ => rfl⟩
  | succ fuel ih =>
    intro dst srcva len s hd hfuel hT hsep hsrc
    rw [copyinLoop_succ]
    by_cases hlen : len > 0
    swap
    · rw [if_neg hlen]
      exact ⟨s, rfl, rfl, fun i hi => absurd hi (by omega), fun _ _ => rfl⟩
    rw [if_pos hlen]
    have hT0 := hT 0 (by omega)
    rw [Nat.add_zero] at hT0
    obtain ⟨hal, hlt64, hmx⟩ := walkaddrVal_facts root (PGROUNDDOWN srcva) s
    have hva0 := hmx hT0
    obtain ⟨_, _, hoff, hnext⟩ := same_page srcva 0 hd (by omega)
    have hpg := PGROUNDDOWN_eq srcva hd
    rw [if_neg hT0, step_addr _ hva0, hoff, hP]
    have hwrap : (walkaddrVal root (PGROUNDDOWN srcva) s + srcva % 4096) % U64 =
        walkaddrVal root (PGROUNDDOWN srcva) s + srcva % 4096 :=
      Nat.mod_eq_of_lt (by rw [hU]; omega)
    rw [hwrap]
    have hub : ∀ i, i < 4096 - srcva % 4096 → userByte root (srcva + i) s =
        walkaddrVal root (PGROUNDDOWN srcva) s + srcva % 4096 + i := by
      intro i hi
      obtain ⟨e1, e2, _, _⟩ := same_page srcva i hd hi
      unfold userByte
      rw [e1, hP, e2, Nat.add_assoc]
    obtain ⟨n, hn, hn1, hn2, hn3⟩ : ∃ n, n = (if 4096 - srcva % 4096 > len then len
        else 4096 - srcva % 4096) ∧ 0 < n ∧ n ≤ len ∧ n ≤ 4096 - srcva % 4096 ∧
        (n = len ∨ n = 4096 - srcva % 4096) := by
      refine ⟨_, rfl, ?_⟩
      split <;> omega
    rw [← hn]
    have hsame : SameTables s.mem (memmove s.mem dst
        (walkaddrVal root (PGROUNDDOWN srcva) s + srcva % 4096) n) root := by
      intro t ht x hx1 hx2
      apply memmove_out
      by_contra hc
      have := hsep (x - dst) (by omega) t ht
      omega
    have hw : ∀ va, walkaddrVal root va ⟨memmove s.mem dst
        (walkaddrVal root (PGROUNDDOWN srcva) s + srcva % 4096) n, s.free⟩ =
        walkaddrVal root va s := fun va => SameTables.walkaddrVal_same (s := s) hsame va
    have hu : ∀ va, userByte root va ⟨memmove s.mem dst
        (walkaddrVal root (PGROUNDDOWN srcva) s + srcva % 4096) n, s.free⟩ =
        userByte root va s := fun va => userByte_congr (s := s) hsame va
    have hnext' : ∀ i, i < len - n → PGROUNDDOWN srcva + 4096 + i = srcva + (n + i) := by
      intro i hi
      omega
    obtain ⟨s', hr, hfree, hbytes, hothers⟩ := ih (dst + n) (PGROUNDDOWN srcva + 4096) (len - n)
      ⟨memmove s.mem dst (walkaddrVal root (PGROUNDDOWN srcva) s + srcva % 4096) n, s.free⟩
      (by omega) (by rw [PGROUNDDOWN_eq _ (by omega)]; omega)
      (by
        intro i hi
        rw [hnext' i hi, hw]
        exact hT _ (by omega))
      (by
        intro i hi t ht
        have := hsep (n + i) (by omega) t ((hsame.tablePage_iff t).mp ht)
        omega)
      (by
        intro i j hi hj
        rw [hnext' i hi, hu]
        have := hsrc (n + i) (n + j) (by omega) (by omega)
        omega)
    refine ⟨s', hr, hfree, ?_, ?_⟩
    · intro i hi
      by_cases hin : i < n
      · rw [hothers _ (by omega)]
        show memmove s.mem dst _ n _ = _
        rw [memmove_in _ _ _ _ _ (by omega) (by omega), hub i (by omega)]
        congr 1
        omega
      · have hb := hbytes (i - n) (by omega)
        have e : dst + n + (i - n) = dst + i := by omega
        have e2 : n + (i - n) = i := by omega
        rw [hnext' _ (by omega), hu, e, e2] at hb
        rw [hb]
        show read8 (memmove s.mem dst _ n) _ = _
        unfold read8
        rw [memmove_out]
        by_contra hc
        have := hsrc i (userByte root (srcva + i) s - dst) hi (by omega)
        omega
    · intro x hx
      rw [hothers _ (by omega)]
      show memmove s.mem dst _ n x = _
      exact memmove_out _ _ _ _ _ (by omega)

theorem write8_same (m : Mem) (a v : Nat) : write8 m a v a = v % 256 := by
  unfold write8
  rw [if_pos rfl]

theorem write8_ne (m : Mem) (a v x : Nat) (h : x ≠ a) : write8 m a v x = m x := by
  unfold write8
  rw [if_neg h]

theorem read8_mod (m : Mem) (a : Nat) : read8 m a % 256 = read8 m a := by
  unfold read8
  exact Nat.mod_mod _ _

theorem copyinstrBytes_succ (n p dst max : Nat) (s : State) :
    copyinstrBytes (n + 1) p dst max s =
      if read8 s.mem p = 0 then (1, max, dst, { mem := write8 s.mem dst 0, free := s.free })
      else
        copyinstrBytes n (p + 1) (dst + 1) (max - 1)
          { mem := write8 s.mem dst (read8 s.mem p), free := s.free } := rfl

/-- The inner loop of `copyinstr` over `n` source bytes from `p`, of which the
first `z` are not zero and, if `z < n`, byte `z` is zero: it copies the `z`
bytes and, if there is one, the terminator; it reports whether it met the
terminator, and has advanced `dst` and reduced `max` by `z`. -/
theorem copyinstrBytes_spec :
    ∀ n p dst max z s, z ≤ n →
      (∀ i, i < z → read8 s.mem (p + i) ≠ 0) → (z < n → read8 s.mem (p + z) = 0) →
      (∀ i j, i < min (z + 1) n → j < min (z + 1) n →
        dst + j ≠ p + i) →
      ∃ s', copyinstrBytes n p dst max s = (if z < n then 1 else 0, max - z, dst + z, s') ∧
        s'.free = s.free ∧
        (∀ i, i < min (z + 1) n → s'.mem (dst + i) = read8 s.mem (p + i)) ∧
        (∀ x, (x < dst ∨ dst + min (z + 1) n ≤ x) → s'.mem x = s.mem x) := by
  intro n
  induction n with
  | zero =>
    intro p dst max z s hz _ _ _
    have : z = 0 := by omega
    subst this
    exact ⟨s, rfl, rfl, fun i hi => absurd hi (by simp), fun _ _ => rfl⟩
  | succ n ih =>
    intro p dst max z s hz hnz hzero hdis
    rw [copyinstrBytes_succ]
    by_cases h0 : read8 s.mem p = 0
    · rw [if_pos h0]
      have hz0 : z = 0 := by
        by_contra hne
        exact hnz 0 (by omega) h0
      subst hz0
      refine ⟨⟨write8 s.mem dst 0, s.free⟩, by simp, rfl, ?_, ?_⟩
      · intro i hi
        have hi0 : i = 0 := by omega
        subst hi0
        show write8 s.mem dst 0 (dst + 0) = _
        rw [Nat.add_zero, write8_same, Nat.add_zero, h0]
      · intro x hx
        show write8 s.mem dst 0 x = _
        exact write8_ne _ _ _ _ (by omega)
    · rw [if_neg h0]
      have hzpos : 0 < z := by
        by_contra hne
        have hz0 : z = 0 := by omega
        subst hz0
        exact h0 (hzero (by omega))
      have hkeep : ∀ x, x ≠ dst → read8 (write8 s.mem dst (read8 s.mem p)) x = read8 s.mem x := by
        intro x hx
        unfold read8
        rw [write8_ne _ _ _ _ hx]
      obtain ⟨s', hr, hfree, hbytes, hothers⟩ := ih (p + 1) (dst + 1) (max - 1) (z - 1)
        ⟨write8 s.mem dst (read8 s.mem p), s.free⟩ (by omega)
        (by
          intro i hi
          have e : p + 1 + i = p + (i + 1) := by omega
          show read8 (write8 s.mem dst (read8 s.mem p)) _ ≠ 0
          rw [e, hkeep]
          · exact hnz _ (by omega)
          · have := hdis (i + 1) 0 (by omega) (by omega)
            omega)
        (by
          intro hlt
          have e : p + 1 + (z - 1) = p + z := by omega
          show read8 (write8 s.mem dst (read8 s.mem p)) _ = 0
          rw [e, hkeep]
          · exact hzero (by omega)
          · have := hdis z 0 (by omega) (by omega)
            omega)
        (by
          intro i j hi hj
          have := hdis (i + 1) (j + 1) (by omega) (by omega)
          omega)
      refine ⟨s', ?_, hfree, ?_, ?_⟩
      · rw [hr]
        have e1 : (z - 1 < n) = (z < n + 1) := by
          apply propext
          constructor <;> intro h <;> omega
        have e2 : max - 1 - (z - 1) = max - z := by omega
        have e3 : dst + 1 + (z - 1) = dst + z := by omega
        simp only [e1, e2, e3]
      · intro i hi
        rcases Nat.eq_zero_or_pos i with rfl | hpos
        · rw [hothers _ (by omega)]
          show write8 s.mem dst (read8 s.mem p) (dst + 0) = _
          rw [Nat.add_zero, write8_same, Nat.add_zero, read8_mod]
        · have hb := hbytes (i - 1) (by omega)
          have e1 : dst + 1 + (i - 1) = dst + i := by omega
          have e2 : p + 1 + (i - 1) = p + i := by omega
          rw [e1, e2] at hb
          rw [hb]
          show read8 (write8 s.mem dst (read8 s.mem p)) _ = _
          apply hkeep
          have := hdis i 0 (by omega) (by omega)
          omega
      · intro x hx
        rw [hothers _ (by omega)]
        show write8 s.mem dst (read8 s.mem p) x = _
        exact write8_ne _ _ _ _ (by omega)

theorem copyinstrLoop_succ (root fuel : Nat) (got_null : Int) (dst srcva max : Nat) (s : State) :
    copyinstrLoop root (fuel + 1) got_null dst srcva max s =
      if got_null = 0 ∧ max > 0 then
        if walkaddrVal root (PGROUNDDOWN srcva) s = 0 then .ok (-1) s
        else
          copyinstrLoop root fuel
            (copyinstrBytes
              (if PGSIZE - (srcva - PGROUNDDOWN srcva) > max then max
                else PGSIZE - (srcva - PGROUNDDOWN srcva))
              ((walkaddrVal root (PGROUNDDOWN srcva) s + (srcva - PGROUNDDOWN srcva)) % U64)
              dst max s).1
            (copyinstrBytes
              (if PGSIZE - (srcva - PGROUNDDOWN srcva) > max then max
                else PGSIZE - (srcva - PGROUNDDOWN srcva))
              ((walkaddrVal root (PGROUNDDOWN srcva) s + (srcva - PGROUNDDOWN srcva)) % U64)
              dst max s).2.2.1
            ((PGROUNDDOWN srcva + PGSIZE) % U64)
            (copyinstrBytes
              (if PGSIZE - (srcva - PGROUNDDOWN srcva) > max then max
                else PGSIZE - (srcva - PGROUNDDOWN srcva))
              ((walkaddrVal root (PGROUNDDOWN srcva) s + (srcva - PGROUNDDOWN srcva)) % U64)
              dst max s).2.1
            (copyinstrBytes
              (if PGSIZE - (srcva - PGROUNDDOWN srcva) > max then max
                else PGSIZE - (srcva - PGROUNDDOWN srcva))
              ((walkaddrVal root (PGROUNDDOWN srcva) s + (srcva - PGROUNDDOWN srcva)) % U64)
              dst max s).2.2.2
      else if got_null ≠ 0 then .ok 0 s
      else .ok (-1) s := by
  rw [copyinstrLoop]
  simp only [walkaddr_val]

/-- The loop of `copyinstr` on a source string whose first `k` bytes are not
zero and whose byte `k`, if `k < max`, is zero.  The pages holding the bytes it
reads (bytes `0..k`, or the first `max` when there is no terminator among them)
translate; the destination buffer lies outside the page-table pages and outside
those source bytes.  It copies those bytes and returns 0 when `k < max`,
-1 otherwise. -/
theorem copyinstrLoop_spec (root : Nat) :
    ∀ fuel dst srcva max k s, srcva < 2 ^ 64 → MAXVA ≤ PGROUNDDOWN srcva + fuel * 4096 →
      k ≤ max →
      (∀ i, i < k → read8 s.mem (userByte root (srcva + i) s) ≠ 0) →
      (k < max → read8 s.mem (userByte root (srcva + k) s) = 0) →
      (∀ i, i < min (k + 1) max → walkaddrVal root (PGROUNDDOWN (srcva + i)) s ≠ 0) →
      (∀ i, i < min (k + 1) max → ∀ t, TablePage s.mem root t →
        dst + i < t ∨ t + 4096 ≤ dst + i) →
      (∀ i j, i < min (k + 1) max → j < min (k + 1) max →
        dst + j ≠ userByte root (srcva + i) s) →
      ∃ s', copyinstrLoop root (fuel + 1) 0 dst srcva max s =
          .ok (if k < max then 0 else -1) s' ∧
        s'.free = s.free ∧
        (∀ i, i < min (k + 1) max →
          s'.mem (dst + i) = read8 s.mem (userByte root (srcva + i) s)) ∧
        (∀ x, (x < dst ∨ dst + min (k + 1) max ≤ x) → s'.mem x = s.mem x) := by
  have hM := MAXVA_eq
  have hP : PGSIZE = 4096 := rfl
  have hU : U64 = 2 ^ 64 := rfl
  have hdone : ∀ fuel dst srcva s, copyinstrLoop root (fuel + 1) 0 dst srcva 0 s = .ok (-1) s := by
    intro fuel dst srcva s
    rw [copyinstrLoop_succ, if_neg (by omega), if_neg (by simp)]
  intro fuel
  induction fuel with
  | zero =>
    intro dst srcva max k s hd hfuel hk hnz hzero hT hsep hdis
    by_cases hmax : max > 0
    · exfalso
      have := (walkaddrVal_facts root (PGROUNDDOWN (srcva + 0)) s).2.2 (hT 0 (by omega))
      rw [Nat.add_zero] at this
      omega
    · have h0 : max = 0 := by omega
      subst h0
      rw [hdone, if_neg (by omega)]
      exact ⟨s, rfl, rfl, fun i hi => absurd hi (by omega), fun _ _ => rfl⟩
  | succ fuel ih =>
    intro dst srcva max k s hd hfuel hk hnz hzero hT hsep hdis
    by_cases hmax : max > 0
    swap
    · have h0 : max = 0 := by omega
      subst h0
      rw [hdone, if_neg (by omega)]
      exact ⟨s, rfl, rfl, fun i hi => absurd hi (by omega), fun _ _ => rfl⟩
    rw [copyinstrLoop_succ, if_pos ⟨rfl, hmax⟩]
    have hT0 := hT 0 (by omega)
    rw [Nat.add_zero] at hT0
    obtain ⟨hal, hlt64, hmx⟩ := walkaddrVal_facts root (PGROUNDDOWN srcva) s
    have hva0 := hmx hT0
    obtain ⟨_, _, hoff, hnext⟩ := same_page srcva 0 hd (by omega)
    have hpg := PGROUNDDOWN_eq srcva hd
    rw [if_neg hT0, step_addr _ hva0, hoff, hP]
    have hwrap : (walkaddrVal root (PGROUNDDOWN srcva) s + srcva % 4096) % U64 =
        walkaddrVal root (PGROUNDDOWN srcva) s + srcva % 4096 :=
      Nat.mod_eq_of_lt (by rw [hU]; omega)
    rw [hwrap]
    have hub : ∀ i, i < 4096 - srcva % 4096 → userByte root (srcva + i) s =
        walkaddrVal root (PGROUNDDOWN srcva) s + srcva % 4096 + i := by
      intro i hi
      obtain ⟨e1, e2, _, _⟩ := same_page srcva i hd hi
      unfold userByte
      rw [e1, hP, e2, Nat.add_assoc]
    obtain ⟨n, hn, hn1, hn2, hn3⟩ : ∃ n, n = (if 4096 - srcva % 4096 > max then max
        else 4096 - srcva % 4096) ∧ 0 < n ∧ n ≤ max ∧ n ≤ 4096 - srcva % 4096 ∧
        (n = max ∨ n = 4096 - srcva % 4096) := by
      refine ⟨_, rfl, ?_⟩
      split <;> omega
    rw [← hn]
    obtain ⟨s1, hr, hfree1, hbytes1, hothers1⟩ := copyinstrBytes_spec n
      (walkaddrVal root (PGROUNDDOWN srcva) s + srcva % 4096) dst max (min k n) s (by omega)
      (by
        intro i hi
        rw [← hub i (by omega)]
        exact hnz i (by omega))
      (by
        intro hlt
        have e : min k n = k := by omega
        rw [e, ← hub k (by omega)]
        exact hzero (by omega))
      (by
        intro i j hi hj
        rw [← hub i (by omega)]
        exact hdis i j (by omega) (by omega))
    rw [hr]
    simp only
    by_cases hfound : k < n
    · -- the terminator is in this chunk
      have e : min k n = k := by omega
      rw [e] at hbytes1 hothers1 ⊢
      rw [if_pos hfound, copyinstrLoop_succ, if_neg (by simp), if_pos (by simp),
        if_pos (by omega)]
      have e2 : min (k + 1) n = min (k + 1) max := by omega
      rw [e2] at hbytes1 hothers1
      refine ⟨s1, rfl, hfree1, ?_, hothers1⟩
      intro i hi
      rw [hbytes1 i hi, hub i (by omega)]
    · -- the whole chunk is copied and the loop goes on
      have e : min k n = n := by omega
      rw [e] at hbytes1 hothers1 ⊢
      have e2 : min (n + 1) n = n := by omega
      rw [e2] at hbytes1 hothers1
      rw [if_neg (by omega)]
      have hsame : SameTables s.mem s1.mem root := by
        intro t ht x hx1 hx2
        apply hothers1
        by_contra hc
        have := hsep (x - dst) (by omega) t ht
        omega
      have hw : ∀ va, walkaddrVal root va s1 = walkaddrVal root va s :=
        fun va => hsame.walkaddrVal_same va
      have hu : ∀ va, userByte root va s1 = userByte root va s :=
        fun va => userByte_congr hsame va
      have hsrc : ∀ i, i < min (k + 1) max → n ≤ i →
          read8 s1.mem (userByte root (srcva + i) s) =
            read8 s.mem (userByte root (srcva + i) s) := by
        intro i hi hni
        unfold read8
        rw [hothers1]
        by_contra hc
        have := hdis i (userByte root (srcva + i) s - dst) hi (by omega)
        omega
      have hnext' : ∀ i, i < max - n → PGROUNDDOWN srcva + 4096 + i = srcva + (n + i) := by
        intro i hi
        omega
      obtain ⟨s', hr', hfree', hbytes', hothers'⟩ := ih (dst + n) (PGROUNDDOWN srcva + 4096)
        (max - n) (k - n) s1 (by omega) (by rw [PGROUNDDOWN_eq _ (by omega)]; omega) (by omega)
        (by
          intro i hi
          rw [hnext' i (by omega), hu, hsrc _ (by omega) (by omega)]
          exact hnz _ (by omega))
        (by
          intro hlt
          rw [hnext' _ hlt, hu, hsrc _ (by omega) (by omega)]
          have e3 : n + (k - n) = k := by omega
          rw [e3]
          exact hzero (by omega))
        (by
          intro i hi
          rw [hnext' i (by omega), hw]
          exact hT _ (by omega))
        (by
          intro i hi t ht
          have := hsep (n + i) (by omega) t ((hsame.tablePage_iff t).mp ht)
          omega)
        (by
          intro i j hi hj
          rw [hnext' i (by omega), hu]
          have := hdis (n + i) (n + j) (by omega) (by omega)
          omega)
      refine ⟨s', ?_, by rw [hfree', hfree1], ?_, ?_⟩
      · rw [hr']
        have e3 : (k - n < max - n) = (k < max) := by
          apply propext
          constructor <;> intro h <;> omega
        simp only [e3]
      · intro i hi
        by_cases hin : i < n
        · rw [hothers' _ (by omega), hbytes1 i hin, hub i (by omega)]
        · have hb := hbytes' (i - n) (by omega)
          have e3 : dst + n + (i - n) = dst + i := by omega
          have e4 : n + (i - n) = i := by omega
          rw [hnext' _ (by omega), hu, e3, e4, hsrc i hi (by omega)] at hb
          exact hb
      · intro x hx
        rw [hothers' _ (by omega), hothers1 _ (by omega)]

theorem copy_fuel (a : Nat) : MAXVA ≤ PGROUNDDOWN a + (MAXVA / PGSIZE + 1) * 4096 := by
  have : (MAXVA / PGSIZE + 1) * 4096 = MAXVA + 4096 := by decide
  omega

/-- The page-table pages of a memory that agrees with `st2` on them. -/
theorem tables_of_st2 (m : Mem)
    (h : ∀ x, 0x1000 ≤ x → x < 0x5000 → (x < 0x2000 ∨ 0x3000 ≤ x) → m x = st2.mem x) :
    ∀ t, TablePage m 0x1000 t → t = 0x1000 ∨ t = 0x3000 ∨ t = 0x4000 := by
  have hs : SameTables st2.mem m 0x1000 := by
    intro t ht x hx1 hx2
    apply h
    all_goals rcases st2_inv.2.2 t ht with rfl | rfl | rfl <;> omega
  intro t ht
  exact st2_inv.2.2 t ((hs.tablePage_iff t).mp ht)

theorem tables_st3 : ∀ t, TablePage st3.mem 0x1000 t → t = 0x1000 ∨ t = 0x3000 ∨ t = 0x4000 := by
  apply tables_of_st2
  intro x hx1 hx2 _
  show (if 0x7000 ≤ x ∧ x < 0x700a then 0x61 + (x - 0x7000) else st2.mem x) = _
  rw [if_neg (by omega)]

theorem tables_st4 : ∀ t, TablePage st4.mem 0x1000 t → t = 0x1000 ∨ t = 0x3000 ∨ t = 0x4000 := by
  apply tables_of_st2
  intro x hx1 hx2 hx3
  show (if x = 0x2000 then 0x68 else if x = 0x2001 then 0x69
      else if 0x2003 ≤ x ∧ x < 0x2009 then 0x78 else st2.mem x) = _
  rw [if_neg (by omega), if_neg (by omega), if_neg (by omega)]

/-! ### Freeing a page table -/

theorem ent_congr_page (m m' : Mem) (t j : Nat) (hj : j < 512)
    (h : ∀ x, t ≤ x → x < t + 4096 → m' x = m x) : ent m' t j = ent m t j := by
  unfold ent
  apply read64_congr
  intro k hk
  exact h _ (by omega) (by omega)

theorem freewalkLoop_succ (self : Nat → State → Res Unit) (t n i : Nat) (s : State) :
    freewalkLoop self t (n + 1) i s =
      if ent s.mem t i &&& PTE_V ≠ 0 ∧ ent s.mem t i &&& (PTE_R ||| PTE_W ||| PTE_X) = 0 then
        match self (PTE2PA (ent s.mem t i)) s with
        | .panic msg s1 => .panic msg s1
        | .ok _ s1 =>
          freewalkLoop self t n (i + 1) { mem := write64 s1.mem (t + 8 * i) 0, free := s1.free }
      else if ent s.mem t i &&& PTE_V ≠ 0 then .panic "freewalk: leaf" s
      else freewalkLoop self t n (i + 1) s := rfl

theorem freewalk_succ (depth t : Nat) (s : State) :
    freewalk (depth + 1) t s =
      match freewalkLoop (freewalk depth) t 512 0 s with
      | .panic msg s1 => .panic msg s1
      | .ok _ s1 => .ok () (kfree t s1) := rfl

theorem freewalkLoop_skip (self : Nat → State → Res Unit) (t : Nat) (s : State) :
    ∀ n i, (∀ j, i ≤ j → j < i + n → ent s.mem t j &&& PTE_V = 0) →
      freewalkLoop self t n i s = .ok () s := by
  intro n
  induction n with
  | zero => intro i _; rfl
  | succ n ih =>
    intro i h
    have h0 := h i (le_refl _) (by omega)
    rw [freewalkLoop_succ, if_neg (fun c => c.1 h0), if_neg (fun c => c h0)]
    exact ih (i + 1) (fun j h1 h2 => h j (by omega) (by omega))

/-- On a table without valid entries `freewalk` releases the table and nothing
else. -/
theorem freewalk_empty (depth t : Nat) (s : State)
    (h : ∀ j, j < 512 → ent s.mem t j &&& PTE_V = 0) :
    freewalk (depth + 1) t s = .ok () (kfree t s) := by
  rw [freewalk_succ, freewalkLoop_skip _ t s 512 0 (fun j _ hj => h j (by omega))]

theorem tableFrames_zero (m : Mem) (t : Nat) : tableFrames m 0 t = [t] := rfl

theorem tableFrames_succ (m : Mem) (level t : Nat) :
    tableFrames m (level + 1) t = subFrames m (tableFrames m level) t 512 0 ++ [t] := rfl

theorem subFrames_succ (m : Mem) (f : Nat → List Nat) (t n i : Nat) :
    subFrames m f t (n + 1) i =
      (if ent m t i &&& PTE_V ≠ 0 then f (PTE2PA (ent m t i)) else []) ++
        subFrames m f t n (i + 1) := rfl

theorem subFrames_congr (m m' : Mem) (f f' : Nat → List Nat) (t : Nat) :
    ∀ n i, (∀ j, i ≤ j → j < i + n → ent m' t j = ent m t j) →
      (∀ j, i ≤ j → j < i + n → ent m t j &&& PTE_V ≠ 0 →
        f' (PTE2PA (ent m t j)) = f (PTE2PA (ent m t j))) →
      subFrames m' f' t n i = subFrames m f t n i := by
  intro n
  induction n with
  | zero => intro i _ _; rfl
  | succ n ih =>
    intro i h1 h2
    rw [subFrames_succ, subFrames_succ, h1 i (le_refl _) (by omega),
      ih (i + 1) (fun j a b => h1 j (by omega) (by omega))
        (fun j a b => h2 j (by omega) (by omega))]
    by_cases hv : ent m t i &&& PTE_V ≠ 0
    · rw [if_pos hv, if_pos hv, h2 i (le_refl _) (by omega) hv]
    · rw [if_neg hv, if_neg hv]

/-- The loop of `freewalk` on a level-1 table whose valid entries are internal
and name level-0 tables without valid entries: every such level-0 table is
released, in index order, and only the entries of the level-1 table are
written. -/
theorem freewalkLoop_l1 (d t1 : Nat) (ht : t1 % 4096 = 0) :
    ∀ n i s, i + n = 512 →
      (∀ j, i ≤ j → j < 512 → ent s.mem t1 j &&& PTE_V ≠ 0 →
        ent s.mem t1 j &&& (PTE_R ||| PTE_W ||| PTE_X) = 0 ∧ PTE2PA (ent s.mem t1 j) ≠ t1 ∧
          ∀ k, k < 512 → ent s.mem (PTE2PA (ent s.mem t1 j)) k &&& PTE_V = 0) →
      ∃ s', freewalkLoop (freewalk (d + 1)) t1 n i s = .ok () s' ∧
        s'.free = (subFrames s.mem (tableFrames s.mem 0) t1 n i).reverse ++ s.free ∧
        (∀ x, (x < t1 ∨ t1 + 4096 ≤ x) → s'.mem x = s.mem x) := by
  intro n
  induction n with
  | zero =>
    intro i s _ _
    exact ⟨s, rfl, rfl, fun _ _ => rfl⟩
  | succ n ih =>
    intro i s hin h
    rw [freewalkLoop_succ, subFrames_succ]
    by_cases hv : ent s.mem t1 i &&& PTE_V ≠ 0
    · obtain ⟨hrwx, hne, hempty⟩ := h i (le_refl _) (by omega) hv
      rw [if_pos ⟨hv, hrwx⟩, if_pos hv, freewalk_empty d _ s hempty]
      simp only
      have hent : ∀ t j, t % 4096 = 0 → j < 512 → (t ≠ t1 ∨ j ≠ i) →
          ent (write64 s.mem (t1 + 8 * i) 0) t j = ent s.mem t j := by
        intro t j hta hj hd
        unfold ent
        apply read64_write64_ne
        have := ent_addr_ne t t1 j i hta ht hj (by omega) hd
        omega
      obtain ⟨s', hr, hfree, hmem⟩ := ih (i + 1)
        ⟨write64 s.mem (t1 + 8 * i) 0, (kfree (PTE2PA (ent s.mem t1 i)) s).free⟩ (by omega)
        (by
          intro j hj1 hj2 hvj
          have e : ent (write64 s.mem (t1 + 8 * i) 0) t1 j = ent s.mem t1 j :=
            hent t1 j ht hj2 (Or.inr (by omega))
          show ent (write64 s.mem (t1 + 8 * i) 0) t1 j &&& _ = 0 ∧ _
          have hvj' : ent (write64 s.mem (t1 + 8 * i) 0) t1 j &&& PTE_V ≠ 0 := hvj
          rw [e] at hvj' ⊢
          obtain ⟨a1, a2, a3⟩ := h j (by omega) hj2 hvj'
          refine ⟨a1, a2, ?_⟩
          intro k hk
          show ent (write64 s.mem (t1 + 8 * i) 0) _ k &&& PTE_V = 0
          rw [hent _ k (PTE2PA_aligned _) hk (Or.inl a2)]
          exact a3 k hk)
      refine ⟨s', hr, ?_, ?_⟩
      · rw [hfree]
        have e : subFrames (write64 s.mem (t1 + 8 * i) 0)
            (tableFrames (write64 s.mem (t1 + 8 * i) 0) 0) t1 n (i + 1) =
            subFrames s.mem (tableFrames s.mem 0) t1 n (i + 1) :=
          subFrames_congr _ _ _ _ t1 n (i + 1)
            (fun j a b => hent t1 j ht (by omega) (Or.inr (by omega))) (fun _ _ _ _ => rfl)
        show (subFrames (write64 s.mem (t1 + 8 * i) 0) _ t1 n (i + 1)).reverse ++
          (PTE2PA (ent s.mem t1 i) :: s.free) = _
        rw [e, tableFrames_zero, List.reverse_append]
        simp
      · intro x hx
        rw [hmem x hx]
        exact write64_out _ _ _ _ (by omega)
    · rw [if_neg (fun c => hv c.1), if_neg hv, if_neg hv, List.nil_append]
      exact ih (i + 1) s (by omega) (fun j a b => h j (by omega) b)

/-- `freewalk` on such a level-1 table: the level-0 tables, then the table
itself. -/
theorem freewalk_l1 (d t1 : Nat) (s : State) (ht : t1 % 4096 = 0)
    (h : ∀ j, j < 512 → ent s.mem t1 j &&& PTE_V ≠ 0 →
      ent s.mem t1 j &&& (PTE_R ||| PTE_W ||| PTE_X) = 0 ∧ PTE2PA (ent s.mem t1 j) ≠ t1 ∧
        ∀ k, k < 512 → ent s.mem (PTE2PA (ent s.mem t1 j)) k &&& PTE_V = 0) :
    ∃ s', freewalk (d + 2) t1 s = .ok () s' ∧
      s'.free = (tableFrames s.mem 1 t1).reverse ++ s.free ∧
      (∀ x, (x < t1 ∨ t1 + 4096 ≤ x) → s'.mem x = s.mem x) := by
  obtain ⟨s', hr, hfree, hmem⟩ := freewalkLoop_l1 d t1 ht 512 0 s rfl (fun j _ hj => h j hj)
  refine ⟨kfree t1 s', ?_, ?_, hmem⟩
  · rw [freewalk_succ, hr]
  · show t1 :: s'.free = _
    rw [hfree, tableFrames_succ, List.reverse_append]
    rfl

/-- The loop of `freewalk` on the root of a tree without leaves, from entry
`i`, in a state that still holds the tree of `m0` from that entry on: every
remaining level-1 table is released after its level-0 tables. -/
theorem freewalkLoop_root (d root : Nat) (m0 : Mem) (T : Teardown m0 root) :
    ∀ n i s, i + n = 512 →
      (∀ x, (x < root ∨ root + 8 * i ≤ x) →
        (∀ j, j < i → ent m0 root j &&& PTE_V ≠ 0 →
          x < PTE2PA (ent m0 root j) ∨ PTE2PA (ent m0 root j) + 4096 ≤ x) →
        s.mem x = m0 x) →
      ∃ s', freewalkLoop (freewalk (d + 2)) root n i s = .ok () s' ∧
        s'.free = (subFrames m0 (tableFrames m0 1) root n i).reverse ++ s.free := by
  have hr := T.aligned
  intro n
  induction n with
  | zero =>
    intro i s _ _
    exact ⟨s, rfl, rfl⟩
  | succ n ih =>
    intro i s hin hinv
    have hpage : ∀ t, t % 4096 = 0 →
        (∀ j, j < i → ent m0 root j &&& PTE_V ≠ 0 → t ≠ PTE2PA (ent m0 root j)) →
        (t ≠ root) → ∀ k, k < 512 → ent s.mem t k = ent m0 t k := by
      intro t hta hsep hne k hk
      apply ent_congr_page _ _ _ _ hk
      intro x hx1 hx2
      apply hinv x (by omega)
      intro j hj hvj
      have a1 := hsep j hj hvj
      have a2 := PTE2PA_aligned (ent m0 root j)
      omega
    have hre : ent s.mem root i = ent m0 root i := by
      unfold ent
      apply read64_congr
      intro k hk
      apply hinv _ (by omega)
      intro j hj hvj
      have a1 := (T.l2 j (by omega) hvj).2
      have a2 := PTE2PA_aligned (ent m0 root j)
      omega
    rw [freewalkLoop_succ, subFrames_succ, hre]
    by_cases hv : ent m0 root i &&& PTE_V ≠ 0
    · obtain ⟨hrwx, hne⟩ := T.l2 i (by omega) hv
      have hce : ∀ k, k < 512 →
          ent s.mem (PTE2PA (ent m0 root i)) k = ent m0 (PTE2PA (ent m0 root i)) k :=
        hpage _ (PTE2PA_aligned _)
          (fun j hj hvj => (T.sep i j (by omega) (by omega) (by omega) hv hvj).1) hne
      have hge : ∀ k, k < 512 → ent m0 (PTE2PA (ent m0 root i)) k &&& PTE_V ≠ 0 → ∀ l, l < 512 →
          ent s.mem (PTE2PA (ent m0 (PTE2PA (ent m0 root i)) k)) l =
            ent m0 (PTE2PA (ent m0 (PTE2PA (ent m0 root i)) k)) l := by
        intro k hk hvk
        exact hpage _ (PTE2PA_aligned _)
          (fun j hj hvj => (T.sep j i (by omega) (by omega) (by omega) hvj hv).2 k hk hvk)
          (T.l1 i k (by omega) hk hv hvk).2.2.1
      obtain ⟨s1, hr1, hfree1, hmem1⟩ := freewalk_l1 d (PTE2PA (ent m0 root i)) s
        (PTE2PA_aligned _)
        (by
          intro k hk hvk
          rw [hce k hk] at hvk ⊢
          obtain ⟨b1, b2, _, b4⟩ := T.l1 i k (by omega) hk hv hvk
          refine ⟨b1, b2, ?_⟩
          intro l hl
          rw [hge k hk hvk l hl]
          exact b4 l hl)
      rw [if_pos ⟨hv, hrwx⟩, if_pos hv, hr1]
      simp only
      have htf : tableFrames s.mem 1 (PTE2PA (ent m0 root i)) =
          tableFrames m0 1 (PTE2PA (ent m0 root i)) := by
        rw [tableFrames_succ, tableFrames_succ]
        congr 1
        exact subFrames_congr _ _ _ _ _ 512 0 (fun k _ hk => hce k (by omega))
          (fun _ _ _ _ => rfl)
      obtain ⟨s', hr', hfree'⟩ := ih (i + 1) ⟨write64 s1.mem (root + 8 * i) 0, s1.free⟩ (by omega)
        (by
          intro x hx hout
          show write64 s1.mem (root + 8 * i) 0 x = _
          rw [write64_out _ _ _ _ (by omega)]
          have hx2 := hout i (by omega) hv
          rw [hmem1 x hx2]
          exact hinv x (by omega) (fun j hj hvj => hout j (by omega) hvj))
      refine ⟨s', hr', ?_⟩
      rw [hfree']
      show _ ++ s1.free = _
      rw [hfree1, htf, List.reverse_append, List.append_assoc]
    · rw [if_neg (fun c => hv c.1), if_neg hv, if_neg hv, List.nil_append]
      apply ih (i + 1) s (by omega)
      intro x hx hout
      apply hinv x (by omega)
      intro j hj hvj
      exact hout j (by omega) hvj

/-- `freewalk` on a tree without leaves releases every page-table page, each
subtree before the table it hangs from, the root last. -/
theorem freewalk_root (d root : Nat) (s : State) (T : Teardown s.mem root) :
    ∃ s', freewalk (d + 3) root s = .ok () s' ∧
      s'.free = (tableFrames s.mem 2 root).reverse ++ s.free := by
  obtain ⟨s', hr, hfree⟩ := freewalkLoop_root d root s.mem T 512 0 s rfl (fun _ _ _ => rfl)
  refine ⟨kfree root s', ?_, ?_⟩
  · rw [freewalk_succ, hr]
  · show root :: s'.free = _
    rw [hfree, tableFrames_succ, List.reverse_append]
    rfl

theorem PX_compose (j k l : Nat) (hj : j < 512) (hk : k < 512) (hl : l < 512) :
    PX 2 (j * 2 ^ 30 + k * 2 ^ 21 + l * 2 ^ 12) = j ∧
      PX 1 (j * 2 ^ 30 + k * 2 ^ 21 + l * 2 ^ 12) = k ∧
      PX 0 (j * 2 ^ 30 + k * 2 ^ 21 + l * 2 ^ 12) = l ∧
      (j * 2 ^ 30 + k * 2 ^ 21 + l * 2 ^ 12) % 4096 = 0 ∧
      j * 2 ^ 30 + k * 2 ^ 21 + l * 2 ^ 12 < 2 ^ 39 := by
  rw [PX_eq, PX_eq, PX_eq]
  norm_num
  omega

theorem pathTo_one_some (m : Mem) (t j : Nat) (hv : ent m t j &&& PTE_V ≠ 0) :
    pathTo m t [j] = some (PTE2PA (ent m t j)) := by
  rw [pathTo_one, if_pos hv]

theorem pathTo_two_some (m : Mem) (t j k : Nat) (hv : ent m t j &&& PTE_V ≠ 0)
    (hv2 : ent m (PTE2PA (ent m t j)) k &&& PTE_V ≠ 0) :
    pathTo m t [j, k] = some (PTE2PA (ent m (PTE2PA (ent m t j)) k)) := by
  rw [pathTo_two, if_pos hv, if_pos hv2]

/-- A well-formed tree whose upper entries are internal and whose level-0
entries are all invalid can be torn down. -/
theorem teardown_of_wf (m : Mem) (root : Nat) (wf : WF m root) (hint : Internal m root)
    (hclr : ∀ b, b % 4096 = 0 → b < 2 ^ 39 → pteOf m root b &&& PTE_V = 0) :
    Teardown m root := by
  have hne1 : ∀ j, j < 512 → ent m root j &&& PTE_V ≠ 0 → PTE2PA (ent m root j) ≠ root := by
    intro j hj hv he
    have := wf.inj [j] [] root (validPath_one j hj) validPath_nil
      (by rw [pathTo_one_some m root j hv, he]) rfl
    exact absurd this (by simp)
  refine ⟨wf.aligned, fun j hj hv => ⟨hint [] root j (by simp) validPath_nil rfl hj hv,
    hne1 j hj hv⟩, ?_, ?_⟩
  · intro j k hj hk hv hv2
    have hp1 := pathTo_one_some m root j hv
    have hp2 := pathTo_two_some m root j k hv hv2
    refine ⟨hint [j] _ k (by simp) (validPath_one j hj) hp1 hk hv2, ?_, ?_, ?_⟩
    · intro he
      have := wf.inj [j, k] [j] _ (validPath_two j k hj hk) (validPath_one j hj) hp2
        (by rw [hp1, he])
      exact absurd this (by simp)
    · intro he
      have := wf.inj [j, k] [] _ (validPath_two j k hj hk) validPath_nil hp2
        (by rw [he]; rfl)
      exact absurd this (by simp)
    · intro l hl
      obtain ⟨e2, e1, e0, ha, hb⟩ := PX_compose j k l hj hk hl
      have := hclr _ ha hb
      unfold pteOf at this
      rw [e2, e1, e0, hp2] at this
      exact this
  · intro j j' hj hj' hne hv hv'
    have hp1 := pathTo_one_some m root j hv
    have hp1' := pathTo_one_some m root j' hv'
    constructor
    · intro he
      have := wf.inj [j] [j'] _ (validPath_one j hj) (validPath_one j' hj') hp1
        (by rw [hp1', he])
      simp at this
      exact hne this
    · intro k hk hvk he
      have hp2 := pathTo_two_some m root j' k hv' hvk
      have := wf.inj [j', k] [j] _ (validPath_two j' k hj' hk) (validPath_one j hj) hp2
        (by rw [hp1, he])
      exact absurd this (by simp)

/-- An iteration of `uvmunmap` at a page that passes its checks, with the state
it leaves: only the level-0 entry of the page is written. -/
theorem uvmunmapLoop_step (root bound : Nat) (do_free : Int) (fuel a : Nat) (s : State)
    (wf : WF s.mem root) (ha : a % 4096 = 0) (hlt : a < bound)
    (hgood : Unmappable s.mem root a) :
    uvmunmapLoop root bound do_free (fuel + 1) a s =
        uvmunmapLoop root bound do_free fuel (a + 4096)
          { mem := write64 s.mem (slotOf s.mem root a) 0,
            free := freed do_free s.mem root a 1 ++ s.free } ∧
      Unmapped root a (a + 4096) s
        { mem := write64 s.mem (slotOf s.mem root a) 0,
          free := freed do_free s.mem root a 1 ++ s.free } ∧
      UpperSame root s.mem (write64 s.mem (slotOf s.mem root a) 0) := by
  obtain ⟨hva, h0, hv, hf⟩ := hgood
  have hM := MAXVA_eq
  obtain ⟨t0, hp, hs, he⟩ := slotOf_pteOf s.mem root a h0
  have e1 : (a + PGSIZE) % U64 = a + 4096 := by
    unfold PGSIZE U64
    exact Nat.mod_eq_of_lt (by omega)
  have hmem : (if do_free ≠ 0 then kfree (PTE2PA (read64 s.mem (slotOf s.mem root a))) s
      else s).mem = s.mem := by
    split <;> rfl
  have hfree : (if do_free ≠ 0 then kfree (PTE2PA (read64 s.mem (slotOf s.mem root a))) s
      else s).free = freed do_free s.mem root a 1 ++ s.free := by
    unfold freed leafFrames leafFrames
    split
    · rw [he]; rfl
    · rfl
  refine ⟨?_, ?_, ?_⟩
  · rw [uvmunmapLoop_succ, if_pos hlt, walk_noalloc root a s hva]
    simp only
    rw [if_neg h0, he, if_neg (by simpa using hv), if_neg hf, e1, ← he, hmem, hfree]
  · rw [hs]
    refine ⟨store_wf wf hp (by decide), store_path wf hp (by decide), ?_, ?_⟩
    · intro b hb hb2
      show pteOf (write64 s.mem (t0 + 8 * PX 0 a) 0) root b = _
      rw [store_pte wf hp (by decide) ha (by omega) b hb hb2]
      by_cases hba : b = a
      · rw [if_pos hba, if_pos (by omega)]
      · rw [if_neg hba, if_neg (by omega)]
    · intro x hx
      exact (store_stored wf hp (by decide : (0 : Nat) < 2 ^ 64)).bytes x
        (hx t0 ⟨_, validPath_PX a, hp⟩)
  · rw [hs]
    intro q t j hq hvq hpq hj
    apply (store_stored wf hp (by decide : (0 : Nat) < 2 ^ 64)).keep t j
      (pathTo_aligned _ _ _ _ wf.aligned hpq) hj
    left
    intro heq
    have := wf.inj q [PX 2 a, PX 1 a] t hvq (validPath_PX a) hpq (by rw [heq]; exact hp)
    rw [this] at hq
    simp at hq

theorem UpperSame.trans_upper {root : Nat} {m m' m'' : Mem} (h1 : UpperSame root m m')
    (hp : ∀ q, ValidPath q → pathTo m' root q = pathTo m root q)
    (h2 : UpperSame root m' m'') : UpperSame root m m'' := by
  intro q t j hq hvq hpq hj
  rw [h2 q t j hq hvq (by rw [hp q hvq]; exact hpq) hj, h1 q t j hq hvq hpq hj]

/-- The loop of `uvmunmap` leaves the level-2 and level-1 entries alone. -/
theorem uvmunmapLoop_upper (root bound : Nat) (do_free : Int) :
    ∀ fuel a s s', WF s.mem root → a % 4096 = 0 →
      (∀ b, b % 4096 = 0 → a ≤ b → b < bound → Unmappable s.mem root b) →
      uvmunmapLoop root bound do_free (fuel + 1) a s = .ok () s' →
      UpperSame root s.mem s'.mem := by
  intro fuel
  induction fuel with
  | zero =>
    intro a s s' wf ha hall h
    by_cases hlt : a < bound
    · rw [(uvmunmapLoop_step root bound do_free 0 a s wf ha hlt (hall a ha (le_refl _) hlt)).1] at h
      exact absurd h (by simp [uvmunmapLoop])
    · rw [uvmunmapLoop_succ, if_neg hlt] at h
      injection h with _ hs
      subst hs
      intro _ _ _ _ _ _ _
      rfl
  | succ fuel ih =>
    intro a s s' wf ha hall h
    by_cases hlt : a < bound
    · obtain ⟨hstep, hU, hup⟩ :=
        uvmunmapLoop_step root bound do_free (fuel + 1) a s wf ha hlt (hall a ha (le_refl _) hlt)
      rw [hstep] at h
      have h2 := ih (a + 4096) _ s' hU.wf (by omega)
        (by
          intro b hb h1 h2
          exact (hU.unmappable_iff b hb (Or.inr h1)).mpr (hall b hb (by omega) h2))
        h
      exact hup.trans_upper hU.path h2
    · rw [uvmunmapLoop_succ, if_neg hlt] at h
      injection h with _ hs
      subst hs
      intro _ _ _ _ _ _ _
      rfl

theorem uvmunmap_upper (root va npages : Nat) (do_free : Int) (s s' : State)
    (wf : WF s.mem root) (hva : va % 4096 = 0)
    (hall : ∀ b, b % 4096 = 0 → va ≤ b → b < (va + npages * PGSIZE) % U64 →
      Unmappable s.mem root b)
    (h : uvmunmap root va npages do_free s = .ok () s') : UpperSame root s.mem s'.mem := by
  unfold uvmunmap at h
  rw [if_neg (by unfold PGSIZE; omega)] at h
  exact uvmunmapLoop_upper root _ do_free _ va s s' wf hva hall h

theorem Internal.of_upper {root : Nat} {m m' : Mem} (h : Internal m root)
    (hp : ∀ q, ValidPath q → pathTo m' root q = pathTo m root q)
    (hu : UpperSame root m m') : Internal m' root := by
  intro q t j hq hvq hpq hj hv
  rw [hp q hvq] at hpq
  rw [hu q t j hq hvq hpq hj] at hv ⊢
  exact h q t j hq hvq hpq hj hv

theorem mem_subFrames (m : Mem) (f : Nat → List Nat) (t x : Nat) :
    ∀ n i, x ∈ subFrames m f t n i ↔
      ∃ j, i ≤ j ∧ j < i + n ∧ ent m t j &&& PTE_V ≠ 0 ∧ x ∈ f (PTE2PA (ent m t j)) := by
  intro n
  induction n with
  | zero =>
    intro i
    constructor
    · intro h
      exact absurd h (by simp [subFrames])
    · rintro ⟨j, h1, h2, _⟩
      omega
  | succ n ih =>
    intro i
    rw [subFrames_succ, List.mem_append, ih (i + 1)]
    constructor
    · rintro (h | ⟨j, h1, h2, h3, h4⟩)
      · by_cases hv : ent m t i &&& PTE_V ≠ 0
        · rw [if_pos hv] at h
          exact ⟨i, le_refl _, by omega, hv, h⟩
        · rw [if_neg hv] at h
          exact absurd h (by simp)
      · exact ⟨j, by omega, by omega, h3, h4⟩
    · rintro ⟨j, h1, h2, h3, h4⟩
      by_cases hji : j = i
      · subst hji
        left
        rw [if_pos h3]
        exact h4
      · right
        exact ⟨j, by omega, by omega, h3, h4⟩

theorem pathTo_cons (m : Mem) (t j : Nat) (q : List Nat) :
    pathTo m t (j :: q) =
      if ent m t j &&& PTE_V ≠ 0 then pathTo m (PTE2PA (ent m t j)) q else none := rfl

/-- The pages listed by `tableFrames` are the pages reached by index paths. -/
theorem mem_tableFrames (m : Mem) :
    ∀ level t x, x ∈ tableFrames m level t ↔
      ∃ q : List Nat, q.length ≤ level ∧ (∀ i ∈ q, i < 512) ∧ pathTo m t q = some x := by
  intro level
  induction level with
  | zero =>
    intro t x
    rw [tableFrames_zero, List.mem_singleton]
    constructor
    · rintro rfl
      exact ⟨[], by simp, by simp, rfl⟩
    · rintro ⟨q, hq, _, hp⟩
      have : q = [] := List.length_eq_zero.mp (by omega)
      subst this
      injection hp with h
      exact h.symm
  | succ level ih =>
    intro t x
    rw [tableFrames_succ, List.mem_append, mem_subFrames, List.mem_singleton]
    constructor
    · rintro (⟨j, _, hj, hv, hx⟩ | rfl)
      · obtain ⟨q, hq1, hq2, hq3⟩ := (ih _ x).mp hx
        refine ⟨j :: q, by simp; omega, ?_, ?_⟩
        · intro i hi
          rcases List.mem_cons.mp hi with rfl | h
          · omega
          · exact hq2 i h
        · rw [pathTo_cons, if_pos hv]
          exact hq3
      · exact ⟨[], by simp, by simp, rfl⟩
    · rintro ⟨q, hq1, hq2, hq3⟩
      cases q with
      | nil =>
        right
        injection hq3 with h
        exact h.symm
      | cons j q =>
        left
        rw [pathTo_cons] at hq3
        by_cases hv : ent m t j &&& PTE_V ≠ 0
        · rw [if_pos hv] at hq3
          refine ⟨j, Nat.zero_le _, by have := hq2 j (by simp); omega, hv, ?_⟩
          exact (ih _ x).mpr ⟨q, by simp at hq1; omega, fun i hi => hq2 i (by simp [hi]), hq3⟩
        · rw [if_neg hv] at hq3
          exact absurd hq3 (by simp)

theorem tableFrames_iff (m : Mem) (root x : Nat) :
    x ∈ tableFrames m 2 root ↔ TablePage m root x := by
  rw [mem_tableFrames]
  constructor
  · rintro ⟨q, h1, h2, h3⟩
    exact ⟨q, ⟨h1, h2⟩, h3⟩
  · rintro ⟨q, ⟨h1, h2⟩, h3⟩
    exact ⟨q, h1, h2, h3⟩

theorem nodup_subFrames (m : Mem) (f : Nat → List Nat) (t : Nat) :
    ∀ n i, (∀ j, i ≤ j → j < i + n → ent m t j &&& PTE_V ≠ 0 →
        (f (PTE2PA (ent m t j))).Nodup) →
      (∀ j j' x, i ≤ j → j < i + n → i ≤ j' → j' < i + n → j ≠ j' →
        ent m t j &&& PTE_V ≠ 0 → ent m t j' &&& PTE_V ≠ 0 →
        x ∈ f (PTE2PA (ent m t j)) → x ∈ f (PTE2PA (ent m t j')) → False) →
      (subFrames m f t n i).Nodup := by
  intro n
  induction n with
  | zero => intro i _ _; exact List.nodup_nil
  | succ n ih =>
    intro i h1 h2
    rw [subFrames_succ, List.nodup_append]
    refine ⟨?_, ih (i + 1) (fun j a b => h1 j (by omega) (by omega))
      (fun j j' x a b c d => h2 j j' x (by omega) (by omega) (by omega) (by omega)), ?_⟩
    · by_cases hv : ent m t i &&& PTE_V ≠ 0
      · rw [if_pos hv]
        exact h1 i (le_refl _) (by omega) hv
      · rw [if_neg hv]
        exact List.nodup_nil
    · intro x hx1 hx2
      by_cases hv : ent m t i &&& PTE_V ≠ 0
      · rw [if_pos hv] at hx1
        obtain ⟨j, a, b, c, d⟩ := (mem_subFrames m f t x n (i + 1)).mp hx2
        exact h2 i j x (le_refl _) (by omega) (by omega) (by omega) (by omega) hv c hx1 d
      · rw [if_neg hv] at hx1
        exact absurd hx1 (by simp)

/-- In a tree, `tableFrames` lists every page once. -/
theorem nodup_tableFrames (m : Mem) :
    ∀ level t, (∀ (q q' : List Nat) x, q.length ≤ level → q'.length ≤ level →
        (∀ i ∈ q, i < 512) → (∀ i ∈ q', i < 512) →
        pathTo m t q = some x → pathTo m t q' = some x → q = q') →
      (tableFrames m level t).Nodup := by
  intro level
  induction level with
  | zero =>
    intro t _
    rw [tableFrames_zero]
    exact List.nodup_singleton t
  | succ level ih =>
    intro t hinj
    have hcons : ∀ j (q : List Nat), j < 512 → (∀ i ∈ q, i < 512) → ∀ i ∈ j :: q, i < 512 := by
      intro j q hj hq i hi
      rcases List.mem_cons.mp hi with rfl | h
      · exact hj
      · exact hq i h
    rw [tableFrames_succ, List.nodup_append]
    refine ⟨?_, List.nodup_singleton t, ?_⟩
    · apply nodup_subFrames
      · intro j _ hj hv
        apply ih
        intro q q' x h1 h2 h3 h4 h5 h6
        have := hinj (j :: q) (j :: q') x (by simp; omega) (by simp; omega)
          (hcons j q (by omega) h3) (hcons j q' (by omega) h4)
          (by rw [pathTo_cons, if_pos hv]; exact h5) (by rw [pathTo_cons, if_pos hv]; exact h6)
        simpa using this
      · intro j j' x _ hj _ hj' hne hv hv' hx hx'
        obtain ⟨q, h1, h2, h3⟩ := (mem_tableFrames m level _ x).mp hx
        obtain ⟨q', h1', h2', h3'⟩ := (mem_tableFrames m level _ x).mp hx'
        have := hinj (j :: q) (j' :: q') x (by simp; omega) (by simp; omega)
          (hcons j q (by omega) h2) (hcons j' q' (by omega) h2')
          (by rw [pathTo_cons, if_pos hv]; exact h3) (by rw [pathTo_cons, if_pos hv']; exact h3')
        simp at this
        exact hne this.1
    · intro x hx hx2
      rw [List.mem_singleton] at hx2
      subst hx2
      obtain ⟨j, _, hj, hv, hx'⟩ := (mem_subFrames _ _ _ _ _ _).mp hx
      obtain ⟨q, h1, h2, h3⟩ := (mem_tableFrames m level _ x).mp hx'
      have := hinj (j :: q) [] x (by simp; omega) (by simp) (hcons j q (by omega) h2) (by simp)
        (by rw [pathTo_cons, if_pos hv]; exact h3) rfl
      exact absurd this (by simp)

theorem nodup_tableFrames_wf (m : Mem) (root : Nat) (wf : WF m root) :
    (tableFrames m 2 root).Nodup :=
  nodup_tableFrames m 2 root
    (fun q q' x h1 h2 h3 h4 h5 h6 => wf.inj q q' x ⟨h1, h3⟩ ⟨h2, h4⟩ h5 h6)

theorem subFrames_split (m : Mem) (f : Nat → List Nat) (t : Nat) :
    ∀ n i j, i ≤ j → j < i + n → ent m t j &&& PTE_V ≠ 0 →
      ∃ l1 l3, subFrames m f t n i = l1 ++ f (PTE2PA (ent m t j)) ++ l3 := by
  intro n
  induction n with
  | zero => intro i j h1 h2 _; omega
  | succ n ih =>
    intro i j h1 h2 hv
    rw [subFrames_succ]
    by_cases hji : j = i
    · subst hji
      rw [if_pos hv]
      exact ⟨[], subFrames m f t n (j + 1), by simp⟩
    · obtain ⟨l1, l3, h⟩ := ih (i + 1) j (by omega) (by omega) hv
      rw [h]
      exact ⟨(if ent m t i &&& PTE_V ≠ 0 then f (PTE2PA (ent m t i)) else []) ++ l1, l3,
        by simp⟩

/-- In the order of `tableFrames`, a table comes after every table that hangs
from one of its entries. -/
theorem tableFrames_before (m : Mem) (root : Nat) (q : List Nat) (i c t : Nat)
    (hv : ValidPath (q ++ [i])) (hp : pathTo m root q = some t)
    (hc : pathTo m root (q ++ [i]) = some c) : Before c t (tableFrames m 2 root) := by
  have hi : i < 512 := hv.2 i (by simp)
  cases q with
  | nil =>
    injection hp with hp
    subst hp
    rw [List.nil_append, pathTo_one] at hc
    by_cases hvi : ent m root i &&& PTE_V ≠ 0
    · rw [if_pos hvi] at hc
      injection hc with hc
      subst hc
      obtain ⟨l1, l3, h⟩ := subFrames_split m (tableFrames m 1) root 512 0 i (Nat.zero_le _)
        (by omega) hvi
      refine ⟨l1 ++ subFrames m (tableFrames m 0) (PTE2PA (ent m root i)) 512 0, l3, [], ?_⟩
      rw [tableFrames_succ, h, tableFrames_succ]
      simp
    · rw [if_neg hvi] at hc
      exact absurd hc (by simp)
  | cons j q =>
    have hq : q = [] := by
      have h1 := hv.1
      rw [List.length_append, List.length_cons, List.length_singleton] at h1
      exact List.length_eq_zero.mp (by omega)
    subst hq
    have hj : j < 512 := hv.2 j (by simp)
    rw [pathTo_one] at hp
    by_cases hvj : ent m root j &&& PTE_V ≠ 0
    · rw [if_pos hvj] at hp
      injection hp with hp
      subst hp
      have hc' : pathTo m root [j, i] = some c := hc
      rw [pathTo_two, if_pos hvj] at hc'
      by_cases hvi : ent m (PTE2PA (ent m root j)) i &&& PTE_V ≠ 0
      · rw [if_pos hvi] at hc'
        injection hc' with hc'
        subst hc'
        obtain ⟨l1, l3, h⟩ := subFrames_split m (tableFrames m 1) root 512 0 j (Nat.zero_le _)
          (by omega) hvj
        obtain ⟨k1, k3, h'⟩ := subFrames_split m (tableFrames m 0) (PTE2PA (ent m root j)) 512 0 i
          (Nat.zero_le _) (by omega) hvi
        refine ⟨l1 ++ k1, k3, l3 ++ [root], ?_⟩
        rw [tableFrames_succ, h, tableFrames_succ, h', tableFrames_zero]
        simp
      · rw [if_neg hvi] at hc'
        exact absurd hc' (by simp)
    · rw [if_neg hvj] at hp
      exact absurd hp (by simp)

/-! ### Internal entries and the frames `walk` allocates -/

theorem rwx_of_flags (x : Nat) (h : PTE_FLAGS x = PTE_V) :
    x &&& (PTE_R ||| PTE_W ||| PTE_X) = 0 := by
  have e : (PTE_R ||| PTE_W ||| PTE_X) = 0x3FF &&& (PTE_R ||| PTE_W ||| PTE_X) := by decide
  rw [e, ← Nat.and_assoc]
  unfold PTE_FLAGS at h
  rw [h]
  decide

theorem Grown.refl_grown (root : Nat) (s : State) : Grown root s s :=
  ⟨fun h => h, fun _ h => Or.inl h⟩

theorem Grown.trans_grown {root : Nat} {s s' s'' : State} {used : List Nat}
    (h1 : Grown root s s') (st : Step root s' s'' used) (h2 : Grown root s' s'') :
    Grown root s s'' := by
  refine ⟨fun h => h2.internal (h1.internal h), ?_⟩
  intro u hu
  rcases h1.linked u hu with h | ⟨q, hq, hp⟩
  · exact h2.linked u h
  · exact Or.inr ⟨q, hq, st.old q _ hq hp⟩

/-- Linking a fresh zero-filled table keeps the valid upper entries internal. -/
theorem Linked.internal_link {m m' : Mem} {root cur i f : Nat} {pre : List Nat}
    (L : Linked m m' cur i f) (wf : WF m root)
    (hcur : pathTo m root pre = some cur) (hpre : ValidPath pre)
    (hf : ¬ TablePage m root f) (hf1 : f % 4096 = 0) (hf2 : f < 2 ^ 64)
    (h : Internal m root) : Internal m' root := by
  intro q t j hq hvq hp hj hv
  rcases L.fresh wf hcur hpre hf hf1 hf2 q t hvq hp with hold | ⟨_, rfl⟩
  · rcases L.keep_or wf hcur hpre hf hvq hold hj with e | ⟨_, rfl, rfl⟩
    · rw [e] at hv ⊢
      exact h q t j hq hvq hold hj hv
    · rw [L.link]
      exact rwx_of_flags _ (link_flags f)
  · rw [L.zero j hj] at hv
    exact absurd zero_invalid hv

theorem walkLoop_grown (root va : Nat) (alloc : Int) (halloc : alloc ≠ 0) :
    ∀ level pre t s, WF s.mem root → Fresh s.mem root s.free →
      pathTo s.mem root pre = some t → (∀ j ∈ pre, j < 512) → pre.length + level = 2 →
      Grown root s (walkLoop va alloc level t s).2 := by
  intro level
  induction level with
  | zero =>
    intro pre t s _ _ _ _ _
    exact Grown.refl_grown root s
  | succ l ih =>
    intro pre t s wf fr hp hidx hlen
    have hpre : ValidPath pre := ⟨by omega, hidx⟩
    have hidx' : ∀ j ∈ pre ++ [PX (l + 1) va], j < 512 := by
      intro j hj
      simp only [List.mem_append, List.mem_singleton] at hj
      rcases hj with hj | rfl
      · exact hidx j hj
      · exact PX_lt _ _
    have hlen' : (pre ++ [PX (l + 1) va]).length + l = 2 := by simp; omega
    by_cases hv : ent s.mem t (PX (l + 1) va) &&& PTE_V ≠ 0
    · have hw : walkLoop va alloc (l + 1) t s =
          walkLoop va alloc l (PTE2PA (ent s.mem t (PX (l + 1) va))) s := by
        rw [walkLoop_succ, if_pos hv]
      have hp' : pathTo s.mem root (pre ++ [PX (l + 1) va]) =
          some (PTE2PA (ent s.mem t (PX (l + 1) va))) := by
        rw [pathTo_append _ _ _ _ _ hp, pathTo_one, if_pos hv]
      rw [hw]
      exact ih _ _ s wf fr hp' hidx' hlen'
    · have hinv : ent s.mem t (PX (l + 1) va) &&& PTE_V = 0 := by
        by_contra h; exact hv h
      cases hfree : s.free with
      | nil =>
        have hw : walkLoop va alloc (l + 1) t s = (0, s) := by
          rw [walkLoop_succ, if_neg hv, if_neg halloc]
          simp [kalloc, hfree]
        rw [hw]
        exact Grown.refl_grown root s
      | cons f rest =>
        have fr' : Fresh s.mem root (f :: rest) := hfree ▸ fr
        obtain ⟨hf1, hf0, hf2⟩ := fr'.frame f (by simp)
        have hfs : ¬ TablePage s.mem root f := fr'.sep f (by simp)
        have htal : t % 4096 = 0 := tablePage_aligned wf.aligned ⟨pre, hpre, hp⟩
        have htf : t ≠ f := by rintro rfl; exact hfs ⟨pre, hpre, hp⟩
        have L := linked_intro s.mem t (PX (l + 1) va) f htal hf1 (PX_lt _ _) htf
        let s3 : State :=
          { mem := write64 (memset s.mem f 0 PGSIZE) (t + 8 * PX (l + 1) va) (PA2PTE f ||| PTE_V),
            free := rest }
        have hw : walkLoop va alloc (l + 1) t s = walkLoop va alloc l f s3 := by
          rw [walkLoop_succ, if_neg hv, if_neg halloc]
          simp [kalloc, hfree, hf0, s3]
        have hvp : ValidPath (pre ++ [PX (l + 1) va]) := ⟨by simp; omega, hidx'⟩
        have wf3 : WF s3.mem root := L.wf_link wf hp hpre hfs hf0 hf1 hf2
        have fr3 : Fresh s3.mem root s3.free := L.fresh_link wf hp hpre fr'
        have hp3 : pathTo s3.mem root (pre ++ [PX (l + 1) va]) = some f :=
          L.path_link wf hp hvp hinv hfs hf1 hf2
        have g3 := ih _ _ s3 wf3 fr3 hp3 hidx' hlen'
        obtain ⟨used, _, _, st', _, _⟩ :=
          walkLoop_alloc root va alloc halloc l _ f s3 wf3 fr3 hp3 hidx' hlen'
        rw [hw]
        refine ⟨fun h => g3.internal (L.internal_link wf hp hpre hfs hf1 hf2 h), ?_⟩
        intro u hu
        rw [hfree] at hu
        rcases List.mem_cons.mp hu with rfl | hu'
        · exact Or.inr ⟨_, hvp, st'.old _ _ hvp hp3⟩
        · exact g3.linked u hu'

theorem walk_grown (root va : Nat) (alloc : Int) (halloc : alloc ≠ 0) (s s1 : State) (r : Nat)
    (wf : WF s.mem root) (fr : Fresh s.mem root s.free)
    (h : walk root va alloc s = .ok r s1) : Grown root s s1 := by
  unfold walk at h
  split at h
  · exact absurd h (by simp)
  · injection h with _ hs
    subst hs
    exact walkLoop_grown root va alloc halloc 2 [] root s wf fr rfl (by simp) rfl

/-- Storing a level-0 entry keeps the upper entries and the tree. -/
theorem store_grown {root a t0 v : Nat} {s : State} (wf : WF s.mem root)
    (hp : pathTo s.mem root [PX 2 a, PX 1 a] = some t0) (hv : v < 2 ^ 64) :
    Grown root s { mem := write64 s.mem (t0 + 8 * PX 0 a) v, free := s.free } := by
  have S := store_stored wf hp hv
  have hpath := store_path wf hp hv
  refine ⟨?_, fun u hu => Or.inl hu⟩
  intro h q t j hq hvq hpq hj hvj
  have hpq' : pathTo s.mem root q = some t := by rw [← hpath q hvq]; exact hpq
  have hne : t ≠ t0 := by
    intro heq
    have := wf.inj q [PX 2 a, PX 1 a] t hvq (validPath_PX a) hpq' (by rw [heq]; exact hp)
    rw [this] at hq
    simp at hq
  have e : ent (write64 s.mem (t0 + 8 * PX 0 a) v) t j = ent s.mem t j :=
    S.keep t j (pathTo_aligned _ _ _ _ wf.aligned hpq') hj (Or.inl hne)
  have hvj' : ent (write64 s.mem (t0 + 8 * PX 0 a) v) t j &&& PTE_V ≠ 0 := hvj
  show ent (write64 s.mem (t0 + 8 * PX 0 a) v) t j &&& _ = 0
  rw [e] at hvj' ⊢
  exact h q t j hq hvq hpq' hj hvj'

theorem Grown.mono_state {root : Nat} {s s' s'' : State} (h : Grown root s s') (e : s'' = s') :
    Grown root s s'' := by
  subst e
  exact h

/-- The loop of `mappages` keeps valid upper entries internal, and every frame
it takes from the allocator ends up a page-table page of the tree. -/
theorem mappagesLoop_grown (root last : Nat) (perm : Int) :
    ∀ n fuel a pa s, WF s.mem root → Fresh s.mem root s.free → a % 4096 = 0 →
      a + n * 4096 = last → last < MAXVA → n < fuel →
      Grown root s (mappagesLoop root last perm fuel a pa s).state := by
  have hM := MAXVA_eq
  intro n
  induction n with
  | zero =>
    intro fuel a pa s wf fr ha hlast hmax hfuel
    obtain ⟨fuel, rfl⟩ : ∃ f, fuel = f + 1 := ⟨fuel - 1, by omega⟩
    obtain ⟨r, s1, used, hw, wf1, fr1, st1, pte1, hres⟩ :=
      walk_alloc root a 1 (by decide) s wf fr (by omega)
    have g1 := walk_grown root a 1 (by decide) s s1 r wf fr hw
    rw [mappagesLoop_succ, hw]
    simp only
    by_cases hr : r = 0
    · rw [if_pos hr]
      exact g1
    · rw [if_neg hr]
      by_cases hv : read64 s1.mem r &&& PTE_V ≠ 0
      · rw [if_pos hv]
        exact g1
      · rw [if_neg hv, if_pos (by omega)]
        rcases hres with ⟨_, _, t0, hp, hrt⟩ | ⟨h0, _, _⟩
        · rw [hrt]
          exact g1.trans_grown (store_step wf1 hp (leafPte_lt pa perm) _ rfl)
            (store_grown wf1 hp (leafPte_lt pa perm))
        · exact absurd h0 hr
  | succ n ih =>
    intro fuel a pa s wf fr ha hlast hmax hfuel
    obtain ⟨fuel, rfl⟩ : ∃ f, fuel = f + 1 := ⟨fuel - 1, by omega⟩
    obtain ⟨r, s1, used, hw, wf1, fr1, st1, pte1, hres⟩ :=
      walk_alloc root a 1 (by decide) s wf fr (by omega)
    have g1 := walk_grown root a 1 (by decide) s s1 r wf fr hw
    rw [mappagesLoop_succ, hw]
    simp only
    by_cases hr : r = 0
    · rw [if_pos hr]
      exact g1
    · rw [if_neg hr]
      by_cases hv : read64 s1.mem r &&& PTE_V ≠ 0
      · rw [if_pos hv]
        exact g1
      · rw [if_neg hv, if_neg (by omega)]
        rcases hres with ⟨_, _, t0, hp, hrt⟩ | ⟨h0, _, _⟩
        · have hlt := leafPte_lt pa perm
          have e1 : (a + PGSIZE) % U64 = a + 4096 := step_addr a (by omega)
          rw [e1, hrt]
          have g2 := g1.trans_grown (store_step wf1 hp hlt _ rfl) (store_grown wf1 hp hlt)
          have st2 := st1.trans (store_step wf1 hp hlt _ rfl)
          have wf2 : WF (write64 s1.mem (t0 + 8 * PX 0 a) (leafPte pa perm)) root :=
            store_wf wf1 hp hlt
          have fr2 : Fresh (write64 s1.mem (t0 + 8 * PX 0 a) (leafPte pa perm)) root s1.free :=
            store_fresh wf1 hp hlt fr1
          have g3 := ih fuel (a + 4096) ((pa + PGSIZE) % U64)
            ⟨write64 s1.mem (t0 + 8 * PX 0 a) (leafPte pa perm), s1.free⟩ wf2 fr2 (by omega)
            (by omega) hmax (by omega)
          obtain ⟨j, s', used', _, _, st3, _, _, hres3⟩ := mappagesLoop_spec root last perm n fuel
            (a + 4096) ((pa + PGSIZE) % U64)
            ⟨write64 s1.mem (t0 + 8 * PX 0 a) (leafPte pa perm), s1.free⟩
            wf2 fr2 (by omega) (by omega) hmax (by omega) (Nat.mod_lt _ (by decide))
          have hs' : (mappagesLoop root last perm fuel (a + 4096) ((pa + PGSIZE) % U64)
              ⟨write64 s1.mem (t0 + 8 * PX 0 a) (leafPte pa perm), s1.free⟩).state = s' := by
            rcases hres3 with ⟨_, h⟩ | ⟨_, _, h⟩ | ⟨_, _, _, h⟩ <;> rw [h] <;> rfl
          rw [hs'] at g3
          exact (g2.trans_grown st3 g3).mono_state hs'
        · exact absurd h0 hr

/-- `mappages` keeps valid upper entries internal, and every frame it takes
from the allocator ends up a page-table page of the tree. -/
theorem mappages_grown (root va size pa : Nat) (perm : Int) (s : State)
    (wf : WF s.mem root) (fr : Fresh s.mem root s.free)
    (hsize : 1 ≤ size) (hva : va + size - 1 < MAXVA) :
    Grown root s (mappages root va size pa perm s).state := by
  have hM := MAXVA_eq
  have h1 := PGROUNDDOWN_eq va (by omega)
  have h2 := PGROUNDDOWN_eq (va + size - 1) (by omega)
  have hF : MAXVA / PGSIZE + 1 = 67108865 := by decide
  unfold mappages
  rw [mappages_last va size hsize (by omega)]
  exact mappagesLoop_grown root _ perm
    ((PGROUNDDOWN (va + size - 1) - PGROUNDDOWN va) / 4096) _ _ pa s wf fr (by omega) (by omega)
    (by omega) (by omega)

theorem tableFrames_congr_upper (m m' : Mem) (root : Nat) (h : UpperSame root m m') :
    tableFrames m' 2 root = tableFrames m 2 root := by
  rw [tableFrames_succ, tableFrames_succ]
  congr 1
  apply subFrames_congr
  · intro j _ hj
    exact h [] root j (by simp) validPath_nil rfl (by omega)
  · intro j _ hj hv
    rw [tableFrames_succ, tableFrames_succ]
    congr 1
    apply subFrames_congr
    · intro k _ hk
      exact h [j] _ k (by simp) (validPath_one j (by omega)) (pathTo_one_some m root j hv)
        (by omega)
    · intro _ _ _ _
      rfl

theorem internal_zeroMem (root : Nat) : Internal zeroMem root := by
  intro q t j _ _ _ _ hv
  rw [ent_zeroMem] at hv
  exact absurd zero_invalid hv

theorem mappages_st5 : mappages 0x1000 0 (2 * PGSIZE) 0x8000 uperm st0 = .ok 0 st5 :=
  Res.eq_ok_of_val _ _ (by decide)

/-- The address space `st5`: well formed, with internal upper entries, and with
exactly the pages 0 and 1 mapped, to the frames `0x8000` and `0x9000`. -/
theorem st5_inv : WF st5.mem 0x1000 ∧ Fresh st5.mem 0x1000 st5.free ∧ Internal st5.mem 0x1000 ∧
    ∀ b, b % 4096 = 0 → b < 2 ^ 39 →
      pteOf st5.mem 0x1000 b = if b < 8192 then leafPte (0x8000 + b) uperm else 0 := by
  obtain ⟨wf, fr, hin⟩ := mappages_ok_post 0x1000 0 (2 * PGSIZE) 0x8000 uperm st0 st5 wf_st0
    fresh_st0 (by decide) (by decide) (by decide) mappages_st5
  refine ⟨wf, fr, ?_, ?_⟩
  · exact (mappages_grown 0x1000 0 (2 * PGSIZE) 0x8000 uperm st0 wf_st0 fresh_st0 (by decide)
      (by decide)).internal (internal_zeroMem _)
  · intro b hb hb2
    have e0 : PGROUNDDOWN 0 = 0 := by decide
    have e1 : (PGROUNDDOWN (0 + 2 * PGSIZE - 1) - 0) / PGSIZE + 1 = 2 := by decide
    rw [e0, e1] at hin
    rw [hin b hb hb2]
    by_cases h : b < 8192
    · rw [if_pos (by omega), if_pos h]
      congr 1
      unfold U64
      omega
    · rw [if_neg (by omega), if_neg h]
      exact pteOf_zeroMem _ _

/-! ### Duplicating an address space -/

theorem frameOf_aligned (m : Mem) (root b : Nat) : frameOf m root b % 4096 = 0 :=
  PTE2PA_aligned _

/-- A page-aligned frame that is no source frame holds no source byte. -/
theorem NotSrc.disjoint {m : Mem} {old sz f : Nat} (h : NotSrc m old sz f) (hold : old % 4096 = 0)
    (hf : f % 4096 = 0) : ∀ x, SrcByte m old sz x → x < f ∨ f + 4096 ≤ x := by
  intro x hx
  rcases hx with ⟨t, ht, h1, h2⟩ | ⟨b, hb, hb2, h1, h2⟩
  · have hal := tablePage_aligned hold ht
    have hne : f ≠ t := by rintro rfl; exact h.1 ht
    omega
  · have hal := frameOf_aligned m old b
    have hne := h.2 b hb hb2
    omega

/-- Taking the frame `d` from the allocator and filling it with a copy of the
page at `pa` leaves the tree as it is. -/
theorem alloc_copy (root d pa : Nat) (rest : List Nat) (s : State)
    (wf : WF s.mem root) (fr : Fresh s.mem root s.free) (hfree : s.free = d :: rest) :
    WF (memmove s.mem d pa PGSIZE) root ∧ Fresh (memmove s.mem d pa PGSIZE) root rest ∧
      Step root s { mem := memmove s.mem d pa PGSIZE, free := rest } [d] ∧
      (∀ b, pteOf (memmove s.mem d pa PGSIZE) root b = pteOf s.mem root b) ∧
      ¬ TablePage (memmove s.mem d pa PGSIZE) root d := by
  have hP : PGSIZE = 4096 := rfl
  have fr' : Fresh s.mem root (d :: rest) := hfree ▸ fr
  obtain ⟨hd1, hd0, hd2⟩ := fr'.frame d (by simp)
  have hds : ¬ TablePage s.mem root d := fr'.sep d (by simp)
  have hent : ∀ t, TablePage s.mem root t → ∀ j, j < 512 →
      ent (memmove s.mem d pa PGSIZE) t j = ent s.mem t j := by
    intro t ht j hj
    have hal := tablePage_aligned wf.aligned ht
    have hne : t ≠ d := by rintro rfl; exact hds ht
    unfold ent
    apply read64_congr
    intro k hk
    exact memmove_out _ _ _ _ _ (by omega)
  have hpath := pathTo_congr_tables s.mem _ root hent
  have htp : ∀ t, TablePage (memmove s.mem d pa PGSIZE) root t ↔ TablePage s.mem root t := by
    intro t
    constructor
    · rintro ⟨q, hq, hp⟩
      exact ⟨q, hq, by rw [← hpath q hq]; exact hp⟩
    · rintro ⟨q, hq, hp⟩
      exact ⟨q, hq, by rw [hpath q hq]; exact hp⟩
  have hnd := List.nodup_cons.mp fr'.nodup
  refine ⟨⟨wf.aligned, ?_, ?_⟩, ⟨hnd.2, fun g hg => fr'.frame g (by simp [hg]), ?_⟩,
    ⟨by simp [hfree], ?_, ?_, ?_⟩, pteOf_congr_tables s.mem _ root hent, ?_⟩
  · intro q q' t hq hq' h1 h2
    rw [hpath q hq] at h1
    rw [hpath q' hq'] at h2
    exact wf.inj q q' t hq hq' h1 h2
  · intro t ht
    exact wf.nonnull t ((htp t).mp ht)
  · intro g hg ht
    exact fr'.sep g (by simp [hg]) ((htp g).mp ht)
  · intro q t hq h
    show pathTo (memmove s.mem d pa PGSIZE) root q = some t
    rw [hpath q hq]; exact h
  · intro q t hq h
    left
    rw [← hpath q hq]; exact h
  · intro x _ hx
    have := hx d (by simp)
    exact memmove_out _ _ _ _ _ (by omega)
  · intro h
    exact hds ((htp d).mp h)

theorem uvmcopyLoop_succ (old new sz fuel i : Nat) (s : State) :
    uvmcopyLoop old new sz (fuel + 1) i s =
      if i < sz then
        match walk old i 0 s with
        | .panic msg s1 => .panic msg s1
        | .ok pte s1 =>
          if pte = 0 then .panic "uvmcopy: pte should exist" s1
          else if read64 s1.mem pte &&& PTE_V = 0 then .panic "uvmcopy: page not present" s1
          else if (kalloc s1).1 = 0 then
            match uvmunmap new 0 (i / PGSIZE) 1 (kalloc s1).2 with
            | .panic msg s2 => .panic msg s2
            | .ok _ s2 => .ok (-1) s2
          else
            match mappages new i PGSIZE (kalloc s1).1
                ((PTE_FLAGS (read64 s1.mem pte) % 2 ^ 32 : Nat) : Int)
                { mem := memmove (kalloc s1).2.mem (kalloc s1).1 (PTE2PA (read64 s1.mem pte)) PGSIZE,
                  free := (kalloc s1).2.free } with
            | .panic msg s3 => .panic msg s3
            | .ok e s3 =>
              if e ≠ 0 then
                match uvmunmap new 0 (i / PGSIZE) 1 (kfree (kalloc s1).1 s3) with
                | .panic msg s4 => .panic msg s4
                | .ok _ s4 => .ok (-1) s4
              else uvmcopyLoop old new sz fuel ((i + PGSIZE) % U64) s3
      else .ok 0 s := rfl

theorem flags_valid (x : Nat) (hv : x &&& PTE_V ≠ 0) :
    PTE_FLAGS x % 2 ^ 32 = PTE_FLAGS x ∧ PTE_FLAGS x < 1024 ∧ PTE_FLAGS x ||| PTE_V = PTE_FLAGS x := by
  rw [and_PTE_V] at hv
  have h1 := PTE_FLAGS_eq x
  have hlt : PTE_FLAGS x < 1024 := by omega
  refine ⟨Nat.mod_eq_of_lt (by omega), hlt, ?_⟩
  apply Nat.eq_of_testBit_eq
  intro k
  rw [Nat.testBit_or]
  have hV : PTE_V = 2 ^ 0 := rfl
  rw [hV, Nat.testBit_two_pow]
  by_cases hk : 0 = k
  · subst hk
    have : (PTE_FLAGS x).testBit 0 = true := by
      rw [Nat.testBit_zero]
      simp
      omega
    simp [this]
  · simp [hk]

theorem sameTables_of_src {m0 : Mem} {old sz : Nat} {s : State}
    (hsame : ∀ x, SrcByte m0 old sz x → s.mem x = m0 x) : SameTables m0 s.mem old :=
  fun t ht x h1 h2 => hsame x (Or.inl ⟨t, ht, h1, h2⟩)

/-- One iteration of `uvmcopy` at the page `i`, in a state `s` that still holds
the source address space of `m0` and keeps it apart from the destination tree
and from the allocator: either the allocator is empty and the roll-back starts;
or a data frame `d` was had but `mappages` could not get a page-table page, and
the roll-back starts with `d` given back; or page `i` of the destination is
mapped, with the flags of the source entry, to the frame `d` holding a copy of
the source page, and the loop goes on. -/
theorem uvmcopyLoop_iter (old new sz fuel i : Nat) (m0 : Mem) (s : State)
    (wfN : WF s.mem new) (frN : Fresh s.mem new s.free)
    (hi : i % 4096 = 0) (hlt : i < sz) (hsrc : Unmappable m0 old i)
    (hsame : ∀ x, SrcByte m0 old sz x → s.mem x = m0 x)
    (hun : pteOf s.mem new i &&& PTE_V = 0) :
    (s.free = [] ∧ uvmcopyLoop old new sz (fuel + 1) i s =
        match uvmunmap new 0 (i / PGSIZE) 1 s with
        | .panic msg s2 => .panic msg s2
        | .ok _ s2 => .ok (-1) s2) ∨
    (∃ d sM used, WF sM.mem new ∧ Fresh sM.mem new sM.free ∧ Step new s sM (d :: used) ∧
      (∀ b, pteOf sM.mem new b = pteOf s.mem new b) ∧ sM.free = [] ∧
      ¬ TablePage sM.mem new d ∧ (∀ u, u ∈ used → TablePage sM.mem new u) ∧
      uvmcopyLoop old new sz (fuel + 1) i s =
        match uvmunmap new 0 (i / PGSIZE) 1 { mem := sM.mem, free := [d] } with
        | .panic msg s2 => .panic msg s2
        | .ok _ s2 => .ok (-1) s2) ∨
    (∃ d s3 used, WF s3.mem new ∧ Fresh s3.mem new s3.free ∧ Step new s s3 (d :: used) ∧
      (∀ b, b % 4096 = 0 → b < 2 ^ 39 →
        pteOf s3.mem new b =
          if b = i then leafPte d ((PTE_FLAGS (pteOf m0 old i) : Nat) : Int)
          else pteOf s.mem new b) ∧
      d % 4096 = 0 ∧ d < 2 ^ 64 ∧ d ∉ s3.free ∧ ¬ TablePage s3.mem new d ∧
      (∀ k, k < 4096 → s3.mem (d + k) = read8 s.mem (frameOf m0 old i + k)) ∧
      (∀ u, u ∈ used → TablePage s3.mem new u) ∧
      uvmcopyLoop old new sz (fuel + 1) i s = uvmcopyLoop old new sz fuel (i + 4096) s3) := by
  have hM := MAXVA_eq
  have hP : PGSIZE = 4096 := rfl
  obtain ⟨hva, hs0, hv0, _⟩ := hsrc
  have hsT := sameTables_of_src hsame
  have hslot : slotOf s.mem old i = slotOf m0 old i := slotOf_congr m0 s.mem old i hsT.path_eq
  have hpte : pteOf s.mem old i = pteOf m0 old i := pteOf_congr_tables m0 s.mem old hsT.ent_eq i
  have hs0' : slotOf s.mem old i ≠ 0 := by rw [hslot]; exact hs0
  obtain ⟨_, _, _, hrd⟩ := slotOf_pteOf s.mem old i hs0'
  rw [hpte] at hrd
  obtain ⟨hf1, hf2, _⟩ := flags_valid _ hv0
  rw [uvmcopyLoop_succ, if_pos hlt, walk_noalloc old i s hva]
  simp only
  rw [if_neg hs0', hrd, if_neg hv0, hf1]
  cases hfree : s.free with
  | nil =>
    left
    have hk : kalloc s = (0, s) := by simp [kalloc, hfree]
    rw [hk]
    exact ⟨rfl, rfl⟩
  | cons d rest =>
    right
    have fr' : Fresh s.mem new (d :: rest) := hfree ▸ frN
    obtain ⟨hd1, hd0, hd2⟩ := fr'.frame d (by simp)
    have hnd := List.nodup_cons.mp fr'.nodup
    have hk : kalloc s = (d, { mem := s.mem, free := rest }) := by simp [kalloc, hfree]
    rw [hk]
    simp only
    rw [if_neg hd0]
    obtain ⟨wf2, fr2, st2, pte2, ntp2⟩ :=
      alloc_copy new d (PTE2PA (pteOf m0 old i)) rest s wfN frN hfree
    have hun2 : pteOf (memmove s.mem d (PTE2PA (pteOf m0 old i)) PGSIZE) new i &&& PTE_V = 0 := by
      rw [pte2 i]; exact hun
    have hmp := mappages_single new i d ((PTE_FLAGS (pteOf m0 old i) : Nat) : Int)
      { mem := memmove s.mem d (PTE2PA (pteOf m0 old i)) PGSIZE, free := rest } hi (by omega)
    have hg := mappages_grown new i PGSIZE d ((PTE_FLAGS (pteOf m0 old i) : Nat) : Int)
      { mem := memmove s.mem d (PTE2PA (pteOf m0 old i)) PGSIZE, free := rest } wf2 fr2
      (by decide) (by rw [hP]; omega)
    rw [hmp] at hg ⊢
    obtain ⟨s3, used, wf3, fr3, st3, hres⟩ :=
      mappagesLoop_iter new i ((PTE_FLAGS (pteOf m0 old i) : Nat) : Int) (MAXVA / PGSIZE) i d
        { mem := memmove s.mem d (PTE2PA (pteOf m0 old i)) PGSIZE, free := rest } wf2 fr2 hi
        (by omega)
    have hrest : rest = used ++ s3.free := st3.free
    have hdu : d ∉ used := fun h => hnd.1 (by rw [hrest]; simp [h])
    have hd3 : d ∉ s3.free := fun h => hnd.1 (by rw [hrest]; simp [h])
    have hntp3 : ¬ TablePage s3.mem new d := by
      intro h
      rcases st3.tablePage_step h with h' | h'
      · exact ntp2 h'
      · exact hdu h'
    have hlinked : (mappagesLoop new i ((PTE_FLAGS (pteOf m0 old i) : Nat) : Int)
        (MAXVA / PGSIZE + 1) i d
        { mem := memmove s.mem d (PTE2PA (pteOf m0 old i)) PGSIZE, free := rest }).state = s3 →
        ∀ u, u ∈ used → TablePage s3.mem new u := by
      intro hst u hu
      rw [hst] at hg
      rcases hg.linked u (by show u ∈ rest; rw [hrest]; simp [hu]) with h | h
      · exfalso
        have hn2 := hnd.2
        rw [hrest] at hn2
        exact (List.nodup_append.mp hn2).2.2 hu h
      · exact h
    rcases hres with ⟨hv, _⟩ | ⟨_, pte3, hfree3, _, hR⟩ | ⟨_, _, pte3, hR⟩
    · exact absurd hun2 hv
    · left
      refine ⟨d, s3, used, wf3, fr3, st2.trans st3, fun b => (pte3 b).trans (pte2 b), hfree3,
        hntp3, hlinked (by rw [hR]; rfl), ?_⟩
      rw [hR]
      simp only
      rw [if_pos (by decide)]
      have hkf : kfree d s3 = { mem := s3.mem, free := [d] } := by
        simp [kfree, hfree3]
      rw [hkf]
      try rfl
    · right
      rw [if_pos rfl] at hR
      refine ⟨d, s3, used, wf3, fr3, st2.trans st3, ?_, hd1, hd2, hd3, hntp3, ?_,
        hlinked (by rw [hR]; rfl), ?_⟩
      · intro b hb hb2
        rw [pte3 b hb hb2]
        by_cases hba : b = i
        · rw [if_pos hba, if_pos hba]
        · rw [if_neg hba, if_neg hba]
          exact pte2 b
      · intro k hk
        have e : s3.mem (d + k) = memmove s.mem d (PTE2PA (pteOf m0 old i)) PGSIZE (d + k) := by
          apply st3.bytes (d + k)
          · intro t ht
            have hal := tablePage_aligned wf2.aligned ht
            have hne : t ≠ d := by rintro rfl; exact ntp2 ht
            omega
          · intro f hf
            have hfm := fr2.frame f (by rw [hrest]; simp [hf])
            have hne : f ≠ d := by rintro rfl; exact hdu hf
            omega
        rw [e, memmove_in _ _ _ _ _ (by omega) (by omega)]
        unfold frameOf
        congr 2
        omega
      · rw [hR]
        simp only
        rw [if_neg (by simp)]
        have e1 : (i + PGSIZE) % U64 = i + 4096 := step_addr i (by omega)
        rw [e1]

/-- Code that writes only into the destination's page-table pages and into
frames from the allocator leaves the source as it is. -/
theorem step_src {old new sz : Nat} {m0 : Mem} {s s' : State} {used : List Nat}
    (hold : old % 4096 = 0) (wfN : WF s.mem new) (frN : Fresh s.mem new s.free)
    (st : Step new s s' used)
    (hsame : ∀ x, SrcByte m0 old sz x → s.mem x = m0 x)
    (hsepT : ∀ t, TablePage s.mem new t → NotSrc m0 old sz t)
    (hsepF : ∀ f, f ∈ s.free → NotSrc m0 old sz f) :
    (∀ x, SrcByte m0 old sz x → s'.mem x = m0 x) ∧
      (∀ t, TablePage s'.mem new t → NotSrc m0 old sz t) ∧
      (∀ f, f ∈ s'.free → NotSrc m0 old sz f) := by
  have hsub : ∀ f, f ∈ used → f ∈ s.free := fun f hf => by rw [st.free]; simp [hf]
  refine ⟨?_, ?_, ?_⟩
  · intro x hx
    rw [st.bytes x, hsame x hx]
    · intro t ht
      exact (hsepT t ht).disjoint hold (tablePage_aligned wfN.aligned ht) x hx
    · intro f hf
      exact (hsepF f (hsub f hf)).disjoint hold (frN.frame f (hsub f hf)).1 x hx
  · intro t ht
    rcases st.tablePage_step ht with h | h
    · exact hsepT t h
    · exact hsepF t (hsub t h)
  · intro f hf
    exact hsepF f (by rw [st.free]; simp [hf])

theorem Copied.nil_copied (old new sz : Nat) (m0 : Mem) (i : Nat) (s : State)
    (wf : WF s.mem new) (fr : Fresh s.mem new s.free)
    (hsame : ∀ x, SrcByte m0 old sz x → s.mem x = m0 x) :
    Copied old new sz m0 i s s [] [] [] :=
  ⟨wf, fr, Step.refl new s, hsame, by simp, by simp, fun _ _ _ _ => rfl, List.nodup_nil,
    by simp, by simp, Or.inl rfl, by simp⟩

/-- The loop of `uvmcopy` from page `i`: it copies consecutive pages and then
either is done, or starts the roll-back because the allocator is empty. -/
theorem uvmcopyLoop_spec (old new sz : Nat) (m0 : Mem) (hold : old % 4096 = 0)
    (hsz : sz ≤ MAXVA) (hsrc : ∀ b, b % 4096 = 0 → b < sz → Unmappable m0 old b) :
    ∀ n fuel i s, WF s.mem new → Fresh s.mem new s.free → i % 4096 = 0 →
      sz ≤ i + n * 4096 → n < fuel →
      (∀ x, SrcByte m0 old sz x → s.mem x = m0 x) →
      (∀ t, TablePage s.mem new t → NotSrc m0 old sz t) →
      (∀ f, f ∈ s.free → NotSrc m0 old sz f) →
      (∀ b, b % 4096 = 0 → i ≤ b → b < sz → pteOf s.mem new b &&& PTE_V = 0) →
      ∃ (ds : List Nat) (sM : State) (used pending : List Nat),
        Copied old new sz m0 i s sM ds used pending ∧
        ((sz ≤ i + ds.length * 4096 ∧ pending = [] ∧
            uvmcopyLoop old new sz fuel i s = .ok 0 sM) ∨
          (i + ds.length * 4096 < sz ∧ sM.free = [] ∧
            uvmcopyLoop old new sz fuel i s =
              match uvmunmap new 0 ((i + ds.length * 4096) / PGSIZE) 1
                { mem := sM.mem, free := pending } with
              | .panic msg s2 => .panic msg s2
              | .ok _ s2 => .ok (-1) s2)) := by
  have hM := MAXVA_eq
  have hdone : ∀ fuel i s, WF s.mem new → Fresh s.mem new s.free →
      (∀ x, SrcByte m0 old sz x → s.mem x = m0 x) → ¬ i < sz → 0 < fuel →
      ∃ (ds : List Nat) (sM : State) (used pending : List Nat),
        Copied old new sz m0 i s sM ds used pending ∧
        ((sz ≤ i + ds.length * 4096 ∧ pending = [] ∧
            uvmcopyLoop old new sz fuel i s = .ok 0 sM) ∨
          (i + ds.length * 4096 < sz ∧ sM.free = [] ∧
            uvmcopyLoop old new sz fuel i s =
              match uvmunmap new 0 ((i + ds.length * 4096) / PGSIZE) 1
                { mem := sM.mem, free := pending } with
              | .panic msg s2 => .panic msg s2
              | .ok _ s2 => .ok (-1) s2)) := by
    intro fuel i s wf fr hsame hlt hfuel
    obtain ⟨fuel, rfl⟩ : ∃ f, fuel = f + 1 := ⟨fuel - 1, by omega⟩
    refine ⟨[], s, [], [], Copied.nil_copied old new sz m0 i s wf fr hsame,
      Or.inl ⟨by simp; omega, rfl, ?_⟩⟩
    rw [uvmcopyLoop_succ, if_neg hlt]
  intro n
  induction n with
  | zero =>
    intro fuel i s wf fr hi hn hfuel hsame _ _ _
    exact hdone fuel i s wf fr hsame (by omega) hfuel
  | succ n ih =>
    intro fuel i s wf fr hi hn hfuel hsame hsepT hsepF hun
    by_cases hlt : i < sz
    swap
    · exact hdone fuel i s wf fr hsame hlt (by omega)
    obtain ⟨fuel, rfl⟩ : ∃ f, fuel = f + 1 := ⟨fuel - 1, by omega⟩
    rcases uvmcopyLoop_iter old new sz fuel i m0 s wf fr hi hlt (hsrc i hi hlt) hsame
        (hun i hi (Nat.le_refl i) hlt) with
      ⟨hfree, hR⟩ | ⟨d, sM, used, wfM, frM, stM, pteM, hfreeM, hntp, hlink, hR⟩ |
      ⟨d, s3, used1, wf3, fr3, st3, pte3, hd1, hd2, hd3, hntp3, hdat3, hlink3, hR⟩
    · refine ⟨[], s, [], [], Copied.nil_copied old new sz m0 i s wf fr hsame,
        Or.inr ⟨by simpa using hlt, hfree, ?_⟩⟩
      rw [hR]
      have hs : s = { mem := s.mem, free := [] } := by
        cases s
        simp only at hfree
        rw [hfree]
      simp only [List.length_nil, Nat.zero_mul, Nat.add_zero]
      rw [← hs]
      try rfl
    · obtain ⟨hsameM, _, _⟩ := step_src hold wf fr stM hsame hsepT hsepF
      refine ⟨[], sM, d :: used, [d],
        ⟨wfM, frM, stM, hsameM, by simp, by simp, fun b _ _ _ => pteM b, List.nodup_nil,
          by simp, by simp, Or.inr ⟨d, rfl, by simp, by simp, hntp⟩, ?_⟩,
        Or.inr ⟨by simpa using hlt, hfreeM, ?_⟩⟩
      · intro u hu
        rcases List.mem_cons.mp hu with rfl | hu
        · exact Or.inr (Or.inl (by simp))
        · exact Or.inr (Or.inr (hlink u hu))
      · rw [hR]
        simp only [List.length_nil, Nat.zero_mul, Nat.add_zero]
        try rfl
    · obtain ⟨hsame3, hsepT3, hsepF3⟩ := step_src hold wf fr st3 hsame hsepT hsepF
      have hun3 : ∀ b, b % 4096 = 0 → i + 4096 ≤ b → b < sz →
          pteOf s3.mem new b &&& PTE_V = 0 := by
        intro b hb h1 h2
        rw [pte3 b hb (by omega), if_neg (by omega)]
        exact hun b hb (by omega) h2
      obtain ⟨ds, sM, used, pending, C, hres⟩ :=
        ih fuel (i + 4096) s3 wf3 fr3 (by omega) (by omega) (by omega) hsame3 hsepT3 hsepF3 hun3
      have hsub : ∀ x, x ∈ used → x ∈ s3.free := by
        intro x hx
        rw [C.step.free]; simp [hx]
      have hdu : d ∉ used := fun h => hd3 (hsub d h)
      have hdds : d ∉ ds := fun h => hdu (C.frames d h).1
      have hlen : (d :: ds).length = ds.length + 1 := rfl
      have hntpM : ¬ TablePage sM.mem new d := by
        intro h
        rcases C.step.tablePage_step h with h' | h'
        · exact hntp3 h'
        · exact hdu h'
      refine ⟨d :: ds, sM, (d :: used1) ++ used, pending,
        ⟨C.wf, C.fr, st3.trans C.step, C.src, ?_, ?_, ?_, List.nodup_cons.mpr ⟨hdds, C.nodup⟩,
          ?_, ?_, ?_, ?_⟩, ?_⟩
      · intro j hj
        rcases j with _ | j
        · simpa using hlt
        · have := C.inside j (by rw [hlen] at hj; omega)
          omega
      · intro j hj
        rcases j with _ | j
        · simp only [Nat.zero_mul, Nat.add_zero, List.getD_cons_zero]
          rw [C.out i hi (by omega) (by omega), pte3 i hi (by omega), if_pos rfl]
        · have := C.pte j (by rw [hlen] at hj; omega)
          rw [show i + (j + 1) * 4096 = i + 4096 + j * 4096 by omega, this]
          simp
      · intro b hb hb2 hb3
        rw [hlen] at hb3
        rw [C.out b hb hb2 (by omega), pte3 b hb hb2, if_neg (by omega)]
      · intro d' hd'
        rcases List.mem_cons.mp hd' with rfl | hd'
        · exact ⟨by simp, hd1, hd2, hntpM⟩
        · obtain ⟨h1, h2, h3, h4⟩ := C.frames d' hd'
          exact ⟨by simp [h1], h2, h3, h4⟩
      · intro j hj k hk
        rcases j with _ | j
        · simp only [Nat.zero_mul, Nat.add_zero, List.getD_cons_zero]
          rw [C.step.bytes (d + k) ?_ ?_, hdat3 k hk]
          · unfold read8
            rw [hsame _ (Or.inr ⟨i, hi, hlt, by omega, by omega⟩)]
          · intro t ht
            have hal := tablePage_aligned wf3.aligned ht
            have hne : t ≠ d := by rintro rfl; exact hntp3 ht
            omega
          · intro f hf
            have hfm := fr3.frame f (hsub f hf)
            have hne : f ≠ d := by rintro rfl; exact hdu hf
            omega
        · have := C.data j (by rw [hlen] at hj; omega) k hk
          rw [show i + (j + 1) * 4096 = i + 4096 + j * 4096 by omega]
          simpa using this
      · rcases C.pend with h | ⟨p, hp1, hp2, hp3, hp4⟩
        · exact Or.inl h
        · refine Or.inr ⟨p, hp1, by simp [hp2], ?_, hp4⟩
          intro hp
          rcases List.mem_cons.mp hp with rfl | hp
          · exact hdu hp2
          · exact hp3 hp
      · intro u hu
        rcases List.mem_append.mp hu with hu | hu
        · rcases List.mem_cons.mp hu with rfl | hu
          · exact Or.inl (by simp)
          · obtain ⟨q, hq, hp⟩ := hlink3 u hu
            exact Or.inr (Or.inr ⟨q, hq, C.step.old q u hq hp⟩)
        · rcases C.owned u hu with h | h | h
          · exact Or.inl (by simp [h])
          · exact Or.inr (Or.inl h)
          · exact Or.inr (Or.inr h)
      · rw [hR, hlen]
        have e : i + (ds.length + 1) * 4096 = i + 4096 + ds.length * 4096 := by omega
        rw [e]
        exact hres

theorem copied_unmappable {old new sz : Nat} {m0 : Mem} {s sM : State}
    {ds used pending : List Nat} (C : Copied old new sz m0 0 s sM ds used pending)
    (hsrc : ∀ b, b % 4096 = 0 → b < sz → Unmappable m0 old b) :
    ∀ b, b % 4096 = 0 → b < ds.length * 4096 → Unmappable sM.mem new b ∧
      PTE2PA (pteOf sM.mem new b) = ds.getD (b / 4096) 0 ∧
      PTE_FLAGS (pteOf sM.mem new b) = PTE_FLAGS (pteOf m0 old b) := by
  intro b hb hlt
  have hj : b / 4096 < ds.length := by omega
  have hbe : 0 + b / 4096 * 4096 = b := by omega
  have hin := C.inside _ hj
  have hp := C.pte _ hj
  rw [hbe] at hin hp
  obtain ⟨hva, _, hv, hfl⟩ := hsrc b hb hin
  obtain ⟨_, hf2, hf3⟩ := flags_valid _ hv
  obtain ⟨_, hd1, hd2, _⟩ := C.frames _ (getD_mem ds _ hj)
  have hflags : PTE_FLAGS (pteOf sM.mem new b) = PTE_FLAGS (pteOf m0 old b) := by
    rw [hp, PTE_FLAGS_leafPte _ _ hf2, hf3]
  refine ⟨unmappable_of_wf _ _ _ C.wf hva ?_ ?_, ?_, hflags⟩
  · rw [hp]
    exact leafPte_valid _ _
  · rw [hflags]
    exact hfl
  · rw [hp]
    exact PTE2PA_leafPte _ _ hd1 hd2 hf2

/-- The outcome of `uvmcopy` on a source of valid pages, a destination without
them, and a separated allocator: either every page is copied, or the allocator
gave out and the roll-back has unmapped and released what had been copied. -/
theorem uvmcopy_result (old new sz : Nat) (s : State) (hold : old % 4096 = 0)
    (wfN : WF s.mem new) (frN : Fresh s.mem new s.free)
    (hsrc : ∀ b, b % 4096 = 0 → b < sz → Unmappable s.mem old b)
    (hdst : ∀ b, b % 4096 = 0 → b < sz → pteOf s.mem new b &&& PTE_V = 0)
    (hsepT : ∀ t, TablePage s.mem new t → NotSrc s.mem old sz t)
    (hsepF : ∀ f, f ∈ s.free → NotSrc s.mem old sz f) :
    ∃ (ds : List Nat) (sM : State) (used pending : List Nat),
      Copied old new sz s.mem 0 s sM ds used pending ∧
      ((sz ≤ ds.length * 4096 ∧ pending = [] ∧ uvmcopy old new sz s = .ok 0 sM) ∨
        (ds.length * 4096 < sz ∧ sM.free = [] ∧
          ∃ s', uvmcopy old new sz s = .ok (-1) s' ∧
            Unmapped new 0 (ds.length * 4096) { mem := sM.mem, free := pending } s' ∧
            s'.free = ds.reverse ++ pending ∧
            (∀ x, SrcByte s.mem old sz x → s'.mem x = s.mem x))) := by
  have hM := MAXVA_eq
  have hP : PGSIZE = 4096 := rfl
  have hsz : sz ≤ MAXVA := by
    by_contra hc
    have := (hsrc MAXVA (by rw [hM]; decide) (by omega)).1
    omega
  have hF : MAXVA / PGSIZE + 2 = 67108866 := by decide
  obtain ⟨ds, sM, used, pending, C, hres⟩ :=
    uvmcopyLoop_spec old new sz s.mem hold hsz hsrc 67108864 (MAXVA / PGSIZE + 2) 0 s wfN frN
      (by decide) (by omega) (by omega) (fun _ _ => rfl) hsepT hsepF
      (fun b hb _ hlt => hdst b hb hlt)
  refine ⟨ds, sM, used, pending, C, ?_⟩
  rw [Nat.zero_add] at hres
  rcases hres with ⟨h1, h2, h3⟩ | ⟨h1, h2, h3⟩
  · exact Or.inl ⟨h1, h2, h3⟩
  · right
    refine ⟨h1, h2, ?_⟩
    have hU := copied_unmappable C hsrc
    have hbound : (0 + ds.length * 4096 / PGSIZE * PGSIZE) % U64 = ds.length * 4096 := by
      unfold U64
      rw [hP]
      omega
    obtain ⟨s', hr, hUn, hfree⟩ := (uvmunmap_spec new 0 (ds.length * 4096 / PGSIZE) 1
      { mem := sM.mem, free := pending } C.wf (by decide)).1
      (by
        intro b hb _ hlt
        rw [hbound] at hlt
        exact (hU b hb hlt).1)
    rw [hbound] at hUn hfree
    obtain ⟨_, hsepTM, _⟩ := step_src hold wfN frN C.step (fun _ _ => rfl) hsepT hsepF
    refine ⟨s', ?_, hUn, ?_, ?_⟩
    · show uvmcopyLoop old new sz (MAXVA / PGSIZE + 2) 0 s = _
      rw [h3, hr]
    · rw [hfree]
      unfold freed
      rw [if_pos (by decide), Nat.sub_zero, Nat.mul_div_cancel _ (by decide : 0 < 4096)]
      congr 2
      apply leafFrames_of_frames
      intro j hj
      have := (hU (0 + j * 4096) (by omega) (by omega)).2.1
      rw [this]
      congr 1
      omega
    · intro x hx
      rw [hUn.bytes x, C.src x hx]
      intro t ht
      exact (hsepTM t ht).disjoint hold (tablePage_aligned C.wf.aligned ht) x hx

/-- A table whose root page holds only zero bytes: well formed, one page-table
page, no mapping. -/
theorem zero_root_inv (m : Mem) (new : Nat) (h1 : new % 4096 = 0) (h0 : new ≠ 0)
    (hz : ∀ x, new ≤ x → x < new + 4096 → m x = 0) :
    WF m new ∧ (∀ t, TablePage m new t → t = new) ∧ (∀ b, pteOf m new b = 0) := by
  have hent : ∀ j, j < 512 → ent m new j = 0 := by
    intro j hj
    rw [← ent_zeroMem new j]
    exact ent_congr_page zeroMem m new j hj (fun x a b => hz x a b)
  have hpath : ∀ q t, ValidPath q → pathTo m new q = some t → q = [] ∧ t = new := by
    intro q t hq hp
    cases q with
    | nil =>
      injection hp with hp
      exact ⟨rfl, hp.symm⟩
    | cons j q =>
      rw [pathTo_cons, hent j (hq.2 j (by simp)), if_neg (fun c => c zero_invalid)] at hp
      exact absurd hp (by simp)
  refine ⟨⟨h1, ?_, ?_⟩, ?_, ?_⟩
  · intro q q' t hq hq' a b
    rw [(hpath q t hq a).1, (hpath q' t hq' b).1]
  · rintro t ⟨q, hq, hp⟩
    rw [(hpath q t hq hp).2]
    exact h0
  · rintro t ⟨q, hq, hp⟩
    exact (hpath q t hq hp).2
  · intro b
    unfold pteOf
    rw [pathTo_two, hent _ (PX_lt 2 b), if_neg (fun c => c zero_invalid)]

/-- An address space of `n` pages mapped into an empty table, the frames being
`pa`, `pa + 4096`, ...: its invariants. -/
theorem built_inv (root pa n : Nat) (fl : List Nat) (s1 : State)
    (wf0 : WF zeroMem root) (fr0 : Fresh zeroMem root fl)
    (hn : 1 ≤ n) (hn2 : n * 4096 ≤ MAXVA) (hpa2 : pa + n * 4096 ≤ 2 ^ 64)
    (h : mappages root 0 (n * PGSIZE) pa uperm ⟨zeroMem, fl⟩ = .ok 0 s1) :
    WF s1.mem root ∧ Fresh s1.mem root s1.free ∧ Internal s1.mem root ∧
      (∀ b, b % 4096 = 0 → b < 2 ^ 39 →
        pteOf s1.mem root b = if b < n * 4096 then leafPte (pa + b) uperm else 0) ∧
      ∃ used, fl = used ++ s1.free ∧ (∀ t, TablePage s1.mem root t → t = root ∨ t ∈ used) ∧
        ∀ x, (x < root ∨ root + 4096 ≤ x) → (∀ f, f ∈ used → x < f ∨ f + 4096 ≤ x) →
          s1.mem x = 0 := by
  have hM := MAXVA_eq
  have hP : PGSIZE = 4096 := rfl
  have hsz : 1 ≤ n * PGSIZE := by rw [hP]; omega
  have hva : 0 + n * PGSIZE - 1 < MAXVA := by rw [hP]; omega
  obtain ⟨wf, fr, hin⟩ := mappages_ok_post root 0 (n * PGSIZE) pa uperm ⟨zeroMem, fl⟩ s1 wf0 fr0
    hsz hva (by omega) h
  have hg := mappages_grown root 0 (n * PGSIZE) pa uperm ⟨zeroMem, fl⟩ wf0 fr0 hsz hva
  rw [h] at hg
  obtain ⟨j, s', used, _, _, st, _, _, hres⟩ :=
    mappages_spec root 0 (n * PGSIZE) pa uperm ⟨zeroMem, fl⟩ wf0 fr0 hsz hva (by omega)
  have hs' : s' = s1 := by
    rcases hres with ⟨_, h'⟩ | ⟨_, _, h'⟩ | ⟨_, _, _, h'⟩
    · rw [h] at h'
      injection h' with _ h'
      exact h'.symm
    · rw [h] at h'
      exact absurd h' (by simp)
    · rw [h] at h'
      injection h' with h' _
      exact absurd h' (by decide)
  subst hs'
  have e0 : PGROUNDDOWN 0 = 0 := by decide
  have e1 : (PGROUNDDOWN (0 + n * PGSIZE - 1) - PGROUNDDOWN 0) / PGSIZE + 1 = n := by
    rw [e0, PGROUNDDOWN_eq _ (by omega), hP]
    omega
  rw [e1, e0] at hin
  refine ⟨wf, fr, hg.internal (internal_zeroMem root), ?_, used, st.free, ?_, ?_⟩
  · intro b hb hb2
    rw [hin b hb hb2]
    by_cases hlt : b < n * 4096
    · rw [if_pos (by omega), if_pos hlt]
      congr 1
      unfold U64
      omega
    · rw [if_neg (by omega), if_neg hlt]
      exact pteOf_zeroMem _ _
  · intro t ht
    rcases st.tablePage_step ht with ⟨q, _, hq⟩ | h'
    · exact Or.inl (pathTo_zeroMem _ _ _ hq).2
    · exact Or.inr h'
  · intro x hx hu
    rw [st.bytes x ?_ hu]
    · rfl
    · rintro t ⟨q, _, hq⟩
      rw [(pathTo_zeroMem _ _ _ hq).2]
      exact hx

/-- A source address space of two pages rooted at `0x1000`, built in empty
memory with frames `0x8000` and `0x9000` and an allocator below `0x8000`,
together with an empty destination root at `0xA000`: what `uvmcopy` asks for. -/
theorem copy_hyps (fl : List Nat) (s1 : State) (hn : fl.Nodup)
    (hfl : ∀ f, f ∈ fl → f % 4096 = 0 ∧ 0x2000 ≤ f ∧ f < 0x8000)
    (h : mappages 0x1000 0 (2 * PGSIZE) 0x8000 uperm ⟨zeroMem, fl⟩ = .ok 0 s1) :
    WF s1.mem 0x1000 ∧ WF s1.mem 0xA000 ∧ Fresh s1.mem 0xA000 s1.free ∧
      (∀ b, b % 4096 = 0 → b < 8192 → Unmappable s1.mem 0x1000 b) ∧
      (∀ b, b % 4096 = 0 → b < 8192 → pteOf s1.mem 0xA000 b &&& PTE_V = 0) ∧
      (∀ t, TablePage s1.mem 0xA000 t → NotSrc s1.mem 0x1000 8192 t) ∧
      (∀ f, f ∈ s1.free → NotSrc s1.mem 0x1000 8192 f) := by
  have hM := MAXVA_eq
  obtain ⟨wf, fr, _, hpte, used, hfree, htab, hz⟩ :=
    built_inv 0x1000 0x8000 2 fl s1 (wf_zeroMem _ (by decide) (by decide))
      (fresh_zeroMem _ _ hn (fun f hf => by have := hfl f hf; omega))
      (by decide) (by decide) (by decide) h
  have hused : ∀ f, f ∈ used → f % 4096 = 0 ∧ 0x2000 ≤ f ∧ f < 0x8000 := fun f hf =>
    hfl f (by rw [hfree]; exact List.mem_append_left _ hf)
  have hsfree : ∀ f, f ∈ s1.free → f % 4096 = 0 ∧ 0x2000 ≤ f ∧ f < 0x8000 := fun f hf =>
    hfl f (by rw [hfree]; exact List.mem_append_right _ hf)
  obtain ⟨wfN, htN, hpN⟩ := zero_root_inv s1.mem 0xA000 (by decide) (by decide) (by
    intro x h1 h2
    apply hz x (by omega)
    intro f hf
    have := hused f hf
    omega)
  have hframe : ∀ b, b % 4096 = 0 → b < 8192 → frameOf s1.mem 0x1000 b = 0x8000 + b := by
    intro b hb hlt
    unfold frameOf
    rw [hpte b hb (by omega), if_pos (by omega)]
    exact (uperm_facts _ (by omega) (by omega)).1
  have hnot : ∀ f, f % 4096 = 0 → ¬ TablePage s1.mem 0x1000 f → (f < 0x8000 ∨ 0xA000 ≤ f) →
      NotSrc s1.mem 0x1000 8192 f := by
    intro f _ hf hr
    refine ⟨hf, ?_⟩
    intro b hb hlt
    rw [hframe b hb hlt]
    omega
  refine ⟨wf, wfN, ⟨fr.nodup, fr.frame, ?_⟩, ?_, ?_, ?_, ?_⟩
  · intro f hf ht
    have := hsfree f hf
    have := htN f ht
    omega
  · intro b hb hlt
    apply unmappable_of_wf _ _ _ wf (by omega)
    · rw [hpte b hb (by omega), if_pos (by omega)]
      exact leafPte_valid _ _
    · rw [hpte b hb (by omega), if_pos (by omega)]
      exact (uperm_facts _ (by omega) (by omega)).2.2
  · intro b _ _
    rw [hpN b]
    exact zero_invalid
  · intro t ht
    rw [htN t ht]
    refine hnot _ (by decide) ?_ (by omega)
    intro hc
    rcases htab _ hc with h' | h'
    · exact absurd h' (by decide)
    · have := hused _ h'
      omega
  · intro f hf
    have := hsfree f hf
    exact hnot f this.1 (fr.sep f hf) (by omega)

theorem mappages_st6 : mappages 0x1000 0 (2 * PGSIZE) 0x8000 uperm
    ⟨zeroMem, [0x2000, 0x3000, 0x4000, 0x5000, 0x6000, 0x7000]⟩ = .ok 0 st6 :=
  Res.eq_ok_of_val _ _ (by decide)

/-! ## What `walk` and `mappages` leave untouched -/

theorem kalloc_mem (s : State) : (kalloc s).2.mem = s.mem := by
  unfold kalloc
  cases s.free <;> rfl

theorem kalloc_free (s : State) (h : (kalloc s).1 ≠ 0) :
    s.free = (kalloc s).1 :: (kalloc s).2.free := by
  unfold kalloc at h ⊢
  cases hf : s.free with
  | nil => rw [hf] at h; exact absurd rfl h
  | cons f rest => rfl

/-- The allocating walk from a level-1 table writes only into the entry of that
table it follows and into the frame it takes from the allocator. -/
theorem walkLoop1_frame (va : Nat) (alloc : Int) (t : Nat) (s : State) (x : Nat)
    (h1 : x < t + 8 * PX 1 va ∨ t + 8 * PX 1 va + 8 ≤ x)
    (h2 : ∀ f, f ∈ s.free → x < f ∨ f + 4096 ≤ x) :
    (walkLoop va alloc 1 t s).2.mem x = s.mem x := by
  have e : walkLoop va alloc 1 t s =
      if ent s.mem t (PX 1 va) &&& PTE_V ≠ 0 then
        walkLoop va alloc 0 (PTE2PA (ent s.mem t (PX 1 va))) s
      else if alloc = 0 then (0, s)
      else if (kalloc s).1 = 0 then (0, (kalloc s).2)
      else walkLoop va alloc 0 (kalloc s).1
        { mem := write64 (memset (kalloc s).2.mem (kalloc s).1 0 PGSIZE)
            (t + 8 * PX 1 va) (PA2PTE (kalloc s).1 ||| PTE_V),
          free := (kalloc s).2.free } := walkLoop_succ va alloc 0 t s
  rw [e]
  split_ifs with hv ha hk
  · rfl
  · rfl
  · exact congrFun (kalloc_mem s) x
  · have hfree := kalloc_free s hk
    have hx := h2 _ (by rw [hfree]; exact List.mem_cons_self _ _)
    show write64 (memset (kalloc s).2.mem (kalloc s).1 0 PGSIZE) _ _ x = s.mem x
    rw [write64_out _ _ _ _ h1, memset_out _ _ _ _ _ (by unfold PGSIZE; omega), kalloc_mem]

/-- The allocating walk from the root writes only into the root entry and the
level-1 entry it follows and into the frames it takes from the allocator. -/
theorem walkLoop2_frame (va : Nat) (alloc : Int) (root : Nat) (s : State) (x : Nat)
    (h0 : x < root + 8 * PX 2 va ∨ root + 8 * PX 2 va + 8 ≤ x)
    (h1 : ∀ t, pathTo s.mem root [PX 2 va] = some t → x < t ∨ t + 4096 ≤ x)
    (h2 : ∀ f, f ∈ s.free → x < f ∨ f + 4096 ≤ x) :
    (walkLoop va alloc 2 root s).2.mem x = s.mem x := by
  have hpx := PX_lt 1 va
  have e : walkLoop va alloc 2 root s =
      if ent s.mem root (PX 2 va) &&& PTE_V ≠ 0 then
        walkLoop va alloc 1 (PTE2PA (ent s.mem root (PX 2 va))) s
      else if alloc = 0 then (0, s)
      else if (kalloc s).1 = 0 then (0, (kalloc s).2)
      else walkLoop va alloc 1 (kalloc s).1
        { mem := write64 (memset (kalloc s).2.mem (kalloc s).1 0 PGSIZE)
            (root + 8 * PX 2 va) (PA2PTE (kalloc s).1 ||| PTE_V),
          free := (kalloc s).2.free } := walkLoop_succ va alloc 1 root s
  rw [e]
  split_ifs with hv ha hk
  · have := h1 _ (by rw [pathTo_one, if_pos hv])
    exact walkLoop1_frame va alloc _ s x (by omega) h2
  · rfl
  · exact congrFun (kalloc_mem s) x
  · have hfree := kalloc_free s hk
    have hx := h2 _ (by rw [hfree]; exact List.mem_cons_self _ _)
    rw [walkLoop1_frame va alloc _ _ x (by omega)
      (fun f hf => h2 f (by rw [hfree]; exact List.mem_cons_of_mem _ hf))]
    show write64 (memset (kalloc s).2.mem (kalloc s).1 0 PGSIZE) _ _ x = s.mem x
    rw [write64_out _ _ _ _ h0, memset_out _ _ _ _ _ (by unfold PGSIZE; omega), kalloc_mem]

theorem walk_frame (root va : Nat) (alloc : Int) (s s1 : State) (r x : Nat)
    (h : walk root va alloc s = .ok r s1)
    (h0 : x < root + 8 * PX 2 va ∨ root + 8 * PX 2 va + 8 ≤ x)
    (h1 : ∀ t, pathTo s.mem root [PX 2 va] = some t → x < t ∨ t + 4096 ≤ x)
    (h2 : ∀ f, f ∈ s.free → x < f ∨ f + 4096 ≤ x) : s1.mem x = s.mem x := by
  unfold walk at h
  split_ifs at h
  injection h with _ h
  rw [← h]
  exact walkLoop2_frame va alloc root s x h0 h1 h2

/-- Within a 2 MB region the pages share their level-0 table. -/
theorem missing_same_region (m : Mem) (root a t0 : Nat)
    (hp : pathTo m root [PX 2 a, PX 1 a] = some t0) (h : (a + 4096) / 2 ^ 21 = a / 2 ^ 21) :
    missing m (a + 4096) 2 root = 0 := by
  have e2 : PX 2 (a + 4096) = PX 2 a := by
    rw [PX_eq, PX_eq]
    have : (a + 4096) / 2 ^ (12 + 9 * 2) = a / 2 ^ (12 + 9 * 2) := by
      norm_num at h ⊢
      omega
    rw [this]
  have e1 : PX 1 (a + 4096) = PX 1 a := by
    rw [PX_eq, PX_eq]
    have : (a + 4096) / 2 ^ (12 + 9 * 1) = a / 2 ^ (12 + 9 * 1) := by
      norm_num at h ⊢
      omega
    rw [this]
  rw [missing_two, l1table, e2, e1]
  rw [pathTo_two] at hp
  by_cases h2 : ent m root (PX 2 a) &&& PTE_V ≠ 0
  · rw [if_pos h2] at hp ⊢
    by_cases h1 : ent m (PTE2PA (ent m root (PX 2 a))) (PX 1 a) &&& PTE_V ≠ 0
    · rw [if_pos h1]
    · rw [if_neg h1] at hp
      exact absurd hp (by simp)
  · rw [if_neg h2] at hp
    exact absurd hp (by simp)

/-- One iteration of the loop of `mappages` at an unmapped page `a`, with the
allocator holding a frame for each missing level: the frames it takes, the
level-0 table it reaches, and the bytes it leaves untouched. -/
theorem mappagesLoop_iter_fine (root last : Nat) (perm : Int) (fuel a pa : Nat) (s : State)
    (wf : WF s.mem root) (fr : Fresh s.mem root s.free) (ha : a % 4096 = 0) (hmax : a < MAXVA)
    (hv : pteOf s.mem root a &&& PTE_V = 0) (hfree : missing s.mem a 2 root ≤ s.free.length) :
    ∃ s1 used t0, WF s1.mem root ∧ Fresh s1.mem root s1.free ∧ Step root s s1 used ∧
      used.length = missing s.mem a 2 root ∧
      pathTo s1.mem root [PX 2 a, PX 1 a] = some t0 ∧
      (∀ b, b % 4096 = 0 → b < 2 ^ 39 →
        pteOf s1.mem root b = if b = a then leafPte pa perm else pteOf s.mem root b) ∧
      (∀ x, (x < root + 8 * PX 2 a ∨ root + 8 * PX 2 a + 8 ≤ x) →
        (∀ t, pathTo s.mem root [PX 2 a] = some t → x < t ∨ t + 4096 ≤ x) →
        (∀ t, pathTo s.mem root [PX 2 a, PX 1 a] = some t → x < t ∨ t + 4096 ≤ x) →
        (∀ f, f ∈ s.free → x < f ∨ f + 4096 ≤ x) → s1.mem x = s.mem x) ∧
      mappagesLoop root last perm (fuel + 1) a pa s =
        if a = last then .ok 0 s1
        else mappagesLoop root last perm fuel (a + 4096) ((pa + 4096) % 2 ^ 64) s1 := by
  have hM := MAXVA_eq
  obtain ⟨r, s1, used, hw, wf1, fr1, st1, pte1, hres⟩ :=
    walk_alloc root a 1 (by decide) s wf fr hmax
  rw [mappagesLoop_succ, hw]
  rcases hres with ⟨hr, hmiss, t0, hp, hrt⟩ | ⟨_, _, hmiss⟩
  swap
  · omega
  have he : read64 s1.mem r = pteOf s.mem root a := by
    rw [← pte1 a, pteOf_of_path hp, hrt]
  have hlt := leafPte_lt pa perm
  have hpx := PX_lt 0 a
  refine ⟨{ mem := write64 s1.mem r (leafPte pa perm), free := s1.free }, used ++ [], t0,
    ?_, ?_, ?_, by simpa using hmiss, ?_, ?_, ?_, ?_⟩
  · rw [hrt]; exact store_wf wf1 hp hlt
  · rw [hrt]; exact store_fresh wf1 hp hlt fr1
  · rw [hrt]; exact st1.trans (store_step wf1 hp hlt _ rfl)
  · show pathTo (write64 s1.mem r (leafPte pa perm)) root _ = _
    rw [hrt, store_path wf1 hp hlt _ (validPath_PX a)]
    exact hp
  · intro b hb hb2
    show pteOf (write64 s1.mem r (leafPte pa perm)) root b = _
    rw [hrt, store_pte wf1 hp hlt ha (by omega) b hb hb2, pte1 b]
  · intro x h0 h1 h2 h3
    have hx0 : x < t0 ∨ t0 + 4096 ≤ x := by
      rcases st1.fresh _ _ (validPath_PX a) hp with h' | h'
      · exact h2 _ h'
      · exact h3 _ (by rw [st1.free]; exact List.mem_append_left _ h')
    show write64 s1.mem r (leafPte pa perm) x = s.mem x
    rw [write64_out _ _ _ _ (by omega)]
    exact walk_frame root a 1 s s1 r x hw h0 h1 h3
  · simp only [if_neg hr, he]
    rw [if_neg (by simpa using hv)]
    have e1 : (a + PGSIZE) % U64 = a + 4096 := by
      unfold PGSIZE U64
      exact Nat.mod_eq_of_lt (by omega)
    rw [e1]
    rfl

/-- The loop of `mappages` over the unmapped pages `a`, ..., `a + n * 4096`,
with the allocator holding two frames for each 2 MB region the pages touch: it
maps them all, takes no more frames than that, and leaves untouched every byte
outside the root entries and the page-table pages on the way to these pages and
outside the frames of the allocator. -/
theorem mappagesLoop_run (root last : Nat) (perm : Int) :
    ∀ n fuel a pa s, WF s.mem root → Fresh s.mem root s.free → a % 4096 = 0 →
      a + n * 4096 = last → last < MAXVA → n < fuel →
      (∀ k, k ≤ n → pteOf s.mem root (a + k * 4096) &&& PTE_V = 0) →
      missing s.mem a 2 root + 2 * (last / 2 ^ 21 - a / 2 ^ 21) ≤ s.free.length →
      ∃ s', mappagesLoop root last perm fuel a pa s = .ok 0 s' ∧
        s.free.length ≤ s'.free.length +
          (missing s.mem a 2 root + 2 * (last / 2 ^ 21 - a / 2 ^ 21)) ∧
        (∀ x, (∀ k, k ≤ n → x < root + 8 * PX 2 (a + k * 4096) ∨
            root + 8 * PX 2 (a + k * 4096) + 8 ≤ x) →
          (∀ k, k ≤ n → ∀ t, pathTo s.mem root [PX 2 (a + k * 4096)] = some t →
            x < t ∨ t + 4096 ≤ x) →
          (∀ k, k ≤ n → ∀ t,
            pathTo s.mem root [PX 2 (a + k * 4096), PX 1 (a + k * 4096)] = some t →
            x < t ∨ t + 4096 ≤ x) →
          (∀ f, f ∈ s.free → x < f ∨ f + 4096 ≤ x) → s'.mem x = s.mem x) := by
  intro n
  induction n with
  | zero =>
    intro fuel a pa s wf fr ha hlast hmax hfuel hun hfree
    obtain ⟨fuel, rfl⟩ : ∃ f, fuel = f + 1 := ⟨fuel - 1, by omega⟩
    have hM := MAXVA_eq
    have hal : a = last := by omega
    obtain ⟨s1, used, t0, _, _, st1, hlen, _, _, hfr, hR⟩ :=
      mappagesLoop_iter_fine root last perm fuel a pa s wf fr ha (by omega)
        (by simpa using hun 0 (le_refl _)) (by omega)
    refine ⟨s1, by rw [hR, if_pos hal], ?_, ?_⟩
    · have : s.free.length = used.length + s1.free.length := by
        rw [st1.free, List.length_append]
      omega
    · intro x h0 h1 h2 h3
      have h0' := h0 0 (le_refl _)
      have h1' := h1 0 (le_refl _)
      have h2' := h2 0 (le_refl _)
      simp only [Nat.zero_mul, Nat.add_zero] at h0' h1' h2'
      exact hfr x h0' h1' h2' h3
  | succ n ih =>
    intro fuel a pa s wf fr ha hlast hmax hfuel hun hfree
    obtain ⟨fuel, rfl⟩ : ∃ f, fuel = f + 1 := ⟨fuel - 1, by omega⟩
    have hM := MAXVA_eq
    have hne : a ≠ last := by omega
    have hm2 := missing_le s.mem a 2 root
    obtain ⟨s1, used, t0, wf1, fr1, st1, hlen, hp1, pte1, hfr, hR⟩ :=
      mappagesLoop_iter_fine root last perm fuel a pa s wf fr ha (by omega)
        (by simpa using hun 0 (Nat.zero_le _)) (by omega)
    have hfl : s.free.length = used.length + s1.free.length := by
      rw [st1.free, List.length_append]
    have hmiss : missing s1.mem (a + 4096) 2 root + 2 * (last / 2 ^ 21 - (a + 4096) / 2 ^ 21) ≤
        2 * (last / 2 ^ 21 - a / 2 ^ 21) := by
      have hm := missing_le s1.mem (a + 4096) 2 root
      by_cases hreg : (a + 4096) / 2 ^ 21 = a / 2 ^ 21
      · rw [missing_same_region s1.mem root a t0 hp1 hreg, hreg]
        omega
      · norm_num at hreg ⊢
        omega
    have hk : ∀ k, a + 4096 + k * 4096 = a + (k + 1) * 4096 := fun k => by omega
    obtain ⟨s', hR', hlen', hfr'⟩ := ih fuel (a + 4096) ((pa + 4096) % 2 ^ 64) s1 wf1 fr1
      (by omega) (by omega) hmax (by omega)
      (by
        intro k hk'
        rw [pte1 _ (by omega) (by omega), if_neg (by omega), hk]
        exact hun (k + 1) (by omega))
      (by omega)
    refine ⟨s', by rw [hR, if_neg hne, hR'], by omega, ?_⟩
    intro x h0 h1 h2 h3
    have h0' := h0 0 (Nat.zero_le _)
    have h1' := h1 0 (Nat.zero_le _)
    have h2' := h2 0 (Nat.zero_le _)
    simp only [Nat.zero_mul, Nat.add_zero] at h0' h1' h2'
    have hsub : ∀ f, f ∈ s1.free → f ∈ s.free := fun f hf => by
      rw [st1.free]
      exact List.mem_append_right _ hf
    have hused : ∀ f, f ∈ used → f ∈ s.free := fun f hf => by
      rw [st1.free]
      exact List.mem_append_left _ hf
    rw [hfr' x ?_ ?_ ?_ (fun f hf => h3 f (hsub f hf))]
    · exact hfr x h0' h1' h2' h3
    · intro k hk'
      rw [hk]
      exact h0 (k + 1) (by omega)
    · intro k hk' t ht
      rw [hk] at ht
      rcases st1.fresh _ _ (validPath_one _ (PX_lt _ _)) ht with h' | h'
      · exact h1 (k + 1) (by omega) t h'
      · exact h3 t (hused t h')
    · intro k hk' t ht
      rw [hk] at ht
      rcases st1.fresh _ _ (validPath_PX _) ht with h' | h'
      · exact h2 (k + 1) (by omega) t h'
      · exact h3 t (hused t h')

/-- A call of `mappages` on a page-aligned range of unmapped pages below `MAXVA`,
with the allocator holding `tablesFor va size` frames: it returns 0, having
taken no more frames than that, the entries of the range are the new leaves and
every other level-0 entry is as before, and every byte outside the root entries
and page-table pages on the way to the range and outside the frames of the
allocator is untouched. -/
theorem mappages_run (root va size pa : Nat) (perm : Int) (s : State)
    (wf : WF s.mem root) (fr : Fresh s.mem root s.free)
    (hva : va % 4096 = 0) (hsz : size % 4096 = 0) (hpos : 0 < size)
    (hmax : va + size ≤ MAXVA) (hpa : pa < 2 ^ 64)
    (hun : ∀ b, b % 4096 = 0 → va ≤ b → b < va + size → pteOf s.mem root b &&& PTE_V = 0)
    (hfree : tablesFor va size ≤ s.free.length) :
    ∃ s' used, mappages root va size pa perm s = .ok 0 s' ∧ WF s'.mem root ∧
      Fresh s'.mem root s'.free ∧ Step root s s' used ∧ used.length ≤ tablesFor va size ∧
      (∀ b, b % 4096 = 0 → b < 2 ^ 39 →
        pteOf s'.mem root b =
          if va ≤ b ∧ b < va + size then leafPte ((pa + (b - va)) % U64) perm
          else pteOf s.mem root b) ∧
      (∀ x, (∀ b, b % 4096 = 0 → va ≤ b → b < va + size →
            x < root + 8 * PX 2 b ∨ root + 8 * PX 2 b + 8 ≤ x) →
        (∀ b, b % 4096 = 0 → va ≤ b → b < va + size → ∀ t,
          pathTo s.mem root [PX 2 b] = some t → x < t ∨ t + 4096 ≤ x) →
        (∀ b, b % 4096 = 0 → va ≤ b → b < va + size → ∀ t,
          pathTo s.mem root [PX 2 b, PX 1 b] = some t → x < t ∨ t + 4096 ≤ x) →
        (∀ f, f ∈ s.free → x < f ∨ f + 4096 ≤ x) → s'.mem x = s.mem x) := by
  have hM := MAXVA_eq
  have hP : PGSIZE = 4096 := rfl
  have hF : MAXVA / PGSIZE + 1 = 67108865 := by decide
  have e1 : PGROUNDDOWN va = va := PGROUNDDOWN_aligned va hva (by omega)
  have e2 : PGROUNDDOWN (va + size - 1) = va + (size / 4096 - 1) * 4096 := by
    rw [PGROUNDDOWN_eq _ (by omega)]
    omega
  have ht : tablesFor va size =
      2 + 2 * ((va + (size / 4096 - 1) * 4096) / 2 ^ 21 - va / 2 ^ 21) := by
    unfold tablesFor
    norm_num
    omega
  have hm := missing_le s.mem va 2 root
  obtain ⟨s', hR, hlen, hfr⟩ := mappagesLoop_run root (va + (size / 4096 - 1) * 4096) perm
    (size / 4096 - 1) (MAXVA / PGSIZE + 1) va pa s wf fr hva rfl (by omega) (by omega)
    (fun k hk => hun _ (by omega) (by omega) (by omega)) (by omega)
  have hmp : mappages root va size pa perm s = .ok 0 s' := by
    unfold mappages
    rw [mappages_last va size (by omega) (by omega), e1, e2]
    exact hR
  obtain ⟨j, s'', used, wf', fr', st, hin, _, hres⟩ :=
    mappages_spec root va size pa perm s wf fr (by omega) (by omega) hpa
  have hs' : j = (PGROUNDDOWN (va + size - 1) - PGROUNDDOWN va) / PGSIZE + 1 ∧ s'' = s' := by
    rcases hres with ⟨hj, h'⟩ | ⟨_, _, h'⟩ | ⟨_, _, _, h'⟩
    · rw [hmp] at h'
      injection h' with _ h'
      exact ⟨hj, h'.symm⟩
    · rw [hmp] at h'
      exact absurd h' (by simp)
    · rw [hmp] at h'
      injection h' with h' _
      exact absurd h' (by decide)
  obtain ⟨hj, rfl⟩ := hs'
  have hj' : j * 4096 = size := by
    rw [hj, e1, e2, hP]
    omega
  refine ⟨s'', used, hmp, wf', fr', st, ?_, ?_, ?_⟩
  · have : s.free.length = used.length + s''.free.length := by
      rw [st.free, List.length_append]
    omega
  · intro b hb hb2
    have := hin b hb hb2
    rw [e1, hj'] at this
    exact this
  · intro x h0 h1 h2 h3
    apply hfr x ?_ ?_ ?_ h3
    · intro k hk
      exact h0 _ (by omega) (by omega) (by omega)
    · intro k hk
      exact h1 _ (by omega) (by omega) (by omega)
    · intro k hk
      exact h2 _ (by omega) (by omega) (by omega)

/-! ## `kvmcreate` -/

/-- The copy loop of `kvmcreate` writes the entries `i`, ..., `i + n - 1` of the
new root, each with the value of the same entry of the global root, and nothing
else. -/
theorem kvmcreateLoop_spec (r kpt : Nat) (hr : r % 4096 = 0) (hk : kpt % 4096 = 0) :
    ∀ n i m, i + n ≤ 512 →
      (∀ x, (x < r + 8 * i ∨ r + 8 * (i + n) ≤ x) → kvmcreateLoop r kpt n i m x = m x) ∧
      (∀ j, i ≤ j → j < i + n → ent (kvmcreateLoop r kpt n i m) r j = ent m kpt j) := by
  intro n
  induction n with
  | zero =>
    intro i m _
    exact ⟨fun _ _ => rfl, fun j h1 h2 => by omega⟩
  | succ n ih =>
    intro i m hin
    obtain ⟨ha, hb⟩ := ih (i + 1) (write64 m (r + 8 * i) (read64 m (kpt + 8 * i))) (by omega)
    have e : kvmcreateLoop r kpt (n + 1) i m =
        kvmcreateLoop r kpt n (i + 1) (write64 m (r + 8 * i) (read64 m (kpt + 8 * i))) := rfl
    rw [e]
    refine ⟨?_, ?_⟩
    · intro x hx
      rw [ha x (by omega), write64_out _ _ _ _ (by omega)]
    · intro j h1 h2
      by_cases hj : j = i
      · subst hj
        unfold ent
        rw [read64_congr _ _ _ (fun k hk' => ha (r + 8 * j + k) (by omega)),
          read64_write64_same _ _ _ (read64_lt _ _)]
      · rw [hb j (by omega) (by omega)]
        unfold ent
        exact read64_write64_ne _ _ _ _ (by omega)

/-- Below the root entries that agree with those of the global root, over
global page-table pages that hold the same bytes, the new table has the paths
of the global table. -/
theorem high_path (m m' : Mem) (kpt root : Nat)
    (hsame : ∀ t, TablePage m kpt t → ∀ x, t ≤ x → x < t + 4096 → m' x = m x)
    (hhigh : ∀ i, 1 ≤ i → i < 512 → ent m' root i = ent m kpt i) :
    (∀ q, ValidPath q → pathTo m' kpt q = pathTo m kpt q) ∧
      ∀ i q, 1 ≤ i → ValidPath (i :: q) → pathTo m' root (i :: q) = pathTo m kpt (i :: q) := by
  have hent : ∀ t, TablePage m kpt t → ∀ j, j < 512 → ent m' t j = ent m t j :=
    fun t ht j hj => ent_congr_page m m' t j hj (hsame t ht)
  have hg := pathTo_congr_tables m m' kpt hent
  refine ⟨hg, ?_⟩
  intro i q hi hq
  have hi2 : i < 512 := hq.2 i (by simp)
  rw [← hg _ hq, pathTo_cons, pathTo_cons, hhigh i hi hi2,
    hent kpt (tablePage_root m kpt) i hi2]

/-- The same for the level-0 entries. -/
theorem high_pte (m m' : Mem) (kpt root : Nat)
    (hsame : ∀ t, TablePage m kpt t → ∀ x, t ≤ x → x < t + 4096 → m' x = m x)
    (hhigh : ∀ i, 1 ≤ i → i < 512 → ent m' root i = ent m kpt i) (va : Nat)
    (hva : 1 ≤ PX 2 va) :
    pteOf m' root va = pteOf m kpt va ∧ slotOf m' root va = slotOf m kpt va := by
  have hp := (high_path m m' kpt root hsame hhigh).2 _ _ hva (validPath_PX va)
  unfold pteOf slotOf
  rw [hp]
  cases hq : pathTo m kpt [PX 2 va, PX 1 va] with
  | none => exact ⟨rfl, rfl⟩
  | some t0 =>
    exact ⟨ent_congr_page m m' t0 _ (PX_lt 0 va) (hsame t0 ⟨_, validPath_PX va, hq⟩), rfl⟩

theorem aligned_disjoint (t f x : Nat) (ht : t % 4096 = 0) (hf : f % 4096 = 0) (hne : f ≠ t)
    (h1 : t ≤ x) (h2 : x < t + 4096) : x < f ∨ f + 4096 ≤ x := by omega

/-- The state of `kvmcreate` after `uvmcreate` and the copy loop. -/
theorem shares_init (kpt r : Nat) (rest : List Nat) (s : State)
    (wfK : WF s.mem kpt) (frK : Fresh s.mem kpt s.free) (hfree : s.free = r :: rest) :
    ∀ s1 : State, s1 =
        { mem := kvmcreateLoop r kpt (PTENUMPERPAGE - 1) 1 (memset s.mem r 0 PGSIZE),
          free := rest } →
      Shares kpt r s s1 ∧ ∀ b, b < 2 ^ 30 → pteOf s1.mem r b = 0 := by
  intro s1 hs1
  subst hs1
  have hP : PGSIZE = 4096 := rfl
  have hN : PTENUMPERPAGE - 1 = 511 := by decide
  have hmem : r ∈ s.free := by rw [hfree]; exact List.mem_cons_self _ _
  obtain ⟨hr1, hr0, hr2⟩ := frK.frame r hmem
  have hrk : ¬ TablePage s.mem kpt r := frK.sep r hmem
  have hne : r ≠ kpt := fun h => hrk (h ▸ tablePage_root s.mem kpt)
  obtain ⟨ha, hb⟩ := kvmcreateLoop_spec r kpt hr1 wfK.aligned 511 1
    (memset s.mem r 0 PGSIZE) (by omega)
  rw [hN]
  generalize hm1 : kvmcreateLoop r kpt 511 1 (memset s.mem r 0 PGSIZE) = m1 at ha hb ⊢
  have hout : ∀ x, (x < r ∨ r + 4096 ≤ x) → m1 x = s.mem x := by
    intro x hx
    rw [ha x (by omega), memset_out _ _ _ _ _ (by rw [hP]; omega)]
  have hsame : ∀ t, TablePage s.mem kpt t → ∀ x, t ≤ x → x < t + 4096 → m1 x = s.mem x := by
    intro t ht x h1 h2
    exact hout x (aligned_disjoint t r x (tablePage_aligned wfK.aligned ht) hr1
      (fun h => hrk (h ▸ ht)) h1 h2)
  have hhigh : ∀ i, 1 ≤ i → i < 512 → ent m1 r i = ent s.mem kpt i := by
    intro i h1 h2
    rw [hb i h1 (by omega)]
    unfold ent
    exact read64_memset_out _ _ _ _ _ (by
      have := wfK.aligned
      rw [hP]
      omega)
  have hzero : ent m1 r 0 = 0 := by
    unfold ent
    rw [read64_congr _ _ _ (fun k hk => ha (r + 8 * 0 + k) (by omega))]
    exact read64_memset_zero _ _ _ _ (by omega) (by rw [hP]; omega)
  obtain ⟨_, hpath⟩ := high_path s.mem m1 kpt r hsame hhigh
  have hlow : ∀ q t, pathTo m1 r (0 :: q) = some t → False := by
    intro q t h
    rw [pathTo_cons, hzero, if_neg (fun c => c zero_invalid)] at h
    exact absurd h (by simp)
  have hcases : ∀ q t, ValidPath q → pathTo m1 r q = some t →
      (q = [] ∧ t = r) ∨ (q ≠ [] ∧ pathTo s.mem kpt q = some t) := by
    intro q t hq hp
    cases q with
    | nil =>
      injection hp with hp
      exact Or.inl ⟨rfl, hp.symm⟩
    | cons i q =>
      by_cases hi : i = 0
      · subst hi
        exact (hlow q t hp).elim
      · rw [hpath i q (by omega) hq] at hp
        exact Or.inr ⟨by simp, hp⟩
  have htab : ∀ t, TablePage m1 r t → t = r ∨ TablePage s.mem kpt t := by
    rintro t ⟨q, hq, hp⟩
    rcases hcases q t hq hp with ⟨_, h⟩ | ⟨_, h⟩
    · exact Or.inl h
    · exact Or.inr ⟨q, hq, h⟩
  have hnd : (r :: rest).Nodup := hfree ▸ frK.nodup
  refine ⟨⟨⟨hr1, ?_, ?_⟩, ⟨(List.nodup_cons.mp hnd).2, ?_, ?_⟩, ⟨[r], by simp [hfree], by simp⟩,
    hsame, hhigh, ?_⟩, ?_⟩
  · intro q q' t hq hq' h1 h2
    rcases hcases q t hq h1 with ⟨e1, e2⟩ | ⟨e1, e2⟩
    · rcases hcases q' t hq' h2 with ⟨e1', _⟩ | ⟨_, e2'⟩
      · rw [e1, e1']
      · exact (hrk ⟨q', hq', e2 ▸ e2'⟩).elim
    · rcases hcases q' t hq' h2 with ⟨_, e2'⟩ | ⟨_, e2'⟩
      · exact (hrk ⟨q, hq, e2' ▸ e2⟩).elim
      · exact wfK.inj q q' t hq hq' e2 e2'
  · intro t ht
    rcases htab t ht with h | h
    · rw [h]; exact hr0
    · exact wfK.nonnull t h
  · intro f hf
    exact frK.frame f (by rw [hfree]; exact List.mem_cons_of_mem _ hf)
  · intro f hf ht
    rcases htab f ht with h | h
    · rw [h] at hf
      exact (List.nodup_cons.mp hnd).1 hf
    · exact frK.sep f (by rw [hfree]; exact List.mem_cons_of_mem _ hf) h
  · intro q t _ hp
    exact (hlow q t hp).elim
  · intro b hb
    have hpx : PX 2 b = 0 := by
      rw [PX_eq]
      norm_num
      omega
    show pteOf m1 r b = 0
    unfold pteOf
    rw [pathTo_two, hpx, hzero, if_neg (fun c => c zero_invalid)]

theorem PX2_low (b : Nat) (h : b < 2 ^ 30) : PX 2 b = 0 := by
  rw [PX_eq]
  norm_num
  omega

/-- An identity mapping of an unmapped page-aligned range below 2^30 into the
table `kvmcreate` is building keeps that table as `Shares` describes it. -/
theorem shares_map (kpt root va size : Nat) (perm : Int) (s0 s : State)
    (wfK : WF s0.mem kpt) (frK : Fresh s0.mem kpt s0.free) (sh : Shares kpt root s0 s)
    (hva : va % 4096 = 0) (hsz : size % 4096 = 0) (hpos : 0 < size) (hmax : va + size ≤ 2 ^ 30)
    (hun : ∀ b, b % 4096 = 0 → va ≤ b → b < va + size → pteOf s.mem root b &&& PTE_V = 0)
    (hfree : tablesFor va size ≤ s.free.length) :
    ∃ s', mappages root va size va perm s = .ok 0 s' ∧ Shares kpt root s0 s' ∧
      s.free.length ≤ s'.free.length + tablesFor va size ∧
      (∀ b, b % 4096 = 0 → b < 2 ^ 39 →
        pteOf s'.mem root b =
          if va ≤ b ∧ b < va + size then leafPte b perm else pteOf s.mem root b) := by
  have hM := MAXVA_eq
  obtain ⟨s', used, hR, wf', fr', st, hlen, hpte, hfr⟩ :=
    mappages_run root va size va perm s sh.wf sh.fr hva hsz hpos (by omega) (by omega) hun hfree
  obtain ⟨used0, hsub, hroot⟩ := sh.sub
  have hroot0 : root ∈ s0.free := by rw [hsub]; exact List.mem_append_left _ hroot
  have hsfree : ∀ f, f ∈ s.free → f ∈ s0.free := fun f hf => by
    rw [hsub]; exact List.mem_append_right _ hf
  have hnotK : ∀ f, f ∈ s0.free → ∀ t, TablePage s0.mem kpt t → ∀ x, t ≤ x → x < t + 4096 →
      x < f ∨ f + 4096 ≤ x := by
    intro f hf t ht x h1 h2
    exact aligned_disjoint t f x (tablePage_aligned wfK.aligned ht) (frK.frame f hf).1
      (fun h => frK.sep f hf (h ▸ ht)) h1 h2
  have hlow1 : ∀ b, b < 2 ^ 30 → ∀ t, pathTo s.mem root [PX 2 b] = some t → t ∈ s0.free := by
    intro b hb t ht
    rw [PX2_low b hb] at ht
    exact (sh.low [] t (validPath_one 0 (by decide)) ht).1
  have hlow2 : ∀ b, b < 2 ^ 30 → ∀ t, pathTo s.mem root [PX 2 b, PX 1 b] = some t →
      t ∈ s0.free := by
    intro b hb t ht
    rw [PX2_low b hb] at ht
    exact (sh.low [PX 1 b] t (validPath_two 0 _ (by decide) (PX_lt _ _)) ht).1
  have hnotR : ∀ t, TablePage s.mem root t → t ≠ root → ∀ x, root ≤ x → x < root + 4096 →
      x < t ∨ t + 4096 ≤ x := by
    intro t ht hne x h1 h2
    exact aligned_disjoint root t x sh.wf.aligned (tablePage_aligned sh.wf.aligned ht) hne h1 h2
  have hneR : ∀ (q : List Nat) t, q ≠ [] → ValidPath q → pathTo s.mem root q = some t →
      t ≠ root := by
    intro q t hq hv hp h
    rw [h] at hp
    exact hq (sh.wf.inj q [] root hv validPath_nil hp rfl)
  refine ⟨s', hR, ⟨wf', fr', ⟨used0 ++ used, ?_, List.mem_append_left _ hroot⟩, ?_, ?_, ?_⟩, ?_, ?_⟩
  · rw [hsub, st.free, List.append_assoc]
  · intro t ht x h1 h2
    rw [hfr x ?_ ?_ ?_ ?_]
    · exact sh.same t ht x h1 h2
    · intro b _ _ hb
      have := hnotK root hroot0 t ht x h1 h2
      have := PX_lt 2 b
      omega
    · intro b _ _ hb t' ht'
      exact hnotK t' (hlow1 b (by omega) t' ht') t ht x h1 h2
    · intro b _ _ hb t' ht'
      exact hnotK t' (hlow2 b (by omega) t' ht') t ht x h1 h2
    · intro f hf
      exact hnotK f (hsfree f hf) t ht x h1 h2
  · intro i hi1 hi2
    rw [← sh.high i hi1 hi2]
    unfold ent
    apply read64_congr
    intro k hk
    apply hfr
    · intro b _ _ hb
      rw [PX2_low b (by omega)]
      omega
    · intro b _ _ hb t' ht'
      exact hnotR t' ⟨_, validPath_one _ (PX_lt _ _), ht'⟩
        (hneR _ t' (by simp) (validPath_one _ (PX_lt _ _)) ht') _ (by omega) (by omega)
    · intro b _ _ hb t' ht'
      exact hnotR t' ⟨_, validPath_PX b, ht'⟩
        (hneR _ t' (by simp) (validPath_PX b) ht') _ (by omega) (by omega)
    · intro f hf
      exact aligned_disjoint root f _ sh.wf.aligned (sh.fr.frame f hf).1
        (fun h => sh.fr.sep f hf (h ▸ tablePage_root s.mem root)) (by omega) (by omega)
  · intro q t hq hp
    have hnd : (used ++ s'.free).Nodup := st.free ▸ sh.fr.nodup
    rcases st.fresh _ _ hq hp with h | h
    · obtain ⟨h1, h2⟩ := sh.low q t hq h
      refine ⟨h1, fun hc => h2 ?_⟩
      rw [st.free]
      exact List.mem_append_right _ hc
    · refine ⟨hsfree t (by rw [st.free]; exact List.mem_append_left _ h), fun hc => ?_⟩
      exact (List.nodup_append.mp hnd).2.2 h hc
  · have : s.free.length = used.length + s'.free.length := by
      rw [st.free, List.length_append]
    omega
  · intro b hb hb2
    rw [hpte b hb hb2]
    by_cases hin : va ≤ b ∧ b < va + size
    · rw [if_pos hin, if_pos hin]
      congr 1
      unfold U64
      omega
    · rw [if_neg hin, if_neg hin]

theorem kvmmapProc_ok (pagetable va pa sz : Nat) (perm : Int) (s s' : State)
    (h : mappages pagetable va sz pa perm s = .ok 0 s') :
    kvmmapProcKernelPagetable pagetable va pa sz perm s = .ok () s' := by
  unfold kvmmapProcKernelPagetable
  rw [h]
  rfl

theorem kvmcreate_ok (L : Layout) (kpt r : Nat) (s s1 s2 s3 s4 s5 : State)
    (h0 : uvmcreate s = (r, s1))
    (h1 : mappages r L.UART0 PGSIZE L.UART0 ((PTE_R ||| PTE_W : Nat) : Int)
      { mem := kvmcreateLoop r kpt (PTENUMPERPAGE - 1) 1 s1.mem, free := s1.free } = .ok 0 s2)
    (h2 : mappages r L.VIRTIO0 PGSIZE L.VIRTIO0 ((PTE_R ||| PTE_W : Nat) : Int) s2 = .ok 0 s3)
    (h3 : mappages r L.CLINT 0x10000 L.CLINT ((PTE_R ||| PTE_W : Nat) : Int) s3 = .ok 0 s4)
    (h4 : mappages r L.PLIC 0x400000 L.PLIC ((PTE_R ||| PTE_W : Nat) : Int) s4 = .ok 0 s5) :
    kvmcreate L kpt s = .ok r s5 := by
  unfold kvmcreate
  rw [h0]
  show (kvmmapProcKernelPagetable r L.UART0 L.UART0 PGSIZE ((PTE_R ||| PTE_W : Nat) : Int)
    { mem := kvmcreateLoop r kpt (PTENUMPERPAGE - 1) 1 s1.mem, free := s1.free }).bind _ = _
  rw [kvmmapProc_ok _ _ _ _ _ _ _ h1]
  show (kvmmapProcKernelPagetable r L.VIRTIO0 L.VIRTIO0 PGSIZE _ s2).bind _ = _
  rw [kvmmapProc_ok _ _ _ _ _ _ _ h2]
  show (kvmmapProcKernelPagetable r L.CLINT L.CLINT 0x10000 _ s3).bind _ = _
  rw [kvmmapProc_ok _ _ _ _ _ _ _ h3]
  show (kvmmapProcKernelPagetable r L.PLIC L.PLIC 0x400000 _ s4).bind _ = _
  rw [kvmmapProc_ok _ _ _ _ _ _ _ h4]
  rfl

/-- What `kvmcreate` does, for a layout with the devices below 2^30, a global
kernel table that is a tree, and an allocator holding `kvmcreateFrames L` frames
that are not in use as page-table pages of the global table. -/
theorem kvmcreate_spec (L : Layout) (kpt : Nat) (s : State) (hL : DevicesLow L)
    (wfK : WF s.mem kpt) (frK : Fresh s.mem kpt s.free)
    (hfree : kvmcreateFrames L ≤ s.free.length) :
    ∃ root s', kvmcreate L kpt s = .ok root s' ∧ Shares kpt root s s' ∧
      s.free.length ≤ s'.free.length + kvmcreateFrames L ∧
      (∀ b, b % 4096 = 0 → DeviceAddr L b →
        pteOf s'.mem root b = leafPte b ((PTE_R ||| PTE_W : Nat) : Int)) ∧
      (∀ b, b % 4096 = 0 → b < 2 ^ 30 → ¬ DeviceAddr L b → pteOf s'.mem root b = 0) := by
  obtain ⟨a1, a2, a3, a4, o1, o2, o3, o4⟩ := hL
  have hP : PGSIZE = 4096 := rfl
  unfold kvmcreateFrames at hfree ⊢
  obtain ⟨r, rest, hfl⟩ : ∃ r rest, s.free = r :: rest := by
    cases hs : s.free with
    | nil => rw [hs, List.length_nil] at hfree; omega
    | cons r rest => exact ⟨r, rest, rfl⟩
  have hr0 : r ≠ 0 := (frK.frame r (by rw [hfl]; exact List.mem_cons_self _ _)).2.1
  have hu : uvmcreate s = (r, { mem := memset s.mem r 0 PGSIZE, free := rest }) := by
    unfold uvmcreate kalloc
    rw [hfl]
    simp [hr0]
  have hlen : s.free.length = rest.length + 1 := by rw [hfl]; rfl
  obtain ⟨s1, hs1⟩ : ∃ s1 : State, s1 =
      { mem := kvmcreateLoop r kpt (PTENUMPERPAGE - 1) 1 (memset s.mem r 0 PGSIZE),
        free := rest } := ⟨_, rfl⟩
  obtain ⟨sh1, hz1'⟩ := shares_init kpt r rest s wfK frK hfl s1 hs1
  have hl1 : s1.free.length = rest.length := by rw [hs1]
  obtain ⟨s2, hR2, sh2, hl2, hp2⟩ := shares_map kpt r L.UART0 4096 ((PTE_R ||| PTE_W : Nat) : Int)
    s s1 wfK frK sh1 a1 (by decide) (by decide) (by omega)
    (fun b hb h1 h2 => by rw [hz1' b (by omega)]; exact zero_invalid) (by omega)
  obtain ⟨s3, hR3, sh3, hl3, hp3⟩ := shares_map kpt r L.VIRTIO0 4096
    ((PTE_R ||| PTE_W : Nat) : Int) s s2 wfK frK sh2 a2 (by decide) (by decide) (by omega)
    (fun b hb h1 h2 => by
      rw [hp2 b hb (by omega), if_neg (by omega), hz1' b (by omega)]
      exact zero_invalid) (by omega)
  obtain ⟨s4, hR4, sh4, hl4, hp4⟩ := shares_map kpt r L.CLINT 0x10000
    ((PTE_R ||| PTE_W : Nat) : Int) s s3 wfK frK sh3 a3 (by decide) (by decide) (by omega)
    (fun b hb h1 h2 => by
      rw [hp3 b hb (by omega), if_neg (by omega), hp2 b hb (by omega), if_neg (by omega),
        hz1' b (by omega)]
      exact zero_invalid) (by omega)
  obtain ⟨s5, hR5, sh5, hl5, hp5⟩ := shares_map kpt r L.PLIC 0x400000
    ((PTE_R ||| PTE_W : Nat) : Int) s s4 wfK frK sh4 a4 (by decide) (by decide) (by omega)
    (fun b hb h1 h2 => by
      rw [hp4 b hb (by omega), if_neg (by omega), hp3 b hb (by omega), if_neg (by omega),
        hp2 b hb (by omega), if_neg (by omega), hz1' b (by omega)]
      exact zero_invalid) (by omega)
  have hall : ∀ b, b % 4096 = 0 → b < 2 ^ 30 → pteOf s5.mem r b =
      if DeviceAddr L b then leafPte b ((PTE_R ||| PTE_W : Nat) : Int) else 0 := by
    intro b hb hb2
    rw [hp5 b hb (by omega), hp4 b hb (by omega), hp3 b hb (by omega), hp2 b hb (by omega),
      hz1' b hb2]
    unfold DeviceAddr
    by_cases c4 : L.PLIC ≤ b ∧ b < L.PLIC + 0x400000
    · rw [if_pos c4, if_pos (Or.inr (Or.inr (Or.inr c4)))]
    · rw [if_neg c4]
      by_cases c3 : L.CLINT ≤ b ∧ b < L.CLINT + 0x10000
      · rw [if_pos c3, if_pos (Or.inr (Or.inr (Or.inl c3)))]
      · rw [if_neg c3]
        by_cases c2 : L.VIRTIO0 ≤ b ∧ b < L.VIRTIO0 + 4096
        · rw [if_pos c2, if_pos (Or.inr (Or.inl c2))]
        · rw [if_neg c2]
          by_cases c1 : L.UART0 ≤ b ∧ b < L.UART0 + 4096
          · rw [if_pos c1, if_pos (Or.inl c1)]
          · rw [if_neg c1, if_neg]
            rintro (h | h | h | h)
            · exact c1 h
            · exact c2 h
            · exact c3 h
            · exact c4 h
  refine ⟨r, s5, ?_, sh5, by omega, ?_, ?_⟩
  · apply kvmcreate_ok L kpt r s _ s2 s3 s4 s5 hu _ hR3 hR4 hR5
    rw [hs1] at hR2
    exact hR2
  · intro b hb hd
    have hb2 : b < 2 ^ 30 := by
      unfold DeviceAddr at hd
      omega
    rw [hall b hb hb2, if_pos hd]
  · intro b hb hb2 hd
    rw [hall b hb hb2, if_neg hd]

/-! ## `kvminit` -/

theorem kvmmap_ok (kpt va pa sz : Nat) (perm : Int) (s s' : State)
    (h : mappages kpt va sz pa perm s = .ok 0 s') : kvmmap kpt va pa sz perm s = .ok () s' := by
  unfold kvmmap
  rw [h]
  rfl

theorem kvminit_ok (L : Layout) (s s2 s3 s4 s5 s6 s7 s8 : State)
    (h1 : mappages (kalloc s).1 L.UART0 PGSIZE L.UART0 ((PTE_R ||| PTE_W : Nat) : Int)
      { mem := memset (kalloc s).2.mem (kalloc s).1 0 PGSIZE, free := (kalloc s).2.free } =
        .ok 0 s2)
    (h2 : mappages (kalloc s).1 L.VIRTIO0 PGSIZE L.VIRTIO0 ((PTE_R ||| PTE_W : Nat) : Int) s2 =
      .ok 0 s3)
    (h3 : mappages (kalloc s).1 L.CLINT 0x10000 L.CLINT ((PTE_R ||| PTE_W : Nat) : Int) s3 =
      .ok 0 s4)
    (h4 : mappages (kalloc s).1 L.PLIC 0x400000 L.PLIC ((PTE_R ||| PTE_W : Nat) : Int) s4 =
      .ok 0 s5)
    (h5 : mappages (kalloc s).1 L.KERNBASE ((L.etext + U64 - L.KERNBASE) % U64) L.KERNBASE
      ((PTE_R ||| PTE_X : Nat) : Int) s5 = .ok 0 s6)
    (h6 : mappages (kalloc s).1 L.etext ((L.PHYSTOP + U64 - L.etext) % U64) L.etext
      ((PTE_R ||| PTE_W : Nat) : Int) s6 = .ok 0 s7)
    (h7 : mappages (kalloc s).1 L.TRAMPOLINE PGSIZE L.trampoline ((PTE_R ||| PTE_X : Nat) : Int)
      s7 = .ok 0 s8) :
    kvminit L s = .ok (kalloc s).1 s8 := by
  unfold kvminit
  show (kvmmap (kalloc s).1 L.UART0 L.UART0 PGSIZE ((PTE_R ||| PTE_W : Nat) : Int)
    { mem := memset (kalloc s).2.mem (kalloc s).1 0 PGSIZE, free := (kalloc s).2.free }).bind _ = _
  rw [kvmmap_ok _ _ _ _ _ _ _ h1]
  show (kvmmap (kalloc s).1 L.VIRTIO0 L.VIRTIO0 PGSIZE _ s2).bind _ = _
  rw [kvmmap_ok _ _ _ _ _ _ _ h2]
  show (kvmmap (kalloc s).1 L.CLINT L.CLINT 0x10000 _ s3).bind _ = _
  rw [kvmmap_ok _ _ _ _ _ _ _ h3]
  show (kvmmap (kalloc s).1 L.PLIC L.PLIC 0x400000 _ s4).bind _ = _
  rw [kvmmap_ok _ _ _ _ _ _ _ h4]
  show (kvmmap (kalloc s).1 L.KERNBASE L.KERNBASE _ _ s5).bind _ = _
  rw [kvmmap_ok _ _ _ _ _ _ _ h5]
  show (kvmmap (kalloc s).1 L.etext L.etext _ _ s6).bind _ = _
  rw [kvmmap_ok _ _ _ _ _ _ _ h6]
  show (kvmmap (kalloc s).1 L.TRAMPOLINE L.trampoline PGSIZE _ s7).bind _ = _
  rw [kvmmap_ok _ _ _ _ _ _ _ h7]
  rfl

/-- A call of `mappages` as `kvmmap` makes it: a page-aligned range of unmapped
pages, mapped to the physical addresses from `pa` on. -/
theorem mappages_fixed (root va size pa : Nat) (perm : Int) (s : State)
    (wf : WF s.mem root) (fr : Fresh s.mem root s.free)
    (hva : va % 4096 = 0) (hsz : size % 4096 = 0) (hpos : 0 < size)
    (hmax : va + size ≤ MAXVA) (hpa : pa + size ≤ 2 ^ 64)
    (hun : ∀ b, b % 4096 = 0 → va ≤ b → b < va + size → pteOf s.mem root b &&& PTE_V = 0)
    (hfree : tablesFor va size ≤ s.free.length) :
    ∃ s', mappages root va size pa perm s = .ok 0 s' ∧ WF s'.mem root ∧
      Fresh s'.mem root s'.free ∧ s.free.length ≤ s'.free.length + tablesFor va size ∧
      (∃ used, s.free = used ++ s'.free) ∧
      (∀ b, b % 4096 = 0 → b < 2 ^ 39 →
        pteOf s'.mem root b =
          if va ≤ b ∧ b < va + size then leafPte (pa + (b - va)) perm else pteOf s.mem root b) := by
  obtain ⟨s', used, hR, wf', fr', st, hlen, hpte, _⟩ :=
    mappages_run root va size pa perm s wf fr hva hsz hpos hmax (by omega) hun hfree
  refine ⟨s', hR, wf', fr', ?_, ⟨used, st.free⟩, ?_⟩
  · have : s.free.length = used.length + s'.free.length := by
      rw [st.free, List.length_append]
    omega
  · intro b hb hb2
    rw [hpte b hb hb2]
    by_cases hin : va ≤ b ∧ b < va + size
    · rw [if_pos hin, if_pos hin]
      congr 1
      unfold U64
      omega
    · rw [if_neg hin, if_neg hin]

/-- The four device mappings of `kvminit`, into an empty table. -/
theorem kvminit_devices (L : Layout) (r : Nat) (s1 : State) (hD : DevicesLow L)
    (wf1 : WF s1.mem r) (fr1 : Fresh s1.mem r s1.free) (hz1 : ∀ b, pteOf s1.mem r b = 0)
    (hfree : tablesFor L.UART0 4096 + tablesFor L.VIRTIO0 4096 + tablesFor L.CLINT 0x10000 +
      tablesFor L.PLIC 0x400000 ≤ s1.free.length) :
    ∃ s2 s3 s4 s5,
      mappages r L.UART0 PGSIZE L.UART0 ((PTE_R ||| PTE_W : Nat) : Int) s1 = .ok 0 s2 ∧
      mappages r L.VIRTIO0 PGSIZE L.VIRTIO0 ((PTE_R ||| PTE_W : Nat) : Int) s2 = .ok 0 s3 ∧
      mappages r L.CLINT 0x10000 L.CLINT ((PTE_R ||| PTE_W : Nat) : Int) s3 = .ok 0 s4 ∧
      mappages r L.PLIC 0x400000 L.PLIC ((PTE_R ||| PTE_W : Nat) : Int) s4 = .ok 0 s5 ∧
      WF s5.mem r ∧ Fresh s5.mem r s5.free ∧
      s1.free.length ≤ s5.free.length + (tablesFor L.UART0 4096 + tablesFor L.VIRTIO0 4096 +
        tablesFor L.CLINT 0x10000 + tablesFor L.PLIC 0x400000) ∧
      (∃ used, s1.free = used ++ s5.free) ∧
      ∀ b, b % 4096 = 0 → b < 2 ^ 39 → pteOf s5.mem r b =
        if DeviceAddr L b then leafPte b ((PTE_R ||| PTE_W : Nat) : Int) else 0 := by
  obtain ⟨a1, a2, a3, a4, o1, o2, o3, o4⟩ := hD
  have hM := MAXVA_eq
  obtain ⟨s2, hR2, wf2, fr2, hl2, ⟨u2, hu2⟩, hp2⟩ := mappages_fixed r L.UART0 4096 L.UART0
    ((PTE_R ||| PTE_W : Nat) : Int) s1 wf1 fr1 a1 (by decide) (by decide) (by omega) (by omega)
    (fun b hb h1 h2 => by rw [hz1 b]; exact zero_invalid) (by omega)
  obtain ⟨s3, hR3, wf3, fr3, hl3, ⟨u3, hu3⟩, hp3⟩ := mappages_fixed r L.VIRTIO0 4096 L.VIRTIO0
    ((PTE_R ||| PTE_W : Nat) : Int) s2 wf2 fr2 a2 (by decide) (by decide) (by omega) (by omega)
    (fun b hb h1 h2 => by
      rw [hp2 b hb (by omega), if_neg (by omega), hz1 b]
      exact zero_invalid) (by omega)
  obtain ⟨s4, hR4, wf4, fr4, hl4, ⟨u4, hu4⟩, hp4⟩ := mappages_fixed r L.CLINT 0x10000 L.CLINT
    ((PTE_R ||| PTE_W : Nat) : Int) s3 wf3 fr3 a3 (by decide) (by decide) (by omega) (by omega)
    (fun b hb h1 h2 => by
      rw [hp3 b hb (by omega), if_neg (by omega), hp2 b hb (by omega), if_neg (by omega), hz1 b]
      exact zero_invalid) (by omega)
  obtain ⟨s5, hR5, wf5, fr5, hl5, ⟨u5, hu5⟩, hp5⟩ := mappages_fixed r L.PLIC 0x400000 L.PLIC
    ((PTE_R ||| PTE_W : Nat) : Int) s4 wf4 fr4 a4 (by decide) (by decide) (by omega) (by omega)
    (fun b hb h1 h2 => by
      rw [hp4 b hb (by omega), if_neg (by omega), hp3 b hb (by omega), if_neg (by omega),
        hp2 b hb (by omega), if_neg (by omega), hz1 b]
      exact zero_invalid) (by omega)
  refine ⟨s2, s3, s4, s5, hR2, hR3, hR4, hR5, wf5, fr5, by omega, ⟨u2 ++ u3 ++ u4 ++ u5, ?_⟩, ?_⟩
  · rw [hu2, hu3, hu4, hu5]
    simp
  · intro b hb hb2
    rw [hp5 b hb hb2, hp4 b hb hb2, hp3 b hb hb2, hp2 b hb hb2, hz1 b]
    unfold DeviceAddr
    by_cases c4 : L.PLIC ≤ b ∧ b < L.PLIC + 0x400000
    · rw [if_pos c4, if_pos (Or.inr (Or.inr (Or.inr c4)))]
      congr 1
      omega
    · rw [if_neg c4]
      by_cases c3 : L.CLINT ≤ b ∧ b < L.CLINT + 0x10000
      · rw [if_pos c3, if_pos (Or.inr (Or.inr (Or.inl c3)))]
        congr 1
        omega
      · rw [if_neg c3]
        by_cases c2 : L.VIRTIO0 ≤ b ∧ b < L.VIRTIO0 + 4096
        · rw [if_pos c2, if_pos (Or.inr (Or.inl c2))]
          congr 1
          omega
        · rw [if_neg c2]
          by_cases c1 : L.UART0 ≤ b ∧ b < L.UART0 + 4096
          · rw [if_pos c1, if_pos (Or.inl c1)]
            congr 1
            omega
          · rw [if_neg c1, if_neg]
            rintro (h | h | h | h)
            · exact c1 h
            · exact c2 h
            · exact c3 h
            · exact c4 h

/-- The mappings of the kernel text, of the kernel data and RAM and of the
trampoline page that `kvminit` adds to the device mappings. -/
theorem kvminit_high (L : Layout) (r : Nat) (s5 : State) (hD : DevicesLow L) (hK : KernelHigh L)
    (wf5 : WF s5.mem r) (fr5 : Fresh s5.mem r s5.free)
    (hdev : ∀ b, b % 4096 = 0 → b < 2 ^ 39 → pteOf s5.mem r b =
      if DeviceAddr L b then leafPte b ((PTE_R ||| PTE_W : Nat) : Int) else 0)
    (hfree : tablesFor L.KERNBASE (L.etext - L.KERNBASE) + tablesFor L.etext (L.PHYSTOP - L.etext) +
      tablesFor L.TRAMPOLINE 4096 ≤ s5.free.length) :
    ∃ s6 s7 s8,
      mappages r L.KERNBASE ((L.etext + U64 - L.KERNBASE) % U64) L.KERNBASE
        ((PTE_R ||| PTE_X : Nat) : Int) s5 = .ok 0 s6 ∧
      mappages r L.etext ((L.PHYSTOP + U64 - L.etext) % U64) L.etext
        ((PTE_R ||| PTE_W : Nat) : Int) s6 = .ok 0 s7 ∧
      mappages r L.TRAMPOLINE PGSIZE L.trampoline ((PTE_R ||| PTE_X : Nat) : Int) s7 = .ok 0 s8 ∧
      WF s8.mem r ∧ Fresh s8.mem r s8.free ∧
      s5.free.length ≤ s8.free.length + (tablesFor L.KERNBASE (L.etext - L.KERNBASE) +
        tablesFor L.etext (L.PHYSTOP - L.etext) + tablesFor L.TRAMPOLINE 4096) ∧
      (∃ used, s5.free = used ++ s8.free) ∧
      (∀ b, b % 4096 = 0 → DeviceAddr L b →
        pteOf s8.mem r b = leafPte b ((PTE_R ||| PTE_W : Nat) : Int)) ∧
      (∀ b, b % 4096 = 0 → L.KERNBASE ≤ b → b < L.etext →
        pteOf s8.mem r b = leafPte b ((PTE_R ||| PTE_X : Nat) : Int)) ∧
      (∀ b, b % 4096 = 0 → L.etext ≤ b → b < L.PHYSTOP →
        pteOf s8.mem r b = leafPte b ((PTE_R ||| PTE_W : Nat) : Int)) ∧
      pteOf s8.mem r L.TRAMPOLINE = leafPte L.trampoline ((PTE_R ||| PTE_X : Nat) : Int) := by
  obtain ⟨_, _, _, _, o1, o2, o3, o4⟩ := hD
  obtain ⟨k1, k2, k3, k4, k5, k6, k7, k8, k9, k10⟩ := hK
  have hP : PGSIZE = 4096 := rfl
  have hM := MAXVA_eq
  rw [hM, hP] at k10
  have e5 : (L.etext + U64 - L.KERNBASE) % U64 = L.etext - L.KERNBASE := by
    unfold U64
    omega
  have e6 : (L.PHYSTOP + U64 - L.etext) % U64 = L.PHYSTOP - L.etext := by
    unfold U64
    omega
  have hnd : ∀ b, 2 ^ 30 ≤ b → ¬ DeviceAddr L b := by
    intro b hb hd
    unfold DeviceAddr at hd
    omega
  have hdl : ∀ b, DeviceAddr L b → b < 2 ^ 30 := by
    intro b hd
    unfold DeviceAddr at hd
    omega
  obtain ⟨s6, hR6, wf6, fr6, hl6, ⟨u6, hu6⟩, hp6⟩ := mappages_fixed r L.KERNBASE
    (L.etext - L.KERNBASE) L.KERNBASE ((PTE_R ||| PTE_X : Nat) : Int) s5 wf5 fr5 k1 (by omega)
    (by omega) (by omega) (by omega)
    (fun b hb h1 h2 => by
      rw [hdev b hb (by omega), if_neg (hnd b (by omega))]
      exact zero_invalid) (by omega)
  obtain ⟨s7, hR7, wf7, fr7, hl7, ⟨u7, hu7⟩, hp7⟩ := mappages_fixed r L.etext
    (L.PHYSTOP - L.etext) L.etext ((PTE_R ||| PTE_W : Nat) : Int) s6 wf6 fr6 k2 (by omega)
    (by omega) (by omega) (by omega)
    (fun b hb h1 h2 => by
      rw [hp6 b hb (by omega), if_neg (by omega), hdev b hb (by omega),
        if_neg (hnd b (by omega))]
      exact zero_invalid) (by omega)
  obtain ⟨s8, hR8, wf8, fr8, hl8, ⟨u8, hu8⟩, hp8⟩ := mappages_fixed r L.TRAMPOLINE 4096
    L.trampoline ((PTE_R ||| PTE_X : Nat) : Int) s7 wf7 fr7 (by omega) (by decide) (by decide)
    (by omega) (by omega)
    (fun b hb h1 h2 => by
      rw [hp7 b hb (by omega), if_neg (by omega), hp6 b hb (by omega), if_neg (by omega),
        hdev b hb (by omega), if_neg (hnd b (by omega))]
      exact zero_invalid) (by omega)
  refine ⟨s6, s7, s8, by rw [e5]; exact hR6, by rw [e6]; exact hR7, hR8, wf8, fr8, by omega,
    ⟨u6 ++ u7 ++ u8, ?_⟩, ?_, ?_, ?_, ?_⟩
  · rw [hu6, hu7, hu8]
    simp
  · intro b hb hd
    have hb2 := hdl b hd
    rw [hp8 b hb (by omega), if_neg (by omega), hp7 b hb (by omega), if_neg (by omega),
      hp6 b hb (by omega), if_neg (by omega), hdev b hb (by omega), if_pos hd]
  · intro b hb h1 h2
    rw [hp8 b hb (by omega), if_neg (by omega), hp7 b hb (by omega), if_neg (by omega),
      hp6 b hb (by omega), if_pos (by omega)]
    congr 1
    omega
  · intro b hb h1 h2
    rw [hp8 b hb (by omega), if_neg (by omega), hp7 b hb (by omega), if_pos (by omega)]
    congr 1
    omega
  · rw [hp8 _ (by omega) (by omega), if_pos (by omega)]
    congr 1
    omega

/-- What `kvminit` does, for a layout ordered as `DevicesLow` and `KernelHigh`
say and an allocator holding `kvminitFrames L` distinct page-aligned non-null
frames: it returns, the global table it has built is a tree rooted at the first
frame of the allocator, and its level-0 entries are the identity mappings of
the devices, of the kernel text and of the kernel data and RAM, and the
trampoline page. -/
theorem kvminit_spec (L : Layout) (s : State) (hD : DevicesLow L) (hK : KernelHigh L)
    (hnd : s.free.Nodup) (hfr : ∀ f, f ∈ s.free → f % 4096 = 0 ∧ f ≠ 0 ∧ f < 2 ^ 64)
    (hfree : kvminitFrames L ≤ s.free.length) :
    ∃ kpt rest s', s.free = kpt :: rest ∧ kvminit L s = .ok kpt s' ∧ WF s'.mem kpt ∧
      Fresh s'.mem kpt s'.free ∧ s.free.length ≤ s'.free.length + kvminitFrames L ∧
      (∃ used, s.free = used ++ s'.free) ∧
      (∀ b, b % 4096 = 0 → DeviceAddr L b →
        pteOf s'.mem kpt b = leafPte b ((PTE_R ||| PTE_W : Nat) : Int)) ∧
      (∀ b, b % 4096 = 0 → L.KERNBASE ≤ b → b < L.etext →
        pteOf s'.mem kpt b = leafPte b ((PTE_R ||| PTE_X : Nat) : Int)) ∧
      (∀ b, b % 4096 = 0 → L.etext ≤ b → b < L.PHYSTOP →
        pteOf s'.mem kpt b = leafPte b ((PTE_R ||| PTE_W : Nat) : Int)) ∧
      pteOf s'.mem kpt L.TRAMPOLINE = leafPte L.trampoline ((PTE_R ||| PTE_X : Nat) : Int) := by
  have hP : PGSIZE = 4096 := rfl
  unfold kvminitFrames at hfree ⊢
  obtain ⟨r, rest, hfl⟩ : ∃ r rest, s.free = r :: rest := by
    cases hs : s.free with
    | nil => rw [hs, List.length_nil] at hfree; omega
    | cons r rest => exact ⟨r, rest, rfl⟩
  obtain ⟨hr1, hr0, hr2⟩ := hfr r (by rw [hfl]; exact List.mem_cons_self _ _)
  have hk1 : (kalloc s).1 = r := by unfold kalloc; rw [hfl]
  have hk2 : (kalloc s).2.free = rest := by unfold kalloc; rw [hfl]
  have hlen : s.free.length = rest.length + 1 := by rw [hfl]; rfl
  obtain ⟨s1, hs1⟩ : ∃ s1 : State, s1 =
      { mem := memset (kalloc s).2.mem (kalloc s).1 0 PGSIZE, free := (kalloc s).2.free } :=
    ⟨_, rfl⟩
  have hs1f : s1.free = rest := by rw [hs1]; exact hk2
  have hnd' : (r :: rest).Nodup := hfl ▸ hnd
  obtain ⟨wf1, ht1, hz1⟩ := zero_root_inv s1.mem r hr1 hr0 (by
    intro x h1 h2
    rw [hs1]
    show memset _ _ _ _ x = 0
    rw [hk1, memset_in _ _ _ _ _ h1 (by rw [hP]; exact h2)])
  have fr1 : Fresh s1.mem r s1.free := by
    rw [hs1f]
    refine ⟨(List.nodup_cons.mp hnd').2, ?_, ?_⟩
    · intro f hf
      exact hfr f (by rw [hfl]; exact List.mem_cons_of_mem _ hf)
    · intro f hf ht
      rw [ht1 f ht] at hf
      exact (List.nodup_cons.mp hnd').1 hf
  have hl1 : s1.free.length = rest.length := by rw [hs1f]
  obtain ⟨s2, s3, s4, s5, hR2, hR3, hR4, hR5, wf5, fr5, hl5, ⟨u5, hu5⟩, hdev⟩ :=
    kvminit_devices L r s1 hD wf1 fr1 hz1 (by omega)
  obtain ⟨s6, s7, s8, hR6, hR7, hR8, wf8, fr8, hl8, ⟨u8, hu8⟩, h1, h2, h3, h4⟩ :=
    kvminit_high L r s5 hD hK wf5 fr5 hdev (by omega)
  refine ⟨r, rest, s8, hfl, ?_, wf8, fr8, by omega, ⟨[r] ++ u5 ++ u8, ?_⟩, h1, h2, h3, h4⟩
  · have h := kvminit_ok L s s2 s3 s4 s5 s6 s7 s8
      (by rw [← hs1, hk1]; exact hR2) (by rw [hk1]; exact hR3) (by rw [hk1]; exact hR4)
      (by rw [hk1]; exact hR5) (by rw [hk1]; exact hR6) (by rw [hk1]; exact hR7)
      (by rw [hk1]; exact hR8)
    rw [hk1] at h
    exact h
  · rw [hfl, ← hs1f, hu5, hu8]
    simp

/-! ## The kernel tables of the qemu layout -/

theorem frames_length : ∀ n base, (frames base n).length = n := by
  intro n
  induction n with
  | zero => intro base; rfl
  | succ n ih =>
    intro base
    show (base :: frames (base + 4096) n).length = n + 1
    rw [List.length_cons, ih]

theorem mem_frames : ∀ n base f, f ∈ frames base n → ∃ i, i < n ∧ f = base + 4096 * i := by
  intro n
  induction n with
  | zero =>
    intro base f hf
    exact absurd hf (List.not_mem_nil f)
  | succ n ih =>
    intro base f hf
    rcases List.mem_cons.mp hf with h | h
    · exact ⟨0, by omega, by omega⟩
    · obtain ⟨i, hi, e⟩ := ih _ _ h
      exact ⟨i + 1, by omega, by omega⟩

theorem nodup_frames : ∀ n base, (frames base n).Nodup := by
  intro n
  induction n with
  | zero => intro base; exact List.nodup_nil
  | succ n ih =>
    intro base
    refine List.nodup_cons.mpr ⟨?_, ih _⟩
    intro h
    obtain ⟨i, _, e⟩ := mem_frames _ _ _ h
    omega

/-- A level-0 entry that is not 0 lies in a level-0 table that is reached
through a level-1 table. -/
theorem path_of_pte (m : Mem) (root va : Nat) (h : pteOf m root va ≠ 0) :
    ∃ t1 t0, pathTo m root [PX 2 va] = some t1 ∧ pathTo m root [PX 2 va, PX 1 va] = some t0 := by
  unfold pteOf at h
  rw [pathTo_two] at h
  by_cases h2 : ent m root (PX 2 va) &&& PTE_V ≠ 0
  · rw [if_pos h2] at h
    by_cases h1 : ent m (PTE2PA (ent m root (PX 2 va))) (PX 1 va) &&& PTE_V ≠ 0
    · refine ⟨PTE2PA (ent m root (PX 2 va)),
        PTE2PA (ent m (PTE2PA (ent m root (PX 2 va))) (PX 1 va)), ?_, ?_⟩
      · rw [pathTo_one, if_pos h2]
      · rw [pathTo_two, if_pos h2, if_pos h1]
    · rw [if_neg h1] at h
      exact absurd rfl h
  · rw [if_neg h2] at h
    exact absurd rfl h

/-- On the machine `kst0` with the layout `qemu`, `kvminit` returns with the
global kernel table rooted at `0x80100000`: a tree, apart from the frames left
in the allocator, which are enough for `kvmcreate`, and with the kernel text and
the trampoline page mapped. -/
theorem kvminit_kst0 :
    kvminit qemu kst0 = .ok 0x80100000 kst1 ∧ WF kst1.mem 0x80100000 ∧
      Fresh kst1.mem 0x80100000 kst1.free ∧ kvmcreateFrames qemu ≤ kst1.free.length ∧
      (∀ b, b % 4096 = 0 → qemu.KERNBASE ≤ b → b < qemu.etext →
        pteOf kst1.mem 0x80100000 b = leafPte b ((PTE_R ||| PTE_X : Nat) : Int)) ∧
      (∀ b, b % 4096 = 0 → qemu.etext ≤ b → b < qemu.PHYSTOP →
        pteOf kst1.mem 0x80100000 b = leafPte b ((PTE_R ||| PTE_W : Nat) : Int)) ∧
      pteOf kst1.mem 0x80100000 qemu.TRAMPOLINE =
        leafPte qemu.trampoline ((PTE_R ||| PTE_X : Nat) : Int) := by
  have hlen : kst0.free.length = 160 := frames_length 160 _
  have h1 : kvminitFrames qemu = 143 := by decide
  have h2 : kvmcreateFrames qemu = 11 := by decide
  obtain ⟨kpt, rest, s', hfl, hR, wf, fr, hl, _, _, ht, hd, htr⟩ := kvminit_spec qemu kst0
    (by decide) (by decide) (nodup_frames 160 _)
    (by
      intro f hf
      obtain ⟨i, hi, e⟩ := mem_frames _ _ _ hf
      omega)
    (by rw [h1, hlen]; decide)
  have hk : kpt = 0x80100000 := by
    have e : kst0.free = 0x80100000 :: frames (0x80100000 + 4096) 159 := rfl
    rw [e] at hfl
    exact (List.cons.inj hfl).1.symm
  have hs : kst1 = s' := by
    unfold kst1
    rw [hR]
    rfl
  rw [hk] at hR wf fr ht hd htr
  rw [hs]
  exact ⟨hR, wf, fr, by omega, ht, hd, htr⟩

theorem leafPte_ne_zero (pa : Nat) (perm : Int) : leafPte pa perm ≠ 0 := by
  intro h
  have := leafPte_valid pa perm
  rw [h] at this
  exact this zero_invalid

/-- A level-0 entry that is not 0 is found by the non-creating walk. -/
theorem walkFinds_of_pte (root va e : Nat) (s : State) (wf : WF s.mem root) (hva : va < MAXVA)
    (he : pteOf s.mem root va = e) (hne : e ≠ 0) : WalkFinds root va e s := by
  have hp : pteOf s.mem root va ≠ 0 := by rw [he]; exact hne
  obtain ⟨_, t0, _, h0⟩ := path_of_pte s.mem root va hp
  have hs : slotOf s.mem root va = t0 + 8 * PX 0 va := by
    unfold slotOf
    rw [h0]
  have ht0 := wf.nonnull t0 ⟨_, validPath_PX va, h0⟩
  refine ⟨slotOf s.mem root va, walk_noalloc root va s hva, by omega, ?_⟩
  rw [hs, ← pteOf_of_path h0]
  exact he

theorem PX2_high (va : Nat) (h1 : 2 ^ 30 ≤ va) (h2 : va < 2 ^ 39) : 1 ≤ PX 2 va := by
  rw [PX_eq]
  norm_num at h1 h2 ⊢
  omega

/-! ## `sys_trace` -/

theorem sys_traceLoop_succ (fuel : Nat) (mask t : Int) :
    sys_traceLoop (fuel + 1) mask t =
      if mask ≠ 1 then sys_traceLoop fuel (mask / 2) (toInt32 (ofInt (t + 1))) else some t := by
  rw [sys_traceLoop, Int.shiftRight_eq_div_pow]
  rfl

theorem toInt32_ofInt (t : Int) (h0 : 0 ≤ t) (h1 : t < 2 ^ 31) : toInt32 (ofInt t) = t := by
  unfold toInt32 ofInt
  have e : (t % (2 : Int) ^ 64).toNat = t.toNat := by
    rw [Int.emod_eq_of_lt h0 (by omega)]
  rw [e]
  have h2 : t.toNat < 2 ^ 31 := by omega
  rw [Nat.mod_eq_of_lt (by omega), if_pos h2]
  omega

theorem log2_step (n : Nat) (h : 2 ≤ n) : Nat.log2 n = Nat.log2 (n / 2) + 1 := by
  rw [Nat.log2, if_pos h]

theorem log2_one : Nat.log2 1 = 0 := by
  rw [Nat.log2, if_neg (by decide)]

/-- On a mask `n ≥ 1` the loop of `sys_trace` ends after `log2 n` iterations,
each of which adds one to the counter. -/
theorem sys_traceLoop_pos : ∀ fuel n (t : Int), 1 ≤ n → Nat.log2 n < fuel → 0 ≤ t →
    t + Nat.log2 n < 2 ^ 31 → sys_traceLoop fuel (n : Int) t = some (t + Nat.log2 n) := by
  intro fuel
  induction fuel with
  | zero => intro n t _ h; omega
  | succ fuel ih =>
    intro n t hn hf h0 h1
    rw [sys_traceLoop_succ]
    by_cases h : n = 1
    · subst h
      rw [if_neg (by simp), log2_one]
      simp
    · have hl := log2_step n (by omega)
      rw [if_pos (by omega), toInt32_ofInt (t + 1) (by omega) (by omega)]
      have e : (n : Int) / 2 = ((n / 2 : Nat) : Int) := by omega
      rw [e, ih (n / 2) (t + 1) (by omega) (by omega) (by omega) (by omega), hl]
      congr 1
      omega

/-- On a mask that is 0 or negative the loop of `sys_trace` never ends. -/
theorem sys_traceLoop_nonpos : ∀ fuel (mask t : Int), mask ≤ 0 → sys_traceLoop fuel mask t = none := by
  intro fuel
  induction fuel with
  | zero => intro mask t _; rfl
  | succ fuel ih =>
    intro mask t h
    rw [sys_traceLoop_succ, if_pos (by omega)]
    exact ih _ _ (by omega)

/-- For a mask `1 ≤ mask < 2^31`, `sys_trace` returns 0, after at most 31
iterations, having set `trace_syscall_max` to `1 + floor(log2(mask))`. -/
theorem sys_trace_pos (fuel n : Nat) (h1 : 1 ≤ n) (h2 : n < 2 ^ 31) (hf : 31 ≤ fuel) :
    sys_trace fuel 0 (n : Int) = some (0, some (1 + (Nat.log2 n : Int))) := by
  have hl : Nat.log2 n < 31 := (Nat.log2_lt (by omega)).mpr h2
  unfold sys_trace
  rw [if_neg (by decide), sys_traceLoop_pos fuel n 1 h1 (by omega) (by decide) (by omega)]

/-- For a mask that is 0 or negative, `sys_trace` does not return. -/
theorem sys_trace_nonpos (fuel : Nat) (mask : Int) (h : mask ≤ 0) :
    sys_trace fuel 0 mask = none := by
  unfold sys_trace
  rw [if_neg (by decide), sys_traceLoop_nonpos fuel mask 1 h]

/-! ## `uvminit` -/

theorem uvminit_perm : ((PTE_W ||| PTE_R ||| PTE_X ||| PTE_U : Nat) : Int) = uperm := by decide

theorem tablesFor_page : tablesFor 0 4096 = 2 := by decide

/-- What `uvminit` does for an image of less than a page, on a tree in which
page 0 is not mapped, with an allocator that holds the data frame and two more
frames, the image lying outside the frames of the allocator and outside the
page-table pages. -/
theorem uvminit_spec (root src sz : Nat) (s : State) (wf : WF s.mem root)
    (fr : Fresh s.mem root s.free) (h0 : pteOf s.mem root 0 &&& PTE_V = 0)
    (hfree : 3 ≤ s.free.length) (hsz : sz < 4096)
    (hsrcF : ∀ i, i < sz → ∀ f, f ∈ s.free → src + i < f ∨ f + 4096 ≤ src + i)
    (hsrcT : ∀ i, i < sz → ∀ t, TablePage s.mem root t → src + i < t ∨ t + 4096 ≤ src + i) :
    ∃ s' d rest, s.free = d :: rest ∧ uvminit root src sz s = .ok () s' ∧
      WF s'.mem root ∧ d ∉ s'.free ∧ ¬ TablePage s'.mem root d ∧
      (∀ b, b % 4096 = 0 → b < 2 ^ 39 →
        pteOf s'.mem root b = if b = 0 then leafPte d uperm else pteOf s.mem root b) ∧
      (∀ i, i < sz → s'.mem (d + i) = read8 s.mem (src + i)) ∧
      (∀ i, sz ≤ i → i < 4096 → s'.mem (d + i) = 0) := by
  have hP : PGSIZE = 4096 := rfl
  have hM := MAXVA_eq
  obtain ⟨d, rest, hfl⟩ : ∃ d rest, s.free = d :: rest := by
    cases hs : s.free with
    | nil => rw [hs, List.length_nil] at hfree; omega
    | cons d rest => exact ⟨d, rest, rfl⟩
  have hlen : s.free.length = rest.length + 1 := by rw [hfl]; rfl
  have hdmem : d ∈ s.free := by rw [hfl]; exact List.mem_cons_self _ _
  obtain ⟨hd1, hd0, hd2⟩ := fr.frame d hdmem
  have hnd : (d :: rest).Nodup := hfl ▸ fr.nodup
  obtain ⟨wf1, fr1, st1, pte1, hz1, hnt1⟩ := alloc_data root d rest s wf fr hfl
  obtain ⟨s1, hs1⟩ : ∃ s1 : State, s1 = { mem := memset s.mem d 0 PGSIZE, free := rest } :=
    ⟨_, rfl⟩
  rw [← hs1] at st1
  have hs1m : s1.mem = memset s.mem d 0 PGSIZE := by rw [hs1]
  have hs1f : s1.free = rest := by rw [hs1]
  rw [← hs1m] at wf1 fr1 pte1 hz1 hnt1
  rw [← hs1f] at fr1
  obtain ⟨s2, used, hR, wf2, fr2, st2, _, hpte, _⟩ := mappages_run root 0 4096 d uperm s1 wf1 fr1
    (by decide) (by decide) (by decide) (by omega) hd2
    (fun b hb _ hlt => by
      have : b = 0 := by omega
      rw [this, pte1 0]
      exact h0)
    (by rw [tablesFor_page, hs1f]; omega)
  have hused : ∀ f, f ∈ used → f ∈ rest := fun f hf => by
    rw [← hs1f, st2.free]
    exact List.mem_append_left _ hf
  have htab1 : ∀ t, TablePage s1.mem root t → TablePage s.mem root t ∧ t ≠ d := by
    intro t ht
    have hne : t ≠ d := fun h => hnt1 (h ▸ ht)
    rcases st1.tablePage_step ht with h | h
    · exact ⟨h, hne⟩
    · exact absurd (List.mem_singleton.mp h) hne
  have htab2 : ∀ t, TablePage s2.mem root t → t % 4096 = 0 ∧ t ≠ d := by
    intro t ht
    refine ⟨tablePage_aligned wf2.aligned ht, ?_⟩
    rcases st2.tablePage_step ht with h | h
    · exact (htab1 t h).2
    · intro hc
      rw [hc] at h
      exact (List.nodup_cons.mp hnd).1 (hused d h)
  have hdpage : ∀ x, d ≤ x → x < d + 4096 → s2.mem x = 0 := by
    intro x h1 h2
    rw [st2.bytes x ?_ ?_]
    · exact hz1 x h1 h2
    · intro t ht
      exact aligned_disjoint d t x hd1 (tablePage_aligned wf1.aligned ht) (htab1 t ht).2 h1 h2
    · intro f hf
      have hfr := hused f hf
      exact aligned_disjoint d f x hd1 (fr.frame f (by rw [hfl]; exact List.mem_cons_of_mem _ hfr)).1
        (fun h => (List.nodup_cons.mp hnd).1 (h ▸ hfr)) h1 h2
  have hsrc : ∀ i, i < sz → s2.mem (src + i) = s.mem (src + i) := by
    intro i hi
    rw [st2.bytes _ ?_ ?_, hs1m, memset_out _ _ _ _ _ (by rw [hP]; exact hsrcF i hi d hdmem)]
    · intro t ht
      exact hsrcT i hi t (htab1 t ht).1
    · intro f hf
      exact hsrcF i hi f (by rw [hfl]; exact List.mem_cons_of_mem _ (hused f hf))
  have hsame : ∀ t, TablePage s2.mem root t → ∀ j, j < 512 →
      ent (memmove s2.mem d src sz) t j = ent s2.mem t j := by
    intro t ht j hj
    apply ent_congr_page _ _ t j hj
    intro x h1 h2
    obtain ⟨hal, hne⟩ := htab2 t ht
    exact memmove_out _ _ _ _ _ (by
      have := aligned_disjoint t d x hal hd1 (fun h => hne h.symm) h1 h2
      omega)
  have hpath := pathTo_congr_tables s2.mem (memmove s2.mem d src sz) root hsame
  have htab' : ∀ t, TablePage (memmove s2.mem d src sz) root t → TablePage s2.mem root t := by
    rintro t ⟨q, hq, hp⟩
    exact ⟨q, hq, by rw [← hpath q hq]; exact hp⟩
  refine ⟨{ mem := memmove s2.mem d src sz, free := s2.free }, d, rest, hfl, ?_,
    ⟨wf2.aligned, ?_, ?_⟩, ?_, ?_, ?_, ?_, ?_⟩
  · unfold uvminit
    rw [if_neg (by rw [hP]; omega)]
    have hk : kalloc s = (d, { mem := s.mem, free := rest }) := by
      unfold kalloc
      rw [hfl]
    rw [hk, uvminit_perm]
    show (match mappages root 0 PGSIZE d uperm { mem := memset s.mem d 0 PGSIZE, free := rest } with
      | .panic msg s2 => Res.panic msg s2
      | .ok _ s2 => Res.ok () { mem := memmove s2.mem d src sz, free := s2.free }) = _
    rw [← hs1, hP, hR]
  · intro q q' t hq hq' h1 h2
    rw [hpath q hq] at h1
    rw [hpath q' hq'] at h2
    exact wf2.inj q q' t hq hq' h1 h2
  · intro t ht
    exact wf2.nonnull t (htab' t ht)
  · intro h
    have : d ∈ rest := by
      rw [← hs1f, st2.free]
      exact List.mem_append_right _ h
    exact (List.nodup_cons.mp hnd).1 this
  · intro h
    exact (htab2 d (htab' d h)).2 rfl
  · intro b hb hb2
    show pteOf (memmove s2.mem d src sz) root b = _
    rw [pteOf_congr_tables s2.mem _ root hsame b, hpte b hb hb2]
    by_cases hb0 : b = 0
    · subst hb0
      rw [if_pos (by omega), if_pos rfl]
      congr 1
      unfold U64
      omega
    · rw [if_neg (by omega), if_neg hb0, pte1 b]
  · intro i hi
    show memmove s2.mem d src sz (d + i) = _
    rw [memmove_in _ _ _ _ _ (by omega) (by omega)]
    unfold read8
    have e : d + i - d = i := by omega
    rw [e, hsrc i hi]
  · intro i h1 h2
    show memmove s2.mem d src sz (d + i) = _
    rw [memmove_out _ _ _ _ _ (by omega)]
    exact hdpage _ (by omega) (by omega)

/-! ## `freewalkWithoutPhysicalMemory` -/

theorem freewalkL1Loop_succ (t n i : Nat) (s : State) :
    freewalkL1Loop t (n + 1) i s =
      freewalkL1Loop t n (i + 1)
        (if ent s.mem t i &&& PTE_V ≠ 0 then kfree (PTE2PA (ent s.mem t i)) s else s) := rfl

theorem freewalkL2Loop_succ (r n i : Nat) (s : State) :
    freewalkL2Loop r (n + 1) i s =
      freewalkL2Loop r n (i + 1)
        (if ent s.mem r i &&& PTE_V ≠ 0 then
          kfree (PTE2PA (ent s.mem r i)) (freewalkL1Loop (PTE2PA (ent s.mem r i)) PTENUMPERPAGE 0 s)
        else s) := rfl

theorem kfree_mem (pa : Nat) (s : State) : (kfree pa s).mem = s.mem := rfl

theorem kfree_free (pa : Nat) (s : State) : (kfree pa s).free = pa :: s.free := rfl

/-- The inner loop writes no memory, keeps what is on the free list, and puts
on it the frame named by every valid entry it passes. -/
theorem freewalkL1Loop_spec (t : Nat) :
    ∀ n i s, (freewalkL1Loop t n i s).mem = s.mem ∧
      (∀ f, f ∈ s.free → f ∈ (freewalkL1Loop t n i s).free) ∧
      (∀ k, i ≤ k → k < i + n → ent s.mem t k &&& PTE_V ≠ 0 →
        PTE2PA (ent s.mem t k) ∈ (freewalkL1Loop t n i s).free) := by
  intro n
  induction n with
  | zero =>
    intro i s
    exact ⟨rfl, fun _ h => h, fun k h1 h2 => by omega⟩
  | succ n ih =>
    intro i s
    rw [freewalkL1Loop_succ]
    by_cases hv : ent s.mem t i &&& PTE_V ≠ 0
    · rw [if_pos hv]
      obtain ⟨h1, h2, h3⟩ := ih (i + 1) (kfree (PTE2PA (ent s.mem t i)) s)
      rw [kfree_free] at h2
      rw [kfree_mem] at h1 h3
      refine ⟨h1, fun f hf => h2 f (List.mem_cons_of_mem _ hf), ?_⟩
      intro k hk1 hk2 hkv
      by_cases hki : k = i
      · subst hki
        exact h2 _ (List.mem_cons_self _ _)
      · exact h3 k (by omega) (by omega) hkv
    · rw [if_neg hv]
      obtain ⟨h1, h2, h3⟩ := ih (i + 1) s
      refine ⟨h1, h2, ?_⟩
      intro k hk1 hk2 hkv
      by_cases hki : k = i
      · subst hki
        exact absurd hkv hv
      · exact h3 k (by omega) (by omega) hkv

/-- The outer loop writes no memory, keeps what is on the free list, and puts
on it the frame named by every valid root entry it passes and the frame named
by every valid entry of the table at that frame. -/
theorem freewalkL2Loop_spec (r : Nat) :
    ∀ n i s, (freewalkL2Loop r n i s).mem = s.mem ∧
      (∀ f, f ∈ s.free → f ∈ (freewalkL2Loop r n i s).free) ∧
      (∀ j, i ≤ j → j < i + n → ent s.mem r j &&& PTE_V ≠ 0 →
        PTE2PA (ent s.mem r j) ∈ (freewalkL2Loop r n i s).free ∧
        ∀ k, k < 512 → ent s.mem (PTE2PA (ent s.mem r j)) k &&& PTE_V ≠ 0 →
          PTE2PA (ent s.mem (PTE2PA (ent s.mem r j)) k) ∈ (freewalkL2Loop r n i s).free) := by
  intro n
  induction n with
  | zero =>
    intro i s
    exact ⟨rfl, fun _ h => h, fun k h1 h2 => by omega⟩
  | succ n ih =>
    intro i s
    rw [freewalkL2Loop_succ]
    by_cases hv : ent s.mem r i &&& PTE_V ≠ 0
    · rw [if_pos hv]
      obtain ⟨g1, g2, g3⟩ := freewalkL1Loop_spec (PTE2PA (ent s.mem r i)) PTENUMPERPAGE 0 s
      obtain ⟨h1, h2, h3⟩ := ih (i + 1)
        (kfree (PTE2PA (ent s.mem r i)) (freewalkL1Loop (PTE2PA (ent s.mem r i)) PTENUMPERPAGE 0 s))
      have hm : (kfree (PTE2PA (ent s.mem r i))
          (freewalkL1Loop (PTE2PA (ent s.mem r i)) PTENUMPERPAGE 0 s)).mem = s.mem := by
        rw [kfree_mem]
        exact g1
      rw [hm] at h3
      rw [kfree_free] at h2
      refine ⟨h1.trans hm, fun f hf => h2 f (List.mem_cons_of_mem _ (g2 f hf)), ?_⟩
      intro j hj1 hj2 hjv
      by_cases hji : j = i
      · subst hji
        refine ⟨h2 _ (List.mem_cons_self _ _), ?_⟩
        intro k hk hkv
        exact h2 _ (List.mem_cons_of_mem _ (g3 k (Nat.zero_le _) (by
          have : PTENUMPERPAGE = 512 := rfl
          omega) hkv))
      · exact h3 j (by omega) (by omega) hjv
    · rw [if_neg hv]
      obtain ⟨h1, h2, h3⟩ := ih (i + 1) s
      refine ⟨h1, h2, ?_⟩
      intro j hj1 hj2 hjv
      by_cases hji : j = i
      · subst hji
        exact absurd hjv hv
      · exact h3 j (by omega) (by omega) hjv

/-- What `freewalkWithoutPhysicalMemory` does on any table: it writes no memory
and hands to `kfree` the root and every page reached from the root through one
or two valid entries, whether or not the page belongs to this table alone. -/
theorem freewalkWithoutPhysicalMemory_spec (r : Nat) (s : State) :
    (freewalkWithoutPhysicalMemory r s).mem = s.mem ∧
      (∀ f, f ∈ s.free → f ∈ (freewalkWithoutPhysicalMemory r s).free) ∧
      (∀ q t, q.length ≤ 2 → (∀ i, i ∈ q → i < 512) → pathTo s.mem r q = some t →
        t ∈ (freewalkWithoutPhysicalMemory r s).free) := by
  obtain ⟨h1, h2, h3⟩ := freewalkL2Loop_spec r PTENUMPERPAGE 0 s
  have hN : PTENUMPERPAGE = 512 := rfl
  unfold freewalkWithoutPhysicalMemory
  rw [kfree_mem, kfree_free]
  refine ⟨h1, fun f hf => List.mem_cons_of_mem _ (h2 f hf), ?_⟩
  intro q t hlen hidx hp
  rcases q with _ | ⟨a, _ | ⟨b, _ | ⟨c, q⟩⟩⟩
  · injection hp with hp
    rw [← hp]
    exact List.mem_cons_self _ _
  · rw [pathTo_one] at hp
    have ha := hidx a (by simp)
    by_cases hv : ent s.mem r a &&& PTE_V ≠ 0
    · rw [if_pos hv] at hp
      injection hp with hp
      rw [← hp]
      exact List.mem_cons_of_mem _ (h3 a (Nat.zero_le _) (by omega) hv).1
    · rw [if_neg hv] at hp
      exact absurd hp (by simp)
  · rw [pathTo_two] at hp
    have ha := hidx a (by simp)
    have hb := hidx b (by simp)
    by_cases hv : ent s.mem r a &&& PTE_V ≠ 0
    · rw [if_pos hv] at hp
      by_cases hv1 : ent s.mem (PTE2PA (ent s.mem r a)) b &&& PTE_V ≠ 0
      · rw [if_pos hv1] at hp
        injection hp with hp
        rw [← hp]
        exact List.mem_cons_of_mem _ ((h3 a (Nat.zero_le _) (by omega) hv).2 b hb hv1)
      · rw [if_neg hv1] at hp
        exact absurd hp (by simp)
    · rw [if_neg hv] at hp
      exact absurd hp (by simp)
  · simp at hlen

/-! ### `freewalk` on a tree that may hold leaves -/

theorem invalid_of_zeroed (m m' : Mem) (a : Nat) (hz : m' a = m a ∨ m' a = 0)
    (h : read64 m a &&& PTE_V = 0) : read64 m' a &&& PTE_V = 0 := by
  rw [and_PTE_V] at h ⊢
  unfold read64 at h ⊢
  rcases hz with e | e <;> rw [e] <;> omega

theorem ent_invalid_of_zeroed (m m' : Mem) (t j : Nat) (hz : ∀ x, m' x = m x ∨ m' x = 0)
    (h : ent m t j &&& PTE_V = 0) : ent m' t j &&& PTE_V = 0 :=
  invalid_of_zeroed m m' _ (hz _) h

theorem write64_zero_zeroed (m : Mem) (a x : Nat) :
    write64 m a 0 x = m x ∨ write64 m a 0 x = 0 := by
  unfold write64
  split
  · right
    simp
  · left
    rfl

theorem zeroed_trans (m1 m2 m3 : Mem) (h1 : ∀ x, m2 x = m1 x ∨ m2 x = 0)
    (h2 : ∀ x, m3 x = m2 x ∨ m3 x = 0) : ∀ x, m3 x = m1 x ∨ m3 x = 0 := by
  intro x
  rcases h2 x with e | e
  · rw [e]
    exact h1 x
  · exact Or.inr e

/-- In a well-formed tree two page-table pages that share a byte are reached by
the same path. -/
theorem page_unique (m : Mem) (root : Nat) (wf : WF m root) (p p' : List Nat) (a b x : Nat)
    (hp : ValidPath p) (hp' : ValidPath p') (h : pathTo m root p = some a)
    (h' : pathTo m root p' = some b) (hx : a ≤ x ∧ x < a + 4096)
    (hx' : b ≤ x ∧ x < b + 4096) : p = p' := by
  have ha := pathTo_aligned m root a p wf.aligned h
  have hb := pathTo_aligned m root b p' wf.aligned h'
  have e : a = b := by omega
  subst e
  exact wf.inj p p' a hp hp' h h'

theorem validPath_snoc (q : List Nat) (i : Nat) (hv : ValidPath q) (hl : q.length ≤ 1)
    (hi : i < 512) : ValidPath (q ++ [i]) := by
  refine ⟨by simp; omega, ?_⟩
  intro j hj
  rw [List.mem_append, List.mem_singleton] at hj
  rcases hj with hj | rfl
  · exact hv.2 j hj
  · exact hi

theorem inSub_self (m : Mem) (root : Nat) (q : List Nat) (t x : Nat) (hv : ValidPath q)
    (hp : pathTo m root q = some t) (h1 : t ≤ x) (h2 : x < t + 4096) : InSub m root q x :=
  ⟨[], t, by rw [List.append_nil]; exact hv, by rw [List.append_nil]; exact hp, h1, h2⟩

theorem inSub_snoc (m : Mem) (root : Nat) (q : List Nat) (j x : Nat)
    (h : InSub m root (q ++ [j]) x) : InSub m root q x := by
  obtain ⟨q1, a, h1, h2, h3⟩ := h
  rw [List.append_assoc] at h1 h2
  exact ⟨[j] ++ q1, a, h1, h2, h3⟩

theorem rest_inSub (m : Mem) (root : Nat) (q : List Nat) (t i x : Nat) (hv : ValidPath q)
    (hp : pathTo m root q = some t) (h : Rest m root q t i x) : InSub m root q x := by
  obtain ⟨j, _, hj, h | h⟩ := h
  · exact inSub_self m root q t x hv hp (by omega) (by omega)
  · exact inSub_snoc m root q j x h

theorem rest_mono (m : Mem) (root : Nat) (q : List Nat) (t i x : Nat)
    (h : Rest m root q t (i + 1) x) : Rest m root q t i x := by
  obtain ⟨j, h1, h2, h3⟩ := h
  exact ⟨j, by omega, h2, h3⟩

/-- The pages below an entry of a table do not overlap the table itself. -/
theorem inSub_not_page (m : Mem) (root : Nat) (wf : WF m root) (q : List Nat) (t j x : Nat)
    (hv : ValidPath q) (hp : pathTo m root q = some t) (h : InSub m root (q ++ [j]) x) :
    ¬ (t ≤ x ∧ x < t + 4096) := by
  intro hx
  obtain ⟨q1, a, h1, h2, h3⟩ := h
  have e := page_unique m root wf q (q ++ [j] ++ q1) t a x hv h1 hp h2 hx h3
  have := congrArg List.length e
  rw [List.length_append, List.length_append, List.length_singleton] at this
  omega

/-- The pages below two different entries of a table do not overlap. -/
theorem inSub_disjoint (m : Mem) (root : Nat) (wf : WF m root) (q : List Nat) (i j x : Nat)
    (h : InSub m root (q ++ [j]) x) (h' : InSub m root (q ++ [i]) x) : j = i := by
  obtain ⟨q1, a, h1, h2, h3⟩ := h
  obtain ⟨q2, b, g1, g2, g3⟩ := h'
  have e := page_unique m root wf _ _ a b x h1 g1 h2 g2 h3 g3
  rw [List.append_assoc, List.append_assoc] at e
  have e2 := List.append_cancel_left e
  rw [List.singleton_append, List.singleton_append] at e2
  exact (List.cons.inj e2).1

theorem Cleared.before {m now now' : Mem} {l : List Nat} {f : Nat} (h : Cleared m now l f)
    (hz : ∀ x, now' x = now x ∨ now' x = 0) (l0 : List Nat) : Cleared m now' (l0 ++ l) f := by
  obtain ⟨h1, l1, l2, e, h2⟩ := h
  refine ⟨fun j hj => ent_invalid_of_zeroed now now' f j hz (h1 j hj), l0 ++ l1, l2, ?_, h2⟩
  rw [e, List.append_assoc]

theorem Cleared.after {m now now' : Mem} {l : List Nat} {f : Nat} (h : Cleared m now l f)
    (hz : ∀ x, now' x = now x ∨ now' x = 0) (l0 : List Nat) : Cleared m now' (l ++ l0) f := by
  obtain ⟨h1, l1, l2, e, h2⟩ := h
  refine ⟨fun j hj => ent_invalid_of_zeroed now now' f j hz (h1 j hj), l1, l2 ++ l0, ?_, ?_⟩
  · rw [e, List.append_assoc]
    rfl
  · intro j hj hv
    exact ⟨(h2 j hj hv).1, List.mem_append_left _ (h2 j hj hv).2⟩

/-- The loop of `freewalk` on a table whose valid entries all have one of
`PTE_R`, `PTE_W`, `PTE_X`: it ends normally without any change when no entry is
valid, and panics at the first valid one otherwise. -/
theorem freewalkLoop_bottom (self : Nat → State → Res Unit) (t : Nat) (s : State) :
    ∀ n i, (∀ j, i ≤ j → j < i + n → ent s.mem t j &&& PTE_V ≠ 0 →
        ent s.mem t j &&& (PTE_R ||| PTE_W ||| PTE_X) ≠ 0) →
      (freewalkLoop self t n i s = .ok () s ∧
          ∀ j, i ≤ j → j < i + n → ent s.mem t j &&& PTE_V = 0) ∨
        (freewalkLoop self t n i s = .panic "freewalk: leaf" s ∧
          ∃ j, i ≤ j ∧ j < i + n ∧ ent s.mem t j &&& PTE_V ≠ 0) := by
  intro n
  induction n with
  | zero =>
    intro i _
    exact Or.inl ⟨rfl, fun j h1 h2 => by omega⟩
  | succ n ih =>
    intro i h
    rw [freewalkLoop_succ]
    by_cases hv : ent s.mem t i &&& PTE_V ≠ 0
    · have hr := h i (le_refl _) (by omega) hv
      rw [if_neg (fun c => hr c.2), if_pos hv]
      exact Or.inr ⟨rfl, i, le_refl _, by omega, hv⟩
    · rw [if_neg (fun c => hv c.1), if_neg hv]
      rcases ih (i + 1) (fun j h1 h2 => h j (by omega) (by omega)) with ⟨a, b⟩ | ⟨a, j, b1, b2, b3⟩
      · refine Or.inl ⟨a, ?_⟩
        intro j h1 h2
        by_cases e : j = i
        · subst e
          exact not_not.mp hv
        · exact b j (by omega) (by omega)
      · exact Or.inr ⟨a, j, by omega, by omega, b3⟩

/-- The loop of `freewalk` over the entries `i`, ..., 511 of a table above the
lowest level, given what the recursive call does on the tables one level down:
the loop ends normally exactly when all these entries are invalid or internal
with a leafless subtree, and then has zeroed every one of them; otherwise it
panics with "freewalk: leaf". -/
theorem freewalkLoop_level (m : Mem) (root : Nat) (wf : WF m root) (L d : Nat) (q : List Nat)
    (t : Nat) (hq : q.length + (L + 1) = 2) (hv : ValidPath q) (hp : pathTo m root q = some t)
    (hb : Bottom m (L + 1) t)
    (ih : ∀ q1 c s, q1.length + L = 2 → ValidPath q1 → pathTo m root q1 = some c →
      Bottom m L c → (∀ x, InSub m root q1 x → s.mem x = m x) →
      ∃ s1 l, (freewalk (d + 1) c s = .ok () s1 ∧ NoLeaf m L c ∧ c ∈ l ∨
          freewalk (d + 1) c s = .panic "freewalk: leaf" s1 ∧ ¬ NoLeaf m L c) ∧
        Walked m root q1 s s1 l) :
    ∀ n i s, i + n = 512 → (∀ x, Rest m root q t i x → s.mem x = m x) →
      ∃ s1 l,
        (freewalkLoop (freewalk (d + 1)) t n i s = .ok () s1 ∧
            (∀ j, i ≤ j → j < 512 → ent m t j &&& PTE_V ≠ 0 →
              ent m t j &&& (PTE_R ||| PTE_W ||| PTE_X) = 0 ∧
                NoLeaf m L (PTE2PA (ent m t j)) ∧ PTE2PA (ent m t j) ∈ l) ∧
            (∀ j, i ≤ j → j < 512 → ent s1.mem t j &&& PTE_V = 0) ∨
          freewalkLoop (freewalk (d + 1)) t n i s = .panic "freewalk: leaf" s1 ∧
            ∃ j, i ≤ j ∧ j < 512 ∧ ent m t j &&& PTE_V ≠ 0 ∧
              ¬ (ent m t j &&& (PTE_R ||| PTE_W ||| PTE_X) = 0 ∧
                NoLeaf m L (PTE2PA (ent m t j)))) ∧
        s1.free = l ++ s.free ∧
        (∀ x, ¬ Rest m root q t i x → s1.mem x = s.mem x) ∧
        (∀ x, s1.mem x = s.mem x ∨ s1.mem x = 0) ∧
        (∀ f, f ∈ l →
          (∃ j q1, i ≤ j ∧ ValidPath (q ++ j :: q1) ∧ pathTo m root (q ++ j :: q1) = some f) ∧
            Cleared m s1.mem l f) := by
  intro n
  induction n with
  | zero =>
    intro i s hi _
    refine ⟨s, [], Or.inl ⟨rfl, ?_, ?_⟩, rfl, fun _ _ => rfl, fun _ => Or.inl rfl, ?_⟩
    · intro j h1 h2
      omega
    · intro j h1 h2
      omega
    · intro f hf
      exact absurd hf (List.not_mem_nil f)
  | succ n ihn =>
    intro i s hi hag
    have hi' : i < 512 := by omega
    have ht : t % 4096 = 0 := pathTo_aligned m root t q wf.aligned hp
    have het : ent s.mem t i = ent m t i := by
      unfold ent
      apply read64_congr
      intro k hk
      exact hag _ ⟨i, le_refl _, hi', Or.inl ⟨by omega, by omega⟩⟩
    rw [freewalkLoop_succ, het]
    by_cases hvl : ent m t i &&& PTE_V ≠ 0
    · by_cases hrwx : ent m t i &&& (PTE_R ||| PTE_W ||| PTE_X) = 0
      · -- an internal entry: the recursive call, then the slot is zeroed
        rw [if_pos ⟨hvl, hrwx⟩]
        obtain ⟨c, hc⟩ : ∃ c, c = PTE2PA (ent m t i) := ⟨_, rfl⟩
        rw [← hc]
        have hvq : ValidPath (q ++ [i]) := validPath_snoc q i hv (by omega) hi'
        have hpc : pathTo m root (q ++ [i]) = some c := by
          rw [pathTo_append m root t q [i] hp, pathTo_one_some m t i hvl, hc]
        have hbc : Bottom m L c := by
          rw [hc]
          exact hb i hi' ⟨hvl, hrwx⟩
        obtain ⟨s1, l1, hout, W⟩ := ih (q ++ [i]) c s
          (by rw [List.length_append, List.length_singleton]; omega) hvq hpc hbc
          (fun x hx => hag x ⟨i, le_refl _, hi', Or.inr hx⟩)
        have hfix : ∀ f, f ∈ l1 →
            ∃ j q1, i ≤ j ∧ ValidPath (q ++ j :: q1) ∧ pathTo m root (q ++ j :: q1) = some f := by
          intro f hf
          obtain ⟨q1, a1, a2⟩ := (W.freed f hf).1
          rw [List.append_assoc] at a1 a2
          exact ⟨i, q1, le_refl _, a1, a2⟩
        rcases hout with ⟨hr, hnl, hcl⟩ | ⟨hr, hnl⟩
        · rw [hr]
          simp only
          obtain ⟨s2, hs2⟩ : ∃ s2 : State,
              s2 = { mem := write64 s1.mem (t + 8 * i) 0, free := s1.free } := ⟨_, rfl⟩
          rw [← hs2]
          have hm2 : s2.mem = write64 s1.mem (t + 8 * i) 0 := by rw [hs2]
          have hf2 : s2.free = s1.free := by rw [hs2]
          have hz2 : ∀ x, s2.mem x = s1.mem x ∨ s2.mem x = 0 := by
            intro x
            rw [hm2]
            exact write64_zero_zeroed _ _ _
          have hag2 : ∀ x, Rest m root q t (i + 1) x → s2.mem x = m x := by
            intro x hx
            have hx0 := hag x (rest_mono m root q t i x hx)
            obtain ⟨j, j1, j2, j3⟩ := hx
            have hnot : ¬ InSub m root (q ++ [i]) x := by
              intro hin
              rcases j3 with j3 | j3
              · exact inSub_not_page m root wf q t i x hv hp hin ⟨by omega, by omega⟩
              · have := inSub_disjoint m root wf q i j x j3 hin
                omega
            have hout : x < t + 8 * i ∨ t + 8 * i + 8 ≤ x := by
              rcases j3 with j3 | j3
              · omega
              · have := inSub_not_page m root wf q t j x hv hp j3
                omega
            rw [hm2, write64_out _ _ _ _ hout, W.frame x hnot, hx0]
          obtain ⟨s3, l3, hout3, g1, g2, g3, g4⟩ := ihn (i + 1) s2 (by omega) hag2
          have hz13 : ∀ x, s3.mem x = s1.mem x ∨ s3.mem x = 0 :=
            zeroed_trans _ _ _ hz2 g3
          refine ⟨s3, l3 ++ l1, ?_, ?_, ?_, ?_, ?_⟩
          · rcases hout3 with ⟨b1, b2, b3⟩ | ⟨b1, j, b2, b3, b4⟩
            · refine Or.inl ⟨b1, ?_, ?_⟩
              · intro j j1 j2 jv
                by_cases e : j = i
                · subst e
                  refine ⟨hrwx, ?_, List.mem_append_right _ ?_⟩
                  · rw [← hc]
                    exact hnl
                  · rw [← hc]
                    exact hcl
                · obtain ⟨c1, c2, c3⟩ := b2 j (by omega) j2 jv
                  exact ⟨c1, c2, List.mem_append_left _ c3⟩
              · intro j j1 j2
                by_cases e : j = i
                · subst e
                  apply ent_invalid_of_zeroed s2.mem s3.mem t j g3
                  unfold ent
                  rw [hm2, read64_write64_same _ _ _ (by decide)]
                  exact zero_invalid
                · exact b3 j (by omega) j2
            · exact Or.inr ⟨b1, j, by omega, b3, b4⟩
          · rw [g1, hf2, W.free, List.append_assoc]
          · intro x hx
            have h1 : ¬ Rest m root q t (i + 1) x := fun c => hx (rest_mono m root q t i x c)
            have h2 : x < t + 8 * i ∨ t + 8 * i + 8 ≤ x := by
              by_contra hc2
              exact hx ⟨i, le_refl _, hi', Or.inl ⟨by omega, by omega⟩⟩
            have h3 : ¬ InSub m root (q ++ [i]) x :=
              fun c => hx ⟨i, le_refl _, hi', Or.inr c⟩
            rw [g2 x h1, hm2, write64_out _ _ _ _ h2, W.frame x h3]
          · exact zeroed_trans _ _ _ W.zeroed hz13
          · intro f hf
            rcases List.mem_append.mp hf with hf | hf
            · obtain ⟨⟨j, q1, a1, a2, a3⟩, a4⟩ := g4 f hf
              exact ⟨⟨j, q1, by omega, a2, a3⟩,
                Cleared.after a4 (fun _ => Or.inl rfl) l1⟩
            · exact ⟨hfix f hf, Cleared.before (W.freed f hf).2 hz13 l3⟩
        · rw [hr]
          simp only
          refine ⟨s1, l1, Or.inr ⟨rfl, i, le_refl _, hi', hvl, ?_⟩, W.free, ?_, W.zeroed, ?_⟩
          · rw [← hc]
            exact fun c2 => hnl c2.2
          · intro x hx
            exact W.frame x (fun c => hx ⟨i, le_refl _, hi', Or.inr c⟩)
          · intro f hf
            exact ⟨hfix f hf, (W.freed f hf).2⟩
      · -- a leaf
        rw [if_neg (fun c => hrwx c.2), if_pos hvl]
        refine ⟨s, [], Or.inr ⟨rfl, i, le_refl _, hi', hvl, fun c => hrwx c.1⟩, rfl,
          fun _ _ => rfl, fun _ => Or.inl rfl, ?_⟩
        intro f hf
        exact absurd hf (List.not_mem_nil f)
    · -- an invalid entry
      rw [if_neg (fun c => hvl c.1), if_neg hvl]
      obtain ⟨s3, l3, hout3, g1, g2, g3, g4⟩ := ihn (i + 1) s (by omega)
        (fun x hx => hag x (rest_mono m root q t i x hx))
      refine ⟨s3, l3, ?_, g1, fun x hx => g2 x (fun c => hx (rest_mono m root q t i x c)), g3, ?_⟩
      · rcases hout3 with ⟨b1, b2, b3⟩ | ⟨b1, j, b2, b3, b4⟩
        · refine Or.inl ⟨b1, ?_, ?_⟩
          · intro j j1 j2 jv
            by_cases e : j = i
            · subst e
              exact absurd jv hvl
            · exact b2 j (by omega) j2 jv
          · intro j j1 j2
            by_cases e : j = i
            · subst e
              apply ent_invalid_of_zeroed s.mem s3.mem t j g3
              rw [het]
              exact not_not.mp hvl
            · exact b3 j (by omega) j2
        · exact Or.inr ⟨b1, j, by omega, b3, b4⟩
      · intro f hf
        obtain ⟨⟨j, q1, a1, a2, a3⟩, a4⟩ := g4 f hf
        exact ⟨⟨j, q1, by omega, a2, a3⟩, a4⟩

theorem noLeaf_zero (m : Mem) (t : Nat) :
    NoLeaf m 0 t = ∀ j, j < 512 → ent m t j &&& PTE_V = 0 := rfl

theorem noLeaf_succ (m : Mem) (L t : Nat) :
    NoLeaf m (L + 1) t = ∀ j, j < 512 → ent m t j &&& PTE_V ≠ 0 →
      ent m t j &&& (PTE_R ||| PTE_W ||| PTE_X) = 0 ∧ NoLeaf m L (PTE2PA (ent m t j)) := rfl

theorem bottom_zero (m : Mem) (t : Nat) :
    Bottom m 0 t = ∀ j, j < 512 → ent m t j &&& PTE_V ≠ 0 →
      ent m t j &&& (PTE_R ||| PTE_W ||| PTE_X) ≠ 0 := rfl

theorem bottom_succ (m : Mem) (L t : Nat) :
    Bottom m (L + 1) t = ∀ j, j < 512 → IsInternal (ent m t j) →
      Bottom m L (PTE2PA (ent m t j)) := rfl

/-- Function `freewalk` on a table of a well-formed tree that has `L` levels of
tables below it: the call ends normally, having released the table, exactly
when the subtree has no leaf, and panics with "freewalk: leaf" otherwise. -/
theorem freewalk_level (m : Mem) (root : Nat) (wf : WF m root) :
    ∀ L d q t s, q.length + L = 2 → ValidPath q → pathTo m root q = some t → L ≤ d →
      Bottom m L t → (∀ x, InSub m root q x → s.mem x = m x) →
      ∃ s1 l, (freewalk (d + 1) t s = .ok () s1 ∧ NoLeaf m L t ∧ t ∈ l ∨
          freewalk (d + 1) t s = .panic "freewalk: leaf" s1 ∧ ¬ NoLeaf m L t) ∧
        Walked m root q s s1 l := by
  intro L
  induction L with
  | zero =>
    intro d q t s _ hv hp _ hb hag
    rw [bottom_zero] at hb
    rw [noLeaf_zero]
    have hent : ∀ j, j < 512 → ent s.mem t j = ent m t j := fun j hj =>
      ent_congr_page m s.mem t j hj (fun x h1 h2 => hag x (inSub_self m root q t x hv hp h1 h2))
    have hself : ∃ q1, ValidPath (q ++ q1) ∧ pathTo m root (q ++ q1) = some t :=
      ⟨[], by rw [List.append_nil]; exact hv, by rw [List.append_nil]; exact hp⟩
    rw [freewalk_succ]
    rcases freewalkLoop_bottom (freewalk d) t s 512 0 (fun j _ hj hvj => by
        rw [hent j (by omega)] at hvj ⊢
        exact hb j (by omega) hvj) with ⟨a, b⟩ | ⟨a, j, _, b1, b2⟩
    · rw [a]
      simp only
      have hall : ∀ j, j < 512 → ent m t j &&& PTE_V = 0 := by
        intro j hj
        rw [← hent j hj]
        exact b j (Nat.zero_le _) (by omega)
      refine ⟨kfree t s, [t], Or.inl ⟨rfl, hall, List.mem_singleton_self t⟩,
        ⟨rfl, fun _ _ => rfl, fun _ => Or.inl rfl, ?_⟩⟩
      intro f hf
      rw [List.mem_singleton] at hf
      subst hf
      refine ⟨hself, fun j hj => b j (Nat.zero_le _) (by omega), [], [], rfl, ?_⟩
      intro j hj hvj
      exact absurd (hall j hj) hvj
    · rw [a]
      simp only
      refine ⟨s, [], Or.inr ⟨rfl, ?_⟩, ⟨rfl, fun _ _ => rfl, fun _ => Or.inl rfl, ?_⟩⟩
      · intro hn
        rw [hent j (by omega)] at b2
        exact b2 (hn j (by omega))
      · intro f hf
        exact absurd hf (List.not_mem_nil f)
  | succ L ihL =>
    intro d q t s hq hv hp hd hb hag
    obtain ⟨d1, rfl⟩ : ∃ d1, d = d1 + 1 := ⟨d - 1, by omega⟩
    have hself : ∃ q1, ValidPath (q ++ q1) ∧ pathTo m root (q ++ q1) = some t :=
      ⟨[], by rw [List.append_nil]; exact hv, by rw [List.append_nil]; exact hp⟩
    rw [freewalk_succ, noLeaf_succ]
    obtain ⟨s1, l, hout, g1, g2, g3, g4⟩ := freewalkLoop_level m root wf L d1 q t hq hv hp hb
      (fun q1 c s a1 a2 a3 a4 a5 => ihL d1 q1 c s a1 a2 a3 (by omega) a4 a5) 512 0 s rfl
      (fun x hx => hag x (rest_inSub m root q t 0 x hv hp hx))
    have hfr : ∀ x, ¬ InSub m root q x → s1.mem x = s.mem x :=
      fun x hx => g2 x (fun c => hx (rest_inSub m root q t 0 x hv hp c))
    rcases hout with ⟨b1, b2, b3⟩ | ⟨b1, j, _, b3, b4, b5⟩
    · rw [b1]
      simp only
      refine ⟨kfree t s1, t :: l, Or.inl ⟨rfl, ?_, List.mem_cons_self _ _⟩, ⟨?_, hfr, g3, ?_⟩⟩
      · intro j hj hvj
        exact ⟨(b2 j (Nat.zero_le _) hj hvj).1, (b2 j (Nat.zero_le _) hj hvj).2.1⟩
      · show t :: s1.free = t :: l ++ s.free
        rw [g1]
        rfl
      · intro f hf
        rcases List.mem_cons.mp hf with e | hf
        · subst e
          refine ⟨hself, fun j hj => b3 j (Nat.zero_le _) hj, [], l, rfl, ?_⟩
          intro j hj hvj
          exact ⟨⟨hvj, (b2 j (Nat.zero_le _) hj hvj).1⟩, (b2 j (Nat.zero_le _) hj hvj).2.2⟩
        · obtain ⟨⟨j, q1, _, a2, a3⟩, a4⟩ := g4 f hf
          exact ⟨⟨j :: q1, a2, a3⟩, Cleared.before a4 (fun _ => Or.inl rfl) [t]⟩
    · rw [b1]
      simp only
      refine ⟨s1, l, Or.inr ⟨rfl, ?_⟩, ⟨g1, hfr, g3, ?_⟩⟩
      · intro hn
        exact b5 (hn j b3 b4)
      · intro f hf
        obtain ⟨⟨j, q1, _, a2, a3⟩, a4⟩ := g4 f hf
        exact ⟨⟨j :: q1, a2, a3⟩, a4⟩

/-! ### Leaves and leafless trees -/

theorem ipathTo_nil (m : Mem) (t : Nat) : ipathTo m t [] = some t := rfl

theorem ipathTo_cons (m : Mem) (t i : Nat) (q : List Nat) :
    ipathTo m t (i :: q) =
      if IsInternal (ent m t i) then ipathTo m (PTE2PA (ent m t i)) q else none := rfl

/-- A leafless subtree holds no leaf in any table `freewalk` descends to. -/
theorem noLeaf_no_leaf (m : Mem) :
    ∀ (q : List Nat) (L t a j : Nat), NoLeaf m L t → q.length ≤ L → (∀ i, i ∈ q → i < 512) →
      ipathTo m t q = some a → j < 512 → ¬ IsLeaf (ent m a j) := by
  intro q
  induction q with
  | nil =>
    intro L t a j hn _ _ hp hj hl
    rw [ipathTo_nil] at hp
    injection hp with hp
    subst hp
    cases L with
    | zero =>
      rw [noLeaf_zero] at hn
      exact hl.1 (hn j hj)
    | succ L =>
      rw [noLeaf_succ] at hn
      exact hl.2 (hn j hj hl.1).1
  | cons i q ih =>
    intro L t a j hn hlen hidx hp hj
    cases L with
    | zero => simp at hlen
    | succ L =>
      rw [noLeaf_succ] at hn
      rw [ipathTo_cons] at hp
      by_cases hi : IsInternal (ent m t i)
      · rw [if_pos hi] at hp
        exact ih L _ a j (hn i (hidx i (List.mem_cons_self _ _)) hi.1).2
          (by rw [List.length_cons] at hlen; omega)
          (fun k hk => hidx k (List.mem_cons_of_mem _ hk)) hp hj
      · rw [if_neg hi] at hp
        cases hp

/-- A subtree that ends `L` levels down and holds no leaf in any table
`freewalk` descends to is leafless. -/
theorem noLeaf_of_no_leaf (m : Mem) :
    ∀ (L t : Nat), Bottom m L t →
      (∀ q a j, q.length ≤ L → (∀ i, i ∈ q → i < 512) → ipathTo m t q = some a → j < 512 →
        ¬ IsLeaf (ent m a j)) → NoLeaf m L t := by
  intro L
  induction L with
  | zero =>
    intro t hb h
    rw [bottom_zero] at hb
    rw [noLeaf_zero]
    intro j hj
    by_contra hvj
    exact h [] t j (le_refl _) (fun i hi => absurd hi (List.not_mem_nil i)) rfl hj
      ⟨hvj, hb j hj hvj⟩
  | succ L ih =>
    intro t hb h
    rw [bottom_succ] at hb
    rw [noLeaf_succ]
    intro j hj hvj
    have hr : ent m t j &&& (PTE_R ||| PTE_W ||| PTE_X) = 0 := by
      by_contra c
      exact h [] t j (Nat.zero_le _) (fun i hi => absurd hi (List.not_mem_nil i)) rfl hj
        ⟨hvj, c⟩
    refine ⟨hr, ih _ (hb j hj ⟨hvj, hr⟩) ?_⟩
    intro q a k h1 h2 h3 h4
    refine h (j :: q) a k (by rw [List.length_cons]; omega) ?_ ?_ h4
    · intro i hi
      rcases List.mem_cons.mp hi with e | hi
      · rw [e]
        exact hj
      · exact h2 i hi
    · rw [ipathTo_cons, if_pos ⟨hvj, hr⟩]
      exact h3

/-- On a three-level tree, being leafless is having no leaf where `freewalk`
descends. -/
theorem noLeaf_iff (m : Mem) (root : Nat) (hb : Bottom m 2 root) :
    NoLeaf m 2 root ↔ ¬ HasLeaf m root := by
  constructor
  · rintro hn ⟨q, t, j, hq, hp, hj, hl⟩
    exact noLeaf_no_leaf m q 2 root t j hn hq.1 hq.2 hp hj hl
  · intro hno
    exact noLeaf_of_no_leaf m 2 root hb
      (fun q a j h1 h2 h3 h4 hl => hno ⟨q, a, j, ⟨h1, h2⟩, h3, h4, hl⟩)

theorem pteOf_compose (m : Mem) (root j k l : Nat) (hj : j < 512) (hk : k < 512) (hl : l < 512)
    (hv : ent m root j &&& PTE_V ≠ 0)
    (hv2 : ent m (PTE2PA (ent m root j)) k &&& PTE_V ≠ 0) :
    ∃ b, b % 4096 = 0 ∧ b < 2 ^ 39 ∧
      pteOf m root b = ent m (PTE2PA (ent m (PTE2PA (ent m root j)) k)) l := by
  obtain ⟨e2, e1, e0, ha, hlt⟩ := PX_compose j k l hj hk hl
  refine ⟨j * 2 ^ 30 + k * 2 ^ 21 + l * 2 ^ 12, ha, hlt, ?_⟩
  unfold pteOf
  rw [e2, e1, e0, pathTo_two_some m root j k hv hv2]

theorem noLeaf_internal (m : Mem) (root : Nat) (hn : NoLeaf m 2 root) : Internal m root := by
  intro q t j hq hvq hpq hj hv
  rw [noLeaf_succ] at hn
  cases q with
  | nil =>
    injection hpq with e
    subst e
    exact (hn j hj hv).1
  | cons i q =>
    cases q with
    | nil =>
      rw [pathTo_one] at hpq
      by_cases hvi : ent m root i &&& PTE_V ≠ 0
      · rw [if_pos hvi] at hpq
        injection hpq with e
        subst e
        have h1 := (hn i (hvq.2 i (List.mem_cons_self _ _)) hvi).2
        rw [noLeaf_succ] at h1
        exact (h1 j hj hv).1
      · rw [if_neg hvi] at hpq
        cases hpq
    | cons k q => simp at hq

theorem noLeaf_clear (m : Mem) (root : Nat) (hn : NoLeaf m 2 root) (b : Nat) :
    pteOf m root b &&& PTE_V = 0 := by
  rw [noLeaf_succ] at hn
  unfold pteOf
  rw [pathTo_two]
  by_cases h2 : ent m root (PX 2 b) &&& PTE_V ≠ 0
  · rw [if_pos h2]
    have h := (hn _ (PX_lt _ _) h2).2
    rw [noLeaf_succ] at h
    by_cases h1 : ent m (PTE2PA (ent m root (PX 2 b))) (PX 1 b) &&& PTE_V ≠ 0
    · rw [if_pos h1]
      have h0 := (h _ (PX_lt _ _) h1).2
      rw [noLeaf_zero] at h0
      exact h0 _ (PX_lt _ _)
    · rw [if_neg h1]
      exact zero_invalid
  · rw [if_neg h2]
    exact zero_invalid

/-- A tree whose upper valid entries are internal and in which no page is
mapped is leafless. -/
theorem noLeaf_of_clear (m : Mem) (root : Nat) (hint : Internal m root)
    (hclr : ∀ b, b % 4096 = 0 → b < 2 ^ 39 → pteOf m root b &&& PTE_V = 0) :
    NoLeaf m 2 root := by
  rw [noLeaf_succ]
  intro j hj hvj
  refine ⟨hint [] root j (by simp) validPath_nil rfl hj hvj, ?_⟩
  rw [noLeaf_succ]
  intro k hk hvk
  refine ⟨hint [j] _ k (by simp) (validPath_one j hj) (pathTo_one_some m root j hvj) hk hvk, ?_⟩
  rw [noLeaf_zero]
  intro l hl
  obtain ⟨b, b1, b2, b3⟩ := pteOf_compose m root j k l hj hk hl hvj hvk
  rw [← b3]
  exact hclr b b1 b2

/-- A tree whose mapped pages all have one of `PTE_R`, `PTE_W`, `PTE_X` has
three levels. -/
theorem bottom_of_pte (m : Mem) (root : Nat)
    (h : ∀ b, b % 4096 = 0 → b < 2 ^ 39 → pteOf m root b &&& PTE_V ≠ 0 →
      pteOf m root b &&& (PTE_R ||| PTE_W ||| PTE_X) ≠ 0) : Bottom m 2 root := by
  rw [bottom_succ]
  intro j hj hij
  rw [bottom_succ]
  intro k hk hik
  rw [bottom_zero]
  intro l hl hvl
  obtain ⟨b, b1, b2, b3⟩ := pteOf_compose m root j k l hj hk hl hij.1 hik.1
  rw [← b3] at hvl ⊢
  exact h b b1 b2 hvl

/-! ### `freewalk` on arbitrary memory -/

/-- The loop of `freewalk` on any table in any memory, given that the recursive
call writes only zeros and releases only frames without a valid entry: so does
the loop, and when it ends normally the entries it went over are invalid. -/
theorem freewalkLoop_any (self : Nat → State → Res Unit) (t : Nat)
    (hself : ∀ c s, ∃ s1 l,
      (self c s = .ok () s1 ∨ self c s = .panic "freewalk: leaf" s1 ∨
        self c s = .panic "fuel" s1) ∧
      s1.free = l ++ s.free ∧ (∀ x, s1.mem x = s.mem x ∨ s1.mem x = 0) ∧
      ∀ f, f ∈ l → ∀ j, j < 512 → ent s1.mem f j &&& PTE_V = 0) :
    ∀ n i s, ∃ s1 l,
      (freewalkLoop self t n i s = .ok () s1 ∧
          (∀ j, i ≤ j → j < i + n → ent s1.mem t j &&& PTE_V = 0) ∨
        freewalkLoop self t n i s = .panic "freewalk: leaf" s1 ∨
        freewalkLoop self t n i s = .panic "fuel" s1) ∧
      s1.free = l ++ s.free ∧ (∀ x, s1.mem x = s.mem x ∨ s1.mem x = 0) ∧
      ∀ f, f ∈ l → ∀ j, j < 512 → ent s1.mem f j &&& PTE_V = 0 := by
  intro n
  induction n with
  | zero =>
    intro i s
    exact ⟨s, [], Or.inl ⟨rfl, fun j h1 h2 => by omega⟩, rfl, fun _ => Or.inl rfl,
      fun f hf => absurd hf (List.not_mem_nil f)⟩
  | succ n ih =>
    intro i s
    rw [freewalkLoop_succ]
    by_cases hvl : ent s.mem t i &&& PTE_V ≠ 0
    · by_cases hrwx : ent s.mem t i &&& (PTE_R ||| PTE_W ||| PTE_X) = 0
      · rw [if_pos ⟨hvl, hrwx⟩]
        obtain ⟨s1, l1, hout, f1, z1, c1⟩ := hself (PTE2PA (ent s.mem t i)) s
        rcases hout with hr | hr | hr
        · rw [hr]
          simp only
          obtain ⟨s3, l3, hout3, f3, z3, c3⟩ := ih (i + 1)
            { mem := write64 s1.mem (t + 8 * i) 0, free := s1.free }
          have z13 : ∀ x, s3.mem x = s1.mem x ∨ s3.mem x = 0 :=
            zeroed_trans _ _ _ (fun x => write64_zero_zeroed s1.mem (t + 8 * i) x) z3
          refine ⟨s3, l3 ++ l1, ?_, ?_, zeroed_trans _ _ _ z1 z13, ?_⟩
          · rcases hout3 with ⟨a, b⟩ | a | a
            · refine Or.inl ⟨a, ?_⟩
              intro j j1 j2
              by_cases e : j = i
              · subst e
                apply ent_invalid_of_zeroed (write64 s1.mem (t + 8 * j) 0) s3.mem t j z3
                unfold ent
                rw [read64_write64_same _ _ _ (by decide)]
                exact zero_invalid
              · exact b j (by omega) (by omega)
            · exact Or.inr (Or.inl a)
            · exact Or.inr (Or.inr a)
          · rw [f3]
            show l3 ++ s1.free = _
            rw [f1, List.append_assoc]
          · intro f hf j hj
            rcases List.mem_append.mp hf with hf | hf
            · exact c3 f hf j hj
            · exact ent_invalid_of_zeroed s1.mem s3.mem f j z13 (c1 f hf j hj)
        · rw [hr]
          exact ⟨s1, l1, Or.inr (Or.inl rfl), f1, z1, c1⟩
        · rw [hr]
          exact ⟨s1, l1, Or.inr (Or.inr rfl), f1, z1, c1⟩
      · rw [if_neg (fun c => hrwx c.2), if_pos hvl]
        exact ⟨s, [], Or.inr (Or.inl rfl), rfl, fun _ => Or.inl rfl,
          fun f hf => absurd hf (List.not_mem_nil f)⟩
    · rw [if_neg (fun c => hvl c.1), if_neg hvl]
      obtain ⟨s3, l3, hout3, f3, z3, c3⟩ := ih (i + 1) s
      refine ⟨s3, l3, ?_, f3, z3, c3⟩
      rcases hout3 with ⟨a, b⟩ | a | a
      · refine Or.inl ⟨a, ?_⟩
        intro j j1 j2
        by_cases e : j = i
        · subst e
          exact ent_invalid_of_zeroed s.mem s3.mem t j z3 (not_not.mp hvl)
        · exact b j (by omega) (by omega)
      · exact Or.inr (Or.inl a)
      · exact Or.inr (Or.inr a)

/-- Function `freewalk` on any table in any memory, with any bound on the
nesting: it writes only zeros, and every frame it releases has no valid entry
left. -/
theorem freewalk_any :
    ∀ depth t s, ∃ s1 l,
      (freewalk depth t s = .ok () s1 ∨ freewalk depth t s = .panic "freewalk: leaf" s1 ∨
        freewalk depth t s = .panic "fuel" s1) ∧
      s1.free = l ++ s.free ∧ (∀ x, s1.mem x = s.mem x ∨ s1.mem x = 0) ∧
      ∀ f, f ∈ l → ∀ j, j < 512 → ent s1.mem f j &&& PTE_V = 0 := by
  intro depth
  induction depth with
  | zero =>
    intro t s
    exact ⟨s, [], Or.inr (Or.inr rfl), rfl, fun _ => Or.inl rfl,
      fun f hf => absurd hf (List.not_mem_nil f)⟩
  | succ d ih =>
    intro t s
    rw [freewalk_succ]
    obtain ⟨s1, l, hout, f1, z1, c1⟩ := freewalkLoop_any (freewalk d) t ih 512 0 s
    rcases hout with ⟨a, b⟩ | a | a
    · rw [a]
      refine ⟨kfree t s1, t :: l, Or.inl rfl, ?_, z1, ?_⟩
      · show t :: s1.free = t :: l ++ s.free
        rw [f1]
        rfl
      · intro f hf j hj
        rcases List.mem_cons.mp hf with e | hf
        · subst e
          exact b j (Nat.zero_le _) (by omega)
        · exact c1 f hf j hj
    · rw [a]
      exact ⟨s1, l, Or.inr (Or.inl rfl), f1, z1, c1⟩
    · rw [a]
      exact ⟨s1, l, Or.inr (Or.inr rfl), f1, z1, c1⟩

/-- Function `freewalk` on the root of a well-formed three-level tree, with
room for three nested calls: it ends normally exactly when the tree has no
leaf, releasing then every table once, children before parents, and panics with
"freewalk: leaf" otherwise. -/
theorem freewalk_tree (d root : Nat) (s : State) (wf : WF s.mem root)
    (hb : Bottom s.mem 2 root) :
    ∃ s1 l, (freewalk (d + 3) root s = .ok () s1 ∧ ¬ HasLeaf s.mem root ∧
          l = (tableFrames s.mem 2 root).reverse ∨
        freewalk (d + 3) root s = .panic "freewalk: leaf" s1 ∧ HasLeaf s.mem root) ∧
      Walked s.mem root [] s s1 l := by
  obtain ⟨s1, l, hout, W⟩ := freewalk_level s.mem root wf 2 (d + 2) [] root s rfl validPath_nil
    rfl (by omega) hb (fun _ _ => rfl)
  refine ⟨s1, l, ?_, W⟩
  rcases hout with ⟨a, hn, _⟩ | ⟨a, hn⟩
  · refine Or.inl ⟨a, (noLeaf_iff s.mem root hb).mp hn, ?_⟩
    obtain ⟨s2, a2, f2⟩ := freewalk_root d root s
      (teardown_of_wf s.mem root wf (noLeaf_internal s.mem root hn)
        (fun b _ _ => noLeaf_clear s.mem root hn b))
    rw [a] at a2
    injection a2 with _ e
    subst e
    have := W.free
    rw [f2] at this
    exact (List.append_cancel_right this).symm
  · refine Or.inr ⟨a, ?_⟩
    by_contra c
    exact hn ((noLeaf_iff s.mem root hb).mpr c)

/-! ### Two trees to tear down -/

theorem leafPte_uperm_rwx (pa : Nat) :
    leafPte pa uperm &&& (PTE_R ||| PTE_W ||| PTE_X) ≠ 0 := by
  have h := PTE_FLAGS_leafPte pa (PTE_W ||| PTE_X ||| PTE_R ||| PTE_U) (by decide)
  have e : (PTE_R ||| PTE_W ||| PTE_X) = 0x3FF &&& (PTE_R ||| PTE_W ||| PTE_X) := by decide
  rw [e, ← Nat.and_assoc]
  unfold PTE_FLAGS at h
  unfold uperm
  rw [h]
  decide

/-- A mapped page whose entry has one of `PTE_R`, `PTE_W`, `PTE_X`, below upper
entries that are internal, is a leaf where `freewalk` descends. -/
theorem hasLeaf_of_pte (m : Mem) (root b : Nat) (hint : Internal m root)
    (hv : pteOf m root b &&& PTE_V ≠ 0)
    (hr : pteOf m root b &&& (PTE_R ||| PTE_W ||| PTE_X) ≠ 0) : HasLeaf m root := by
  unfold pteOf at hv hr
  rw [pathTo_two] at hv hr
  by_cases h2 : ent m root (PX 2 b) &&& PTE_V ≠ 0
  · rw [if_pos h2] at hv hr
    by_cases h1 : ent m (PTE2PA (ent m root (PX 2 b))) (PX 1 b) &&& PTE_V ≠ 0
    · rw [if_pos h1] at hv hr
      refine ⟨[PX 2 b, PX 1 b], PTE2PA (ent m (PTE2PA (ent m root (PX 2 b))) (PX 1 b)), PX 0 b,
        validPath_PX b, ?_, PX_lt _ _, ⟨hv, hr⟩⟩
      rw [ipathTo_cons, if_pos ⟨h2, hint [] root _ (by simp) validPath_nil rfl (PX_lt _ _) h2⟩,
        ipathTo_cons, if_pos ⟨h1, hint [PX 2 b] _ _ (by simp) (validPath_one _ (PX_lt _ _))
          (pathTo_one_some m root _ h2) (PX_lt _ _) h1⟩, ipathTo_nil]
    · rw [if_neg h1] at hv
      exact absurd zero_invalid hv
  · rw [if_neg h2] at hv
    exact absurd zero_invalid hv

/-- The address space `st5` is well formed, has three levels and holds a leaf,
the entry of page 0. -/
theorem st5_tree : WF st5.mem 0x1000 ∧ Bottom st5.mem 2 0x1000 ∧ HasLeaf st5.mem 0x1000 := by
  obtain ⟨wf, _, hint, hpte⟩ := st5_inv
  have h0 := hpte 0 (by decide) (by decide)
  rw [if_pos (by decide)] at h0
  refine ⟨wf, ?_, ?_⟩
  · refine bottom_of_pte st5.mem 0x1000 ?_
    intro b hb hb2 hv
    rw [hpte b hb hb2] at hv ⊢
    by_cases h : b < 8192
    · rw [if_pos h]
      exact leafPte_uperm_rwx _
    · rw [if_neg h] at hv
      exact absurd zero_invalid hv
  · refine hasLeaf_of_pte st5.mem 0x1000 0 hint ?_ ?_
    · rw [h0]
      exact leafPte_valid _ _
    · rw [h0]
      exact leafPte_uperm_rwx _

/-- The tree `st8` is well formed, has three levels and holds no leaf. -/
theorem st8_inv : WF st8.mem 0x1000 ∧ Bottom st8.mem 2 0x1000 ∧ ¬ HasLeaf st8.mem 0x1000 := by
  obtain ⟨r, s', used, h, wf, _, _, hpte, _⟩ :=
    walk_alloc 0x1000 0 1 (by decide) st0 wf_st0 fresh_st0 (by decide)
  have hint : Internal s'.mem 0x1000 :=
    (walk_grown 0x1000 0 1 (by decide) st0 s' r wf_st0 fresh_st0 h).internal
      (internal_zeroMem _)
  have e : st8 = s' := by
    unfold st8
    rw [h]
    rfl
  rw [e]
  have hclr : ∀ b, b % 4096 = 0 → b < 2 ^ 39 → pteOf s'.mem 0x1000 b &&& PTE_V = 0 := by
    intro b _ _
    rw [hpte b]
    show pteOf zeroMem 0x1000 b &&& PTE_V = 0
    rw [pteOf_zeroMem]
    exact zero_invalid
  have hb : Bottom s'.mem 2 0x1000 :=
    bottom_of_pte s'.mem 0x1000 (fun b h1 h2 hv => absurd (hclr b h1 h2) hv)
  exact ⟨wf, hb, (noLeaf_iff s'.mem 0x1000 hb).mp (noLeaf_of_clear s'.mem 0x1000 hint hclr)⟩

/-! ## Counting the frames a run takes from the allocator -/

theorem framesNeeded_zero (c : Nat) (M : Nat → Nat) (a : Nat) : framesNeeded c 0 M a = 0 := rfl

theorem framesNeeded_succ (c k : Nat) (M : Nat → Nat) (a : Nat) :
    framesNeeded c (k + 1) M a = c + M a + framesNeeded c k (nextMissing M a) (a + 4096) := rfl

theorem framesNeeded_mono (c : Nat) :
    ∀ k M a, framesNeeded c k M a + c ≤ framesNeeded c (k + 1) M a := by
  intro k
  induction k with
  | zero =>
    intro M a
    rw [framesNeeded_succ, framesNeeded_zero]
    omega
  | succ k ih =>
    intro M a
    rw [framesNeeded_succ c (k + 1), framesNeeded_succ c k]
    have := ih (nextMissing M a) (a + 4096)
    omega

theorem framesNeeded_le (c : Nat) (M : Nat → Nat) (a : Nat) :
    ∀ j k, j ≤ k → framesNeeded c j M a + c * (k - j) ≤ framesNeeded c k M a := by
  intro j k hjk
  induction k with
  | zero =>
    have : j = 0 := by omega
    subst this
    simp
  | succ k ih =>
    by_cases h : j = k + 1
    · subst h
      simp
    · have h1 := ih (by omega)
      have h2 := framesNeeded_mono c k M a
      have e : c * (k + 1 - j) = c * (k - j) + c := by
        rw [show k + 1 - j = (k - j) + 1 by omega, Nat.mul_succ]
      omega

theorem missing_paths (m : Mem) (root b : Nat) :
    missing m b 2 root =
      if pathTo m root [PX 2 b] = none then 2
      else if pathTo m root [PX 2 b, PX 1 b] = none then 1 else 0 := by
  rw [missing_two, pathTo_one, pathTo_two, l1table]
  by_cases h2 : ent m root (PX 2 b) &&& PTE_V ≠ 0
  · by_cases h1 : ent m (PTE2PA (ent m root (PX 2 b))) (PX 1 b) &&& PTE_V ≠ 0
    · simp only [if_pos h2, if_pos h1]
      simp
    · simp only [if_pos h2, if_neg h1]
      simp
  · simp only [if_neg h2]
    simp

theorem path_prefix (m : Mem) (root x y t : Nat) (h : pathTo m root [x, y] = some t) :
    ∃ t1, pathTo m root [x] = some t1 := by
  rw [pathTo_two] at h
  rw [pathTo_one]
  by_cases h2 : ent m root x &&& PTE_V ≠ 0
  · rw [if_pos h2]
    exact ⟨_, rfl⟩
  · rw [if_neg h2] at h
    cases h

/-- A path that reaches none of the frames taken from the allocator leads
where it led before. -/
theorem step_path_same {root : Nat} {s s' : State} {used : List Nat} (st : Step root s s' used)
    (q : List Nat) (hq : ValidPath q) (hoff : ∀ u, u ∈ used → pathTo s'.mem root q ≠ some u) :
    pathTo s'.mem root q = pathTo s.mem root q := by
  cases hp : pathTo s.mem root q with
  | some t => exact st.old q t hq hp
  | none =>
    cases hp' : pathTo s'.mem root q with
    | none => rfl
    | some t =>
      rcases st.fresh q t hq hp' with h | h
      · rw [hp] at h
        cases h
      · exact absurd hp' (hoff t h)

/-- Code that makes no new page-table page leaves the number of missing
page-table pages of every page as it was. -/
theorem missing_same_of_step {root : Nat} {s s' : State} {used : List Nat}
    (st : Step root s s' used) (hno : ∀ u, u ∈ used → ¬ TablePage s'.mem root u) (b : Nat) :
    missing s'.mem b 2 root = missing s.mem b 2 root := by
  have h1 := step_path_same st [PX 2 b] (validPath_one _ (PX_lt _ _))
    (fun u hu hp => hno u hu ⟨_, validPath_one _ (PX_lt _ _), hp⟩)
  have h2 := step_path_same st [PX 2 b, PX 1 b] (validPath_PX b)
    (fun u hu hp => hno u hu ⟨_, validPath_PX b, hp⟩)
  rw [missing_paths, missing_paths, h1, h2]

/-- The frames an allocating walk to page `a` takes are the page-table pages it
puts on the way to `a`. -/
theorem used_on_path (root a : Nat) (s s' : State) (used : List Nat) (t0 : Nat)
    (wf' : WF s'.mem root) (st : Step root s s' used)
    (hlen : used.length = missing s.mem a 2 root)
    (hp : pathTo s'.mem root [PX 2 a, PX 1 a] = some t0) :
    ∀ u, u ∈ used → pathTo s'.mem root [PX 2 a] = some u ∨
      pathTo s'.mem root [PX 2 a, PX 1 a] = some u := by
  obtain ⟨t1, hp1⟩ := path_prefix _ _ _ _ _ hp
  have v1 : ValidPath [PX 2 a] := validPath_one _ (PX_lt _ _)
  have v2 : ValidPath [PX 2 a, PX 1 a] := validPath_PX a
  have hne : t1 ≠ t0 := by
    intro e
    rw [e] at hp1
    have := wf'.inj _ _ t0 v1 v2 hp1 hp
    simp at this
  rw [missing_paths] at hlen
  intro u hu
  by_cases c1 : pathTo s.mem root [PX 2 a] = none
  · rw [if_pos c1] at hlen
    have hu1 : t1 ∈ used := by
      rcases st.fresh _ _ v1 hp1 with h | h
      · rw [c1] at h
        cases h
      · exact h
    have hu0 : t0 ∈ used := by
      rcases st.fresh _ _ v2 hp with h | h
      · obtain ⟨x, hx⟩ := path_prefix _ _ _ _ _ h
        rw [c1] at hx
        cases hx
      · exact h
    match used, hlen with
    | [x, y], _ =>
      simp only [List.mem_cons, List.mem_singleton, List.not_mem_nil, or_false] at hu hu1 hu0
      rcases hu with rfl | rfl
      · rcases hu1 with h | h
        · rw [← h]
          exact Or.inl hp1
        · rcases hu0 with h0 | h0
          · rw [← h0]
            exact Or.inr hp
          · exact absurd (h.trans h0.symm) hne
      · rcases hu1 with h | h
        · rcases hu0 with h0 | h0
          · exact absurd (h.trans h0.symm) hne
          · rw [← h0]
            exact Or.inr hp
        · rw [← h]
          exact Or.inl hp1
  · rw [if_neg c1] at hlen
    by_cases c2 : pathTo s.mem root [PX 2 a, PX 1 a] = none
    · rw [if_pos c2] at hlen
      have hu0 : t0 ∈ used := by
        rcases st.fresh _ _ v2 hp with h | h
        · rw [c2] at h
          cases h
        · exact h
      match used, hlen with
      | [x], _ =>
        simp only [List.mem_singleton] at hu hu0
        rw [hu, ← hu0]
        exact Or.inr hp
    · rw [if_neg c2] at hlen
      have : used = [] := List.length_eq_zero.mp hlen
      rw [this] at hu
      exact absurd hu (List.not_mem_nil u)

/-- The number of missing page-table pages of every page after an allocating
walk to page `a` that reached the level-0 table. -/
theorem missing_step (root a : Nat) (s s' : State) (used : List Nat) (t0 : Nat)
    (wf' : WF s'.mem root) (st : Step root s s' used)
    (hp : pathTo s'.mem root [PX 2 a, PX 1 a] = some t0)
    (hon : ∀ u, u ∈ used → TablePage s'.mem root u →
      pathTo s'.mem root [PX 2 a] = some u ∨ pathTo s'.mem root [PX 2 a, PX 1 a] = some u)
    (b : Nat) :
    missing s'.mem b 2 root = nextMissing (fun b => missing s.mem b 2 root) a b := by
  obtain ⟨t1, hp1⟩ := path_prefix _ _ _ _ _ hp
  have v1 : ValidPath [PX 2 a] := validPath_one _ (PX_lt _ _)
  have v2 : ValidPath [PX 2 a, PX 1 a] := validPath_PX a
  have hsame : ∀ q, ValidPath q → q ≠ [PX 2 a] → q ≠ [PX 2 a, PX 1 a] →
      pathTo s'.mem root q = pathTo s.mem root q := by
    intro q hq n1 n2
    apply step_path_same st q hq
    intro u hu hpu
    rcases hon u hu ⟨q, hq, hpu⟩ with h | h
    · exact n1 (wf'.inj _ _ u hq v1 hpu h)
    · exact n2 (wf'.inj _ _ u hq v2 hpu h)
  show _ = if PX 2 b = PX 2 a then (if PX 1 b = PX 1 a then 0 else min 1 (missing s.mem b 2 root))
    else missing s.mem b 2 root
  rw [missing_paths s'.mem, missing_paths s.mem]
  by_cases e2 : PX 2 b = PX 2 a
  · rw [if_pos e2, e2, hp1, if_neg (by simp)]
    by_cases e1 : PX 1 b = PX 1 a
    · rw [if_pos e1, e1, hp, if_neg (by simp)]
    · rw [if_neg e1, hsame [PX 2 a, PX 1 b] (validPath_two _ _ (PX_lt _ _) (PX_lt _ _))
        (by simp) (by simpa using e1)]
      cases c2 : pathTo s.mem root [PX 2 a, PX 1 b] with
      | none =>
        rw [if_pos rfl]
        split <;> simp
      | some t =>
        obtain ⟨x, hx⟩ := path_prefix _ _ _ _ _ c2
        rw [hx]
        simp
  · rw [if_neg e2, hsame [PX 2 b] (validPath_one _ (PX_lt _ _)) (by simpa using e2) (by simp),
      hsame [PX 2 b, PX 1 b] (validPath_PX b) (by simp) (by simp [e2])]

/-- One page installed by `mappages`: the missing page-table pages of every
page afterwards, and the frames left in the allocator. -/
theorem mappagesLoop_iter_count (root last : Nat) (perm : Int) (fuel a pa : Nat) (s : State)
    (wf : WF s.mem root) (fr : Fresh s.mem root s.free) (ha : a % 4096 = 0) (hmax : a < MAXVA)
    (hv : pteOf s.mem root a &&& PTE_V = 0) (hfree : missing s.mem a 2 root ≤ s.free.length) :
    ∃ s1 used, WF s1.mem root ∧ Fresh s1.mem root s1.free ∧ Step root s s1 used ∧
      used.length = missing s.mem a 2 root ∧
      (∀ u, u ∈ used → TablePage s1.mem root u) ∧
      (fun b => missing s1.mem b 2 root) = nextMissing (fun b => missing s.mem b 2 root) a ∧
      (∀ b, b % 4096 = 0 → b < 2 ^ 39 →
        pteOf s1.mem root b = if b = a then leafPte pa perm else pteOf s.mem root b) ∧
      mappagesLoop root last perm (fuel + 1) a pa s =
        if a = last then .ok 0 s1
        else mappagesLoop root last perm fuel (a + 4096) ((pa + 4096) % 2 ^ 64) s1 := by
  obtain ⟨s1, used, t0, wf1, fr1, st1, hlen, hp1, pte1, _, hR⟩ :=
    mappagesLoop_iter_fine root last perm fuel a pa s wf fr ha hmax hv hfree
  have hon := used_on_path root a s s1 used t0 wf1 st1 hlen hp1
  refine ⟨s1, used, wf1, fr1, st1, hlen, ?_, ?_, pte1, hR⟩
  · intro u hu
    rcases hon u hu with h | h
    · exact ⟨_, validPath_one _ (PX_lt _ _), h⟩
    · exact ⟨_, validPath_PX a, h⟩
  · funext b
    exact missing_step root a s s1 used t0 wf1 st1 hp1 (fun u hu _ => hon u hu) b

/-- The loop of `mappages` from page `a` when the page `j` pages further on is
already mapped and the allocator holds the page-table pages for the pages
before it: the loop panics with "remap". -/
theorem mappagesLoop_remap (root last : Nat) (perm : Int) :
    ∀ j fuel a pa s, WF s.mem root → Fresh s.mem root s.free → a % 4096 = 0 →
      a + j * 4096 ≤ last → last < MAXVA → j < fuel →
      pteOf s.mem root (a + j * 4096) &&& PTE_V ≠ 0 →
      framesNeeded 0 j (fun b => missing s.mem b 2 root) a ≤ s.free.length →
      ∃ s', mappagesLoop root last perm fuel a pa s = .panic "remap" s' := by
  have hM := MAXVA_eq
  intro j
  induction j with
  | zero =>
    intro fuel a pa s wf fr ha hlast hmax hfuel hmap _
    obtain ⟨fuel, rfl⟩ : ∃ f, fuel = f + 1 := ⟨fuel - 1, by omega⟩
    rw [Nat.zero_mul, Nat.add_zero] at hmap
    obtain ⟨s1, used, _, _, _, hres⟩ :=
      mappagesLoop_iter root last perm fuel a pa s wf fr ha (by omega)
    rcases hres with ⟨_, _, hR⟩ | ⟨hv, _⟩ | ⟨hv, _⟩
    · exact ⟨s1, hR⟩
    · exact absurd hv hmap
    · exact absurd hv hmap
  | succ j ih =>
    intro fuel a pa s wf fr ha hlast hmax hfuel hmap hfree
    obtain ⟨fuel, rfl⟩ : ∃ f, fuel = f + 1 := ⟨fuel - 1, by omega⟩
    by_cases hv : pteOf s.mem root a &&& PTE_V = 0
    · rw [framesNeeded_succ] at hfree
      obtain ⟨s1, used, wf1, fr1, st1, hlen, _, hmiss, pte1, hR⟩ :=
        mappagesLoop_iter_count root last perm fuel a pa s wf fr ha (by omega) hv (by omega)
      have hfl : s.free.length = used.length + s1.free.length := by
        rw [st1.free, List.length_append]
      have e : a + 4096 + j * 4096 = a + (j + 1) * 4096 := by omega
      obtain ⟨s', hR'⟩ := ih fuel (a + 4096) ((pa + 4096) % 2 ^ 64) s1 wf1 fr1 (by omega)
        (by omega) hmax (by omega)
        (by
          rw [e, pte1 _ (by omega) (by omega), if_neg (by omega)]
          exact hmap)
        (by
          rw [hmiss]
          omega)
      exact ⟨s', by rw [hR, if_neg (by omega), hR']⟩
    · obtain ⟨s1, used, _, _, _, hres⟩ :=
        mappagesLoop_iter root last perm fuel a pa s wf fr ha (by omega)
      rcases hres with ⟨_, _, hR⟩ | ⟨hv', _⟩ | ⟨hv', _⟩
      · exact ⟨s1, hR⟩
      · exact absurd hv' hv
      · exact absurd hv' hv

/-- One iteration of the loop of `uvmalloc` at a page `a` that is not yet
mapped, by the frames the allocator holds: none, and `kalloc` fails; fewer than
the data frame and the missing page-table pages, and `mappages` fails;
otherwise the page is installed, that many frames are gone and the loop goes
on. -/
theorem uvmallocLoop_iter_count (root oldsz newsz fuel a : Nat) (s : State)
    (wf : WF s.mem root) (fr : Fresh s.mem root s.free) (ha : a % 4096 = 0)
    (hlt : a < newsz) (hnew : newsz ≤ MAXVA) (hun : pteOf s.mem root a &&& PTE_V = 0) :
    (s.free = [] ∧
      uvmallocLoop root oldsz newsz (fuel + 1) a s =
        match uvmdealloc root a oldsz s with
        | .panic msg s1 => .panic msg s1
        | .ok _ s1 => .ok 0 s1) ∨
    (∃ d sM used, WF sM.mem root ∧ Fresh sM.mem root sM.free ∧ Step root s sM (d :: used) ∧
      (∀ b, pteOf sM.mem root b = pteOf s.mem root b) ∧ sM.free = [] ∧
      ¬ TablePage sM.mem root d ∧ s.free.length < 1 + missing s.mem a 2 root ∧
      uvmallocLoop root oldsz newsz (fuel + 1) a s =
        match uvmdealloc root a oldsz { mem := sM.mem, free := [d] } with
        | .panic msg s1 => .panic msg s1
        | .ok _ s1 => .ok 0 s1) ∨
    (∃ d s3 used, WF s3.mem root ∧ Fresh s3.mem root s3.free ∧ Step root s s3 (d :: used) ∧
      (∀ b, b % 4096 = 0 → b < 2 ^ 39 →
        pteOf s3.mem root b = if b = a then leafPte d uperm else pteOf s.mem root b) ∧
      d % 4096 = 0 ∧ d < 2 ^ 64 ∧ d ∉ s3.free ∧ ¬ TablePage s3.mem root d ∧
      (∀ x, d ≤ x → x < d + 4096 → s3.mem x = 0) ∧
      s.free.length = s3.free.length + (1 + missing s.mem a 2 root) ∧
      (fun b => missing s3.mem b 2 root) = nextMissing (fun b => missing s.mem b 2 root) a ∧
      uvmallocLoop root oldsz newsz (fuel + 1) a s =
        uvmallocLoop root oldsz newsz fuel (a + 4096) s3) := by
  have hM := MAXVA_eq
  have hP : PGSIZE = 4096 := rfl
  rw [uvmallocLoop_succ, if_pos hlt]
  cases hfree : s.free with
  | nil =>
    left
    have hk : kalloc s = (0, s) := by simp [kalloc, hfree]
    rw [hk]
    exact ⟨rfl, rfl⟩
  | cons d rest =>
    right
    have fr' : Fresh s.mem root (d :: rest) := hfree ▸ fr
    obtain ⟨hd1, hd0, hd2⟩ := fr'.frame d (by simp)
    have hnd := List.nodup_cons.mp fr'.nodup
    have hk : kalloc s = (d, { mem := s.mem, free := rest }) := by simp [kalloc, hfree]
    rw [hk]
    simp only
    rw [if_neg hd0]
    obtain ⟨wf2, fr2, st2, pte2, zero2, ntp2⟩ := alloc_data root d rest s wf fr hfree
    have hms : ∀ b, missing (memset s.mem d 0 PGSIZE) b 2 root = missing s.mem b 2 root :=
      fun b => missing_same_of_step st2 (by
        intro u hu
        rw [List.mem_singleton] at hu
        rw [hu]
        exact ntp2) b
    have hun2 : pteOf (memset s.mem d 0 PGSIZE) root a &&& PTE_V = 0 := by
      rw [pte2 a]; exact hun
    have hmp : mappages root a PGSIZE d ((PTE_W ||| PTE_X ||| PTE_R ||| PTE_U : Nat) : Int)
        { mem := memset s.mem d 0 PGSIZE, free := rest } =
        mappagesLoop root a uperm (MAXVA / PGSIZE + 1) a d
          { mem := memset s.mem d 0 PGSIZE, free := rest } :=
      mappages_single root a d _ _ ha (by omega)
    rw [hmp]
    have hlen0 : (d :: rest).length = rest.length + 1 := rfl
    by_cases hm : missing (memset s.mem d 0 PGSIZE) a 2 root ≤ rest.length
    · right
      obtain ⟨s3, used, wf3, fr3, st3, hlen, _, hmiss, pte3, hR⟩ :=
        mappagesLoop_iter_count root a uperm (MAXVA / PGSIZE) a d
          { mem := memset s.mem d 0 PGSIZE, free := rest } wf2 fr2 ha (by omega) hun2 hm
      have hrest : rest = used ++ s3.free := st3.free
      have hdu : d ∉ used := fun h => hnd.1 (by rw [hrest]; simp [h])
      have hd3 : d ∉ s3.free := fun h => hnd.1 (by rw [hrest]; simp [h])
      have hntp3 : ¬ TablePage s3.mem root d := by
        intro h
        rcases st3.tablePage_step h with h' | h'
        · exact ntp2 h'
        · exact hdu h'
      refine ⟨d, s3, used, wf3, fr3, st2.trans st3, ?_, hd1, hd2, hd3, hntp3, ?_, ?_, ?_, ?_⟩
      · intro b hb hb2
        rw [pte3 b hb hb2]
        by_cases hba : b = a
        · rw [if_pos hba, if_pos hba]
        · rw [if_neg hba, if_neg hba]
          exact pte2 b
      · intro x hx1 hx2
        have e : s3.mem x = memset s.mem d 0 PGSIZE x := by
          apply st3.bytes x
          · intro t ht
            have hal := tablePage_aligned wf2.aligned ht
            have hne : t ≠ d := by rintro rfl; exact ntp2 ht
            omega
          · intro f hf
            have hfm := fr2.frame f (by rw [hrest]; simp [hf])
            have hne : f ≠ d := by rintro rfl; exact hdu hf
            omega
        rw [e]
        exact zero2 x hx1 hx2
      · have h1 : rest.length = used.length + s3.free.length := by
          rw [hrest, List.length_append]
        rw [hlen0, h1, hlen, hms a]
        omega
      · rw [hmiss]
        exact congrArg (fun M => nextMissing M a) (funext hms)
      · rw [hR, if_pos rfl]
        simp only
        rw [if_neg (by simp)]
        have e1 : (a + PGSIZE) % U64 = a + 4096 := by
          unfold PGSIZE U64
          exact Nat.mod_eq_of_lt (by omega)
        rw [e1]
    · left
      obtain ⟨s3, used, wf3, fr3, st3, hres⟩ :=
        mappagesLoop_iter root a uperm (MAXVA / PGSIZE) a d
          { mem := memset s.mem d 0 PGSIZE, free := rest } wf2 fr2 ha (by omega)
      have hrest : rest = used ++ s3.free := st3.free
      have hdu : d ∉ used := fun h => hnd.1 (by rw [hrest]; simp [h])
      have hntp3 : ¬ TablePage s3.mem root d := by
        intro h
        rcases st3.tablePage_step h with h' | h'
        · exact ntp2 h'
        · exact hdu h'
      rcases hres with ⟨hv, _⟩ | ⟨_, pte3, hfree3, hshort, hR⟩ | ⟨_, hle, _⟩
      · exact absurd hun2 hv
      · refine ⟨d, s3, used, wf3, fr3, st2.trans st3, fun b => (pte3 b).trans (pte2 b), hfree3,
          hntp3, ?_, ?_⟩
        · have hshort' : rest.length < missing (memset s.mem d 0 PGSIZE) a 2 root := hshort
          rw [hlen0]
          rw [hms a] at hshort'
          omega
        · rw [hR]
          simp only
          rw [if_pos (by decide)]
          have hkf : kfree d s3 = { mem := s3.mem, free := [d] } := by
            simp [kfree, hfree3]
          rw [hkf]
          try rfl
      · exact absurd hle hm

/-- The loop of `uvmalloc` from page `a`, when the pages of `[a, newsz)` are not
mapped, with the count of the frames: it installs fresh zero-filled frames `ds`
at consecutive pages, reaching the state `sM`, for which the allocator held
enough frames; then either it is done, or the allocator holds too few frames
for one more page, is emptied, and `uvmdealloc` is called to roll back
(`pending` holds the data frame that `mappages` could not install, already
given back with `kfree`). -/
theorem uvmallocLoop_frames (root oldsz newsz : Nat) (hnew : newsz ≤ MAXVA) :
    ∀ n fuel a s, WF s.mem root → Fresh s.mem root s.free → a % 4096 = 0 →
      newsz ≤ a + n * 4096 → n < fuel →
      (∀ b, b % 4096 = 0 → a ≤ b → b < newsz → pteOf s.mem root b &&& PTE_V = 0) →
      ∃ (ds : List Nat) (sM : State) (used : List Nat),
        WF sM.mem root ∧ Fresh sM.mem root sM.free ∧ Step root s sM used ∧
        (∀ i, i < ds.length → a + i * 4096 < newsz) ∧
        (∀ i, i < ds.length →
          pteOf sM.mem root (a + i * 4096) = leafPte (ds.getD i 0) uperm) ∧
        (∀ b, b % 4096 = 0 → b < 2 ^ 39 → (b < a ∨ a + ds.length * 4096 ≤ b) →
          pteOf sM.mem root b = pteOf s.mem root b) ∧
        ds.Nodup ∧
        (∀ d, d ∈ ds → d ∈ used ∧ d % 4096 = 0 ∧ d < 2 ^ 64 ∧ ¬ TablePage sM.mem root d ∧
          ∀ x, d ≤ x → x < d + 4096 → sM.mem x = 0) ∧
        ((newsz ≤ a + ds.length * 4096 ∧
            s.free.length = sM.free.length +
              framesNeeded 1 ds.length (fun b => missing s.mem b 2 root) a ∧
            uvmallocLoop root oldsz newsz fuel a s = .ok newsz sM) ∨
          (a + ds.length * 4096 < newsz ∧ sM.free = [] ∧
            s.free.length < framesNeeded 1 (ds.length + 1) (fun b => missing s.mem b 2 root) a ∧
            ∃ pending,
              (pending = [] ∧
                  s.free.length = framesNeeded 1 ds.length (fun b => missing s.mem b 2 root) a ∨
                ∃ d, pending = [d] ∧
                  framesNeeded 1 ds.length (fun b => missing s.mem b 2 root) a < s.free.length ∧
                  d ∈ used ∧ d ∉ ds ∧ ¬ TablePage sM.mem root d) ∧
              uvmallocLoop root oldsz newsz fuel a s =
                match uvmdealloc root (a + ds.length * 4096) oldsz
                  { mem := sM.mem, free := pending } with
                | .panic msg s1 => .panic msg s1
                | .ok _ s1 => .ok 0 s1)) := by
  have hM := MAXVA_eq
  intro n
  induction n with
  | zero =>
    intro fuel a s wf fr ha hn hfuel hun
    obtain ⟨fuel, rfl⟩ : ∃ f, fuel = f + 1 := ⟨fuel - 1, by omega⟩
    refine ⟨[], s, [], wf, fr, Step.refl root s, by simp, by simp, fun _ _ _ _ => rfl,
      List.nodup_nil, by simp, Or.inl ⟨by simp; omega, by simp [framesNeeded_zero], ?_⟩⟩
    rw [uvmallocLoop_succ, if_neg (by omega)]
  | succ n ih =>
    intro fuel a s wf fr ha hn hfuel hun
    obtain ⟨fuel, rfl⟩ : ∃ f, fuel = f + 1 := ⟨fuel - 1, by omega⟩
    by_cases hlt : a < newsz
    swap
    · refine ⟨[], s, [], wf, fr, Step.refl root s, by simp, by simp, fun _ _ _ _ => rfl,
        List.nodup_nil, by simp, Or.inl ⟨by simp; omega, by simp [framesNeeded_zero], ?_⟩⟩
      rw [uvmallocLoop_succ, if_neg hlt]
    rcases uvmallocLoop_iter_count root oldsz newsz fuel a s wf fr ha hlt hnew
        (hun a ha (Nat.le_refl a) hlt) with
      ⟨hfree, hR⟩ | ⟨d, sM, used, wfM, frM, stM, pteM, hfreeM, hntp, hshort, hR⟩ |
      ⟨d, s3, used1, wf3, fr3, st3, pte3, hd1, hd2, hd3, hntp3, hz3, hcnt, hmiss, hR⟩
    · refine ⟨[], s, [], wf, fr, Step.refl root s, by simp, by simp, fun _ _ _ _ => rfl,
        List.nodup_nil, by simp, Or.inr ⟨by simpa using hlt, hfree, ?_, [], Or.inl ⟨rfl, ?_⟩, ?_⟩⟩
      · have h0 : s.free.length = 0 := by rw [hfree]; rfl
        show s.free.length < 1 + missing s.mem a 2 root + 0
        omega
      · rw [hfree]
        rfl
      · rw [hR]
        have hs : s = { mem := s.mem, free := [] } := by
          cases s
          simp only at hfree
          rw [hfree]
        simp only [List.length_nil, Nat.zero_mul, Nat.add_zero]
        rw [← hs]
    · have hpos : 1 ≤ s.free.length := by
        rw [stM.free]
        simp
      refine ⟨[], sM, d :: used, wfM, frM, stM, by simp, by simp, fun b _ _ _ => pteM b,
        List.nodup_nil, by simp,
        Or.inr ⟨by simpa using hlt, hfreeM, ?_, [d],
          Or.inr ⟨d, rfl, ?_, by simp, by simp, hntp⟩, ?_⟩⟩
      · show s.free.length < 1 + missing s.mem a 2 root + 0
        omega
      · show 0 < s.free.length
        omega
      · rw [hR]
        simp only [List.length_nil, Nat.zero_mul, Nat.add_zero]
    · have hun3 : ∀ b, b % 4096 = 0 → a + 4096 ≤ b → b < newsz →
          pteOf s3.mem root b &&& PTE_V = 0 := by
        intro b hb h1 h2
        rw [pte3 b hb (by omega), if_neg (by omega)]
        exact hun b hb (by omega) h2
      obtain ⟨ds, sM, used, wfM, frM, stM, hin, hpte, hout, hnd, hds, hres⟩ :=
        ih fuel (a + 4096) s3 wf3 fr3 (by omega) (by omega) (by omega) hun3
      rw [hmiss] at hres
      have hsub : ∀ x, x ∈ used → x ∈ s3.free := by
        intro x hx
        rw [stM.free]; simp [hx]
      have hdu : d ∉ used := fun h => hd3 (hsub d h)
      have hdds : d ∉ ds := fun h => hdu (hds d h).1
      have hlen : (d :: ds).length = ds.length + 1 := rfl
      have hntpM : ¬ TablePage sM.mem root d := by
        intro h
        rcases stM.tablePage_step h with h' | h'
        · exact hntp3 h'
        · exact hdu h'
      have hf1 : ∀ k, framesNeeded 1 (k + 1) (fun b => missing s.mem b 2 root) a =
          1 + missing s.mem a 2 root +
            framesNeeded 1 k (nextMissing (fun b => missing s.mem b 2 root) a) (a + 4096) :=
        fun k => framesNeeded_succ 1 k _ a
      refine ⟨d :: ds, sM, (d :: used1) ++ used, wfM, frM, st3.trans stM, ?_, ?_, ?_,
        List.nodup_cons.mpr ⟨hdds, hnd⟩, ?_, ?_⟩
      · intro i hi
        rcases i with _ | i
        · simpa using hlt
        · have := hin i (by rw [hlen] at hi; omega)
          omega
      · intro i hi
        rcases i with _ | i
        · simp only [Nat.zero_mul, Nat.add_zero, List.getD_cons_zero]
          rw [hout a ha (by omega) (by omega), pte3 a ha (by omega), if_pos rfl]
        · have := hpte i (by rw [hlen] at hi; omega)
          rw [show a + (i + 1) * 4096 = a + 4096 + i * 4096 by omega, this]
          simp
      · intro b hb hb2 hb3
        rw [hlen] at hb3
        rw [hout b hb hb2 (by omega), pte3 b hb hb2, if_neg (by omega)]
      · intro d' hd'
        rcases List.mem_cons.mp hd' with rfl | hd'
        · refine ⟨by simp, hd1, hd2, hntpM, ?_⟩
          intro x hx1 hx2
          rw [stM.bytes x ?_ ?_]
          · exact hz3 x hx1 hx2
          · intro t ht
            have hal := tablePage_aligned wf3.aligned ht
            have hne : t ≠ d' := by rintro rfl; exact hntp3 ht
            omega
          · intro f hf
            have hfm := fr3.frame f (hsub f hf)
            have hne : f ≠ d' := by rintro rfl; exact hdu hf
            omega
        · obtain ⟨h1, h2, h3, h4, h5⟩ := hds d' hd'
          exact ⟨by simp [h1], h2, h3, h4, h5⟩
      · rw [hR, hlen]
        have e : a + (ds.length + 1) * 4096 = a + 4096 + ds.length * 4096 := by omega
        rw [e, hf1 ds.length, hf1 (ds.length + 1)]
        rcases hres with ⟨h1, h2, h3⟩ | ⟨h1, h2, h3, pending, h4, h5⟩
        · exact Or.inl ⟨h1, by omega, h3⟩
        · refine Or.inr ⟨h1, h2, by omega, pending, ?_, h5⟩
          rcases h4 with ⟨h4, h6⟩ | ⟨p, hp1, hp5, hp2, hp3, hp4⟩
          · exact Or.inl ⟨h4, by omega⟩
          · refine Or.inr ⟨p, hp1, by omega, by simp [hp2], ?_, hp4⟩
            intro hp
            rcases List.mem_cons.mp hp with rfl | hp
            · exact hdu hp2
            · exact hp3 hp

/-- One iteration of `uvmcopy` at the page `i`, by the frames the allocator
holds: none, and `kalloc` fails; fewer than the data frame and the page-table
pages missing in the destination, and `mappages` fails; otherwise the page is
copied, that many frames are gone and the loop goes on. -/
theorem uvmcopyLoop_iter_count (old new sz fuel i : Nat) (m0 : Mem) (s : State)
    (wfN : WF s.mem new) (frN : Fresh s.mem new s.free)
    (hi : i % 4096 = 0) (hlt : i < sz) (hsrc : Unmappable m0 old i)
    (hsame : ∀ x, SrcByte m0 old sz x → s.mem x = m0 x)
    (hun : pteOf s.mem new i &&& PTE_V = 0) :
    (s.free = [] ∧ uvmcopyLoop old new sz (fuel + 1) i s =
        match uvmunmap new 0 (i / PGSIZE) 1 s with
        | .panic msg s2 => .panic msg s2
        | .ok _ s2 => .ok (-1) s2) ∨
    (∃ d sM used, WF sM.mem new ∧ Fresh sM.mem new sM.free ∧ Step new s sM (d :: used) ∧
      (∀ b, pteOf sM.mem new b = pteOf s.mem new b) ∧ sM.free = [] ∧
      ¬ TablePage sM.mem new d ∧ (∀ u, u ∈ used → TablePage sM.mem new u) ∧
      s.free.length < 1 + missing s.mem i 2 new ∧
      uvmcopyLoop old new sz (fuel + 1) i s =
        match uvmunmap new 0 (i / PGSIZE) 1 { mem := sM.mem, free := [d] } with
        | .panic msg s2 => .panic msg s2
        | .ok _ s2 => .ok (-1) s2) ∨
    (∃ d s3 used, WF s3.mem new ∧ Fresh s3.mem new s3.free ∧ Step new s s3 (d :: used) ∧
      (∀ b, b % 4096 = 0 → b < 2 ^ 39 →
        pteOf s3.mem new b =
          if b = i then leafPte d ((PTE_FLAGS (pteOf m0 old i) : Nat) : Int)
          else pteOf s.mem new b) ∧
      d % 4096 = 0 ∧ d < 2 ^ 64 ∧ d ∉ s3.free ∧ ¬ TablePage s3.mem new d ∧
      (∀ k, k < 4096 → s3.mem (d + k) = read8 s.mem (frameOf m0 old i + k)) ∧
      (∀ u, u ∈ used → TablePage s3.mem new u) ∧
      s.free.length = s3.free.length + (1 + missing s.mem i 2 new) ∧
      (fun b => missing s3.mem b 2 new) = nextMissing (fun b => missing s.mem b 2 new) i ∧
      uvmcopyLoop old new sz (fuel + 1) i s = uvmcopyLoop old new sz fuel (i + 4096) s3) := by
  have hM := MAXVA_eq
  have hP : PGSIZE = 4096 := rfl
  obtain ⟨hva, hs0, hv0, _⟩ := hsrc
  have hsT := sameTables_of_src hsame
  have hslot : slotOf s.mem old i = slotOf m0 old i := slotOf_congr m0 s.mem old i hsT.path_eq
  have hpte : pteOf s.mem old i = pteOf m0 old i := pteOf_congr_tables m0 s.mem old hsT.ent_eq i
  have hs0' : slotOf s.mem old i ≠ 0 := by rw [hslot]; exact hs0
  obtain ⟨_, _, _, hrd⟩ := slotOf_pteOf s.mem old i hs0'
  rw [hpte] at hrd
  obtain ⟨hf1, hf2, _⟩ := flags_valid _ hv0
  rw [uvmcopyLoop_succ, if_pos hlt, walk_noalloc old i s hva]
  simp only
  rw [if_neg hs0', hrd, if_neg hv0, hf1]
  cases hfree : s.free with
  | nil =>
    left
    have hk : kalloc s = (0, s) := by simp [kalloc, hfree]
    rw [hk]
    exact ⟨rfl, rfl⟩
  | cons d rest =>
    right
    have fr' : Fresh s.mem new (d :: rest) := hfree ▸ frN
    obtain ⟨hd1, hd0, hd2⟩ := fr'.frame d (by simp)
    have hnd := List.nodup_cons.mp fr'.nodup
    have hk : kalloc s = (d, { mem := s.mem, free := rest }) := by simp [kalloc, hfree]
    rw [hk]
    simp only
    rw [if_neg hd0]
    obtain ⟨wf2, fr2, st2, pte2, ntp2⟩ :=
      alloc_copy new d (PTE2PA (pteOf m0 old i)) rest s wfN frN hfree
    have hms : ∀ b, missing (memmove s.mem d (PTE2PA (pteOf m0 old i)) PGSIZE) b 2 new =
        missing s.mem b 2 new :=
      fun b => missing_same_of_step st2 (by
        intro u hu
        rw [List.mem_singleton] at hu
        rw [hu]
        exact ntp2) b
    have hun2 : pteOf (memmove s.mem d (PTE2PA (pteOf m0 old i)) PGSIZE) new i &&& PTE_V = 0 := by
      rw [pte2 i]; exact hun
    have hmp := mappages_single new i d ((PTE_FLAGS (pteOf m0 old i) : Nat) : Int)
      { mem := memmove s.mem d (PTE2PA (pteOf m0 old i)) PGSIZE, free := rest } hi (by omega)
    have hg := mappages_grown new i PGSIZE d ((PTE_FLAGS (pteOf m0 old i) : Nat) : Int)
      { mem := memmove s.mem d (PTE2PA (pteOf m0 old i)) PGSIZE, free := rest } wf2 fr2
      (by decide) (by rw [hP]; omega)
    rw [hmp] at hg ⊢
    have hlen0 : (d :: rest).length = rest.length + 1 := rfl
    by_cases hm : missing (memmove s.mem d (PTE2PA (pteOf m0 old i)) PGSIZE) i 2 new ≤ rest.length
    · right
      obtain ⟨s3, used, wf3, fr3, st3, hlen, hTP, hmiss, pte3, hR⟩ :=
        mappagesLoop_iter_count new i ((PTE_FLAGS (pteOf m0 old i) : Nat) : Int) (MAXVA / PGSIZE)
          i d { mem := memmove s.mem d (PTE2PA (pteOf m0 old i)) PGSIZE, free := rest } wf2 fr2
          hi (by omega) hun2 hm
      have hrest : rest = used ++ s3.free := st3.free
      have hdu : d ∉ used := fun h => hnd.1 (by rw [hrest]; simp [h])
      have hd3 : d ∉ s3.free := fun h => hnd.1 (by rw [hrest]; simp [h])
      have hntp3 : ¬ TablePage s3.mem new d := by
        intro h
        rcases st3.tablePage_step h with h' | h'
        · exact ntp2 h'
        · exact hdu h'
      rw [if_pos rfl] at hR
      refine ⟨d, s3, used, wf3, fr3, st2.trans st3, ?_, hd1, hd2, hd3, hntp3, ?_, hTP, ?_, ?_, ?_⟩
      · intro b hb hb2
        rw [pte3 b hb hb2]
        by_cases hba : b = i
        · rw [if_pos hba, if_pos hba]
        · rw [if_neg hba, if_neg hba]
          exact pte2 b
      · intro k hk
        have e : s3.mem (d + k) = memmove s.mem d (PTE2PA (pteOf m0 old i)) PGSIZE (d + k) := by
          apply st3.bytes (d + k)
          · intro t ht
            have hal := tablePage_aligned wf2.aligned ht
            have hne : t ≠ d := by rintro rfl; exact ntp2 ht
            omega
          · intro f hf
            have hfm := fr2.frame f (by rw [hrest]; simp [hf])
            have hne : f ≠ d := by rintro rfl; exact hdu hf
            omega
        rw [e, memmove_in _ _ _ _ _ (by omega) (by omega)]
        unfold frameOf
        congr 2
        omega
      · have h1 : rest.length = used.length + s3.free.length := by
          rw [hrest, List.length_append]
        rw [hlen0, h1, hlen, hms i]
        omega
      · rw [hmiss]
        exact congrArg (fun M => nextMissing M i) (funext hms)
      · rw [hR]
        simp only
        rw [if_neg (by simp)]
        have e1 : (i + PGSIZE) % U64 = i + 4096 := step_addr i (by omega)
        rw [e1]
    · left
      obtain ⟨s3, used, wf3, fr3, st3, hres⟩ :=
        mappagesLoop_iter new i ((PTE_FLAGS (pteOf m0 old i) : Nat) : Int) (MAXVA / PGSIZE) i d
          { mem := memmove s.mem d (PTE2PA (pteOf m0 old i)) PGSIZE, free := rest } wf2 fr2 hi
          (by omega)
      have hrest : rest = used ++ s3.free := st3.free
      have hdu : d ∉ used := fun h => hnd.1 (by rw [hrest]; simp [h])
      have hntp3 : ¬ TablePage s3.mem new d := by
        intro h
        rcases st3.tablePage_step h with h' | h'
        · exact ntp2 h'
        · exact hdu h'
      have hlinked : (mappagesLoop new i ((PTE_FLAGS (pteOf m0 old i) : Nat) : Int)
          (MAXVA / PGSIZE + 1) i d
          { mem := memmove s.mem d (PTE2PA (pteOf m0 old i)) PGSIZE, free := rest }).state = s3 →
          ∀ u, u ∈ used → TablePage s3.mem new u := by
        intro hst u hu
        rw [hst] at hg
        rcases hg.linked u (by show u ∈ rest; rw [hrest]; simp [hu]) with h | h
        · exfalso
          have hn2 := hnd.2
          rw [hrest] at hn2
          exact (List.nodup_append.mp hn2).2.2 hu h
        · exact h
      rcases hres with ⟨hv, _⟩ | ⟨_, pte3, hfree3, hshort, hR⟩ | ⟨_, hle, _⟩
      · exact absurd hun2 hv
      · refine ⟨d, s3, used, wf3, fr3, st2.trans st3, fun b => (pte3 b).trans (pte2 b), hfree3,
          hntp3, hlinked (by rw [hR]; rfl), ?_, ?_⟩
        · have hshort' : rest.length <
              missing (memmove s.mem d (PTE2PA (pteOf m0 old i)) PGSIZE) i 2 new := hshort
          rw [hlen0]
          rw [hms i] at hshort'
          omega
        · rw [hR]
          simp only
          rw [if_pos (by decide)]
          have hkf : kfree d s3 = { mem := s3.mem, free := [d] } := by
            simp [kfree, hfree3]
          rw [hkf]
          try rfl
      · exact absurd hle hm

/-- The loop of `uvmcopy` from page `i`, with the count of the frames: it copies
consecutive pages, for which the allocator held enough frames, and then either
is done, or the allocator holds too few frames for one more page, is emptied,
and the roll-back starts. -/
theorem uvmcopyLoop_frames (old new sz : Nat) (m0 : Mem) (hold : old % 4096 = 0)
    (hsz : sz ≤ MAXVA) (hsrc : ∀ b, b % 4096 = 0 → b < sz → Unmappable m0 old b) :
    ∀ n fuel i s, WF s.mem new → Fresh s.mem new s.free → i % 4096 = 0 →
      sz ≤ i + n * 4096 → n < fuel →
      (∀ x, SrcByte m0 old sz x → s.mem x = m0 x) →
      (∀ t, TablePage s.mem new t → NotSrc m0 old sz t) →
      (∀ f, f ∈ s.free → NotSrc m0 old sz f) →
      (∀ b, b % 4096 = 0 → i ≤ b → b < sz → pteOf s.mem new b &&& PTE_V = 0) →
      ∃ (ds : List Nat) (sM : State) (used pending : List Nat),
        Copied old new sz m0 i s sM ds used pending ∧
        ((sz ≤ i + ds.length * 4096 ∧ pending = [] ∧
            s.free.length = sM.free.length +
              framesNeeded 1 ds.length (fun b => missing s.mem b 2 new) i ∧
            uvmcopyLoop old new sz fuel i s = .ok 0 sM) ∨
          (i + ds.length * 4096 < sz ∧ sM.free = [] ∧
            s.free.length < framesNeeded 1 (ds.length + 1) (fun b => missing s.mem b 2 new) i ∧
            (pending = [] ∧
                s.free.length = framesNeeded 1 ds.length (fun b => missing s.mem b 2 new) i ∨
              pending ≠ [] ∧
                framesNeeded 1 ds.length (fun b => missing s.mem b 2 new) i < s.free.length) ∧
            uvmcopyLoop old new sz fuel i s =
              match uvmunmap new 0 ((i + ds.length * 4096) / PGSIZE) 1
                { mem := sM.mem, free := pending } with
              | .panic msg s2 => .panic msg s2
              | .ok _ s2 => .ok (-1) s2)) := by
  have hM := MAXVA_eq
  intro n
  induction n with
  | zero =>
    intro fuel i s wf fr hi hn hfuel hsame _ _ _
    obtain ⟨fuel, rfl⟩ : ∃ f, fuel = f + 1 := ⟨fuel - 1, by omega⟩
    refine ⟨[], s, [], [], Copied.nil_copied old new sz m0 i s wf fr hsame,
      Or.inl ⟨by simp; omega, rfl, by simp [framesNeeded_zero], ?_⟩⟩
    rw [uvmcopyLoop_succ, if_neg (by omega)]
  | succ n ih =>
    intro fuel i s wf fr hi hn hfuel hsame hsepT hsepF hun
    obtain ⟨fuel, rfl⟩ : ∃ f, fuel = f + 1 := ⟨fuel - 1, by omega⟩
    by_cases hlt : i < sz
    swap
    · refine ⟨[], s, [], [], Copied.nil_copied old new sz m0 i s wf fr hsame,
        Or.inl ⟨by simp; omega, rfl, by simp [framesNeeded_zero], ?_⟩⟩
      rw [uvmcopyLoop_succ, if_neg hlt]
    rcases uvmcopyLoop_iter_count old new sz fuel i m0 s wf fr hi hlt (hsrc i hi hlt) hsame
        (hun i hi (Nat.le_refl i) hlt) with
      ⟨hfree, hR⟩ | ⟨d, sM, used, wfM, frM, stM, pteM, hfreeM, hntp, hlink, hshort, hR⟩ |
      ⟨d, s3, used1, wf3, fr3, st3, pte3, hd1, hd2, hd3, hntp3, hdat3, hlink3, hcnt, hmiss, hR⟩
    · refine ⟨[], s, [], [], Copied.nil_copied old new sz m0 i s wf fr hsame,
        Or.inr ⟨by simpa using hlt, hfree, ?_, Or.inl ⟨rfl, ?_⟩, ?_⟩⟩
      · have h0 : s.free.length = 0 := by rw [hfree]; rfl
        show s.free.length < 1 + missing s.mem i 2 new + 0
        omega
      · rw [hfree]
        rfl
      · rw [hR]
        have hs : s = { mem := s.mem, free := [] } := by
          cases s
          simp only at hfree
          rw [hfree]
        simp only [List.length_nil, Nat.zero_mul, Nat.add_zero]
        rw [← hs]
        try rfl
    · obtain ⟨hsameM, _, _⟩ := step_src hold wf fr stM hsame hsepT hsepF
      have hpos : 1 ≤ s.free.length := by
        rw [stM.free]
        simp
      refine ⟨[], sM, d :: used, [d],
        ⟨wfM, frM, stM, hsameM, by simp, by simp, fun b _ _ _ => pteM b, List.nodup_nil,
          by simp, by simp, Or.inr ⟨d, rfl, by simp, by simp, hntp⟩, ?_⟩,
        Or.inr ⟨by simpa using hlt, hfreeM, ?_, Or.inr ⟨by simp, ?_⟩, ?_⟩⟩
      · intro u hu
        rcases List.mem_cons.mp hu with rfl | hu
        · exact Or.inr (Or.inl (by simp))
        · exact Or.inr (Or.inr (hlink u hu))
      · show s.free.length < 1 + missing s.mem i 2 new + 0
        omega
      · show 0 < s.free.length
        omega
      · rw [hR]
        simp only [List.length_nil, Nat.zero_mul, Nat.add_zero]
        try rfl
    · obtain ⟨hsame3, hsepT3, hsepF3⟩ := step_src hold wf fr st3 hsame hsepT hsepF
      have hun3 : ∀ b, b % 4096 = 0 → i + 4096 ≤ b → b < sz →
          pteOf s3.mem new b &&& PTE_V = 0 := by
        intro b hb h1 h2
        rw [pte3 b hb (by omega), if_neg (by omega)]
        exact hun b hb (by omega) h2
      obtain ⟨ds, sM, used, pending, C, hres⟩ :=
        ih fuel (i + 4096) s3 wf3 fr3 (by omega) (by omega) (by omega) hsame3 hsepT3 hsepF3 hun3
      rw [hmiss] at hres
      have hsub : ∀ x, x ∈ used → x ∈ s3.free := by
        intro x hx
        rw [C.step.free]; simp [hx]
      have hdu : d ∉ used := fun h => hd3 (hsub d h)
      have hdds : d ∉ ds := fun h => hdu (C.frames d h).1
      have hlen : (d :: ds).length = ds.length + 1 := rfl
      have hntpM : ¬ TablePage sM.mem new d := by
        intro h
        rcases C.step.tablePage_step h with h' | h'
        · exact hntp3 h'
        · exact hdu h'
      have hf1 : ∀ k, framesNeeded 1 (k + 1) (fun b => missing s.mem b 2 new) i =
          1 + missing s.mem i 2 new +
            framesNeeded 1 k (nextMissing (fun b => missing s.mem b 2 new) i) (i + 4096) :=
        fun k => framesNeeded_succ 1 k _ i
      refine ⟨d :: ds, sM, (d :: used1) ++ used, pending,
        ⟨C.wf, C.fr, st3.trans C.step, C.src, ?_, ?_, ?_, List.nodup_cons.mpr ⟨hdds, C.nodup⟩,
          ?_, ?_, ?_, ?_⟩, ?_⟩
      · intro j hj
        rcases j with _ | j
        · simpa using hlt
        · have := C.inside j (by rw [hlen] at hj; omega)
          omega
      · intro j hj
        rcases j with _ | j
        · simp only [Nat.zero_mul, Nat.add_zero, List.getD_cons_zero]
          rw [C.out i hi (by omega) (by omega), pte3 i hi (by omega), if_pos rfl]
        · have := C.pte j (by rw [hlen] at hj; omega)
          rw [show i + (j + 1) * 4096 = i + 4096 + j * 4096 by omega, this]
          simp
      · intro b hb hb2 hb3
        rw [hlen] at hb3
        rw [C.out b hb hb2 (by omega), pte3 b hb hb2, if_neg (by omega)]
      · intro d' hd'
        rcases List.mem_cons.mp hd' with rfl | hd'
        · exact ⟨by simp, hd1, hd2, hntpM⟩
        · obtain ⟨h1, h2, h3, h4⟩ := C.frames d' hd'
          exact ⟨by simp [h1], h2, h3, h4⟩
      · intro j hj k hk
        rcases j with _ | j
        · simp only [Nat.zero_mul, Nat.add_zero, List.getD_cons_zero]
          rw [C.step.bytes (d + k) ?_ ?_, hdat3 k hk]
          · unfold read8
            rw [hsame _ (Or.inr ⟨i, hi, hlt, by omega, by omega⟩)]
          · intro t ht
            have hal := tablePage_aligned wf3.aligned ht
            have hne : t ≠ d := by rintro rfl; exact hntp3 ht
            omega
          · intro f hf
            have hfm := fr3.frame f (hsub f hf)
            have hne : f ≠ d := by rintro rfl; exact hdu hf
            omega
        · have := C.data j (by rw [hlen] at hj; omega) k hk
          rw [show i + (j + 1) * 4096 = i + 4096 + j * 4096 by omega]
          simpa using this
      · rcases C.pend with h | ⟨p, hp1, hp2, hp3, hp4⟩
        · exact Or.inl h
        · refine Or.inr ⟨p, hp1, by simp [hp2], ?_, hp4⟩
          intro hp
          rcases List.mem_cons.mp hp with rfl | hp
          · exact hdu hp2
          · exact hp3 hp
      · intro u hu
        rcases List.mem_append.mp hu with hu | hu
        · rcases List.mem_cons.mp hu with rfl | hu
          · exact Or.inl (by simp)
          · obtain ⟨q, hq, hp⟩ := hlink3 u hu
            exact Or.inr (Or.inr ⟨q, hq, C.step.old q u hq hp⟩)
        · rcases C.owned u hu with h | h | h
          · exact Or.inl (by simp [h])
          · exact Or.inr (Or.inl h)
          · exact Or.inr (Or.inr h)
      · rw [hR, hlen]
        have e : i + (ds.length + 1) * 4096 = i + 4096 + ds.length * 4096 := by omega
        rw [e, hf1 ds.length, hf1 (ds.length + 1)]
        rcases hres with ⟨h1, h2, h3, h4⟩ | ⟨h1, h2, h3, h4, h5⟩
        · exact Or.inl ⟨h1, h2, by omega, h4⟩
        · refine Or.inr ⟨h1, h2, by omega, ?_, h5⟩
          rcases h4 with ⟨h4, h6⟩ | ⟨h4, h6⟩
          · exact Or.inl ⟨h4, by omega⟩
          · exact Or.inr ⟨h4, by omega⟩

/-- The outcome of `uvmcopy` on a source of valid pages, a destination without
them, and a separated allocator, with the count of the frames: either every
page is copied, or the allocator held too few frames for one more page and the
roll-back has unmapped and released what had been copied. -/
theorem uvmcopy_frames (old new sz : Nat) (s : State) (hold : old % 4096 = 0)
    (wfN : WF s.mem new) (frN : Fresh s.mem new s.free)
    (hsrc : ∀ b, b % 4096 = 0 → b < sz → Unmappable s.mem old b)
    (hdst : ∀ b, b % 4096 = 0 → b < sz → pteOf s.mem new b &&& PTE_V = 0)
    (hsepT : ∀ t, TablePage s.mem new t → NotSrc s.mem old sz t)
    (hsepF : ∀ f, f ∈ s.free → NotSrc s.mem old sz f) :
    ∃ (ds : List Nat) (sM : State) (used pending : List Nat),
      Copied old new sz s.mem 0 s sM ds used pending ∧
      ((sz ≤ ds.length * 4096 ∧ pending = [] ∧
          s.free.length = sM.free.length + framesFor s.mem new 0 ds.length ∧
          uvmcopy old new sz s = .ok 0 sM) ∨
        (ds.length * 4096 < sz ∧ sM.free = [] ∧
          s.free.length < framesFor s.mem new 0 (ds.length + 1) ∧
          (pending = [] ∧ s.free.length = framesFor s.mem new 0 ds.length ∨
            pending ≠ [] ∧ framesFor s.mem new 0 ds.length < s.free.length) ∧
          ∃ s', uvmcopy old new sz s = .ok (-1) s' ∧
            Unmapped new 0 (ds.length * 4096) { mem := sM.mem, free := pending } s' ∧
            s'.free = ds.reverse ++ pending ∧
            (∀ x, SrcByte s.mem old sz x → s'.mem x = s.mem x))) := by
  have hM := MAXVA_eq
  have hP : PGSIZE = 4096 := rfl
  have hsz : sz ≤ MAXVA := by
    by_contra hc
    have := (hsrc MAXVA (by rw [hM]; decide) (by omega)).1
    omega
  have hF : MAXVA / PGSIZE + 2 = 67108866 := by decide
  obtain ⟨ds, sM, used, pending, C, hres⟩ :=
    uvmcopyLoop_frames old new sz s.mem hold hsz hsrc 67108864 (MAXVA / PGSIZE + 2) 0 s wfN frN
      (by decide) (by omega) (by omega) (fun _ _ => rfl) hsepT hsepF
      (fun b hb _ hlt => hdst b hb hlt)
  refine ⟨ds, sM, used, pending, C, ?_⟩
  rw [Nat.zero_add] at hres
  rcases hres with ⟨h1, h2, hc, h3⟩ | ⟨h1, h2, hc1, hc2, h3⟩
  · exact Or.inl ⟨h1, h2, hc, h3⟩
  · right
    refine ⟨h1, h2, hc1, hc2, ?_⟩
    have hU := copied_unmappable C hsrc
    have hbound : (0 + ds.length * 4096 / PGSIZE * PGSIZE) % U64 = ds.length * 4096 := by
      unfold U64
      rw [hP]
      omega
    obtain ⟨s', hr, hUn, hfree⟩ := (uvmunmap_spec new 0 (ds.length * 4096 / PGSIZE) 1
      { mem := sM.mem, free := pending } C.wf (by decide)).1
      (by
        intro b hb _ hlt
        rw [hbound] at hlt
        exact (hU b hb hlt).1)
    rw [hbound] at hUn hfree
    obtain ⟨_, hsepTM, _⟩ := step_src hold wfN frN C.step (fun _ _ => rfl) hsepT hsepF
    refine ⟨s', ?_, hUn, ?_, ?_⟩
    · show uvmcopyLoop old new sz (MAXVA / PGSIZE + 2) 0 s = _
      rw [h3, hr]
    · rw [hfree]
      unfold freed
      rw [if_pos (by decide), Nat.sub_zero, Nat.mul_div_cancel _ (by decide : 0 < 4096)]
      congr 2
      apply leafFrames_of_frames
      intro j hj
      have := (hU (0 + j * 4096) (by omega) (by omega)).2.1
      rw [this]
      congr 1
      omega
    · intro x hx
      rw [hUn.bytes x, C.src x hx]
      intro t ht
      exact (hsepTM t ht).disjoint hold (tablePage_aligned C.wf.aligned ht) x hx

theorem framesFor_eq (m : Mem) (root a k : Nat) :
    framesFor m root a k = framesNeeded 1 k (fun b => missing m b 2 root) a := rfl

/-- More pages take more frames: at least one more for every further page. -/
theorem framesFor_le (m : Mem) (root a j k : Nat) (h : j ≤ k) :
    framesFor m root a j + (k - j) ≤ framesFor m root a k := by
  have := framesNeeded_le 1 (fun b => missing m b 2 root) a j k h
  rw [Nat.one_mul] at this
  exact this

/-- A call of `uvmalloc` that grows a range of unmapped pages, with the
allocator holding the frames the pages of the range need, returns `newsz`. -/
theorem uvmalloc_enough (root oldsz newsz : Nat) (s : State)
    (wf : WF s.mem root) (fr : Fresh s.mem root s.free)
    (hlt : oldsz < newsz) (hnew : newsz ≤ MAXVA)
    (hun : ∀ b, b % 4096 = 0 → PGROUNDUP oldsz ≤ b → b < newsz →
      pteOf s.mem root b &&& PTE_V = 0)
    (hfree : framesFor s.mem root (PGROUNDUP oldsz)
      ((PGROUNDUP newsz - PGROUNDUP oldsz) / PGSIZE) ≤ s.free.length) :
    ∃ s1, uvmalloc root oldsz newsz s = .ok newsz s1 := by
  have hM := MAXVA_eq
  have hP : PGSIZE = 4096 := rfl
  obtain ⟨hunf, ha0, ha1, ha2⟩ := uvmalloc_unfold root oldsz newsz s (by omega) hnew
  have hup := PGROUNDUP_eq newsz
  have hF : MAXVA / PGSIZE + 2 = 67108866 := by decide
  obtain ⟨ds, sM, used, _, _, _, _, _, _, _, _, hres⟩ :=
    uvmallocLoop_frames root (PGROUNDUP oldsz) newsz hnew 67108864 (MAXVA / PGSIZE + 2)
      (PGROUNDUP oldsz) s wf fr ha0 (by omega) (by omega) hun
  rw [← hunf] at hres
  rcases hres with ⟨_, _, hR⟩ | ⟨hlt2, _, hshort, _⟩
  · exact ⟨sM, hR⟩
  · exfalso
    have := framesFor_le s.mem root (PGROUNDUP oldsz) (ds.length + 1)
      ((PGROUNDUP newsz - PGROUNDUP oldsz) / PGSIZE) (by rw [hP]; omega)
    rw [framesFor_eq] at this
    omega

/-- C5: non-overlap.  After a successful `mappages` over a range A of a
well-formed table, a second `mappages` on the same table over a range B that
shares a page `p` with A panics with "remap", provided the allocator does not
fail first: it holds the page-table pages that the pages of B below `p` need
(`tablesFrom`, counted on the table as the first call left it).  The panic is
raised at the lowest-addressed page of B that is already mapped, in a state in
which the pages of B below it have been installed. -/
theorem mappages_overlap_remap (root vaA sizeA paA vaB sizeB paB : Nat) (permA permB : Int)
    (s s1 : State) (wf : WF s.mem root) (fr : Fresh s.mem root s.free)
    (hsA : 1 ≤ sizeA) (hvA : vaA + sizeA - 1 < MAXVA) (hpaA : paA < U64)
    (hsB : 1 ≤ sizeB) (hvB : vaB + sizeB - 1 < MAXVA) (hpaB : paB < U64)
    (hA : mappages root vaA sizeA paA permA s = Res.ok 0 s1)
    (hshare : ∃ p, p % PGSIZE = 0 ∧
      PGROUNDDOWN vaA ≤ p ∧ p ≤ PGROUNDDOWN (vaA + sizeA - 1) ∧
      PGROUNDDOWN vaB ≤ p ∧ p ≤ PGROUNDDOWN (vaB + sizeB - 1) ∧
      tablesFrom s1.mem root (PGROUNDDOWN vaB) ((p - PGROUNDDOWN vaB) / PGSIZE) ≤
        s1.free.length) :
    ∃ j s2, mappages root vaB sizeB paB permB s1 = Res.panic "remap" s2 ∧
      j ≤ (PGROUNDDOWN (vaB + sizeB - 1) - PGROUNDDOWN vaB) / PGSIZE ∧
      pteOf s1.mem root (PGROUNDDOWN vaB + j * PGSIZE) &&& PTE_V ≠ 0 ∧
      (∀ k, k < j → pteOf s1.mem root (PGROUNDDOWN vaB + k * PGSIZE) &&& PTE_V = 0) ∧
      (∀ k, k < j → pteOf s2.mem root (PGROUNDDOWN vaB + k * PGSIZE) =
        PA2PTE ((paB + k * PGSIZE) % U64) ||| ofInt permB ||| PTE_V) ∧
      (∀ b, b % PGSIZE = 0 → b < 2 ^ 39 →
        (b < PGROUNDDOWN vaB ∨ PGROUNDDOWN vaB + j * PGSIZE ≤ b) →
        pteOf s2.mem root b = pteOf s1.mem root b) := by
  have hM := MAXVA_eq
  have hP : PGSIZE = 4096 := rfl
  have a1 := PGROUNDDOWN_eq vaA (by omega)
  have a2 := PGROUNDDOWN_eq (vaA + sizeA - 1) (by omega)
  have b1 := PGROUNDDOWN_eq vaB (by omega)
  have b2 := PGROUNDDOWN_eq (vaB + sizeB - 1) (by omega)
  have hnA : (PGROUNDDOWN (vaA + sizeA - 1) - PGROUNDDOWN vaA) / PGSIZE =
      ((vaA + sizeA - 1) / 4096 * 4096 - vaA / 4096 * 4096) / 4096 := by rw [a1, a2, hP]
  have hnB : (PGROUNDDOWN (vaB + sizeB - 1) - PGROUNDDOWN vaB) / PGSIZE =
      ((vaB + sizeB - 1) / 4096 * 4096 - vaB / 4096 * 4096) / 4096 := by rw [b1, b2, hP]
  obtain ⟨wf1, fr1, instA⟩ := mappages_ok_post root vaA sizeA paA permA s s1 wf fr hsA hvA hpaA hA
  obtain ⟨p, hp0, hp1, hp2, hp3, hp4, hfree⟩ := hshare
  rw [hP] at hp0
  have hpv : pteOf s1.mem root p &&& PTE_V ≠ 0 := by
    rw [instA p hp0 (by omega), if_pos (by omega)]
    exact leafPte_valid _ _
  obtain ⟨j, s2, used, _, _, _, inst, hun, hout⟩ :=
    mappages_spec root vaB sizeB paB permB s1 wf1 fr1 hsB hvB hpaB
  have hpk : p = PGROUNDDOWN vaB + (p - PGROUNDDOWN vaB) / 4096 * 4096 := by omega
  rcases hout with ⟨hj, _⟩ | ⟨hj, hv, hR⟩ | ⟨_, _, _, hR⟩
  · exfalso
    have := hun ((p - PGROUNDDOWN vaB) / 4096) (by omega)
    rw [← hpk] at this
    exact hpv this
  · refine ⟨j, s2, hR, hj, hv, hun, ?_, ?_⟩
    · intro k hk
      rw [inst _ (by rw [hP]; omega) (by rw [hP]; omega), if_pos (by rw [hP]; omega)]
      unfold leafPte
      rw [Nat.add_sub_cancel_left]
    · intro b hb hb2 hout
      rw [hP] at hb
      rw [inst b hb hb2, if_neg (by rw [hP] at hout; omega)]
  · exfalso
    obtain ⟨s', hR'⟩ := mappagesLoop_remap root (PGROUNDDOWN (vaB + sizeB - 1)) permB
      ((p - PGROUNDDOWN vaB) / 4096) (MAXVA / PGSIZE + 1) (PGROUNDDOWN vaB) paB s1 wf1 fr1
      (by omega) (by omega) (by omega) (by rw [hM, hP]; omega)
      (by rw [← hpk]; exact hpv) hfree
    have e : mappages root vaB sizeB paB permB s1 =
        mappagesLoop root (PGROUNDDOWN (vaB + sizeB - 1)) permB (MAXVA / PGSIZE + 1)
          (PGROUNDDOWN vaB) paB s1 := by
      unfold mappages
      rw [mappages_last vaB sizeB hsB (by omega)]
    rw [e, hR'] at hR
    cases hR

/-- C5 at a concrete input: pages `0x7000`, `0x8000` are mapped first; mapping
`0x6000`..`0x8000` then installs `0x6000`, for which no page-table page is
missing, and panics at `0x7000`. -/
theorem mappages_overlap_remap_witness :
    ∃ j s2, mappages 0x1000 0x6000 0x3000 0xA000 6
        (mappages 0x1000 0x7000 0x2000 0x20000 6 st0).state = Res.panic "remap" s2 ∧
      j ≤ (PGROUNDDOWN (0x6000 + 0x3000 - 1) - PGROUNDDOWN 0x6000) / PGSIZE ∧
      pteOf (mappages 0x1000 0x7000 0x2000 0x20000 6 st0).state.mem 0x1000
        (PGROUNDDOWN 0x6000 + j * PGSIZE) &&& PTE_V ≠ 0 ∧
      (∀ k, k < j → pteOf (mappages 0x1000 0x7000 0x2000 0x20000 6 st0).state.mem 0x1000
        (PGROUNDDOWN 0x6000 + k * PGSIZE) &&& PTE_V = 0) ∧
      (∀ k, k < j → pteOf s2.mem 0x1000 (PGROUNDDOWN 0x6000 + k * PGSIZE) =
        PA2PTE ((0xA000 + k * PGSIZE) % U64) ||| ofInt 6 ||| PTE_V) ∧
      (∀ b, b % PGSIZE = 0 → b < 2 ^ 39 →
        (b < PGROUNDDOWN 0x6000 ∨ PGROUNDDOWN 0x6000 + j * PGSIZE ≤ b) →
        pteOf s2.mem 0x1000 b =
          pteOf (mappages 0x1000 0x7000 0x2000 0x20000 6 st0).state.mem 0x1000 b) :=
  mappages_overlap_remap 0x1000 0x7000 0x2000 0x20000 0x6000 0x3000 0xA000 6 6 st0
    (mappages 0x1000 0x7000 0x2000 0x20000 6 st0).state wf_st0 fresh_st0
    (by decide) (by decide) (by decide) (by decide) (by decide) (by decide)
    (Res.eq_ok_of_val _ 0 (by decide))
    ⟨0x7000, by decide, by decide, by decide, by decide, by decide, by decide⟩

/-- C8: success of `uvmalloc`.  For `oldsz < newsz <= MAXVA` on a well-formed
table in which no page of `[PGROUNDUP(oldsz), PGROUNDUP(newsz))` is mapped,
when the allocator holds the frames the pages of that interval need (one data
frame a page, and the page-table pages missing on the way to them, counted by
`framesFor` on the table before the call), `uvmalloc` returns `newsz`; every
page of the interval is mapped with flag bits exactly
`PTE_V|PTE_R|PTE_W|PTE_X|PTE_U` to a frame that was in the allocator before the
call and is not afterwards, and whose 4096 bytes are zero; distinct pages get
distinct frames; the level-0 entries of the pages below `PGROUNDUP(oldsz)` are
unchanged; the call takes exactly the counted frames from the allocator. -/
theorem uvmalloc_grows (root oldsz newsz : Nat) (s : State)
    (wf : WF s.mem root) (fr : Fresh s.mem root s.free)
    (hlt : oldsz < newsz) (hnew : newsz ≤ MAXVA)
    (hun : ∀ b, b % PGSIZE = 0 → PGROUNDUP oldsz ≤ b → b < PGROUNDUP newsz →
      pteOf s.mem root b &&& PTE_V = 0)
    (hfree : framesFor s.mem root (PGROUNDUP oldsz)
      ((PGROUNDUP newsz - PGROUNDUP oldsz) / PGSIZE) ≤ s.free.length) :
    ∃ s', uvmalloc root oldsz newsz s = Res.ok newsz s' ∧
      (∀ b, b % PGSIZE = 0 → PGROUNDUP oldsz ≤ b → b < PGROUNDUP newsz →
        PTE_FLAGS (pteOf s'.mem root b) = PTE_V ||| PTE_R ||| PTE_W ||| PTE_X ||| PTE_U ∧
        PTE2PA (pteOf s'.mem root b) ∈ s.free ∧ PTE2PA (pteOf s'.mem root b) ∉ s'.free ∧
        ∀ x, PTE2PA (pteOf s'.mem root b) ≤ x → x < PTE2PA (pteOf s'.mem root b) + PGSIZE →
          s'.mem x = 0) ∧
      (∀ b c, b % PGSIZE = 0 → PGROUNDUP oldsz ≤ b → b < PGROUNDUP newsz →
        c % PGSIZE = 0 → PGROUNDUP oldsz ≤ c → c < PGROUNDUP newsz → b ≠ c →
        PTE2PA (pteOf s'.mem root b) ≠ PTE2PA (pteOf s'.mem root c)) ∧
      (∀ b, b % PGSIZE = 0 → b < PGROUNDUP oldsz → pteOf s'.mem root b = pteOf s.mem root b) ∧
      s.free.length = s'.free.length + framesFor s.mem root (PGROUNDUP oldsz)
        ((PGROUNDUP newsz - PGROUNDUP oldsz) / PGSIZE) := by
  have hM := MAXVA_eq
  have hP : PGSIZE = 4096 := rfl
  obtain ⟨hunf, ha0, ha1, ha2⟩ := uvmalloc_unfold root oldsz newsz s (by omega) hnew
  have hup := PGROUNDUP_eq newsz
  have hF : MAXVA / PGSIZE + 2 = 67108866 := by decide
  have hun' : ∀ b, b % 4096 = 0 → PGROUNDUP oldsz ≤ b → b < newsz →
      pteOf s.mem root b &&& PTE_V = 0 := by
    intro b hb h1 h2
    exact hun b hb h1 (by omega)
  obtain ⟨ds, sM, used, wfM, frM, stM, hin, hpte, hout, hnd, hds, hres⟩ :=
    uvmallocLoop_frames root (PGROUNDUP oldsz) newsz hnew 67108864 (MAXVA / PGSIZE + 2)
      (PGROUNDUP oldsz) s wf fr ha0 (by omega) (by omega) hun'
  rw [← hunf] at hres
  have hfrm : ∀ d, d ∈ ds → d % 4096 = 0 ∧ d < 2 ^ 64 := fun d hd =>
    ⟨(hds d hd).2.1, (hds d hd).2.2.1⟩
  rcases hres with ⟨hcov, hcount, hR⟩ | ⟨hlt2, _, hshort, _⟩
  · have hidx : ∀ b, b % 4096 = 0 → PGROUNDUP oldsz ≤ b → b < PGROUNDUP newsz →
        (b - PGROUNDUP oldsz) / 4096 < ds.length ∧
          b = PGROUNDUP oldsz + (b - PGROUNDUP oldsz) / 4096 * 4096 := by
      intro b hb h1 h2
      constructor <;> omega
    have hent : ∀ b, b % 4096 = 0 → PGROUNDUP oldsz ≤ b → b < PGROUNDUP newsz →
        pteOf sM.mem root b = leafPte (ds.getD ((b - PGROUNDUP oldsz) / 4096) 0) uperm := by
      intro b hb h1 h2
      obtain ⟨hi, hbe⟩ := hidx b hb h1 h2
      have := hpte _ hi
      rw [← hbe] at this
      exact this
    have hdisj : ∀ d, d ∈ used → d ∉ sM.free := by
      intro d hd1 hd2
      have hnod := fr.nodup
      rw [stM.free] at hnod
      exact (List.nodup_append.mp hnod).2.2 hd1 hd2
    have hlen : (PGROUNDUP newsz - PGROUNDUP oldsz) / PGSIZE = ds.length := by
      rw [hP]
      rcases Nat.eq_zero_or_pos ds.length with h0 | h0
      · rw [h0] at hcov
        omega
      · have := hin (ds.length - 1) (by omega)
        have e : (ds.length - 1) * 4096 = ds.length * 4096 - 4096 := by omega
        omega
    refine ⟨sM, hR, ?_, ?_, ?_, ?_⟩
    · intro b hb h1 h2
      obtain ⟨hi, _⟩ := hidx b hb h1 h2
      have hmem := getD_mem ds _ hi
      obtain ⟨hu, hd1, hd2, _, hz⟩ := hds _ hmem
      obtain ⟨f1, f2, _⟩ := uperm_facts _ hd1 hd2
      rw [hent b hb h1 h2, f1]
      refine ⟨f2, ?_, hdisj _ hu, fun x hx1 hx2 => hz x hx1 (by omega)⟩
      rw [stM.free]
      exact List.mem_append_left _ hu
    · intro b c hb hb1 hb2 hc hc1 hc2 hne heq
      obtain ⟨hi, hbe⟩ := hidx b hb hb1 hb2
      obtain ⟨hj, hce⟩ := hidx c hc hc1 hc2
      obtain ⟨hd1, hd2⟩ := hfrm _ (getD_mem ds _ hi)
      obtain ⟨he1, he2⟩ := hfrm _ (getD_mem ds _ hj)
      rw [hent b hb hb1 hb2, hent c hc hc1 hc2, (uperm_facts _ hd1 hd2).1,
        (uperm_facts _ he1 he2).1] at heq
      have := getD_inj_of_nodup ds hnd _ _ hi hj heq
      omega
    · intro b hb hb1
      exact hout b hb (by omega) (Or.inl hb1)
    · rw [hlen, framesFor_eq]
      exact hcount
  · exfalso
    have := framesFor_le s.mem root (PGROUNDUP oldsz) (ds.length + 1)
      ((PGROUNDUP newsz - PGROUNDUP oldsz) / PGSIZE) (by rw [hP]; omega)
    rw [framesFor_eq] at this
    omega

/-- C8 at a concrete input: growing an empty address space to 10000 bytes with
five free frames, which is what the three pages need (three data frames and
the two page-table pages on the way to page 0). -/
theorem uvmalloc_grows_witness :
    framesFor st0.mem 0x1000 (PGROUNDUP 0) ((PGROUNDUP 10000 - PGROUNDUP 0) / PGSIZE) = 5 ∧
    st0.free.length = 5 ∧
    ∃ s', uvmalloc 0x1000 0 10000 st0 = Res.ok 10000 s' ∧
      (∀ b, b % PGSIZE = 0 → PGROUNDUP 0 ≤ b → b < PGROUNDUP 10000 →
        PTE_FLAGS (pteOf s'.mem 0x1000 b) = PTE_V ||| PTE_R ||| PTE_W ||| PTE_X ||| PTE_U ∧
        PTE2PA (pteOf s'.mem 0x1000 b) ∈ st0.free ∧ PTE2PA (pteOf s'.mem 0x1000 b) ∉ s'.free ∧
        ∀ x, PTE2PA (pteOf s'.mem 0x1000 b) ≤ x → x < PTE2PA (pteOf s'.mem 0x1000 b) + PGSIZE →
          s'.mem x = 0) ∧
      (∀ b c, b % PGSIZE = 0 → PGROUNDUP 0 ≤ b → b < PGROUNDUP 10000 →
        c % PGSIZE = 0 → PGROUNDUP 0 ≤ c → c < PGROUNDUP 10000 → b ≠ c →
        PTE2PA (pteOf s'.mem 0x1000 b) ≠ PTE2PA (pteOf s'.mem 0x1000 c)) ∧
      (∀ b, b % PGSIZE = 0 → b < PGROUNDUP 0 → pteOf s'.mem 0x1000 b = pteOf st0.mem 0x1000 b) ∧
      st0.free.length = s'.free.length + framesFor st0.mem 0x1000 (PGROUNDUP 0)
        ((PGROUNDUP 10000 - PGROUNDUP 0) / PGSIZE) :=
  ⟨by decide, by decide,
    uvmalloc_grows 0x1000 0 10000 st0 wf_st0 fresh_st0 (by decide) (by decide)
      (by
        intro b _ _ _
        show pteOf zeroMem 0x1000 b &&& PTE_V = 0
        rw [pteOf_zeroMem]
        exact zero_invalid)
      (by decide)⟩

/-- C9: partial roll-back of `uvmalloc`.  On a well-formed table in which the
pages of `[PGROUNDUP(oldsz), newsz)` are not mapped, with
`oldsz <= newsz <= MAXVA`, let
the allocator run out after `k` pages: page `k` is still below `newsz`, the
free list holds the frames the first `k` pages need (`framesFor` on the table
before the call: a data frame a page and the page-table pages missing on the
way) but not those the first `k + 1` pages need.  Then `uvmalloc` returns 0.
The run reaches a state `sM`, a step of the table from `s` that has emptied the
free list, in which the first `k` pages of the range are mapped to distinct
data frames `ds` taken from the allocator; `pending` is empty when the free
list held exactly the frames of the `k` pages (the request for the next data
frame failed), and holds the data frame of page `k` otherwise (a page-table
page for `mappages` could not be had; the frame was given back with `kfree`).
From there `uvmdealloc` rolls back: at return the free list holds exactly the
`k` data frames and the pending one, no page of `[PGROUNDUP(oldsz), newsz)` is
mapped, and every level-0 entry outside that range, in particular below
`PGROUNDUP(oldsz)`, is as before the call. -/
theorem uvmalloc_partial_rollback (root oldsz newsz k : Nat) (s : State)
    (wf : WF s.mem root) (fr : Fresh s.mem root s.free)
    (hle : oldsz ≤ newsz) (hnew : newsz ≤ MAXVA)
    (hun : ∀ b, b % PGSIZE = 0 → PGROUNDUP oldsz ≤ b → b < newsz →
      pteOf s.mem root b &&& PTE_V = 0)
    (hk : PGROUNDUP oldsz + k * PGSIZE < newsz)
    (hpaid : framesFor s.mem root (PGROUNDUP oldsz) k ≤ s.free.length)
    (hshort : s.free.length < framesFor s.mem root (PGROUNDUP oldsz) (k + 1)) :
    ∃ (ds pending used : List Nat) (sM s' : State),
      uvmalloc root oldsz newsz s = Res.ok 0 s' ∧
      ds.length = k ∧ Step root s sM used ∧ sM.free = [] ∧
      (∀ i, i < k →
        pteOf sM.mem root (PGROUNDUP oldsz + i * PGSIZE) = leafPte (ds.getD i 0) uperm) ∧
      ds.Nodup ∧ (∀ d, d ∈ ds ++ pending → d ∈ used) ∧ (∀ d, d ∈ ds ++ pending → d ∈ s.free) ∧
      (pending = [] ∧ s.free.length = framesFor s.mem root (PGROUNDUP oldsz) k ∨
        ∃ d, pending = [d] ∧ d ∉ ds ∧
          framesFor s.mem root (PGROUNDUP oldsz) k < s.free.length) ∧
      (∃ r, uvmdealloc root (PGROUNDUP oldsz + k * PGSIZE) (PGROUNDUP oldsz)
        { mem := sM.mem, free := pending } = Res.ok r s') ∧
      s'.free = ds.reverse ++ pending ∧
      (∀ b, b % PGSIZE = 0 → PGROUNDUP oldsz ≤ b → b < newsz →
        pteOf s'.mem root b &&& PTE_V = 0) ∧
      (∀ b, b % PGSIZE = 0 → b < 2 ^ 39 → (b < PGROUNDUP oldsz ∨ newsz ≤ b) →
        pteOf s'.mem root b = pteOf s.mem root b) := by
  have hM := MAXVA_eq
  have hP : PGSIZE = 4096 := rfl
  obtain ⟨hunf, ha0, ha1, ha2⟩ := uvmalloc_unfold root oldsz newsz s hle hnew
  have hF : MAXVA / PGSIZE + 2 = 67108866 := by decide
  obtain ⟨ds, sM, used, wfM, frM, stM, hin, hpte, hout, hnd, hds, hres⟩ :=
    uvmallocLoop_frames root (PGROUNDUP oldsz) newsz hnew 67108864 (MAXVA / PGSIZE + 2)
      (PGROUNDUP oldsz) s wf fr ha0 (by omega) (by omega) hun
  rw [← hunf] at hres
  have hfrm : ∀ d, d ∈ ds → d % 4096 = 0 ∧ d < 2 ^ 64 := fun d hd =>
    ⟨(hds d hd).2.1, (hds d hd).2.2.1⟩
  have hused : ∀ d, d ∈ used → d ∈ s.free := by
    intro d hd
    rw [stM.free]
    exact List.mem_append_left _ hd
  rw [framesFor_eq] at hpaid hshort
  rcases hres with ⟨hcov, hcount, _⟩ | ⟨hlt2, hempty, hsh, pending, hpend, hR⟩
  · exfalso
    have := framesFor_le s.mem root (PGROUNDUP oldsz) (k + 1) ds.length (by rw [hP] at hk; omega)
    rw [framesFor_eq, framesFor_eq] at this
    omega
  · have hlen : ds.length = k := by
      have hlow : framesNeeded 1 ds.length (fun b => missing s.mem b 2 root) (PGROUNDUP oldsz) ≤
          s.free.length := by
        rcases hpend with ⟨_, h⟩ | ⟨_, _, h, _⟩ <;> omega
      rcases Nat.lt_trichotomy ds.length k with h | h | h
      · exfalso
        have := framesFor_le s.mem root (PGROUNDUP oldsz) (ds.length + 1) k (by omega)
        rw [framesFor_eq, framesFor_eq] at this
        omega
      · exact h
      · exfalso
        have := framesFor_le s.mem root (PGROUNDUP oldsz) (k + 1) ds.length (by omega)
        rw [framesFor_eq, framesFor_eq] at this
        omega
    subst hlen
    obtain ⟨r, s', hD, hunm, hfree⟩ :=
      uvmalloc_rollback root (PGROUNDUP oldsz) ds pending sM wfM ha0 (by omega) hfrm hpte
    rw [hD] at hR
    have hpu : ∀ d, d ∈ ds ++ pending → d ∈ used := by
      intro d hd
      rcases List.mem_append.mp hd with hd | hd
      · exact (hds d hd).1
      · rcases hpend with ⟨rfl, _⟩ | ⟨p, rfl, _, hp, _⟩
        · simp at hd
        · simp only [List.mem_singleton] at hd
          subst hd
          exact hp
    refine ⟨ds, pending, used, sM, s', hR, rfl, stM, hempty, hpte, hnd, hpu,
      fun d hd => hused d (hpu d hd), ?_, ⟨r, hD⟩, hfree, ?_, ?_⟩
    · rw [framesFor_eq]
      rcases hpend with ⟨h, h2⟩ | ⟨p, h, h2, _, hp, _⟩
      · exact Or.inl ⟨h, h2⟩
      · exact Or.inr ⟨p, h, hp, h2⟩
    · intro b hb h1 h2
      rw [hP] at hb
      rw [hunm.pte b hb (by omega)]
      by_cases hc : PGROUNDUP oldsz ≤ b ∧ b < PGROUNDUP oldsz + ds.length * 4096
      · rw [if_pos hc]; exact zero_invalid
      · rw [if_neg hc]
        show pteOf sM.mem root b &&& PTE_V = 0
        rw [hout b hb (by omega) (by omega)]
        exact hun b hb h1 h2
    · intro b hb hb2 hb3
      rw [hP] at hb
      rw [hunm.pte b hb hb2, if_neg (by omega)]
      show pteOf sM.mem root b = _
      exact hout b hb hb2 (by omega)

/-- C9 at a concrete input: growing an empty address space to 20000 bytes (five
pages) with five free frames.  Page 0 takes a data frame and two page-table
pages, pages 1 and 2 a data frame each: the first three pages need the five
frames, the first four need six, and the request for the data frame of page 3
fails.  The call returns 0 with the three data frames back on the free
list.  With two free frames only, page 0 gets its data frame and the level-1
table, the level-0 table cannot be had inside `mappages`, and the call returns
0 with the data frame as the one free frame. -/
theorem uvmalloc_partial_rollback_witness :
    (framesFor zeroMem 0x1000 (PGROUNDUP 0) 0 = 0 ∧
      framesFor zeroMem 0x1000 (PGROUNDUP 0) 1 = 3 ∧
      ∃ s' d, uvmalloc 0x1000 0 4096 ⟨zeroMem, [0x2000, 0x3000]⟩ = Res.ok 0 s' ∧
        s'.free = [d] ∧ (d = 0x2000 ∨ d = 0x3000) ∧
        ∀ b, b % PGSIZE = 0 → b < 2 ^ 39 → pteOf s'.mem 0x1000 b &&& PTE_V = 0) ∧
    framesFor st0.mem 0x1000 (PGROUNDUP 0) 3 = 5 ∧ st0.free.length = 5 ∧
    framesFor st0.mem 0x1000 (PGROUNDUP 0) 4 = 6 ∧
    ∃ (ds pending used : List Nat) (sM s' : State),
      uvmalloc 0x1000 0 20000 st0 = Res.ok 0 s' ∧
      ds.length = 3 ∧ Step 0x1000 st0 sM used ∧ sM.free = [] ∧
      (∀ i, i < 3 →
        pteOf sM.mem 0x1000 (PGROUNDUP 0 + i * PGSIZE) = leafPte (ds.getD i 0) uperm) ∧
      ds.Nodup ∧ (∀ d, d ∈ ds ++ pending → d ∈ used) ∧
      (∀ d, d ∈ ds ++ pending → d ∈ st0.free) ∧
      (pending = [] ∧ st0.free.length = framesFor st0.mem 0x1000 (PGROUNDUP 0) 3 ∨
        ∃ d, pending = [d] ∧ d ∉ ds ∧
          framesFor st0.mem 0x1000 (PGROUNDUP 0) 3 < st0.free.length) ∧
      (∃ r, uvmdealloc 0x1000 (PGROUNDUP 0 + 3 * PGSIZE) (PGROUNDUP 0)
        { mem := sM.mem, free := pending } = Res.ok r s') ∧
      s'.free = ds.reverse ++ pending ∧
      (∀ b, b % PGSIZE = 0 → PGROUNDUP 0 ≤ b → b < 20000 →
        pteOf s'.mem 0x1000 b &&& PTE_V = 0) ∧
      (∀ b, b % PGSIZE = 0 → b < 2 ^ 39 → (b < PGROUNDUP 0 ∨ 20000 ≤ b) →
        pteOf s'.mem 0x1000 b = pteOf st0.mem 0x1000 b) :=
  ⟨⟨by decide, by decide, by
      obtain ⟨ds, pending, used, sM, s', h, hlen, _, _, _, _, _, hin, hpd, _, hfree, hun, hout⟩ :=
        uvmalloc_partial_rollback 0x1000 0 4096 0 ⟨zeroMem, [0x2000, 0x3000]⟩
          (wf_zeroMem _ (by decide) (by decide))
          (fresh_zeroMem _ _ (by decide) (by
            intro f hf
            simp only [List.mem_cons, List.mem_singleton, List.not_mem_nil, or_false] at hf
            rcases hf with rfl | rfl <;> decide))
          (by decide) (by decide)
          (by
            intro b _ _ _
            show pteOf zeroMem 0x1000 b &&& PTE_V = 0
            rw [pteOf_zeroMem]
            exact zero_invalid)
          (by decide) (by decide) (by decide)
      rcases hpd with ⟨_, e⟩ | ⟨d, e, _, _⟩
      · exact absurd e (by decide)
      · have hd : d = 0x2000 ∨ d = 0x3000 := by
          have := hin d (by rw [e]; exact List.mem_append_right _ (List.mem_singleton_self d))
          simpa using this
        refine ⟨s', d, h, ?_, hd, ?_⟩
        · rw [hfree, e, List.length_eq_zero.mp hlen]
          rfl
        · intro b hb hb2
          by_cases hc : b < 4096
          · exact hun b hb (by rw [PGROUNDUP_zero]; exact Nat.zero_le b) hc
          · rw [hout b hb hb2 (Or.inr (by omega))]
            show pteOf zeroMem 0x1000 b &&& PTE_V = 0
            rw [pteOf_zeroMem]
            exact zero_invalid⟩,
    by decide, by decide, by decide,
    uvmalloc_partial_rollback 0x1000 0 20000 3 st0 wf_st0 fresh_st0 (by decide) (by decide)
      (by
        intro b _ _ _
        show pteOf zeroMem 0x1000 b &&& PTE_V = 0
        rw [pteOf_zeroMem]
        exact zero_invalid)
      (by decide) (by decide) (by decide)⟩

/-- C11: growing and then shrinking gives back the empty space.  For
`0 < N <= MAXVA`, on a well-formed table in which no page of `[0, N)` is mapped,
when the allocator holds the frames the `ceil(N/4096)` pages need (`framesFor`
on the table before the call: a data frame a page and the page-table pages
missing on the way), `uvmalloc(pt, 0, N)` returns `N` and `uvmdealloc(pt, N, 0)` then returns 0.
The shrink releases exactly the frames that the grow installed at the
`ceil(N/4096)` pages of `[0, N)`, the frame of the lowest page first: they are
pairwise distinct, each came from the allocator during the grow, and afterwards
`walkaddr(pt, a)` is 0 for every `a < N`. -/
theorem uvmalloc_uvmdealloc_round_trip (root N : Nat) (s : State)
    (wf : WF s.mem root) (fr : Fresh s.mem root s.free)
    (hpos : 0 < N) (hN : N ≤ MAXVA)
    (hempty : ∀ b, b % PGSIZE = 0 → b < N → pteOf s.mem root b &&& PTE_V = 0)
    (hfree : framesFor s.mem root 0 ((N + 4095) / 4096) ≤ s.free.length) :
    ∃ s1 s2, uvmalloc root 0 N s = Res.ok N s1 ∧ uvmdealloc root N 0 s1 = Res.ok 0 s2 ∧
      s2.free = (leafFrames s1.mem root 0 ((N + 4095) / 4096)).reverse ++ s1.free ∧
      (leafFrames s1.mem root 0 ((N + 4095) / 4096)).length = (N + 4095) / 4096 ∧
      (leafFrames s1.mem root 0 ((N + 4095) / 4096)).Nodup ∧
      (∀ f, f ∈ leafFrames s1.mem root 0 ((N + 4095) / 4096) → f ∈ s.free ∧ f ∉ s1.free) ∧
      (∀ a, a < N → walkaddr root a s2 = Res.ok 0 s2) := by
  have hM := MAXVA_eq
  have hP : PGSIZE = 4096 := rfl
  have hz := PGROUNDUP_zero
  have hup := PGROUNDUP_eq N
  have hun : ∀ b, b % 4096 = 0 → PGROUNDUP 0 ≤ b → b < N → pteOf s.mem root b &&& PTE_V = 0 :=
    fun b hb _ h2 => hempty b hb h2
  have hcnt : (PGROUNDUP N - 0) / PGSIZE = (N + 4095) / 4096 := by
    rw [hP]
    omega
  obtain ⟨s1, h1⟩ := uvmalloc_enough root 0 N s wf fr hpos hN hun
    (by rw [hz, hcnt]; exact hfree)
  obtain ⟨ds, used, wf1, fr1, st1, hlen, hpte, _, hnd, hds⟩ :=
    uvmalloc_ok_inv root 0 N s s1 wf fr (by omega) hpos hN hun h1
  rw [hz] at hlen hpte
  have hlen' : ds.length = (N + 4095) / 4096 := by omega
  have hfrm : ∀ d, d ∈ ds → d % 4096 = 0 ∧ d < 2 ^ 64 := fun d hd =>
    ⟨(hds d hd).2.1, (hds d hd).2.2.1⟩
  obtain ⟨r, s2, hD, hU, hfree⟩ :=
    uvmalloc_rollback root 0 ds s1.free s1 wf1 (by decide) (by omega) hfrm hpte
  have hD' : uvmdealloc root N 0 s1 = .ok r s2 := by
    rw [uvmdealloc_roundup root N 0 s1 hpos hN]
    have e : PGROUNDUP N = 0 + ds.length * 4096 := by omega
    rw [e]
    exact hD
  have hr := uvmdealloc_val root N 0 r s1 s2 hpos hD'
  subst hr
  have hlf : leafFrames s1.mem root 0 ((N + 4095) / 4096) = ds := by
    rw [← hlen']
    apply leafFrames_of_frames
    intro i hi
    rw [hpte i hi]
    obtain ⟨hd1, hd2⟩ := hfrm _ (getD_mem ds i hi)
    exact (uperm_facts _ hd1 hd2).1
  refine ⟨s1, s2, h1, hD', ?_⟩
  rw [hlf]
  refine ⟨hfree, hlen', hnd, ?_, ?_⟩
  · intro f hf
    obtain ⟨hu, _⟩ := hds f hf
    constructor
    · rw [st1.free]
      exact List.mem_append_left _ hu
    · intro hf2
      have hnod := fr.nodup
      rw [st1.free] at hnod
      exact (List.nodup_append.mp hnod).2.2 hu hf2
  · intro a ha
    rw [walkaddr_of_pteOf root a s2 hU.wf (by omega)]
    have hb := hU.pte (PGROUNDDOWN a) (by rw [PGROUNDDOWN_eq a (by omega)]; omega)
      (by rw [PGROUNDDOWN_eq a (by omega)]; omega)
    rw [pteOf_PGROUNDDOWN _ _ _ (by omega)] at hb
    rw [if_pos (by rw [PGROUNDDOWN_eq a (by omega)]; omega)] at hb
    rw [hb, if_neg]
    intro h
    exact h.1 zero_invalid

/-- C11 at a concrete input: growing an empty address space to 10000 bytes with
five free frames, which is what its three pages need, then shrinking it to
0. -/
theorem uvmalloc_uvmdealloc_round_trip_witness :
    framesFor st0.mem 0x1000 0 ((10000 + 4095) / 4096) = 5 ∧ st0.free.length = 5 ∧
    ∃ s1 s2, uvmalloc 0x1000 0 10000 st0 = Res.ok 10000 s1 ∧
      uvmdealloc 0x1000 10000 0 s1 = Res.ok 0 s2 ∧
      s2.free = (leafFrames s1.mem 0x1000 0 ((10000 + 4095) / 4096)).reverse ++ s1.free ∧
      (leafFrames s1.mem 0x1000 0 ((10000 + 4095) / 4096)).length = (10000 + 4095) / 4096 ∧
      (leafFrames s1.mem 0x1000 0 ((10000 + 4095) / 4096)).Nodup ∧
      (∀ f, f ∈ leafFrames s1.mem 0x1000 0 ((10000 + 4095) / 4096) →
        f ∈ st0.free ∧ f ∉ s1.free) ∧
      (∀ a, a < 10000 → walkaddr 0x1000 a s2 = Res.ok 0 s2) :=
  ⟨by decide, by decide,
    uvmalloc_uvmdealloc_round_trip 0x1000 10000 st0 wf_st0 fresh_st0 (by decide) (by decide)
      (by
        intro b _ _
        show pteOf zeroMem 0x1000 b &&& PTE_V = 0
        rw [pteOf_zeroMem]
        exact zero_invalid)
      (by decide)⟩

/-- Claim C12: `uvmcopy` on a source whose pages of `[0, sz)` all pass the
checks of a valid leaf, a destination that maps none of them, and an allocator
that holds the frames the `ceil(sz/4096)` pages need in the destination
(`framesFor` on the destination table before the call: a data frame a page and
the page-table pages missing on the way) returns 0. Every
page-aligned `a < sz` is then valid in the destination with the flag bits of the
source entry; its frame came from the allocator, differs from every source
frame and from the frame of every other page, and holds the 4096 bytes of the
source frame. The bytes of the source page-table pages and frames, the source
entries and the source tree are unchanged, and a byte stored afterwards into a
destination frame changes no byte of the source. -/
theorem uvmcopy_independent (old new sz : Nat) (s : State)
    (wfO : WF s.mem old) (wfN : WF s.mem new) (frN : Fresh s.mem new s.free)
    (hsrc : ∀ b, b % 4096 = 0 → b < sz → Unmappable s.mem old b)
    (hdst : ∀ b, b % 4096 = 0 → b < sz → pteOf s.mem new b &&& PTE_V = 0)
    (hsepT : ∀ t, TablePage s.mem new t → NotSrc s.mem old sz t)
    (hsepF : ∀ f, f ∈ s.free → NotSrc s.mem old sz f)
    (hfree : framesFor s.mem new 0 ((sz + 4095) / 4096) ≤ s.free.length) :
    ∃ s', uvmcopy old new sz s = Res.ok 0 s' ∧
      (∀ a, a % 4096 = 0 → a < sz →
        pteOf s'.mem new a &&& PTE_V ≠ 0 ∧
        PTE_FLAGS (pteOf s'.mem new a) = PTE_FLAGS (pteOf s.mem old a) ∧
        frameOf s'.mem new a ∈ s.free ∧
        (∀ b, b % 4096 = 0 → b < sz → frameOf s'.mem new a ≠ frameOf s.mem old b) ∧
        (∀ b, b % 4096 = 0 → b < sz → b ≠ a →
          frameOf s'.mem new a ≠ frameOf s'.mem new b) ∧
        (∀ k, k < 4096 → read8 s'.mem (frameOf s'.mem new a + k) =
          read8 s.mem (frameOf s.mem old a + k))) ∧
      (∀ x, SrcByte s.mem old sz x → s'.mem x = s.mem x) ∧
      (∀ b, pteOf s'.mem old b = pteOf s.mem old b) ∧
      (∀ q, ValidPath q → pathTo s'.mem old q = pathTo s.mem old q) ∧
      (∀ a k v, a % 4096 = 0 → a < sz → k < 4096 → ∀ x, SrcByte s.mem old sz x →
        write8 s'.mem (frameOf s'.mem new a + k) v x = s.mem x) := by
  obtain ⟨ds, sM, used, pending, C, hres⟩ :=
    uvmcopy_frames old new sz s wfO.1 wfN frN hsrc hdst hsepT hsepF
  rcases hres with ⟨hall, _, _, hret⟩ | ⟨hlt, _, hshort, _⟩
  swap
  · exfalso
    have := framesFor_le s.mem new 0 (ds.length + 1) ((sz + 4095) / 4096) (by omega)
    omega
  have hsame := sameTables_of_src (s := sM) C.src
  have hfr : ∀ a, a % 4096 = 0 → a < sz → frameOf sM.mem new a = ds.getD (a / 4096) 0 ∧
      a / 4096 < ds.length := by
    intro a ha hlt
    exact ⟨(copied_unmappable C hsrc a ha (by omega)).2.1, by omega⟩
  have hmem : ∀ a, a % 4096 = 0 → a < sz → frameOf sM.mem new a ∈ s.free := by
    intro a ha hlt
    obtain ⟨e, hj⟩ := hfr a ha hlt
    rw [e, C.step.free]
    exact List.mem_append_left _ (C.frames _ (getD_mem ds _ hj)).1
  refine ⟨sM, hret, ?_, C.src, pteOf_congr_tables _ _ old hsame.ent_eq, hsame.path_eq, ?_⟩
  · intro a ha hlt
    obtain ⟨hU, _, hfl⟩ := copied_unmappable C hsrc a ha (by omega)
    obtain ⟨e, hj⟩ := hfr a ha hlt
    refine ⟨hU.2.2.1, hfl, hmem a ha hlt, ?_, ?_, ?_⟩
    · intro b hb hb2
      exact (hsepF _ (hmem a ha hlt)).2 b hb hb2
    · intro b hb hb2 hne heq
      obtain ⟨e', hj'⟩ := hfr b hb hb2
      rw [e, e'] at heq
      have := getD_inj_of_nodup ds C.nodup _ _ hj hj' heq
      omega
    · intro k hk
      have hd := C.data _ hj k hk
      have hbe : 0 + a / 4096 * 4096 = a := by omega
      rw [hbe] at hd
      rw [e]
      unfold read8 at hd ⊢
      rw [hd, Nat.mod_mod]
  · intro a k v ha hlt hk x hx
    have hdis := (hsepF _ (hmem a ha hlt)).disjoint wfO.1 (frameOf_aligned _ _ _) x hx
    rw [write8_ne _ _ _ _ (by omega)]
    exact C.src x hx

/-- C12 at a concrete input: copying the two pages of the address space `st6`
into an empty table at `0xA000`, with four free frames, which is what the two
pages need there (two data frames and two page-table pages). -/
theorem uvmcopy_independent_witness :
    framesFor st6.mem 0xA000 0 ((8192 + 4095) / 4096) = 4 ∧ st6.free.length = 4 ∧
    ∃ s', uvmcopy 0x1000 0xA000 8192 st6 = Res.ok 0 s' ∧
      (∀ a, a % 4096 = 0 → a < 8192 →
        pteOf s'.mem 0xA000 a &&& PTE_V ≠ 0 ∧
        PTE_FLAGS (pteOf s'.mem 0xA000 a) = PTE_FLAGS (pteOf st6.mem 0x1000 a) ∧
        frameOf s'.mem 0xA000 a ∈ st6.free ∧
        (∀ b, b % 4096 = 0 → b < 8192 → frameOf s'.mem 0xA000 a ≠ frameOf st6.mem 0x1000 b) ∧
        (∀ k, k < 4096 → read8 s'.mem (frameOf s'.mem 0xA000 a + k) =
          read8 st6.mem (frameOf st6.mem 0x1000 a + k))) ∧
      (∀ x, SrcByte st6.mem 0x1000 8192 x → s'.mem x = st6.mem x) := by
  obtain ⟨wfO, wfN, frN, hsrc, hdst, hsepT, hsepF⟩ :=
    copy_hyps _ st6 (by decide) (by decide) mappages_st6
  have hcount : framesFor st6.mem 0xA000 0 ((8192 + 4095) / 4096) = 4 := by decide
  have hlen : st6.free.length = 4 := by decide
  obtain ⟨s', h, hp, hs, _⟩ := uvmcopy_independent 0x1000 0xA000 8192 st6 wfO wfN frN hsrc hdst
    hsepT hsepF (by rw [hcount, hlen])
  refine ⟨hcount, hlen, s', h, ?_, hs⟩
  intro a ha hlt
  obtain ⟨h1, h2, h3, h4, _, h6⟩ := hp a ha hlt
  exact ⟨h1, h2, h3, h4, h6⟩

/-- Claim C13: `uvmcopy` on a source whose pages of `[0, sz)` all pass the
checks of a valid leaf, a destination that maps none of them and is apart from
the source, when the allocator fails at page `j`: page `j` is below `sz`, the
free list holds the frames the first `j` pages need in the destination
(`framesFor` on the destination table before the call: a data frame a page and
the page-table pages missing on the way) but not those the first `j + 1` pages
need. The call returns -1. Afterwards the destination has no valid level-0
entry for a page of `[0, sz)`; the free list is made of the `j` data frames
that had been installed and of the data frame that `mappages` could not
install (there is one exactly when the free list held more than the frames of
the `j` pages, so that the data frame of page `j` could be had and a page-table
page could not), each once and each from the allocator; the bytes, entries and
tree of the source are unchanged; and every frame the allocator held is either
back on the free list or a page-table page of the destination tree. -/
theorem uvmcopy_rollback (old new sz j : Nat) (s : State)
    (wfO : WF s.mem old) (wfN : WF s.mem new) (frN : Fresh s.mem new s.free)
    (hsrc : ∀ b, b % 4096 = 0 → b < sz → Unmappable s.mem old b)
    (hdst : ∀ b, b % 4096 = 0 → b < sz → pteOf s.mem new b &&& PTE_V = 0)
    (hsepT : ∀ t, TablePage s.mem new t → NotSrc s.mem old sz t)
    (hsepF : ∀ f, f ∈ s.free → NotSrc s.mem old sz f)
    (hj : j * 4096 < sz)
    (hpaid : framesFor s.mem new 0 j ≤ s.free.length)
    (hshort : s.free.length < framesFor s.mem new 0 (j + 1)) :
    ∃ (s' : State) (ds pending : List Nat), uvmcopy old new sz s = Res.ok (-1) s' ∧
      ds.length = j ∧ ds.length * 4096 < sz ∧
      (pending = [] ∧ s.free.length = framesFor s.mem new 0 j ∨
        pending ≠ [] ∧ framesFor s.mem new 0 j < s.free.length) ∧
      (∀ b, b % 4096 = 0 → b < sz → pteOf s'.mem new b &&& PTE_V = 0) ∧
      s'.free = ds.reverse ++ pending ∧ pending.length ≤ 1 ∧ s'.free.Nodup ∧
      (∀ f, f ∈ s'.free → f ∈ s.free ∧ ¬ TablePage s'.mem new f) ∧
      (∀ x, SrcByte s.mem old sz x → s'.mem x = s.mem x) ∧
      (∀ b, pteOf s'.mem old b = pteOf s.mem old b) ∧
      (∀ q, ValidPath q → pathTo s'.mem old q = pathTo s.mem old q) ∧
      (∀ f, f ∈ s.free → f ∈ s'.free ∨ TablePage s'.mem new f) := by
  have hM := MAXVA_eq
  obtain ⟨ds, sM, used, pending, C, hres⟩ :=
    uvmcopy_frames old new sz s wfO.1 wfN frN hsrc hdst hsepT hsepF
  rcases hres with ⟨hcov, _, hcount, _⟩ | ⟨hlt, hempty, hsh, hpd, s', hret, U, hfree, hsrc'⟩
  · exfalso
    have := framesFor_le s.mem new 0 (j + 1) ds.length (by omega)
    omega
  have hlen : ds.length = j := by
    have hlow : framesFor s.mem new 0 ds.length ≤ s.free.length := by
      rcases hpd with ⟨_, h⟩ | ⟨_, h⟩ <;> omega
    rcases Nat.lt_trichotomy ds.length j with h | h | h
    · exfalso
      have := framesFor_le s.mem new 0 (ds.length + 1) j (by omega)
      omega
    · exact h
    · exfalso
      have := framesFor_le s.mem new 0 (j + 1) ds.length (by omega)
      omega
  have hsame := sameTables_of_src (s := s') hsrc'
  have htab : ∀ t, TablePage sM.mem new t ↔ TablePage s'.mem new t := by
    intro t
    constructor
    · rintro ⟨q, hq, hp⟩
      exact ⟨q, hq, by rw [U.path q hq]; exact hp⟩
    · rintro ⟨q, hq, hp⟩
      exact ⟨q, hq, by rw [← U.path q hq]; exact hp⟩
  have hused : s.free = used := by
    rw [C.step.free, hempty, List.append_nil]
  have hpend : pending.length ≤ 1 ∧ (∀ d, d ∈ pending → d ∈ used ∧ d ∉ ds ∧
      ¬ TablePage sM.mem new d) := by
    rcases C.pend with h | ⟨d, h, h1, h2, h3⟩
    · rw [h]
      exact ⟨by simp, by simp⟩
    · rw [h]
      refine ⟨by simp, ?_⟩
      intro d' hd'
      rw [List.mem_singleton] at hd'
      rw [hd']
      exact ⟨h1, h2, h3⟩
  refine ⟨s', ds, pending, hret, hlen, hlt, by rw [← hlen]; exact hpd, ?_, hfree, hpend.1,
    ?_, ?_, hsrc',
    pteOf_congr_tables _ _ old hsame.ent_eq, hsame.path_eq, ?_⟩
  · intro b hb hb2
    have hsz : sz ≤ MAXVA := by
      by_contra hc
      have := (hsrc MAXVA (by rw [hM]; decide) (by omega)).1
      omega
    rw [U.pte b hb (by omega)]
    by_cases hin : 0 ≤ b ∧ b < ds.length * 4096
    · rw [if_pos hin]
      exact zero_invalid
    · rw [if_neg hin]
      have := C.out b hb (by omega) (Or.inr (by omega))
      rw [this]
      exact hdst b hb hb2
  · rw [hfree]
    apply List.Nodup.append (List.nodup_reverse.mpr C.nodup)
    · rcases C.pend with h | ⟨d, h, _⟩
      · rw [h]
        exact List.nodup_nil
      · rw [h]
        exact List.nodup_singleton d
    · intro x hx1 hx2
      exact (hpend.2 x hx2).2.1 (List.mem_reverse.mp hx1)
  · intro f hf
    rw [hfree, List.mem_append, List.mem_reverse] at hf
    rw [hused, ← htab]
    rcases hf with hf | hf
    · have := C.frames f hf
      exact ⟨this.1, this.2.2.2⟩
    · have := hpend.2 f hf
      exact ⟨this.1, this.2.2⟩
  · intro f hf
    rw [hused] at hf
    rw [hfree, List.mem_append, List.mem_reverse, ← htab]
    rcases C.owned f hf with h | h | h
    · exact Or.inl (Or.inl h)
    · exact Or.inl (Or.inr h)
    · exact Or.inr h

/-- C13 at a concrete input: copying the two pages of the address space `st5`
into an empty table at `0xA000` with three free frames. Page 0 takes a data
frame and two page-table pages, which is all there is, and the request for the
data frame of page 1 fails: the call returns -1. With two free frames only
(the same source built with an allocator of four frames), page 0 gets its data
frame and the level-1 table, the level-0 table cannot be had inside `mappages`,
and the call returns -1 with the data frame as the one free frame. -/
theorem uvmcopy_rollback_witness :
    (∃ s', uvmcopy 0x1000 0xA000 8192 (mappages 0x1000 0 (2 * PGSIZE) 0x8000 uperm
          ⟨zeroMem, [0x2000, 0x3000, 0x4000, 0x5000]⟩).state = Res.ok (-1) s' ∧
        s'.free.length = 1 ∧
        (∀ b, b % 4096 = 0 → b < 8192 → pteOf s'.mem 0xA000 b &&& PTE_V = 0) ∧
        ∀ f, f ∈ (mappages 0x1000 0 (2 * PGSIZE) 0x8000 uperm
            ⟨zeroMem, [0x2000, 0x3000, 0x4000, 0x5000]⟩).state.free →
          f ∈ s'.free ∨ TablePage s'.mem 0xA000 f) ∧
    framesFor st5.mem 0xA000 0 1 = 3 ∧ st5.free.length = 3 ∧
    framesFor st5.mem 0xA000 0 2 = 4 ∧
    ∃ s', uvmcopy 0x1000 0xA000 8192 st5 = Res.ok (-1) s' ∧
      s'.free.length = 1 ∧
      (∀ b, b % 4096 = 0 → b < 8192 → pteOf s'.mem 0xA000 b &&& PTE_V = 0) ∧
      s'.free.Nodup ∧
      (∀ x, SrcByte st5.mem 0x1000 8192 x → s'.mem x = st5.mem x) ∧
      (∀ f, f ∈ st5.free → f ∈ s'.free ∨ TablePage s'.mem 0xA000 f) := by
  obtain ⟨wfO, wfN, frN, hsrc, hdst, hsepT, hsepF⟩ :=
    copy_hyps _ st5 (by decide) (by decide) mappages_st5
  have h1 : framesFor st5.mem 0xA000 0 1 = 3 := by decide
  have h2 : framesFor st5.mem 0xA000 0 2 = 4 := by decide
  have h3 : st5.free.length = 3 := by decide
  obtain ⟨s', ds, pending, h, hlen, _, hpd, hp, hfree, _, hn, _, hs, _, _, hl⟩ :=
    uvmcopy_rollback 0x1000 0xA000 8192 1 st5 wfO wfN frN hsrc hdst hsepT hsepF (by decide)
      (by rw [h1, h3]) (by rw [h2, h3]; decide)
  refine ⟨?_, h1, h3, h2, s', h, ?_, hp, hn, hs, hl⟩
  · obtain ⟨wfO, wfN, frN, hsrc, hdst, hsepT, hsepF⟩ :=
      copy_hyps _ (mappages 0x1000 0 (2 * PGSIZE) 0x8000 uperm
        ⟨zeroMem, [0x2000, 0x3000, 0x4000, 0x5000]⟩).state (by decide) (by decide)
        (Res.eq_ok_of_val _ _ (by decide))
    obtain ⟨s', ds, pending, h, hlen, _, hpd, hp, hfree, hpl, _, _, _, _, _, hl⟩ :=
      uvmcopy_rollback 0x1000 0xA000 8192 0 _ wfO wfN frN hsrc hdst hsepT hsepF (by decide)
        (by decide) (by decide)
    refine ⟨s', h, ?_, hp, hl⟩
    rcases hpd with ⟨_, e⟩ | ⟨e, _⟩
    · exact absurd e (by decide)
    · rw [hfree, List.length_append, List.length_reverse, hlen]
      have : 0 < pending.length := List.length_pos.mpr e
      omega
  rcases hpd with ⟨e, _⟩ | ⟨_, e⟩
  · rw [hfree, e, List.append_nil, List.length_reverse, hlen]
  · rw [h1, h3] at e
    exact absurd e (by decide)

/-- C14, as the code has it: `uvmclear` strips only the user bit of the level-0
slot of `va`.  On a well-formed table, for `va < MAXVA`: when `walk` finds no
level-0 slot for `va` (a level-2 or level-1 entry on the way is not valid) the
call panics with "uvmclear"; when the slot exists, whether or not its entry is
valid, the call returns, the entry becomes the old entry with `PTE_U` cleared
(same frame number, every other bit as before), no byte outside the eight bytes
of the slot changes, the tree and the allocator are as before, and
`walkaddr(pt, va)` then returns 0. -/
theorem uvmclear_strips_user (root va : Nat) (s : State) (wf : WF s.mem root)
    (hva : va < MAXVA) :
    (slotOf s.mem root va = 0 → uvmclear root va s = Res.panic "uvmclear" s) ∧
    (slotOf s.mem root va ≠ 0 →
      ∃ s', uvmclear root va s = Res.ok () s' ∧ s'.free = s.free ∧
        pteOf s'.mem root va = pteOf s.mem root va &&& (U64 - 1 - PTE_U) ∧
        PTE2PA (pteOf s'.mem root va) = PTE2PA (pteOf s.mem root va) ∧
        (∀ k, k ≠ 4 → (pteOf s'.mem root va).testBit k = (pteOf s.mem root va).testBit k) ∧
        pteOf s'.mem root va &&& PTE_U = 0 ∧
        (∀ x, (x < slotOf s.mem root va ∨ slotOf s.mem root va + 8 ≤ x) → s'.mem x = s.mem x) ∧
        (∀ q, ValidPath q → pathTo s'.mem root q = pathTo s.mem root q) ∧
        walkaddr root va s' = Res.ok 0 s') := by
  obtain ⟨hbad, hgood⟩ := uvmclear_spec root va s hva
  refine ⟨hbad, fun h => ?_⟩
  obtain ⟨t0, hp, hs, hr⟩ := hgood h
  have hlt : pteOf s.mem root va < 2 ^ 64 := by
    rw [pteOf_of_path hp]
    exact read64_lt _ _
  have hv := clearU_lt _ hlt
  have hpte : pteOf (write64 s.mem (t0 + 8 * PX 0 va)
      (pteOf s.mem root va &&& (U64 - 1 - PTE_U))) root va =
      pteOf s.mem root va &&& (U64 - 1 - PTE_U) := by
    rw [(store_stored wf hp hv).pte_store wf hp va, if_pos ⟨rfl, rfl, rfl⟩]
  refine ⟨_, hr, rfl, hpte, ?_, ?_, ?_, ?_, store_path wf hp hv, ?_⟩
  · show PTE2PA (pteOf (write64 _ _ _) root va) = _
    rw [hpte, clearU_PTE2PA _ hlt]
  · intro k hk
    show (pteOf (write64 _ _ _) root va).testBit k = _
    rw [hpte, and_not_PTE_U _ hlt]
    simp [hk]
  · show pteOf (write64 _ _ _) root va &&& PTE_U = 0
    rw [hpte, clearU_user]
  · intro x hx
    rw [hs] at hx
    exact write64_out _ _ _ _ hx
  · have wf' : WF (write64 s.mem (t0 + 8 * PX 0 va)
        (pteOf s.mem root va &&& (U64 - 1 - PTE_U))) root := store_wf wf hp hv
    rw [walkaddr_of_pteOf root va _ wf' hva]
    show Res.ok (if pteOf (write64 _ _ _) root va &&& PTE_V ≠ 0 ∧
      pteOf (write64 _ _ _) root va &&& PTE_U ≠ 0 then _ else 0) _ = _
    rw [hpte, clearU_user, if_neg (fun h => h.2 rfl)]

/-- C14 at a concrete input: clearing the user bit of page 0 of the two-page
address space `st2`. -/
theorem uvmclear_strips_user_witness :
    slotOf st2.mem 0x1000 0 ≠ 0 ∧
    ∃ s', uvmclear 0x1000 0 st2 = Res.ok () s' ∧ s'.free = st2.free ∧
      pteOf s'.mem 0x1000 0 = pteOf st2.mem 0x1000 0 &&& (U64 - 1 - PTE_U) ∧
      PTE2PA (pteOf s'.mem 0x1000 0) = PTE2PA (pteOf st2.mem 0x1000 0) ∧
      (∀ k, k ≠ 4 → (pteOf s'.mem 0x1000 0).testBit k = (pteOf st2.mem 0x1000 0).testBit k) ∧
      pteOf s'.mem 0x1000 0 &&& PTE_U = 0 ∧
      (∀ x, (x < slotOf st2.mem 0x1000 0 ∨ slotOf st2.mem 0x1000 0 + 8 ≤ x) →
        s'.mem x = st2.mem x) ∧
      (∀ q, ValidPath q → pathTo s'.mem 0x1000 q = pathTo st2.mem 0x1000 q) ∧
      walkaddr 0x1000 0 s' = Res.ok 0 s' :=
  ⟨by decide, (uvmclear_strips_user 0x1000 0 st2 st2_inv.1 (by decide)).2 (by decide)⟩

/-- C14 as stated fails on the code: in the two-page address space `st2`, page 2
has no valid mapping entry (its level-0 entry is 0), yet `uvmclear` on it is not
fatal; it returns after rewriting the invalid entry. -/
theorem uvmclear_invalid_entry_counterexample :
    pteOf st2.mem 0x1000 0x2000 &&& PTE_V = 0 ∧ walkaddr 0x1000 0x2000 st2 = Res.ok 0 st2 ∧
      (uvmclear 0x1000 0x2000 st2).msg = none ∧ (uvmclear 0x1000 0x2000 st2).val = some () := by
  refine ⟨by decide, ?_, by decide, by decide⟩
  rw [walkaddr_eq]
  have : ¬ (0x2000 < MAXVA ∧ slotOf st2.mem 0x1000 0x2000 ≠ 0 ∧
      read64 st2.mem (slotOf st2.mem 0x1000 0x2000) &&& PTE_V ≠ 0 ∧
      read64 st2.mem (slotOf st2.mem 0x1000 0x2000) &&& PTE_U ≠ 0) := by decide
  rw [if_neg this]

/-- C15: `uvmfree` releases the whole address space exactly once.  Take a
well-formed three-level table whose valid level-2 and level-1 entries are
internal and whose valid level-0 entries are exactly those of the pages of
`[0, PGROUNDUP(sz))`, each passing the checks of `uvmunmap` (as a leaf entry
does).  With room for three nested calls of `freewalk`, `uvmfree(pt, sz)`
returns, and the frames it hands to `kfree` are, in this order, the data frames
of the pages in ascending order and then the page-table pages in the order
`tableFrames`: each page-table page of the tree exactly once, every table
after all tables below it, the root last, and nothing else.  When the data
frames are pairwise distinct and none is a page-table page, no frame is
released twice.  For `sz = 0` the call is `freewalk` alone, without `uvmunmap`,
and on a root without valid entries it releases the root and nothing else. -/
theorem uvmfree_releases_all (depth root sz : Nat) (s : State)
    (wf : WF s.mem root) (hint : Internal s.mem root) (hdepth : 3 ≤ depth)
    (hleaf : ∀ b, b % PGSIZE = 0 → b < 2 ^ 39 → pteOf s.mem root b &&& PTE_V ≠ 0 →
      b < PGROUNDUP sz)
    (hun : ∀ b, b % PGSIZE = 0 → b < PGROUNDUP sz → Unmappable s.mem root b) :
    ∃ s', uvmfree depth root sz s = Res.ok () s' ∧
      s'.free = (leafFrames s.mem root 0 (PGROUNDUP sz / PGSIZE) ++
        tableFrames s.mem 2 root).reverse ++ s.free ∧
      (∀ t, t ∈ tableFrames s.mem 2 root ↔ TablePage s.mem root t) ∧
      (tableFrames s.mem 2 root).Nodup ∧
      (∀ q i c t, ValidPath (q ++ [i]) → pathTo s.mem root q = some t →
        pathTo s.mem root (q ++ [i]) = some c → Before c t (tableFrames s.mem 2 root)) ∧
      ((leafFrames s.mem root 0 (PGROUNDUP sz / PGSIZE)).Nodup →
        (∀ f, f ∈ leafFrames s.mem root 0 (PGROUNDUP sz / PGSIZE) → ¬ TablePage s.mem root f) →
        (leafFrames s.mem root 0 (PGROUNDUP sz / PGSIZE) ++ tableFrames s.mem 2 root).Nodup) ∧
      (sz = 0 → uvmfree depth root sz s = freewalk depth root s) ∧
      (sz = 0 → (∀ j, j < 512 → ent s.mem root j &&& PTE_V = 0) →
        uvmfree depth root sz s = Res.ok () (kfree root s)) := by
  have hP : PGSIZE = 4096 := rfl
  have hM := MAXVA_eq
  have hup := PGROUNDUP_eq sz
  obtain ⟨d, rfl⟩ : ∃ d, depth = d + 3 := ⟨depth - 3, by omega⟩
  have hnd := nodup_tableFrames_wf s.mem root wf
  have hrest : (∀ t, t ∈ tableFrames s.mem 2 root ↔ TablePage s.mem root t) ∧
      (tableFrames s.mem 2 root).Nodup ∧
      (∀ q i c t, ValidPath (q ++ [i]) → pathTo s.mem root q = some t →
        pathTo s.mem root (q ++ [i]) = some c → Before c t (tableFrames s.mem 2 root)) ∧
      ((leafFrames s.mem root 0 (PGROUNDUP sz / PGSIZE)).Nodup →
        (∀ f, f ∈ leafFrames s.mem root 0 (PGROUNDUP sz / PGSIZE) → ¬ TablePage s.mem root f) →
        (leafFrames s.mem root 0 (PGROUNDUP sz / PGSIZE) ++ tableFrames s.mem 2 root).Nodup) ∧
      (sz = 0 → uvmfree (d + 3) root sz s = freewalk (d + 3) root s) ∧
      (sz = 0 → (∀ j, j < 512 → ent s.mem root j &&& PTE_V = 0) →
        uvmfree (d + 3) root sz s = Res.ok () (kfree root s)) := by
    refine ⟨tableFrames_iff s.mem root, hnd, tableFrames_before s.mem root, ?_, ?_, ?_⟩
    · intro h1 h2
      rw [List.nodup_append]
      exact ⟨h1, hnd, fun x hx hx2 => h2 x hx ((tableFrames_iff s.mem root x).mp hx2)⟩
    · intro h0
      unfold uvmfree
      rw [if_neg (by omega)]
    · intro h0 hemp
      unfold uvmfree
      rw [if_neg (by omega)]
      exact freewalk_empty (d + 2) root s hemp
  by_cases hsz : sz > 0
  · have hbound : (0 + PGROUNDUP sz / PGSIZE * PGSIZE) % U64 = PGROUNDUP sz := by
      unfold U64
      rw [hP]
      omega
    have hall : ∀ b, b % 4096 = 0 → 0 ≤ b → b < (0 + PGROUNDUP sz / PGSIZE * PGSIZE) % U64 →
        Unmappable s.mem root b := by
      intro b hb _ hlt
      rw [hbound] at hlt
      exact hun b hb hlt
    obtain ⟨s1, hr1, hU, hfree1⟩ :=
      (uvmunmap_spec root 0 (PGROUNDUP sz / PGSIZE) 1 s wf (by decide)).1 hall
    have hup1 := uvmunmap_upper root 0 (PGROUNDUP sz / PGSIZE) 1 s s1 wf (by decide) hall hr1
    rw [hbound] at hU hfree1
    have T : Teardown s1.mem root := by
      apply teardown_of_wf s1.mem root hU.wf (hint.of_upper hU.path hup1)
      intro b hb hb2
      rw [hU.pte b hb hb2]
      by_cases hin : 0 ≤ b ∧ b < PGROUNDUP sz
      · rw [if_pos hin]
        exact zero_invalid
      · rw [if_neg hin]
        by_contra hv
        exact hin ⟨Nat.zero_le _, hleaf b hb hb2 hv⟩
    obtain ⟨s', hr, hfree⟩ := freewalk_root d root s1 T
    refine ⟨s', ?_, ?_, hrest⟩
    · unfold uvmfree
      rw [if_pos hsz, hr1]
      exact hr
    · rw [hfree, hfree1, tableFrames_congr_upper s.mem s1.mem root hup1, List.reverse_append,
        List.append_assoc]
      unfold freed
      rw [if_pos (by decide), Nat.sub_zero, hP]
  · have h0 : sz = 0 := by omega
    subst h0
    have T : Teardown s.mem root := by
      apply teardown_of_wf s.mem root wf hint
      intro b hb hb2
      by_contra hv
      have := hleaf b hb hb2 hv
      rw [PGROUNDUP_zero] at this
      omega
    obtain ⟨s', hr, hfree⟩ := freewalk_root d root s T
    refine ⟨s', ?_, ?_, hrest⟩
    · unfold uvmfree
      rw [if_neg hsz]
      exact hr
    · rw [hfree, PGROUNDUP_zero]
      rfl

/-- C15 at a concrete input: tearing down the two-page address space `st5`. -/
theorem uvmfree_releases_all_witness :
    ∃ s', uvmfree 3 0x1000 (2 * PGSIZE) st5 = Res.ok () s' ∧
      s'.free = (leafFrames st5.mem 0x1000 0 (PGROUNDUP (2 * PGSIZE) / PGSIZE) ++
        tableFrames st5.mem 2 0x1000).reverse ++ st5.free := by
  have hP : PGSIZE = 4096 := rfl
  have e : PGROUNDUP (2 * PGSIZE) = 8192 := by decide
  obtain ⟨wf, _, hint, hpte⟩ := st5_inv
  obtain ⟨s', h1, h2, _⟩ := uvmfree_releases_all 3 0x1000 (2 * PGSIZE) st5 wf hint (le_refl _)
    (by
      intro b hb hb2 hv
      rw [hpte b hb hb2] at hv
      rw [e]
      by_contra hc
      rw [if_neg hc] at hv
      exact hv zero_invalid)
    (by
      intro b hb hlt
      rw [e] at hlt
      rw [hP] at hb
      apply unmappable_of_wf _ _ _ wf (by rw [MAXVA_eq]; omega)
      · rw [hpte b hb (by omega), if_pos hlt]
        exact leafPte_valid _ _
      · rw [hpte b hb (by omega), if_pos hlt]
        exact (uperm_facts _ (by omega) (by omega)).2.2)
  exact ⟨s', h1, h2⟩

/-- C16: `copyout` and `copyin` transfer byte by byte across page boundaries.
Let every page overlapping `[uva, uva+len)` translate under `walkaddr`, and let
the kernel buffer `[kbuf, kbuf+len)` not overlap the physical bytes of the user
range.  Write `userByte pt (uva+i)` for
`walkaddr(pt, PGROUNDDOWN(uva+i)) + (uva+i) mod 4096`.

* When the physical bytes of the range lie outside the page-table pages and
  distinct user bytes have distinct physical addresses, `copyout` returns 0,
  byte `i` of the kernel buffer is stored at `userByte pt (uva+i)` for every
  `i < len`, and no other byte of memory changes.
* When the kernel buffer lies outside the page-table pages, `copyin` returns 0,
  byte `i` of the kernel buffer becomes the byte found at `userByte pt (uva+i)`
  for every `i < len`, and no byte outside the buffer changes. -/
theorem copyout_copyin_bytewise (root uva kbuf len : Nat) (s : State) (huva : uva < U64)
    (hmap : ∀ i, i < len → walkaddrVal root (PGROUNDDOWN (uva + i)) s ≠ 0)
    (hbuf : ∀ i, i < len → ∀ j, j < len → kbuf + j ≠ userByte root (uva + i) s) :
    ((∀ i, i < len → ∀ t, TablePage s.mem root t →
        userByte root (uva + i) s < t ∨ t + PGSIZE ≤ userByte root (uva + i) s) →
      (∀ i, i < len → ∀ j, j < len →
        userByte root (uva + i) s = userByte root (uva + j) s → i = j) →
      ∃ s', copyout root uva kbuf len s = Res.ok 0 s' ∧ s'.free = s.free ∧
        (∀ i, i < len → s'.mem (userByte root (uva + i) s) = read8 s.mem (kbuf + i)) ∧
        (∀ x, (∀ i, i < len → x ≠ userByte root (uva + i) s) → s'.mem x = s.mem x)) ∧
    ((∀ i, i < len → ∀ t, TablePage s.mem root t → kbuf + i < t ∨ t + PGSIZE ≤ kbuf + i) →
      ∃ s', copyin root kbuf uva len s = Res.ok 0 s' ∧ s'.free = s.free ∧
        (∀ i, i < len → s'.mem (kbuf + i) = read8 s.mem (userByte root (uva + i) s)) ∧
        (∀ x, (x < kbuf ∨ kbuf + len ≤ x) → s'.mem x = s.mem x)) := by
  constructor
  · intro hsep hinj
    obtain ⟨s', hr, hrest⟩ := copyoutLoop_spec root (MAXVA / PGSIZE + 1) uva kbuf len len s huva
      (copy_fuel uva) (le_refl _) hmap (fun h => absurd h (lt_irrefl _)) hsep
      (fun i j hi hj => hbuf i hi j hj) (fun i j hi hj => hinj i hi j hj)
    rw [if_pos rfl] at hr
    exact ⟨s', hr, hrest⟩
  · intro hsep
    exact copyinLoop_spec root (MAXVA / PGSIZE + 1) kbuf uva len s huva (copy_fuel uva) hmap hsep
      (fun i j hi hj => hbuf i hi j hj)

set_option maxRecDepth 20000 in
/-- C16 at a concrete input: ten bytes copied out to, and in from, the user
address `0xFFB`, five bytes before the boundary between pages 0 and 1 of the
address space `st3`, whose frames are `0x2000` and `0x5000`; the kernel buffer
is at `0x7000`.  Five bytes go to the end of the first frame and five to the
start of the second. -/
theorem copyout_copyin_bytewise_witness :
    (∀ i, i < 10 → userByte 0x1000 (0xFFB + i) st3 =
      if i < 5 then 0x2FFB + i else 0x5000 + (i - 5)) ∧
    (∃ s', copyout 0x1000 0xFFB 0x7000 10 st3 = Res.ok 0 s' ∧ s'.free = st3.free ∧
      (∀ i, i < 10 → s'.mem (userByte 0x1000 (0xFFB + i) st3) = read8 st3.mem (0x7000 + i)) ∧
      (∀ x, (∀ i, i < 10 → x ≠ userByte 0x1000 (0xFFB + i) st3) → s'.mem x = st3.mem x)) ∧
    (∃ s', copyin 0x1000 0x7000 0xFFB 10 st3 = Res.ok 0 s' ∧ s'.free = st3.free ∧
      (∀ i, i < 10 → s'.mem (0x7000 + i) = read8 st3.mem (userByte 0x1000 (0xFFB + i) st3)) ∧
      (∀ x, (x < 0x7000 ∨ 0x7000 + 10 ≤ x) → s'.mem x = st3.mem x)) := by
  have hub : ∀ i, i < 10 → userByte 0x1000 (0xFFB + i) st3 =
      if i < 5 then 0x2FFB + i else 0x5000 + (i - 5) := by decide
  have h := copyout_copyin_bytewise 0x1000 0xFFB 0x7000 10 st3 (by decide) (by decide)
    (by decide)
  refine ⟨hub, h.1 ?_ (by decide), h.2 ?_⟩
  · intro i hi t ht
    rw [hub i hi]
    have hP : PGSIZE = 4096 := rfl
    rcases tables_st3 t ht with rfl | rfl | rfl <;> split <;> omega
  · intro i hi t ht
    have hP : PGSIZE = 4096 := rfl
    rcases tables_st3 t ht with rfl | rfl | rfl <;> omega

/-- C17: `copyout` fails exactly on an untranslatable page and does not roll
back.  Let `k <= len` be the number of bytes of `[dstva, dstva+len)` that lie
below the first page without a translation: `walkaddr` is not 0 on the pages of
the bytes `i < k` and, if `k < len`, is 0 on the page of byte `k`.  Let the
physical bytes of those `k` bytes lie outside the page-table pages and outside
the source buffer, at pairwise distinct addresses.  Then `copyout` returns 0
when `k = len` and -1 otherwise, so it returns -1 exactly when `len > 0` and
some page overlapping the range has no translation; in either case the first
`k` source bytes have been stored at their physical addresses and no other byte
of memory has changed.  With `len = 0` it returns 0 in the state it was called
in, whatever the table holds. -/
theorem copyout_fails_iff (root dstva src len k : Nat) (s : State) (hd : dstva < U64)
    (hk : k ≤ len)
    (hT : ∀ i, i < k → walkaddrVal root (PGROUNDDOWN (dstva + i)) s ≠ 0)
    (hstop : k < len → walkaddrVal root (PGROUNDDOWN (dstva + k)) s = 0)
    (hsep : ∀ i, i < k → ∀ t, TablePage s.mem root t →
      userByte root (dstva + i) s < t ∨ t + PGSIZE ≤ userByte root (dstva + i) s)
    (hsrc : ∀ i, i < k → ∀ j, j < k → src + j ≠ userByte root (dstva + i) s)
    (hinj : ∀ i, i < k → ∀ j, j < k →
      userByte root (dstva + i) s = userByte root (dstva + j) s → i = j) :
    ∃ s', copyout root dstva src len s = Res.ok (if k = len then 0 else -1) s' ∧
      ((copyout root dstva src len s).val = some (-1) ↔
        0 < len ∧ ∃ i, i < len ∧ walkaddrVal root (PGROUNDDOWN (dstva + i)) s = 0) ∧
      s'.free = s.free ∧
      (∀ i, i < k → s'.mem (userByte root (dstva + i) s) = read8 s.mem (src + i)) ∧
      (∀ x, (∀ i, i < k → x ≠ userByte root (dstva + i) s) → s'.mem x = s.mem x) ∧
      copyout root dstva src 0 s = Res.ok 0 s := by
  obtain ⟨s', hr, hfree, hbytes, hothers⟩ := copyoutLoop_spec root (MAXVA / PGSIZE + 1) dstva src
    len k s hd (copy_fuel dstva) hk hT hstop hsep (fun i j hi hj => hsrc i hi j hj)
    (fun i j hi hj => hinj i hi j hj)
  have hr' : copyout root dstva src len s = Res.ok (if k = len then 0 else -1) s' := hr
  refine ⟨s', hr', ?_, hfree, hbytes, hothers, ?_⟩
  · rw [hr']
    constructor
    · intro h
      have hne : k ≠ len := by
        intro he
        rw [if_pos he] at h
        have h2 : some (0 : Int) = some (-1) := h
        exact absurd (Option.some.inj h2) (by decide)
      exact ⟨by omega, k, by omega, hstop (by omega)⟩
    · rintro ⟨_, i, hi, h0⟩
      have hne : k ≠ len := by
        intro he
        exact hT i (by omega) h0
      rw [if_neg hne]
      rfl
  · show copyoutLoop root (MAXVA / PGSIZE + 1 + 1) dstva src 0 s = _
    rw [copyoutLoop_succ, if_neg (by omega)]

set_option maxRecDepth 20000 in
/-- C17 at a concrete input: ten bytes copied out to the user address `0x1FFB`
of the address space `st3`, five bytes before the end of its last mapped page:
the call returns -1 after storing the first five bytes in the frame `0x5000`. -/
theorem copyout_fails_iff_witness :
    ∃ s', copyout 0x1000 0x1FFB 0x7000 10 st3 = Res.ok (if 5 = 10 then 0 else -1) s' ∧
      ((copyout 0x1000 0x1FFB 0x7000 10 st3).val = some (-1) ↔
        0 < 10 ∧ ∃ i, i < 10 ∧ walkaddrVal 0x1000 (PGROUNDDOWN (0x1FFB + i)) st3 = 0) ∧
      s'.free = st3.free ∧
      (∀ i, i < 5 → s'.mem (userByte 0x1000 (0x1FFB + i) st3) = read8 st3.mem (0x7000 + i)) ∧
      (∀ x, (∀ i, i < 5 → x ≠ userByte 0x1000 (0x1FFB + i) st3) → s'.mem x = st3.mem x) ∧
      copyout 0x1000 0x1FFB 0x7000 0 st3 = Res.ok 0 st3 := by
  have hub : ∀ i, i < 5 → userByte 0x1000 (0x1FFB + i) st3 = 0x5FFB + i := by decide
  refine copyout_fails_iff 0x1000 0x1FFB 0x7000 10 5 st3 (by decide) (by decide) (by decide)
    (by decide) ?_ (by decide) (by decide)
  intro i hi t ht
  rw [hub i hi]
  have hP : PGSIZE = 4096 := rfl
  rcases tables_st3 t ht with rfl | rfl | rfl <;> omega

/-- C18: `copyinstr` stops at the first zero byte or at `max`.  Write
`userByte pt (srcva+i)` for the physical address of byte `i` of the user string.
Let `k <= max` be such that the bytes `i < k` are not zero and, if `k < max`,
byte `k` is zero.  Only the pages of the bytes that are read need to translate:
those of bytes `0..k` when `k < max`, of bytes `0..max-1` otherwise; whether any
later page translates does not matter.  The destination bytes that get written
lie outside the page-table pages and outside the bytes read.  Then `copyinstr`
returns 0 when `k < max` and -1 when `k = max`, so it returns 0 exactly when a
zero byte occurs among the first `max` bytes.  With a terminator it writes
exactly the `k+1` bytes `dst[0..k]`, equal to the source bytes, `dst[k]` being 0;
without one it writes exactly the `max` bytes `dst[0..max-1]`, all non-zero.  No
other byte of memory changes. -/
theorem copyinstr_stops (root dst srcva max k : Nat) (s : State) (hs : srcva < U64)
    (hk : k ≤ max)
    (hnz : ∀ i, i < k → read8 s.mem (userByte root (srcva + i) s) ≠ 0)
    (hzero : k < max → read8 s.mem (userByte root (srcva + k) s) = 0)
    (hT : ∀ i, i < min (k + 1) max → walkaddrVal root (PGROUNDDOWN (srcva + i)) s ≠ 0)
    (hsep : ∀ i, i < min (k + 1) max → ∀ t, TablePage s.mem root t →
      dst + i < t ∨ t + PGSIZE ≤ dst + i)
    (hdis : ∀ i, i < min (k + 1) max → ∀ j, j < min (k + 1) max →
      dst + j ≠ userByte root (srcva + i) s) :
    ∃ s', copyinstr root dst srcva max s = Res.ok (if k < max then 0 else -1) s' ∧
      ((copyinstr root dst srcva max s).val = some 0 ↔
        ∃ i, i < max ∧ read8 s.mem (userByte root (srcva + i) s) = 0) ∧
      s'.free = s.free ∧
      (∀ i, i < min (k + 1) max →
        s'.mem (dst + i) = read8 s.mem (userByte root (srcva + i) s)) ∧
      (k < max → s'.mem (dst + k) = 0) ∧
      (∀ i, i < k → s'.mem (dst + i) ≠ 0) ∧
      (∀ x, (x < dst ∨ dst + min (k + 1) max ≤ x) → s'.mem x = s.mem x) := by
  obtain ⟨s', hr, hfree, hbytes, hothers⟩ := copyinstrLoop_spec root (MAXVA / PGSIZE + 1) dst
    srcva max k s hs (copy_fuel srcva) hk hnz hzero hT hsep (fun i j hi hj => hdis i hi j hj)
  have hr' : copyinstr root dst srcva max s = Res.ok (if k < max then 0 else -1) s' := hr
  refine ⟨s', hr', ?_, hfree, hbytes, ?_, ?_, hothers⟩
  · rw [hr']
    constructor
    · intro h
      have hlt : k < max := by
        by_contra hc
        rw [if_neg hc] at h
        have h2 : some (-1 : Int) = some 0 := h
        exact absurd (Option.some.inj h2) (by decide)
      exact ⟨k, hlt, hzero hlt⟩
    · rintro ⟨i, hi, h0⟩
      have hlt : k < max := by
        by_contra hc
        exact hnz i (by omega) h0
      rw [if_pos hlt]
      rfl
  · intro hlt
    rw [hbytes k (by omega)]
    exact hzero hlt
  · intro i hi
    rw [hbytes i (by omega)]
    exact hnz i hi

set_option maxRecDepth 20000 in
/-- C18 at concrete inputs, on the address space `st4` whose page 0 starts with
"hi", 0, "xxxxxx": with `max = 8` the call succeeds after writing "hi" and the
terminator; with `max = 2` it fails after writing "hi". -/
theorem copyinstr_stops_witness :
    (∃ s', copyinstr 0x1000 0x7000 0 8 st4 = Res.ok (if 2 < 8 then 0 else -1) s' ∧
      ((copyinstr 0x1000 0x7000 0 8 st4).val = some 0 ↔
        ∃ i, i < 8 ∧ read8 st4.mem (userByte 0x1000 (0 + i) st4) = 0) ∧
      s'.free = st4.free ∧
      (∀ i, i < min (2 + 1) 8 →
        s'.mem (0x7000 + i) = read8 st4.mem (userByte 0x1000 (0 + i) st4)) ∧
      (2 < 8 → s'.mem (0x7000 + 2) = 0) ∧
      (∀ i, i < 2 → s'.mem (0x7000 + i) ≠ 0) ∧
      (∀ x, (x < 0x7000 ∨ 0x7000 + min (2 + 1) 8 ≤ x) → s'.mem x = st4.mem x)) ∧
    (∃ s', copyinstr 0x1000 0x7000 0 2 st4 = Res.ok (if 2 < 2 then 0 else -1) s' ∧
      ((copyinstr 0x1000 0x7000 0 2 st4).val = some 0 ↔
        ∃ i, i < 2 ∧ read8 st4.mem (userByte 0x1000 (0 + i) st4) = 0) ∧
      s'.free = st4.free ∧
      (∀ i, i < min (2 + 1) 2 →
        s'.mem (0x7000 + i) = read8 st4.mem (userByte 0x1000 (0 + i) st4)) ∧
      (2 < 2 → s'.mem (0x7000 + 2) = 0) ∧
      (∀ i, i < 2 → s'.mem (0x7000 + i) ≠ 0) ∧
      (∀ x, (x < 0x7000 ∨ 0x7000 + min (2 + 1) 2 ≤ x) → s'.mem x = st4.mem x)) := by
  have hP : PGSIZE = 4096 := rfl
  constructor
  · refine copyinstr_stops 0x1000 0x7000 0 8 2 st4 (by decide) (by decide) (by decide)
      (by decide) (by decide) ?_ (by decide)
    intro i hi t ht
    rcases tables_st4 t ht with rfl | rfl | rfl <;> omega
  · refine copyinstr_stops 0x1000 0x7000 0 2 2 st4 (by decide) (by decide) (by decide)
      (by decide) (by decide) ?_ (by decide)
    intro i hi t ht
    rcases tables_st4 t ht with rfl | rfl | rfl <;> omega

/-- Claim C19, as the code has it: for a layout with the device regions below
2^30, a global kernel table that is a tree and an allocator with enough frames
that are not page-table pages of it, `kvmcreate` returns a root taken from the
allocator. Afterwards the global table is byte for byte as before; the new table
and the global table are each a tree; the new root and every page-table page
reached through its entry 0 are frames taken from the allocator and no
page-table pages of the global table; and through a root entry of index 1 to
511 the new table reaches exactly the page-table pages the global table
reaches by the same path, so every such page of the global table is a
page-table page of both. -/
theorem kvmcreate_private_below_shared_above (L : Layout) (kpt : Nat) (s : State)
    (hL : DevicesLow L) (wfK : WF s.mem kpt) (frK : Fresh s.mem kpt s.free)
    (hfree : kvmcreateFrames L ≤ s.free.length) :
    ∃ root s', kvmcreate L kpt s = Res.ok root s' ∧
      WF s'.mem root ∧ WF s'.mem kpt ∧
      (∀ t, TablePage s.mem kpt t → ∀ x, t ≤ x → x < t + 4096 → s'.mem x = s.mem x) ∧
      (∀ q, ValidPath q → pathTo s'.mem kpt q = pathTo s.mem kpt q) ∧
      (root ∈ s.free ∧ root ∉ s'.free ∧ ¬ TablePage s'.mem kpt root) ∧
      (∀ q t, ValidPath (0 :: q) → pathTo s'.mem root (0 :: q) = some t →
        t ∈ s.free ∧ t ∉ s'.free ∧ ¬ TablePage s'.mem kpt t) ∧
      (∀ i q, 1 ≤ i → ValidPath (i :: q) →
        pathTo s'.mem root (i :: q) = pathTo s'.mem kpt (i :: q)) ∧
      (∀ i q t, 1 ≤ i → ValidPath (i :: q) → pathTo s.mem kpt (i :: q) = some t →
        TablePage s'.mem root t ∧ TablePage s'.mem kpt t) := by
  obtain ⟨root, s', hR, sh, _, _, _⟩ := kvmcreate_spec L kpt s hL wfK frK hfree
  obtain ⟨hg, hp⟩ := high_path s.mem s'.mem kpt root sh.same sh.high
  obtain ⟨used, hsub, hroot⟩ := sh.sub
  have htab : ∀ t, TablePage s'.mem kpt t → TablePage s.mem kpt t := by
    rintro t ⟨q, hq, h⟩
    exact ⟨q, hq, by rw [← hg q hq]; exact h⟩
  have hroot0 : root ∈ s.free := by rw [hsub]; exact List.mem_append_left _ hroot
  refine ⟨root, s', hR, sh.wf, ⟨wfK.aligned, ?_, ?_⟩, sh.same, hg, ⟨hroot0, ?_, ?_⟩, ?_, ?_, ?_⟩
  · intro q q' t hq hq' h1 h2
    rw [hg q hq] at h1
    rw [hg q' hq'] at h2
    exact wfK.inj q q' t hq hq' h1 h2
  · intro t ht
    exact wfK.nonnull t (htab t ht)
  · exact fun h => sh.fr.sep root h (tablePage_root s'.mem root)
  · exact fun h => frK.sep root hroot0 (htab root h)
  · intro q t hq h
    obtain ⟨h1, h2⟩ := sh.low q t hq h
    exact ⟨h1, h2, fun hc => frK.sep t h1 (htab t hc)⟩
  · intro i q hi hq
    rw [hp i q hi hq, hg _ hq]
  · intro i q t hi hq h
    exact ⟨⟨i :: q, hq, by rw [hp i q hi hq]; exact h⟩, ⟨i :: q, hq, by rw [hg _ hq]; exact h⟩⟩

theorem kvmcreate_private_below_shared_above_witness :
    ∃ root s', kvmcreate qemu 0x80100000 kst1 = Res.ok root s' ∧
      WF s'.mem root ∧ WF s'.mem 0x80100000 ∧
      (∀ q, ValidPath q → pathTo s'.mem 0x80100000 q = pathTo kst1.mem 0x80100000 q) ∧
      (root ∈ kst1.free ∧ root ∉ s'.free ∧ ¬ TablePage s'.mem 0x80100000 root) ∧
      (∀ q t, ValidPath (0 :: q) → pathTo s'.mem root (0 :: q) = some t →
        t ∈ kst1.free ∧ t ∉ s'.free ∧ ¬ TablePage s'.mem 0x80100000 t) ∧
      (∀ i q, 1 ≤ i → ValidPath (i :: q) →
        pathTo s'.mem root (i :: q) = pathTo s'.mem 0x80100000 (i :: q)) := by
  obtain ⟨_, wf, fr, hf, _⟩ := kvminit_kst0
  obtain ⟨root, s', h, h1, h2, _, h4, h5, h6, h7, _⟩ :=
    kvmcreate_private_below_shared_above qemu 0x80100000 kst1 (by decide) wf fr hf
  exact ⟨root, s', h, h1, h2, h4, h5, h6, h7⟩

/-- C19 as stated fails on the code: on the global kernel table that `kvminit`
builds for the qemu layout, a tree, `kvmcreate` returns a root other than the
global root from which the level-1 table of the kernel text (root entry 2) and
the level-0 table below it are reached, the very page-table pages that are
reached from the global root. -/
theorem kvmcreate_shares_tables_counterexample :
    ∃ root s' t1 t0, kvmcreate qemu 0x80100000 kst1 = Res.ok root s' ∧
      WF kst1.mem 0x80100000 ∧ root ≠ 0x80100000 ∧
      pathTo s'.mem root [2] = some t1 ∧ pathTo s'.mem 0x80100000 [2] = some t1 ∧
      pathTo s'.mem root [2, 0] = some t0 ∧ pathTo s'.mem 0x80100000 [2, 0] = some t0 := by
  obtain ⟨_, wf, fr, hf, ht, _⟩ := kvminit_kst0
  obtain ⟨root, s', hR, sh, _, _, _⟩ := kvmcreate_spec qemu 0x80100000 kst1 (by decide) wf fr hf
  obtain ⟨hg, hp⟩ := high_path kst1.mem s'.mem 0x80100000 root sh.same sh.high
  obtain ⟨used, hsub, hroot⟩ := sh.sub
  have hpte := ht qemu.KERNBASE (by decide) (by decide) (by decide)
  have e2 : PX 2 qemu.KERNBASE = 2 := by decide
  have e1 : PX 1 qemu.KERNBASE = 0 := by decide
  have hv : pteOf kst1.mem 0x80100000 qemu.KERNBASE ≠ 0 := by
    rw [hpte]
    intro h
    have := leafPte_valid qemu.KERNBASE ((PTE_R ||| PTE_X : Nat) : Int)
    rw [h] at this
    exact this zero_invalid
  obtain ⟨t1, t0, h1, h0⟩ := path_of_pte kst1.mem 0x80100000 qemu.KERNBASE hv
  rw [e2] at h1
  rw [e2, e1] at h0
  have v1 : ValidPath [2] := validPath_one 2 (by decide)
  have v2 : ValidPath [2, 0] := validPath_two 2 0 (by decide) (by decide)
  refine ⟨root, s', t1, t0, hR, wf, ?_, ?_, ?_, ?_, ?_⟩
  · intro h
    have hmem : root ∈ kst1.free := by rw [hsub]; exact List.mem_append_left _ hroot
    exact fr.sep root hmem (h ▸ tablePage_root kst1.mem 0x80100000)
  · rw [hp 2 [] (by decide) v1]
    exact h1
  · rw [hg _ v1]
    exact h1
  · rw [hp 2 [0] (by decide) v2]
    exact h0
  · rw [hg _ v2]
    exact h0

/-- Claim C20, as the code has it: for a layout with the devices below 2^30 and
the kernel text, data and trampoline at or above 2^30, and an allocator with
enough distinct frames, `kvminit` builds the global kernel table and `kvmcreate`,
run on it, returns another root. A non-creating walk of the new table finds, for
every page of the four device regions, a valid read-write leaf that translates
the page to itself; and for every address at or above 2^30 it reaches the slot
the global table has for it, so that it finds for every page of the kernel
text, of the kernel data and RAM and for the trampoline page the same valid leaf
as the global table. -/
theorem kvmcreate_inherits_kernel_range (L : Layout) (s0 : State)
    (hD : DevicesLow L) (hK : KernelHigh L) (hnd : s0.free.Nodup)
    (hfr : ∀ f, f ∈ s0.free → f % 4096 = 0 ∧ f ≠ 0 ∧ f < 2 ^ 64)
    (hfree : kvminitFrames L + kvmcreateFrames L ≤ s0.free.length) :
    ∃ kpt s root s', kvminit L s0 = Res.ok kpt s ∧ kvmcreate L kpt s = Res.ok root s' ∧
      root ≠ kpt ∧
      (∀ b, b % 4096 = 0 → DeviceAddr L b →
        WalkFinds root b (leafPte b ((PTE_R ||| PTE_W : Nat) : Int)) s' ∧
        leafPte b ((PTE_R ||| PTE_W : Nat) : Int) &&& PTE_V ≠ 0 ∧
        PTE2PA (leafPte b ((PTE_R ||| PTE_W : Nat) : Int)) = b) ∧
      (∀ va, 2 ^ 30 ≤ va → va < MAXVA →
        slotOf s'.mem root va = slotOf s.mem kpt va ∧
        pteOf s'.mem root va = pteOf s.mem kpt va ∧
        walk root va 0 s' = Res.ok (slotOf s.mem kpt va) s') ∧
      (∀ b, b % 4096 = 0 → L.KERNBASE ≤ b → b < L.etext →
        WalkFinds kpt b (leafPte b ((PTE_R ||| PTE_X : Nat) : Int)) s ∧
        WalkFinds root b (leafPte b ((PTE_R ||| PTE_X : Nat) : Int)) s' ∧
        leafPte b ((PTE_R ||| PTE_X : Nat) : Int) &&& PTE_V ≠ 0) ∧
      (∀ b, b % 4096 = 0 → L.etext ≤ b → b < L.PHYSTOP →
        WalkFinds kpt b (leafPte b ((PTE_R ||| PTE_W : Nat) : Int)) s ∧
        WalkFinds root b (leafPte b ((PTE_R ||| PTE_W : Nat) : Int)) s' ∧
        leafPte b ((PTE_R ||| PTE_W : Nat) : Int) &&& PTE_V ≠ 0) ∧
      WalkFinds kpt L.TRAMPOLINE (leafPte L.trampoline ((PTE_R ||| PTE_X : Nat) : Int)) s ∧
      WalkFinds root L.TRAMPOLINE (leafPte L.trampoline ((PTE_R ||| PTE_X : Nat) : Int)) s' ∧
      leafPte L.trampoline ((PTE_R ||| PTE_X : Nat) : Int) &&& PTE_V ≠ 0 := by
  have hM := MAXVA_eq
  have hP : PGSIZE = 4096 := rfl
  obtain ⟨kpt, rest, s, _, hR, wf, fr, hl, _, _, ht, hd, htr⟩ :=
    kvminit_spec L s0 hD hK hnd hfr (by omega)
  obtain ⟨root, s', hR', sh, _, hdev, _⟩ := kvmcreate_spec L kpt s hD wf fr (by omega)
  obtain ⟨k1, k2, k3, k4, k5, k6, k7, k8, k9, k10⟩ := hK
  rw [hM, hP] at k10
  obtain ⟨used, hsub, hroot⟩ := sh.sub
  have hhigh : ∀ va, 2 ^ 30 ≤ va → va < MAXVA →
      pteOf s'.mem root va = pteOf s.mem kpt va ∧ slotOf s'.mem root va = slotOf s.mem kpt va :=
    fun va h1 h2 => high_pte s.mem s'.mem kpt root sh.same sh.high va
      (PX2_high va h1 (by omega))
  have hfind : ∀ va e, 2 ^ 30 ≤ va → va < MAXVA → pteOf s.mem kpt va = e → e ≠ 0 →
      WalkFinds kpt va e s ∧ WalkFinds root va e s' := by
    intro va e h1 h2 he hne
    exact ⟨walkFinds_of_pte kpt va e s wf h2 he hne,
      walkFinds_of_pte root va e s' sh.wf h2 (by rw [(hhigh va h1 h2).1]; exact he) hne⟩
  refine ⟨kpt, s, root, s', hR, hR', ?_, ?_, ?_, ?_, ?_, ?_⟩
  · intro h
    have hmem : root ∈ s.free := by rw [hsub]; exact List.mem_append_left _ hroot
    exact fr.sep root hmem (h ▸ tablePage_root s.mem kpt)
  · intro b hb hdv
    have hb2 : b < 2 ^ 30 := by
      obtain ⟨_, _, _, _, o1, o2, o3, o4⟩ := hD
      unfold DeviceAddr at hdv
      omega
    exact ⟨walkFinds_of_pte root b _ s' sh.wf (by omega) (hdev b hb hdv) (leafPte_ne_zero _ _),
      leafPte_valid _ _, PTE2PA_leafPte b _ hb (by omega) (by decide)⟩
  · intro va h1 h2
    obtain ⟨e1, e2⟩ := hhigh va h1 h2
    refine ⟨e2, e1, ?_⟩
    rw [walk_noalloc root va s' h2, e2]
  · intro b hb h1 h2
    obtain ⟨f1, f2⟩ := hfind b _ (by omega) (by omega) (ht b hb h1 h2) (leafPte_ne_zero _ _)
    exact ⟨f1, f2, leafPte_valid _ _⟩
  · intro b hb h1 h2
    obtain ⟨f1, f2⟩ := hfind b _ (by omega) (by omega) (hd b hb h1 h2) (leafPte_ne_zero _ _)
    exact ⟨f1, f2, leafPte_valid _ _⟩
  · obtain ⟨f1, f2⟩ := hfind L.TRAMPOLINE _ (by omega) (by omega) htr (leafPte_ne_zero _ _)
    exact ⟨f1, f2, leafPte_valid _ _⟩

theorem kvmcreate_inherits_kernel_range_witness :
    ∃ kpt s root s', kvminit qemu kst0 = Res.ok kpt s ∧ kvmcreate qemu kpt s = Res.ok root s' ∧
      root ≠ kpt ∧
      (∀ b, b % 4096 = 0 → DeviceAddr qemu b →
        WalkFinds root b (leafPte b ((PTE_R ||| PTE_W : Nat) : Int)) s') ∧
      (∀ b, b % 4096 = 0 → qemu.KERNBASE ≤ b → b < qemu.etext →
        WalkFinds kpt b (leafPte b ((PTE_R ||| PTE_X : Nat) : Int)) s ∧
        WalkFinds root b (leafPte b ((PTE_R ||| PTE_X : Nat) : Int)) s') ∧
      WalkFinds root qemu.TRAMPOLINE
        (leafPte qemu.trampoline ((PTE_R ||| PTE_X : Nat) : Int)) s' := by
  have hlen : kst0.free.length = 160 := frames_length 160 _
  have h1 : kvminitFrames qemu = 143 := by decide
  have h2 : kvmcreateFrames qemu = 11 := by decide
  obtain ⟨kpt, s, root, s', a1, a2, a3, a4, _, a6, _, _, a9, _⟩ :=
    kvmcreate_inherits_kernel_range qemu kst0 (by decide) (by decide) (nodup_frames 160 _)
      (by
        intro f hf
        obtain ⟨i, hi, e⟩ := mem_frames _ _ _ hf
        omega)
      (by rw [h1, h2, hlen]; decide)
  exact ⟨kpt, s, root, s', a1, a2, a3, fun b hb hd => (a4 b hb hd).1,
    fun b hb c1 c2 => ⟨(a6 b hb c1 c2).1, (a6 b hb c1 c2).2.1⟩, a9⟩

/-- C20 as stated fails on the code: `kst1` is the machine after `kvminit` for
the qemu layout, with the global kernel table rooted at `0x80100000` mapping the
first page of the kernel text and the trampoline page; in the table that
`kvmcreate` then returns, the non-creating walk finds a valid leaf for both. -/
theorem kvmcreate_maps_kernel_text_counterexample :
    ∃ root s', kvminit qemu kst0 = Res.ok 0x80100000 kst1 ∧
      kvmcreate qemu 0x80100000 kst1 = Res.ok root s' ∧
      pteOf kst1.mem 0x80100000 qemu.KERNBASE &&& PTE_V ≠ 0 ∧
      WalkFinds root qemu.KERNBASE (leafPte qemu.KERNBASE ((PTE_R ||| PTE_X : Nat) : Int)) s' ∧
      leafPte qemu.KERNBASE ((PTE_R ||| PTE_X : Nat) : Int) &&& PTE_V ≠ 0 ∧
      pteOf kst1.mem 0x80100000 qemu.TRAMPOLINE &&& PTE_V ≠ 0 ∧
      WalkFinds root qemu.TRAMPOLINE
        (leafPte qemu.trampoline ((PTE_R ||| PTE_X : Nat) : Int)) s' ∧
      leafPte qemu.trampoline ((PTE_R ||| PTE_X : Nat) : Int) &&& PTE_V ≠ 0 := by
  obtain ⟨hK, wf, fr, hf, ht, _, htr⟩ := kvminit_kst0
  obtain ⟨root, s', hR, sh, _, _, _⟩ := kvmcreate_spec qemu 0x80100000 kst1 (by decide) wf fr hf
  have hpte := ht qemu.KERNBASE (by decide) (by decide) (by decide)
  have hM := MAXVA_eq
  have hhigh : ∀ va, 2 ^ 30 ≤ va → va < MAXVA →
      pteOf s'.mem root va = pteOf kst1.mem 0x80100000 va := fun va h1 h2 =>
    (high_pte kst1.mem s'.mem 0x80100000 root sh.same sh.high va (PX2_high va h1 (by omega))).1
  have c1 : (2 : Nat) ^ 30 ≤ qemu.KERNBASE ∧ qemu.KERNBASE < MAXVA := by decide
  have c2 : (2 : Nat) ^ 30 ≤ qemu.TRAMPOLINE ∧ qemu.TRAMPOLINE < MAXVA := by decide
  refine ⟨root, s', hK, hR, ?_, ?_, leafPte_valid _ _, ?_, ?_, leafPte_valid _ _⟩
  · rw [hpte]
    exact leafPte_valid _ _
  · exact walkFinds_of_pte root _ _ s' sh.wf c1.2 (by rw [hhigh _ c1.1 c1.2]; exact hpte)
      (leafPte_ne_zero _ _)
  · rw [htr]
    exact leafPte_valid _ _
  · exact walkFinds_of_pte root _ _ s' sh.wf c2.2 (by rw [hhigh _ c2.1 c2.2]; exact htr)
      (leafPte_ne_zero _ _)

/-- Claim C21: the format of a page-table entry. `PTE_V` is bit 0, `PTE_R`,
`PTE_W`, `PTE_X` are bits 1 to 3 and `PTE_U` is bit 4. For a physical address
`pa < 2^56` and flag bits `fl` within the low 10 bits: if `pa` is page-aligned,
`PTE2PA(PA2PTE(pa) | fl) = pa` and `PTE_FLAGS(PA2PTE(pa) | fl) = fl`; and,
aligned or not, `PTE2PA(PA2PTE(pa)) = PGROUNDDOWN(pa)`. -/
theorem pte_format_round_trip (pa fl : Nat) (hpa : pa < 2 ^ 56) (hfl : fl < 2 ^ 10) :
    (PTE_V = 2 ^ 0 ∧ PTE_R = 2 ^ 1 ∧ PTE_W = 2 ^ 2 ∧ PTE_X = 2 ^ 3 ∧ PTE_U = 2 ^ 4) ∧
      (pa % PGSIZE = 0 →
        PTE2PA (PA2PTE pa ||| fl) = pa ∧ PTE_FLAGS (PA2PTE pa ||| fl) = fl ∧
        PA2PTE pa ||| fl < 2 ^ 64) ∧
      PTE2PA (PA2PTE pa) = PGROUNDDOWN pa := by
  have hP : PGSIZE = 4096 := rfl
  have hfl' : fl < 1024 := by omega
  refine ⟨by decide, ?_, ?_⟩
  · intro hal
    rw [hP] at hal
    refine ⟨PTE2PA_or pa fl hal (by omega) hfl', ?_, ?_⟩
    · rw [or_flags pa fl hfl', PTE_FLAGS_eq, PA2PTE_eq]
      omega
    · rw [or_flags pa fl hfl', PA2PTE_eq]
      omega
  · rw [PTE2PA_eq, PA2PTE_eq, PGROUNDDOWN_eq pa (by omega)]
    omega

theorem pte_format_round_trip_witness :
    (PTE_V = 2 ^ 0 ∧ PTE_R = 2 ^ 1 ∧ PTE_W = 2 ^ 2 ∧ PTE_X = 2 ^ 3 ∧ PTE_U = 2 ^ 4) ∧
      (0x87654000 % PGSIZE = 0 →
        PTE2PA (PA2PTE 0x87654000 ||| 0x1F) = 0x87654000 ∧
        PTE_FLAGS (PA2PTE 0x87654000 ||| 0x1F) = 0x1F ∧
        PA2PTE 0x87654000 ||| 0x1F < 2 ^ 64) ∧
      PTE2PA (PA2PTE 0x87654000) = PGROUNDDOWN 0x87654000 ∧
      PTE2PA (PA2PTE 0x87654321) = PGROUNDDOWN 0x87654321 ∧
      PGROUNDDOWN 0x87654321 = 0x87654000 :=
  ⟨(pte_format_round_trip 0x87654000 0x1F (by decide) (by decide)).1,
    (pte_format_round_trip 0x87654000 0x1F (by decide) (by decide)).2.1,
    (pte_format_round_trip 0x87654000 0x1F (by decide) (by decide)).2.2,
    (pte_format_round_trip 0x87654321 0 (by decide) (by decide)).2.2, by decide⟩

/-- Claim C22, as the code has it: `uvminit` is fatal, with "inituvm: more than
a page", exactly when `sz ≥ PGSIZE`. For an image of `sz < PGSIZE` bytes at
`src`, on a well-formed table in which page 0 is not mapped, with an allocator
holding three frames (the data frame and at most two page-table pages), the
image lying outside these frames and outside the page-table pages, `uvminit`
returns: page 0 is mapped, with the flag bits `PTE_V|PTE_R|PTE_W|PTE_X|PTE_U`,
to the first frame of the allocator, `walkaddr` translates address 0 to that
frame, its first `sz` bytes are the bytes of the image and its other bytes are
zero, and every other level-0 entry is as before. -/
theorem uvminit_loads_image (root src sz : Nat) (s : State) :
    (PGSIZE ≤ sz → uvminit root src sz s = Res.panic "inituvm: more than a page" s) ∧
      (sz < PGSIZE → WF s.mem root → Fresh s.mem root s.free →
        pteOf s.mem root 0 &&& PTE_V = 0 → 3 ≤ s.free.length →
        (∀ i, i < sz → ∀ f, f ∈ s.free → src + i < f ∨ f + 4096 ≤ src + i) →
        (∀ i, i < sz → ∀ t, TablePage s.mem root t → src + i < t ∨ t + 4096 ≤ src + i) →
        ∃ s' d rest, s.free = d :: rest ∧ uvminit root src sz s = Res.ok () s' ∧
          WF s'.mem root ∧ d ∉ s'.free ∧ ¬ TablePage s'.mem root d ∧
          PTE_FLAGS (pteOf s'.mem root 0) = PTE_V ||| PTE_R ||| PTE_W ||| PTE_X ||| PTE_U ∧
          PTE2PA (pteOf s'.mem root 0) = d ∧
          walkaddr root 0 s' = Res.ok d s' ∧
          (∀ i, i < sz → s'.mem (d + i) = read8 s.mem (src + i)) ∧
          (∀ i, sz ≤ i → i < 4096 → s'.mem (d + i) = 0) ∧
          (∀ b, b % 4096 = 0 → b < 2 ^ 39 → b ≠ 0 → pteOf s'.mem root b = pteOf s.mem root b)) := by
  have hP : PGSIZE = 4096 := rfl
  refine ⟨?_, ?_⟩
  · intro h
    unfold uvminit
    rw [if_pos h]
  · intro hsz wf fr h0 hfree hsrcF hsrcT
    rw [hP] at hsz
    obtain ⟨s', d, rest, hfl, hR, wf', hd1, hd2, hpte, himg, hzero⟩ :=
      uvminit_spec root src sz s wf fr h0 hfree hsz hsrcF hsrcT
    obtain ⟨hal, _, hlt⟩ := fr.frame d (by rw [hfl]; exact List.mem_cons_self _ _)
    obtain ⟨f1, f2, _⟩ := uperm_facts d hal hlt
    have hp0 := hpte 0 (by decide) (by decide)
    rw [if_pos rfl] at hp0
    refine ⟨s', d, rest, hfl, hR, wf', hd1, hd2, by rw [hp0]; exact f2, by rw [hp0]; exact f1,
      ?_, himg, hzero, ?_⟩
    · rw [walkaddr_of_pteOf root 0 s' wf' (by decide), hp0, f1, if_pos]
      refine ⟨leafPte_valid _ _, ?_⟩
      exact leafPte_user d _ (by decide) (by decide)
    · intro b hb hb2 hne
      rw [hpte b hb hb2, if_neg hne]

theorem uvminit_loads_image_witness :
    ∃ s', uvminit 0x1000 0x7000 4 st7 = Res.ok () s' ∧
      PTE_FLAGS (pteOf s'.mem 0x1000 0) = PTE_V ||| PTE_R ||| PTE_W ||| PTE_X ||| PTE_U ∧
      walkaddr 0x1000 0 s' = Res.ok 0x2000 s' ∧
      s'.mem 0x2000 = 0x13 ∧ s'.mem 0x2001 = 0x05 ∧ s'.mem 0x2002 = 0 ∧ s'.mem 0x2003 = 0x73 ∧
      (∀ i, 4 ≤ i → i < 4096 → s'.mem (0x2000 + i) = 0) := by
  obtain ⟨wf, htab, hz⟩ := zero_root_inv st7.mem 0x1000 (by decide) (by decide) (by
    intro x h1 h2
    show (if 0x7000 ≤ x ∧ x < 0x7004 then _ else 0) = 0
    rw [if_neg (by omega)])
  have hfree : st7.free = [0x2000, 0x3000, 0x4000] := rfl
  obtain ⟨s', d, rest, hfl, hR, _, _, _, hfl2, _, hw, himg, hzero, _⟩ :=
    (uvminit_loads_image 0x1000 0x7000 4 st7).2 (by decide) wf
      ⟨by decide, by decide, fun f hf ht => by
        rw [htab f ht] at hf
        exact absurd hf (by decide)⟩
      (by rw [hz 0]; decide) (by decide)
      (by
        intro i hi f hf
        rw [hfree] at hf
        simp only [List.mem_cons, List.mem_singleton, List.not_mem_nil, or_false] at hf
        omega)
      (by
        intro i hi t ht
        rw [htab t ht]
        omega)
  have hd : d = 0x2000 := by
    rw [hfree] at hfl
    exact (List.cons.inj hfl).1.symm
  subst hd
  have h0 := himg 0 (by decide)
  have h1 := himg 1 (by decide)
  have h2 := himg 2 (by decide)
  have h3 := himg 3 (by decide)
  exact ⟨s', hR, hfl2, hw, h0, h1, h2, h3, hzero⟩

/-- C22 as stated fails on the code: an image of exactly 4096 bytes fits in one
page, yet `uvminit` is fatal on it. -/
theorem uvminit_full_page_counterexample :
    uvminit 0x1000 0x7000 4096 st7 = Res.panic "inituvm: more than a page" st7 ∧
      (4096 : Nat) ≤ PGSIZE :=
  ⟨by unfold uvminit; rw [if_pos (by decide)], by decide⟩

/-- Claim C23: `freewalk` never frees a table that still holds a valid entry,
and on a three-level tree it panics at a leaf and finishes. First, for every
table, every memory and every bound `depth` on the nesting of the calls: the
call ends normally, or with the panic "freewalk: leaf", or by using up the
nesting ("fuel"); it writes nothing but zeros; and every frame it has released
has 512 invalid entries afterwards. Second, on a well-formed tree of three
levels (the valid level-0 entries have one of `PTE_R`, `PTE_W`, `PTE_X`) three
nested calls are enough: the call ends normally exactly when no table reached
through internal entries holds a leaf, and then the frames it has released are
the tables of the tree, the root last; otherwise it panics with
"freewalk: leaf". Either way every released frame is a table of the tree of
which every entry valid at the start was internal and named a table released
before it. -/
theorem freewalk_stops_at_leaf (depth root : Nat) (s : State) :
    (∃ s' l, (freewalk depth root s = Res.ok () s' ∨
          freewalk depth root s = Res.panic "freewalk: leaf" s' ∨
          freewalk depth root s = Res.panic "fuel" s') ∧
        s'.free = l ++ s.free ∧ (∀ x, s'.mem x = s.mem x ∨ s'.mem x = 0) ∧
        ∀ f, f ∈ l → ∀ j, j < 512 → ent s'.mem f j &&& PTE_V = 0) ∧
      (WF s.mem root → Bottom s.mem 2 root → 3 ≤ depth →
        ∃ s' l, (freewalk depth root s = Res.ok () s' ∧ ¬ HasLeaf s.mem root ∧
              l = (tableFrames s.mem 2 root).reverse ∨
            freewalk depth root s = Res.panic "freewalk: leaf" s' ∧ HasLeaf s.mem root) ∧
          s'.free = l ++ s.free ∧
          ∀ f, f ∈ l → TablePage s.mem root f ∧ Cleared s.mem s'.mem l f) := by
  refine ⟨freewalk_any depth root s, ?_⟩
  intro wf hb hd
  obtain ⟨d, rfl⟩ : ∃ d, depth = d + 3 := ⟨depth - 3, by omega⟩
  obtain ⟨s', l, hout, W⟩ := freewalk_tree d root s wf hb
  refine ⟨s', l, hout, W.free, ?_⟩
  intro f hf
  obtain ⟨⟨q, h1, h2⟩, h3⟩ := W.freed f hf
  rw [List.nil_append] at h1 h2
  exact ⟨⟨q, h1, h2⟩, h3⟩

/-- C23 at two concrete trees: the two-page address space `st5`, whose level-0
table holds leaves, makes `freewalk` panic; the tree `st8` of three tables
without a leaf is released whole. -/
theorem freewalk_stops_at_leaf_witness :
    (∃ s', freewalk 3 0x1000 st5 = Res.panic "freewalk: leaf" s') ∧
      ∃ s', freewalk 3 0x1000 st8 = Res.ok () s' ∧
        s'.free = (tableFrames st8.mem 2 0x1000).reverse ++ st8.free := by
  obtain ⟨wf5, hb5, hl5⟩ := st5_tree
  obtain ⟨wf8, hb8, hl8⟩ := st8_inv
  refine ⟨?_, ?_⟩
  · obtain ⟨s', l, hout, _⟩ := (freewalk_stops_at_leaf 3 0x1000 st5).2 wf5 hb5 (le_refl _)
    rcases hout with ⟨_, hn, _⟩ | ⟨h, _⟩
    · exact absurd hl5 hn
    · exact ⟨s', h⟩
  · obtain ⟨s', l, hout, hfree, _⟩ := (freewalk_stops_at_leaf 3 0x1000 st8).2 wf8 hb8 (le_refl _)
    rcases hout with ⟨h, _, hl⟩ | ⟨_, hh⟩
    · rw [hl] at hfree
      exact ⟨s', h, hfree⟩
    · exact absurd hh hl8

/-- Claim C24 fails on the code: `kst1` holds the global kernel table that
`kvminit` builds for the qemu layout, rooted at `0x80100000`. On the table that
`kvmcreate` returns for it, `freewalkWithoutPhysicalMemory` hands to `kfree` the
level-1 table `t1` of root entry 2 and the level-0 table `t0` below it. Neither
was allocated for the new table (neither was a frame of the allocator when
`kvmcreate` was called, nor when it returned), and both are still page-table
pages of the global table, through which the first page of the kernel text is
still mapped. -/
theorem freewalkWithoutPhysicalMemory_frees_global_tables :
    ∃ root s' t1 t0, kvmcreate qemu 0x80100000 kst1 = Res.ok root s' ∧
      t1 ∉ kst1.free ∧ t0 ∉ kst1.free ∧ t1 ∉ s'.free ∧ t0 ∉ s'.free ∧
      t1 ∈ (freewalkWithoutPhysicalMemory root s').free ∧
      t0 ∈ (freewalkWithoutPhysicalMemory root s').free ∧
      pathTo (freewalkWithoutPhysicalMemory root s').mem 0x80100000 [2] = some t1 ∧
      pathTo (freewalkWithoutPhysicalMemory root s').mem 0x80100000 [2, 0] = some t0 ∧
      pteOf (freewalkWithoutPhysicalMemory root s').mem 0x80100000 qemu.KERNBASE =
        leafPte qemu.KERNBASE ((PTE_R ||| PTE_X : Nat) : Int) := by
  obtain ⟨_, wf, fr, hf, ht, _⟩ := kvminit_kst0
  obtain ⟨root, s', hR, sh, _, _, _⟩ := kvmcreate_spec qemu 0x80100000 kst1 (by decide) wf fr hf
  obtain ⟨hg, hp⟩ := high_path kst1.mem s'.mem 0x80100000 root sh.same sh.high
  obtain ⟨used, hsub, _⟩ := sh.sub
  have hpte := ht qemu.KERNBASE (by decide) (by decide) (by decide)
  have e2 : PX 2 qemu.KERNBASE = 2 := by decide
  have e1 : PX 1 qemu.KERNBASE = 0 := by decide
  have hv : pteOf kst1.mem 0x80100000 qemu.KERNBASE ≠ 0 := by
    rw [hpte]
    exact leafPte_ne_zero _ _
  obtain ⟨t1, t0, h1, h0⟩ := path_of_pte kst1.mem 0x80100000 qemu.KERNBASE hv
  rw [e2] at h1
  rw [e2, e1] at h0
  have v1 : ValidPath [2] := validPath_one 2 (by decide)
  have v2 : ValidPath [2, 0] := validPath_two 2 0 (by decide) (by decide)
  obtain ⟨hm, _, hfreed⟩ := freewalkWithoutPhysicalMemory_spec root s'
  have hn1 : t1 ∉ kst1.free := fun h => fr.sep t1 h ⟨_, v1, h1⟩
  have hn0 : t0 ∉ kst1.free := fun h => fr.sep t0 h ⟨_, v2, h0⟩
  have hsfree : ∀ f, f ∈ s'.free → f ∈ kst1.free := fun f hf' => by
    rw [hsub]
    exact List.mem_append_right _ hf'
  have hsame : pteOf s'.mem 0x80100000 qemu.KERNBASE = pteOf kst1.mem 0x80100000 qemu.KERNBASE :=
    pteOf_congr_tables kst1.mem s'.mem 0x80100000
      (fun t ht' j hj => ent_congr_page kst1.mem s'.mem t j hj (sh.same t ht')) _
  refine ⟨root, s', t1, t0, hR, hn1, hn0, fun h => hn1 (hsfree _ h), fun h => hn0 (hsfree _ h),
    ?_, ?_, ?_, ?_, ?_⟩
  · exact hfreed [2] t1 v1.1 v1.2 (by rw [hp 2 [] (by decide) v1]; exact h1)
  · exact hfreed [2, 0] t0 v2.1 v2.2 (by rw [hp 2 [0] (by decide) v2]; exact h0)
  · rw [hm, hg _ v1]
    exact h1
  · rw [hm, hg _ v2]
    exact h0
  · rw [hm, hsame]
    exact hpte

/-- Claim C25 fails on the code for a mask without a set bit below bit 31: for
every mask that is 0 or negative (bit 31 set) the loop of `sys_trace` is still
running after any number `fuel` of iterations, so `sys_trace` neither returns
nor sets `trace_syscall_max`. For a mask from 1 to `2^31 - 1` the loop ends
within 31 iterations, and `sys_trace` returns 0 with `trace_syscall_max` set to
`1 + floor(log2(mask))`. -/
theorem sys_trace_hangs_on_zero_mask (fuel : Nat) (mask : Int) :
    (mask ≤ 0 → sys_trace fuel 0 mask = none) ∧
      (1 ≤ mask → mask < 2 ^ 31 → 31 ≤ fuel →
        sys_trace fuel 0 mask = some (0, some (1 + (Nat.log2 mask.toNat : Int)))) := by
  refine ⟨sys_trace_nonpos fuel mask, ?_⟩
  intro h1 h2 hf
  have e : ((mask.toNat : Nat) : Int) = mask := Int.toNat_of_nonneg (by omega)
  have h := sys_trace_pos fuel mask.toNat (by omega) (by omega) hf
  rw [e] at h
  exact h

/-- C25 at concrete masks: 0 and `-2^31` never leave the loop, 4 yields 3. -/
theorem sys_trace_hangs_on_zero_mask_witness :
    (∀ fuel, sys_trace fuel 0 0 = none) ∧ (∀ fuel, sys_trace fuel 0 (-2147483648) = none) ∧
      sys_trace 31 0 4 = some (0, some 3) := by
  refine ⟨fun fuel => (sys_trace_hangs_on_zero_mask fuel 0).1 (by decide),
    fun fuel => (sys_trace_hangs_on_zero_mask fuel (-2147483648)).1 (by decide), ?_⟩
  have h := (sys_trace_hangs_on_zero_mask 31 4).2 (by decide) (by decide) (le_refl _)
  have e : Nat.log2 (4 : Int).toNat = 2 := by
    show Nat.log2 4 = 2
    rw [log2_step 4 (by decide), log2_step 2 (by decide), log2_one]
  rw [e] at h
  exact h

end Vm
